import Mathlib

/-! # coolr: a COOL compiler

A shallow embedding of the lexer (`src/compiler/lexer/lexer.cpp`), the parser
(`src/compiler/parser/parser.cpp`), the class table
(`src/common/classtable.cpp`), the semantic analyser
(`src/compiler/semant/semant.cpp`), the parts of the code generator
(`src/compiler/codegen/codegen.cpp`, `scope.cpp`, `offsets.cpp`) that lay out
the class prototypes and the dispatch tables, keep the scopes and compile a
division and a dispatch, and the escaping of strings
(`src/utils/pretty_print.cpp`), with the properties proved about them.

Conventions of the embedding

* A C++ function that can call `parser_error` or `semant_error` (both print a
  diagnostic and `exit(1)`) returns `Except Failure _`; the failure records
  which of the two was called and with what argument.  Line numbers of AST
  nodes are not modelled, so the `Line N:` part of a diagnostic is left out;
  tokens keep their line number.
* Dereferencing a null pointer (a failed `dynamic_cast`, `std::map::operator[]`
  on a missing key) is `Failure.null_dereference`; reading `v[0]` or `v.back()`
  of an empty vector, and a `std::out_of_range` that nothing catches, is
  `Failure.out_of_bounds`; a loop that never ends is `Failure.nontermination`.
* The program text of the lexer is a `List Char`, one `Char` for one `char`;
  the loop of `Scanner::scan` takes a `fuel : Nat` and is given enough of it.
* The recursive-descent functions take a `fuel : Nat` that decreases at every
  call; running out of it is `Failure.out_of_fuel`, different from every
  result the C++ code can produce.
-/

namespace Coolr

/-! ## Tokens (`src/common/token.h`) -/

/-- The enumeration `TokenType` of `token.h`, in the order of the source. -/
inductive TokenType where
  | CLASS | IF | ELSE | FI | IN | INHERITS | LET | LOOP | POOL | THEN | WHILE
  | CASE | ESAC | OF | NEW | ISVOID | NOT | BOOL | INTEGER | STRING
  | OBJ_IDENTIFIER | TYPE_IDENTIFIER | PLUS | MINUS | MULTIPLICATION | DIVISION
  | LT | EQ | LTE | PARENTHESIS_OPEN | PARENTHESIS_CLOSE | CURLY_BRACKET_OPEN
  | CURLY_BRACKET_CLOSE | COLON | SEMICOLON | DOT | COMMA | AT | SQUIGGLE
  | ARROW | ASSIGN | ERROR
  deriving DecidableEq, Repr

/-- The class `Token` and its subclasses.  `BaseToken` is an object of the
base class itself (keywords, punctuation, operators). -/
inductive Token where
  | BaseToken (type : TokenType) (line_number : Nat)
  | StringToken (value : String) (line_number : Nat)
  | BoolToken (value : Bool) (line_number : Nat)
  | IntToken (value : String) (line_number : Nat)
  | TypeIdToken (value : String) (line_number : Nat)
  | ObjIdToken (value : String) (line_number : Nat)
  | ErrorToken (msg : String) (line_number : Nat)
  deriving DecidableEq, Repr

/-- The field `type` as set by each constructor of `token.h`; the constructor
of `ErrorToken` passes `TokenType::OBJ_IDENTIFIER` to the base class. -/
def Token.get_type : Token → TokenType
  | .BaseToken type _ => type
  | .StringToken _ _ => .STRING
  | .BoolToken _ _ => .BOOL
  | .IntToken _ _ => .INTEGER
  | .TypeIdToken _ _ => .TYPE_IDENTIFIER
  | .ObjIdToken _ _ => .OBJ_IDENTIFIER
  | .ErrorToken _ _ => .OBJ_IDENTIFIER

/-- What the program can do instead of returning normally. -/
inductive Failure where
  | parser_error (token : Option Token)
  | semant_error (msg : String)
  | null_dereference
  | out_of_bounds
  | nontermination
  | out_of_fuel
  deriving DecidableEq, Repr

/-! ## Abstract syntax (`src/common/ast.h`) -/

/-- The enumeration `Associativity`. -/
inductive Associativity where
  | LEFT | RIGHT | NONE
  deriving DecidableEq, Repr

/-- The subclasses of `UnaryOperationNode`. -/
inductive UnaryOp where
  | IsvoidNode | NegNode | ComplementNode
  deriving DecidableEq, Repr

/-- The subclasses of `BinaryOperationNode`. -/
inductive BinaryOp where
  | PlusNode | MinusNode | MultiplicationNode | DivisionNode
  | LTNode | LTENode | EQNode
  deriving DecidableEq, Repr

/-- The precedence each unary node class passes to `OperationNode`. -/
def UnaryOp.get_precedence : UnaryOp → Nat
  | .IsvoidNode => 3
  | .NegNode => 2
  | .ComplementNode => 7

/-- The precedence each binary node class passes to `OperationNode`. -/
def BinaryOp.get_precedence : BinaryOp → Nat
  | .PlusNode => 5
  | .MinusNode => 5
  | .MultiplicationNode => 4
  | .DivisionNode => 4
  | .LTNode => 6
  | .LTENode => 6
  | .EQNode => 6

/-- The associativity each binary node class passes to `BinaryOperationNode`. -/
def BinaryOp.get_associativity : BinaryOp → Associativity
  | .PlusNode => .LEFT
  | .MinusNode => .LEFT
  | .MultiplicationNode => .LEFT
  | .DivisionNode => .LEFT
  | .LTNode => .NONE
  | .LTENode => .NONE
  | .EQNode => .NONE

/-- The expression nodes.  An operation node carries its `parenthesized` flag;
its `parent` pointer is written by `post_expression` only and is modelled
there.  `LetNode` holds its initializers and `CaseNode` its branches as triples
(name, declared type, expression). -/
inductive ExpressionNode where
  | NoExpressionNode (declared_type : String)
  | IntNode (value : String)
  | StringNode (value : String)
  | BoolNode (value : Bool)
  | IdentifierNode (name : String)
  | AssignmentNode (name : String) (expr : ExpressionNode)
  | NewNode (type : String)
  | UnaryOperationNode (op : UnaryOp) (parenthesized : Bool) (expr : ExpressionNode)
  | BinaryOperationNode (op : BinaryOp) (parenthesized : Bool)
      (expr1 expr2 : ExpressionNode)
  | ConditionalNode (predicate_expr then_expr else_expr : ExpressionNode)
  | WhileNode (predicate body : ExpressionNode)
  | BlockNode (expressions : List ExpressionNode)
  | LetNode (initializers : List (String × String × ExpressionNode))
      (body : ExpressionNode)
  | CaseNode (target : ExpressionNode)
      (branches : List (String × String × ExpressionNode))
  | DispatchNode (object : ExpressionNode) (method_name : String)
      (parameters : List ExpressionNode)
  | StaticDispatchNode (object : ExpressionNode) (method_name : String)
      (static_type : String) (parameters : List ExpressionNode)

/-! ## Operation trees as seen by `post_expression`

`post_expression` works on the chain of operation nodes reached from the
current expression by following `get_last()`.  An `OperationFrame` is one node
of that chain without its last operand.  The chain is kept innermost first:
the head is `right_most_operation`, every next element is the `parent` that
the walk has just stored in the one before, and the last element is the
current expression itself, whose `parent` is still the null pointer it was
constructed with (a node becomes the current expression only when it is
created, and is given a parent only when the walk finds it below another
one).  Storing into a node of the chain with `set_last` changes the tree seen
from the current expression; `rebuild` computes that tree. -/

/-- An `OperationNode` without its last operand. -/
inductive OperationFrame where
  | unary (op : UnaryOp) (parenthesized : Bool)
  | binary (op : BinaryOp) (parenthesized : Bool) (expr1 : ExpressionNode)

/-- The method `OperationNode::get_precedence`. -/
def OperationFrame.get_precedence : OperationFrame → Nat
  | .unary op _ => op.get_precedence
  | .binary op _ _ => op.get_precedence

/-- The node obtained by `set_last(e)`. -/
def OperationFrame.set_last : OperationFrame → ExpressionNode → ExpressionNode
  | .unary op p, e => .UnaryOperationNode op p e
  | .binary op p expr1, e => .BinaryOperationNode op p expr1 e

/-- The cast `dynamic_cast<OperationNode*>(expr)`, giving the node split into
its frame and its `get_last()`. -/
def as_operation : ExpressionNode → Option (OperationFrame × ExpressionNode)
  | .UnaryOperationNode op p e => some (.unary op p, e)
  | .BinaryOperationNode op p expr1 expr2 => some (.binary op p expr1, expr2)
  | _ => none

/-- Whether `dynamic_cast<OperationNode*>(expr)` is non-null. -/
def is_operation (expr : ExpressionNode) : Bool :=
  (as_operation expr).isSome

/-- The condition `prev_operator && !prev_operator->is_parenthesized()`. -/
def is_unparenthesized_operation : ExpressionNode → Bool
  | .UnaryOperationNode _ p _ => !p
  | .BinaryOperationNode _ p _ _ => !p
  | _ => false

/-- The method `set_parenthesized`, applied when the cast to `OperationNode`
succeeds (`parse_parentheses`). -/
def set_parenthesized : ExpressionNode → ExpressionNode
  | .UnaryOperationNode op _ e => .UnaryOperationNode op true e
  | .BinaryOperationNode op _ expr1 expr2 => .BinaryOperationNode op true expr1 expr2
  | e => e

/-- The walk of `post_expression` to the right-most operation (the `for (;;)`
after `if (prev_operator)`): descends through `get_last()` as long as it is an
operation node, whatever its `parenthesized` flag.  Returns the chain,
innermost first, and the last operand of the right-most operation; for an
expression that is no operation the chain is empty. -/
def right_most_walk : ExpressionNode → List OperationFrame →
    List OperationFrame × ExpressionNode
  | .UnaryOperationNode op p e, chain => right_most_walk e (.unary op p :: chain)
  | .BinaryOperationNode op p expr1 expr2, chain =>
      right_most_walk expr2 (.binary op p expr1 :: chain)
  | e, chain => (chain, e)

/-- The tree seen from the root of a chain (innermost first) once the innermost
node has been given the last operand `e`. -/
def rebuild : List OperationFrame → ExpressionNode → ExpressionNode
  | [], e => e
  | frame :: parents, e => rebuild parents (frame.set_last e)

/-- The insertion loop of `post_expression` (`for (;;)` under "find the correct
position in the expression tree").  The head of the chain is
`operation_in_tree` and `last` is its `get_last()`.  When the new node has a
smaller precedence number it takes `last` as first operand and is stored as the
new last operand; otherwise the loop moves to the parent, and when there is
none the new node takes the whole expression `expr` as first operand. -/
def climb (node : BinaryOp) (next_expr expr : ExpressionNode) :
    List OperationFrame → ExpressionNode → ExpressionNode
  | [], _ => .BinaryOperationNode node false expr next_expr
  | operation_in_tree :: parents, last =>
      if node.get_precedence < operation_in_tree.get_precedence then
        rebuild parents
          (operation_in_tree.set_last (.BinaryOperationNode node false last next_expr))
      else
        climb node next_expr expr parents (operation_in_tree.set_last last)

/-- The three branches after the non-associativity check of `post_expression`:
insertion into the operator tree when the current expression is an operation
that is not parenthesized, and otherwise (dispatch or any other expression) the
new node with the current expression as first operand. -/
def insert_operator (node : BinaryOp) (next_expr expr : ExpressionNode) : ExpressionNode :=
  if is_unparenthesized_operation expr then
    climb node next_expr expr (right_most_walk expr []).1 (right_most_walk expr []).2
  else
    .BinaryOperationNode node false expr next_expr

/-- The two branches of the `DOT` and `AT` cases: `mk` builds the dispatch node
around its object.  For an operation that is not parenthesized the object is
the last operand of the right-most operation, which the dispatch replaces;
otherwise the object is the whole current expression. -/
def insert_dispatch (mk : ExpressionNode → ExpressionNode) (expr : ExpressionNode) :
    ExpressionNode :=
  if is_unparenthesized_operation expr then
    rebuild (right_most_walk expr []).1 (mk (right_most_walk expr []).2)
  else
    mk expr

/-- The check "associating non-associative operations": the current expression
is a `BinaryOperationNode` of associativity `NONE` and so is the new node. -/
def non_associative_clash (expr : ExpressionNode) (node : BinaryOp) : Bool :=
  match expr with
  | .BinaryOperationNode op _ _ _ =>
      op.get_associativity == .NONE && node.get_associativity == .NONE
  | _ => false

/-- The node class created for a binary operator token in the `switch` of
`post_expression`. -/
def binary_operator : TokenType → Option BinaryOp
  | .PLUS => some .PlusNode
  | .MINUS => some .MinusNode
  | .MULTIPLICATION => some .MultiplicationNode
  | .DIVISION => some .DivisionNode
  | .LT => some .LTNode
  | .LTE => some .LTENode
  | .EQ => some .EQNode
  | _ => none

/-! ## The expression parser (`src/compiler/parser/parser.cpp`)

The token stream is the list of the tokens not yet read: `ts.get()` and
`ts.consume()` drop the head, `ts.peek()` looks at it, and `ts.unget(2)` is only
called right after two successful `get()`s, so a function that gives up returns
the stream it was given.  A `parse_*` function that returns `nullptr` returns
`none`. -/

/-- Result of a function that returns an expression and has advanced the
stream. -/
abbrev Parsed := Except Failure (ExpressionNode × List Token)

/-- Result of a `parse_*` function that may return `nullptr` (`none`, stream
unchanged). -/
abbrev Attempt := Except Failure (Option (ExpressionNode × List Token))

/-- The method `Parser::peek_equals`: at the end of the stream it calls
`parser_error(ts, ts.get())`. -/
def peek_equals (ts : List Token) (type : TokenType) : Except Failure Bool :=
  match ts with
  | [] => .error (.parser_error none)
  | t :: _ => .ok (t.get_type == type)

/-- The pattern `next = ts.get(); if (!next || next->get_type() != type)
parser_error(ts, next);`. -/
def expect (type : TokenType) (ts : List Token) : Except Failure (Token × List Token) :=
  match ts with
  | [] => .error (.parser_error none)
  | next :: rest =>
      if next.get_type == type then .ok (next, rest)
      else .error (.parser_error (some next))

/-- The value read through `dynamic_cast<ObjIdToken*>(t)->get_value()`. -/
def ObjIdToken_value : Token → Except Failure String
  | .ObjIdToken v _ => .ok v
  | _ => .error .null_dereference

/-- The value read through `dynamic_cast<TypeIdToken*>(t)->get_value()`. -/
def TypeIdToken_value : Token → Except Failure String
  | .TypeIdToken v _ => .ok v
  | _ => .error .null_dereference

/-- The function `Parser::parse_int_const`. -/
def parse_int_const (ts : List Token) : Attempt :=
  match ts with
  | [] => .error (.parser_error none)
  | t :: rest =>
      if t.get_type == .INTEGER then
        match t with
        | .IntToken v _ => .ok (some (.IntNode v, rest))
        | _ => .error .null_dereference
      else .ok none

/-- The function `Parser::parse_string_const`. -/
def parse_string_const (ts : List Token) : Attempt :=
  match ts with
  | [] => .error (.parser_error none)
  | t :: rest =>
      if t.get_type == .STRING then
        match t with
        | .StringToken v _ => .ok (some (.StringNode v, rest))
        | _ => .error .null_dereference
      else .ok none

/-- The function `Parser::parse_bool_const`. -/
def parse_bool_const (ts : List Token) : Attempt :=
  match ts with
  | [] => .error (.parser_error none)
  | t :: rest =>
      if t.get_type == .BOOL then
        match t with
        | .BoolToken v _ => .ok (some (.BoolNode v, rest))
        | _ => .error .null_dereference
      else .ok none

/-- The function `Parser::parse_identifier`. -/
def parse_identifier (ts : List Token) : Attempt :=
  match ts with
  | [] => .error (.parser_error none)
  | t :: rest =>
      if t.get_type == .OBJ_IDENTIFIER then
        match t with
        | .ObjIdToken v _ => .ok (some (.IdentifierNode v, rest))
        | _ => .error .null_dereference
      else .ok none

/-- The function `Parser::parse_new`. -/
def parse_new (ts : List Token) : Attempt :=
  match ts with
  | [] => .error (.parser_error none)
  | t :: rest =>
      if t.get_type == .NEW then
        match expect .TYPE_IDENTIFIER rest with
        | .error f => .error f
        | .ok (next, rest1) =>
            match TypeIdToken_value next with
            | .error f => .error f
            | .ok type => .ok (some (.NewNode type, rest1))
      else .ok none

/-- One step of the chain `if (expr = parse_a(ts)) {} else if (expr =
parse_b(ts)) {} ...` of `parse_single_expression`: the next function is tried
only when this one returned `nullptr`. -/
def or_else (r : Attempt) (next : Attempt) : Attempt :=
  match r with
  | .ok none => next
  | r => r

mutual

/-- The function `Parser::parse_expression`. -/
def parse_expression : Nat → List Token → Parsed
  | 0, _ => .error .out_of_fuel
  | fuel + 1, ts => do
      let (expr, ts1) ← parse_single_expression fuel ts
      post_expression fuel ts1 expr

/-- The function `Parser::parse_single_expression`; when no production
matches it calls `parser_error(ts, ts.get())`. -/
def parse_single_expression : Nat → List Token → Parsed
  | 0, _ => .error .out_of_fuel
  | fuel + 1, ts => do
      let r ←
        or_else (parse_assignment fuel ts) <|
        or_else (parse_dispatch fuel ts) <|
        or_else (parse_conditional fuel ts) <|
        or_else (parse_while fuel ts) <|
        or_else (parse_block fuel ts) <|
        or_else (parse_let fuel ts) <|
        or_else (parse_case fuel ts) <|
        or_else (parse_new ts) <|
        or_else (parse_isvoid fuel ts) <|
        or_else (parse_neg fuel ts) <|
        or_else (parse_complement fuel ts) <|
        or_else (parse_int_const ts) <|
        or_else (parse_string_const ts) <|
        or_else (parse_bool_const ts) <|
        or_else (parse_identifier ts) <|
        parse_parentheses fuel ts
      match r with
      | some r => pure r
      | none => throw (.parser_error ts.head?)

/-- The function `Parser::parse_assignment`. -/
def parse_assignment : Nat → List Token → Attempt
  | 0, _ => .error .out_of_fuel
  | fuel + 1, ts =>
      match ts with
      | t1 :: t2 :: rest =>
          if t1.get_type == .OBJ_IDENTIFIER && t2.get_type == .ASSIGN then do
            let name ← ObjIdToken_value t1
            let (expr, rest1) ← parse_expression fuel rest
            pure (some (.AssignmentNode name expr, rest1))
          else pure none
      | _ => .error (.parser_error none)

/-- The function `Parser::parse_dispatch`: the shorthand `f(...)` for
`self.f(...)`. -/
def parse_dispatch : Nat → List Token → Attempt
  | 0, _ => .error .out_of_fuel
  | fuel + 1, ts =>
      match ts with
      | t1 :: t2 :: rest =>
          if t1.get_type == .OBJ_IDENTIFIER && t2.get_type == .PARENTHESIS_OPEN then do
            let method_name ← ObjIdToken_value t1
            let (parameters, rest1) ← parse_dispatch_parameters fuel rest []
            pure (some (.DispatchNode (.IdentifierNode "self") method_name parameters, rest1))
          else pure none
      | _ => .error (.parser_error none)

/-- The function `Parser::parse_dispatch_parameters`; `parameters` is the
vector built so far, and one call is one turn of the `while` loop. -/
def parse_dispatch_parameters : Nat → List Token → List ExpressionNode →
    Except Failure (List ExpressionNode × List Token)
  | 0, _, _ => .error .out_of_fuel
  | fuel + 1, ts, parameters => do
      if (← peek_equals ts .PARENTHESIS_CLOSE) then
        pure (parameters, ts.tail)
      else
        let (expr, ts1) ← parse_expression fuel ts
        if (← peek_equals ts1 .PARENTHESIS_CLOSE) then
          pure (parameters ++ [expr], ts1.tail)
        else if !(← peek_equals ts1 .COMMA) then
          throw (.parser_error ts1.head?)
        else if (← peek_equals ts1.tail .PARENTHESIS_CLOSE) then
          throw (.parser_error ts1.tail.head?)
        else
          parse_dispatch_parameters fuel ts1.tail (parameters ++ [expr])

/-- The function `Parser::parse_conditional`. -/
def parse_conditional : Nat → List Token → Attempt
  | 0, _ => .error .out_of_fuel
  | fuel + 1, ts => do
      if (← peek_equals ts .IF) then
        let (predicate, ts1) ← parse_expression fuel ts.tail
        let (_, ts2) ← expect .THEN ts1
        let (then_expr, ts3) ← parse_expression fuel ts2
        let (_, ts4) ← expect .ELSE ts3
        let (else_expr, ts5) ← parse_expression fuel ts4
        let (_, ts6) ← expect .FI ts5
        pure (some (.ConditionalNode predicate then_expr else_expr, ts6))
      else pure none

/-- The function `Parser::parse_while`. -/
def parse_while : Nat → List Token → Attempt
  | 0, _ => .error .out_of_fuel
  | fuel + 1, ts => do
      if (← peek_equals ts .WHILE) then
        let (predicate, ts1) ← parse_expression fuel ts.tail
        let (_, ts2) ← expect .LOOP ts1
        let (body, ts3) ← parse_expression fuel ts2
        let (_, ts4) ← expect .POOL ts3
        pure (some (.WhileNode predicate body, ts4))
      else pure none

/-- One turn of the `do ... while` loop of `Parser::parse_case`, with the
branches added so far. -/
def parse_case_branches : Nat → List Token → List (String × String × ExpressionNode) →
    Except Failure (List (String × String × ExpressionNode) × List Token)
  | 0, _, _ => .error .out_of_fuel
  | fuel + 1, ts, branches => do
      let (identifier, ts1) ← expect .OBJ_IDENTIFIER ts
      let (_, ts2) ← expect .COLON ts1
      let (type, ts3) ← expect .TYPE_IDENTIFIER ts2
      let (_, ts4) ← expect .ARROW ts3
      let name ← ObjIdToken_value identifier
      let declared ← TypeIdToken_value type
      let (expr, ts5) ← parse_expression fuel ts4
      let (_, ts6) ← expect .SEMICOLON ts5
      if (← peek_equals ts6 .ESAC) then
        pure (branches ++ [(name, declared, expr)], ts6.tail)
      else
        parse_case_branches fuel ts6 (branches ++ [(name, declared, expr)])

/-- The function `Parser::parse_case`. -/
def parse_case : Nat → List Token → Attempt
  | 0, _ => .error .out_of_fuel
  | fuel + 1, ts => do
      if (← peek_equals ts .CASE) then
        let (target, ts1) ← parse_expression fuel ts.tail
        let (_, ts2) ← expect .OF ts1
        let (branches, ts3) ← parse_case_branches fuel ts2 []
        pure (some (.CaseNode target branches, ts3))
      else pure none

/-- One turn of the `do ... while` loop of `Parser::parse_block`, with the
expressions added so far. -/
def parse_block_expressions : Nat → List Token → List ExpressionNode →
    Except Failure (List ExpressionNode × List Token)
  | 0, _, _ => .error .out_of_fuel
  | fuel + 1, ts, expressions => do
      let (expr, ts1) ← parse_expression fuel ts
      let (_, ts2) ← expect .SEMICOLON ts1
      if (← peek_equals ts2 .CURLY_BRACKET_CLOSE) then
        pure (expressions ++ [expr], ts2.tail)
      else
        parse_block_expressions fuel ts2 (expressions ++ [expr])

/-- The function `Parser::parse_block`. -/
def parse_block : Nat → List Token → Attempt
  | 0, _ => .error .out_of_fuel
  | fuel + 1, ts => do
      if (← peek_equals ts .CURLY_BRACKET_OPEN) then
        let (expressions, ts1) ← parse_block_expressions fuel ts.tail []
        pure (some (.BlockNode expressions, ts1))
      else pure none

/-- One turn of the `do ... while` loop of `Parser::parse_let`, with the
initializers added so far; the loop condition `ts.get()->get_type() != IN`
consumes the `IN` or the comma. -/
def parse_let_initializers : Nat → List Token → List (String × String × ExpressionNode) →
    Except Failure (List (String × String × ExpressionNode) × List Token)
  | 0, _, _ => .error .out_of_fuel
  | fuel + 1, ts, initializers => do
      let (identifier, ts1) ← expect .OBJ_IDENTIFIER ts
      let (_, ts2) ← expect .COLON ts1
      let (type, ts3) ← expect .TYPE_IDENTIFIER ts2
      let name ← ObjIdToken_value identifier
      let declared ← TypeIdToken_value type
      let (expr, ts4) ←
        if (← peek_equals ts3 .ASSIGN) then parse_expression fuel ts3.tail
        else pure (.NoExpressionNode declared, ts3)
      match ts4 with
      | [] => throw (.parser_error none)
      | next :: rest =>
          if next.get_type != .IN && next.get_type != .COMMA then
            throw (.parser_error (some next))
          else if next.get_type != .IN then
            parse_let_initializers fuel rest (initializers ++ [(name, declared, expr)])
          else
            pure (initializers ++ [(name, declared, expr)], rest)

/-- The function `Parser::parse_let`. -/
def parse_let : Nat → List Token → Attempt
  | 0, _ => .error .out_of_fuel
  | fuel + 1, ts => do
      if (← peek_equals ts .LET) then
        let (initializers, ts1) ← parse_let_initializers fuel ts.tail []
        let (body, ts2) ← parse_expression fuel ts1
        pure (some (.LetNode initializers body, ts2))
      else pure none

/-- The function `Parser::parse_isvoid`. -/
def parse_isvoid : Nat → List Token → Attempt
  | 0, _ => .error .out_of_fuel
  | fuel + 1, ts => do
      if (← peek_equals ts .ISVOID) then
        let (expr, ts1) ← parse_single_expression fuel ts.tail
        pure (some (.UnaryOperationNode .IsvoidNode false expr, ts1))
      else pure none

/-- The function `Parser::parse_neg` (the token `~`). -/
def parse_neg : Nat → List Token → Attempt
  | 0, _ => .error .out_of_fuel
  | fuel + 1, ts => do
      if (← peek_equals ts .SQUIGGLE) then
        let (expr, ts1) ← parse_single_expression fuel ts.tail
        pure (some (.UnaryOperationNode .NegNode false expr, ts1))
      else pure none

/-- The function `Parser::parse_complement` (the keyword `not`). -/
def parse_complement : Nat → List Token → Attempt
  | 0, _ => .error .out_of_fuel
  | fuel + 1, ts => do
      if (← peek_equals ts .NOT) then
        let (expr, ts1) ← parse_single_expression fuel ts.tail
        pure (some (.UnaryOperationNode .ComplementNode false expr, ts1))
      else pure none

/-- The function `Parser::parse_parentheses`. -/
def parse_parentheses : Nat → List Token → Attempt
  | 0, _ => .error .out_of_fuel
  | fuel + 1, ts => do
      if (← peek_equals ts .PARENTHESIS_OPEN) then
        let (expr, ts1) ← parse_expression fuel ts.tail
        let (_, ts2) ← expect .PARENTHESIS_CLOSE ts1
        pure (some (set_parenthesized expr, ts2))
      else pure none

/-- The function `Parser::post_expression`; one call is one turn of the
`while (continue_flag)` loop, on the current expression `expr`. -/
def post_expression : Nat → List Token → ExpressionNode → Parsed
  | 0, _, _ => .error .out_of_fuel
  | fuel + 1, ts, expr =>
      match ts with
      | [] => .error (.parser_error none)
      | t :: rest =>
          match binary_operator t.get_type with
          | some node => do
              let (next_expr, rest1) ← parse_single_expression fuel rest
              if non_associative_clash expr node then
                throw (.parser_error (some t))
              else
                post_expression fuel rest1 (insert_operator node next_expr expr)
          | none =>
              match t.get_type with
              | .DOT => do
                  let (identifier, rest1) ← expect .OBJ_IDENTIFIER rest
                  let (_, rest2) ← expect .PARENTHESIS_OPEN rest1
                  let method_name ← ObjIdToken_value identifier
                  let (parameters, rest3) ← parse_dispatch_parameters fuel rest2 []
                  post_expression fuel rest3
                    (insert_dispatch (fun object => .DispatchNode object method_name parameters)
                      expr)
              | .AT => do
                  let (type, rest1) ← expect .TYPE_IDENTIFIER rest
                  let (_, rest2) ← expect .DOT rest1
                  let (identifier, rest3) ← expect .OBJ_IDENTIFIER rest2
                  let (_, rest4) ← expect .PARENTHESIS_OPEN rest3
                  let method_name ← ObjIdToken_value identifier
                  let static_type ← TypeIdToken_value type
                  let (parameters, rest5) ← parse_dispatch_parameters fuel rest4 []
                  post_expression fuel rest5
                    (insert_dispatch
                      (fun object => .StaticDispatchNode object method_name static_type parameters)
                      expr)
              | _ => .ok (expr, ts)

end

/-! ## Operator chains and the reference precedence parser

The specification describes operator parsing by precedence and associativity:
`*` and `/` bind tighter than `+` and `-`, which bind tighter than `<`, `<=`
and `=`, and operators of equal precedence associate to the left.  The
definitions below say this without the parser: a chain of operands and
operators is cut at its loosest operators first, and each level is folded to
the left. -/

/-- The operand node that a single literal or identifier token stands for. -/
def atom_node : Token → Option ExpressionNode
  | .IntToken v _ => some (.IntNode v)
  | .StringToken v _ => some (.StringNode v)
  | .BoolToken v _ => some (.BoolNode v)
  | .ObjIdToken v _ => some (.IdentifierNode v)
  | _ => none

/-- The token sequence of the tail of a chain: every link is an operator token
followed by an operand token. -/
def chain_tokens : List (Token × Token) → List Token
  | [] => []
  | (o, a) :: rest => o :: a :: chain_tokens rest

/-- The operators and operand nodes a tail of tokens stands for, when every
first token is a binary operator and every second one a literal or an
identifier. -/
def chain_links : List (Token × Token) → Option (List (BinaryOp × ExpressionNode))
  | [] => some []
  | (o, a) :: rest =>
      match binary_operator o.get_type, atom_node a, chain_links rest with
      | some op, some e, some links => some ((op, e) :: links)
      | _, _, _ => none

/-- A token that cannot continue an expression: no binary operator, no `.`, no
`@`, and neither `(` nor `<-`, which after an identifier would start a
dispatch or an assignment. -/
def ends_expression (t : Token) : Bool :=
  (binary_operator t.get_type).isNone && t.get_type != .DOT && t.get_type != .AT &&
    t.get_type != .PARENTHESIS_OPEN && t.get_type != .ASSIGN

/-- The comparison operators `<`, `<=`, `=`. -/
def BinaryOp.is_comparison : BinaryOp → Bool
  | .LTNode => true
  | .LTENode => true
  | .EQNode => true
  | _ => false

/-- The additive operators `+`, `-`. -/
def BinaryOp.is_additive : BinaryOp → Bool
  | .PlusNode => true
  | .MinusNode => true
  | _ => false

/-- Number of comparison operators in a chain. -/
def comparisons (links : List (BinaryOp × ExpressionNode)) : Nat :=
  (links.filter (fun l => l.1.is_comparison)).length

/-- Left-associative combination of a first operand with a chain of links. -/
def fold_left (first : ExpressionNode) (links : List (BinaryOp × ExpressionNode)) :
    ExpressionNode :=
  links.foldl (fun acc l => .BinaryOperationNode l.1 false acc l.2) first

/-- Cuts a chain at the operators selected by `sep`: the links before the first
such operator, and for every such operator the operand that follows it with
the links up to the next cut. -/
def cut (sep : BinaryOp → Bool) : List (BinaryOp × ExpressionNode) →
    List (BinaryOp × ExpressionNode) ×
      List (BinaryOp × ExpressionNode × List (BinaryOp × ExpressionNode))
  | [] => ([], [])
  | (op, e) :: rest =>
      if sep op then ([], (op, e, (cut sep rest).1) :: (cut sep rest).2)
      else ((op, e) :: (cut sep rest).1, (cut sep rest).2)

/-- Reference parse of a run of `*` and `/`: left to right. -/
def reference_term (first : ExpressionNode) (links : List (BinaryOp × ExpressionNode)) :
    ExpressionNode :=
  fold_left first links

/-- Reference parse of a chain without comparisons: the runs between the `+`
and `-` are terms, combined left to right. -/
def reference_arith (first : ExpressionNode) (links : List (BinaryOp × ExpressionNode)) :
    ExpressionNode :=
  fold_left (reference_term first (cut BinaryOp.is_additive links).1)
    ((cut BinaryOp.is_additive links).2.map
      (fun piece => (piece.1, reference_term piece.2.1 piece.2.2)))

/-- Reference precedence parse of a chain: the runs between the comparisons are
arithmetic expressions, combined left to right. -/
def reference_parse (first : ExpressionNode) (links : List (BinaryOp × ExpressionNode)) :
    ExpressionNode :=
  fold_left (reference_arith first (cut BinaryOp.is_comparison links).1)
    ((cut BinaryOp.is_comparison links).2.map
      (fun piece => (piece.1, reference_arith piece.2.1 piece.2.2)))

/-- What `post_expression` does with a chain of operators and already parsed
operands: the non-associativity check, then the insertion, link by link;
`none` when the check fails. -/
def insert_chain (expr : ExpressionNode) :
    List (BinaryOp × ExpressionNode) → Option ExpressionNode
  | [] => some expr
  | (op, e) :: rest =>
      if non_associative_clash expr op then none
      else insert_chain (insert_operator op e expr) rest

/-! ### The shape of the trees built from a chain

A tree built from operands that are no operations has at most three operation
nodes on its right-most path: a comparison, below it an additive operator,
below it a multiplicative one.  `Spine` records which of them are there, each
with its first operand, and the last operand. -/

/-- The right-most path of a tree built from a chain. -/
structure Spine where
  cmp : Option (ExpressionNode × BinaryOp)
  add : Option (ExpressionNode × BinaryOp)
  mul : Option (ExpressionNode × BinaryOp)
  last : ExpressionNode

/-- Puts an optional pending operation around its second operand. -/
def wrap (pending : Option (ExpressionNode × BinaryOp)) (e : ExpressionNode) :
    ExpressionNode :=
  match pending with
  | none => e
  | some (first, op) => .BinaryOperationNode op false first e

/-- The tree a spine stands for. -/
def Spine.tree (s : Spine) : ExpressionNode :=
  wrap s.cmp (wrap s.add (wrap s.mul s.last))

/-- The spine after one more link. -/
def Spine.push (s : Spine) (l : BinaryOp × ExpressionNode) : Spine :=
  if l.1.is_comparison then
    { cmp := some (s.tree, l.1), add := none, mul := none, last := l.2 }
  else if l.1.is_additive then
    { s with add := some (wrap s.add (wrap s.mul s.last), l.1), mul := none, last := l.2 }
  else
    { s with mul := some (wrap s.mul s.last, l.1), last := l.2 }

/-- The operators of a spine are at their levels and the last operand is no
operation. -/
def Spine.valid (s : Spine) : Prop :=
  (∀ p ∈ s.cmp, p.2.is_comparison = true) ∧
  (∀ p ∈ s.add, p.2.is_additive = true) ∧
  (∀ p ∈ s.mul, p.2.is_comparison = false ∧ p.2.is_additive = false) ∧
  is_operation s.last = false

/-! ## Classes and the class table (`src/common/ast.h`, `src/common/classtable.cpp`)

The string constants of `consts.h` are written as literals: `"Object"`, `"Int"`,
`"Bool"`, `"String"`, `"SELF_TYPE"` (`Strings::Types::SelfType`), `"_no_type"`
(`Strings::Types::NoType`), `"self"` (`Strings::Self`). -/

/-- The class `FormalNode`. -/
structure FormalNode where
  name : String
  type : String
  deriving DecidableEq, Repr

/-- The class `AttributeNode`: a feature with a declared type and an
initializer (`NoExpressionNode` when absent). -/
structure AttributeNode where
  name : String
  type : String
  expr : ExpressionNode

/-- The class `MethodNode`: a feature with a return type, formals and a body.
The methods of the basic classes have no body; there `expr` is a
`NoExpressionNode` that nothing reads. -/
structure MethodNode where
  name : String
  type : String
  formals : List FormalNode
  expr : ExpressionNode

/-- The class `FeatureNode` with its two subclasses. -/
inductive FeatureNode where
  | attribute (a : AttributeNode)
  | method (m : MethodNode)

/-- The class `ClassNode`; `features` is in declaration order. -/
structure ClassNode where
  name : String
  base_class : String
  features : List FeatureNode

/-- The method `ClassNode::get_attributes`: the attributes in declaration
order. -/
def ClassNode.get_attributes (cls : ClassNode) : List AttributeNode :=
  cls.features.filterMap (fun f => match f with | .attribute a => some a | .method _ => none)

/-- The method `ClassNode::get_methods`: the methods in declaration order. -/
def ClassNode.get_methods (cls : ClassNode) : List MethodNode :=
  cls.features.filterMap (fun f => match f with | .method m => some m | .attribute _ => none)

/-- The class `ClassTable`: `clsmap` is a `std::map` from class name to class,
kept as the list of its entries in increasing key order. -/
structure ClassTable where
  clsmap : List (String × ClassNode)

/-- The lookup `clsmap.find(name)`. -/
def ClassTable.find (ct : ClassTable) (name : String) : Option ClassNode :=
  (ct.clsmap.find? (fun entry => entry.1 == name)).map (fun entry => entry.2)

/-- Lexicographic comparison of two character sequences. -/
def chars_less : List Char → List Char → Bool
  | _, [] => false
  | [], _ :: _ => true
  | a :: as, b :: bs => decide (a.toNat < b.toNat) || (a.toNat == b.toNat && chars_less as bs)

/-- The comparison `std::less<std::string>` that orders the keys of a
`std::map`: lexicographic on the bytes, which for UTF-8 text is lexicographic
on the characters. -/
def string_less (a b : String) : Bool :=
  chars_less a.data b.data

/-- The assignment `clsmap[name] = cls` on the entries of a `std::map`. -/
def clsmap_set (name : String) (cls : ClassNode) :
    List (String × ClassNode) → List (String × ClassNode)
  | [] => [(name, cls)]
  | entry :: rest =>
      if string_less name entry.1 then (name, cls) :: entry :: rest
      else if entry.1 == name then (name, cls) :: rest
      else entry :: clsmap_set name cls rest

/-- The assignment `clsmap[name] = cls`. -/
def ClassTable.set (ct : ClassTable) (name : String) (cls : ClassNode) : ClassTable :=
  { clsmap := clsmap_set name cls ct.clsmap }

/-- The method `ClassTable::exists`. -/
def ClassTable.exists (ct : ClassTable) (cls : String) : Bool :=
  (ct.find cls).isSome

/-- A method of a basic class. -/
def basic_method (name type : String) (formals : List FormalNode) : MethodNode :=
  { name := name, type := type, formals := formals, expr := .NoExpressionNode "_no_type" }

/-- An attribute of a basic class. -/
def basic_attribute (name type : String) : AttributeNode :=
  { name := name, type := type, expr := .NoExpressionNode "_no_type" }

/-- The method `ClassTable::install_basic_classes`, as the class table it
leaves.  `Object` is given no base class in the source. -/
def install_basic_classes : ClassTable :=
  let object_class : ClassNode :=
    { name := "Object", base_class := "",
      features := [.method (basic_method "abort" "Object" []),
        .method (basic_method "type_name" "String" []),
        .method (basic_method "copy" "SELF_TYPE" [])] }
  let io_class : ClassNode :=
    { name := "IO", base_class := "Object",
      features := [.method (basic_method "out_string" "SELF_TYPE" [⟨"arg", "String"⟩]),
        .method (basic_method "out_int" "SELF_TYPE" [⟨"arg", "Int"⟩]),
        .method (basic_method "in_string" "String" []),
        .method (basic_method "in_int" "Int" [])] }
  let int_class : ClassNode :=
    { name := "Int", base_class := "Object",
      features := [.attribute (basic_attribute "val" "prim_slot")] }
  let bool_class : ClassNode :=
    { name := "Bool", base_class := "Object",
      features := [.attribute (basic_attribute "val" "prim_slot")] }
  let string_class : ClassNode :=
    { name := "String", base_class := "Object",
      features := [.attribute (basic_attribute "val" "Int"),
        .attribute (basic_attribute "str_field" "prim_slot"),
        .method (basic_method "length" "Int" []),
        .method (basic_method "concat" "String" [⟨"arg", "String"⟩]),
        .method (basic_method "substr" "String" [⟨"arg1", "Int"⟩, ⟨"arg2", "Int"⟩])] }
  ((((ClassTable.mk []).set "Object" object_class).set "IO" io_class).set "Int" int_class
    |>.set "Bool" bool_class).set "String" string_class

/-- The loop of `ClassTable::get_ancestry`, started at `node`.  A class that
is not in the map makes `clsmap[node]` a null pointer.  `fuel` bounds the
number of classes pushed. -/
def get_ancestry_loop (ct : ClassTable) : Nat → String → Except Failure (List String)
  | fuel, node =>
      if node == "Object" then .ok ["Object"]
      else
        match fuel with
        | 0 => .error .nontermination
        | fuel + 1 =>
            match ct.find node with
            | none => .error .null_dereference
            | some cls =>
                match get_ancestry_loop ct fuel cls.base_class with
                | .ok ancestry => .ok (node :: ancestry)
                | .error f => .error f

/-- The method `ClassTable::get_ancestry`.  The loop may push one class more
than the map has entries: a walk that is longer has met some class twice and
goes on for ever. -/
def ClassTable.get_ancestry (ct : ClassTable) (cls : String) : Except Failure (List String) :=
  get_ancestry_loop ct (ct.clsmap.length + 1) cls

/-- The method `ClassTable::least_upper_bound(a, b)`: the first class of the
ancestry of `a` that is in the ancestry of `b`, with `Object` as fallback. -/
def ClassTable.least_upper_bound (ct : ClassTable) (a b : String) : Except Failure String := do
  let ancestry_a ← ct.get_ancestry a
  let ancestry_b ← ct.get_ancestry b
  pure ((ancestry_a.find? (fun x => ancestry_b.contains x)).getD "Object")

/-- The loop of `ClassTable::least_upper_bound(std::vector<std::string>)`. -/
def least_upper_bound_loop (ct : ClassTable) (lub : String) : List String → Except Failure String
  | [] => .ok lub
  | symbol :: symbols => do
      let lub1 ← ct.least_upper_bound lub symbol
      least_upper_bound_loop ct lub1 symbols

/-- The method `ClassTable::least_upper_bound(std::vector<std::string>)`: it
starts from `symbols[0]` and folds the whole vector from index 0. -/
def ClassTable.least_upper_bound_list (ct : ClassTable) (symbols : List String) :
    Except Failure String :=
  match symbols with
  | [] => .error .out_of_bounds
  | first :: _ => least_upper_bound_loop ct first symbols

/-! ## The type environment (`src/compiler/semant/environment.cpp`) -/

/-- The class `ObjectScope`: a map from variable name to declared type, kept as
its bindings, the latest first. -/
abbrev ObjectScope := List (String × String)

/-- The method `ObjectScope::exists`. -/
def ObjectScope.exists (scope : ObjectScope) (name : String) : Bool :=
  scope.any (fun binding => binding.1 == name)

/-- The method `ObjectScope::get_object`: the type of the object, `""` when it
is not in the scope. -/
def ObjectScope.get_object (scope : ObjectScope) (name : String) : String :=
  match scope.find? (fun binding => binding.1 == name) with
  | some binding => binding.2
  | none => ""

/-- The class `ObjectEnv`: the stack of scopes; the head is `scopes.back()`. -/
abbrev ObjectEnv := List ObjectScope

/-- The method `ObjectEnv::enter_scope`. -/
def ObjectEnv.enter_scope (scopes : ObjectEnv) : ObjectEnv :=
  [] :: scopes

/-- The method `ObjectEnv::exit_scope`. -/
def ObjectEnv.exit_scope (scopes : ObjectEnv) : ObjectEnv :=
  scopes.tail

/-- The method `ObjectEnv::add_object`: `objects[name] = type` in the current
scope.  Every caller has entered a scope before. -/
def ObjectEnv.add_object (scopes : ObjectEnv) (name type : String) : ObjectEnv :=
  match scopes with
  | [] => []
  | scope :: rest => ((name, type) :: scope) :: rest

/-- The method `ObjectEnv::probe`: whether the current scope defines the
object. -/
def ObjectEnv.probe (scopes : ObjectEnv) (name : String) : Bool :=
  match scopes with
  | [] => false
  | scope :: _ => ObjectScope.exists scope name

/-- The method `ObjectEnv::lookup`: the closest definition, `""` when there is
none. -/
def ObjectEnv.lookup (scopes : ObjectEnv) (name : String) : String :=
  match scopes with
  | [] => ""
  | scope :: rest =>
      if ObjectScope.exists scope name then ObjectScope.get_object scope name
      else ObjectEnv.lookup rest name

/-- The class `MethodEnv`: a map from (class name, method name) to the method,
kept as its bindings, the latest first. -/
abbrev MethodEnv := List ((String × String) × MethodNode)

/-- The method `MethodEnv::exists`. -/
def MethodEnv.exists (methods : MethodEnv) (cls method : String) : Bool :=
  methods.any (fun binding => binding.1 == (cls, method))

/-- The method `MethodEnv::find`; the null pointer of a missing entry is
`none`. -/
def MethodEnv.find (methods : MethodEnv) (cls method : String) : Option MethodNode :=
  (List.find? (fun binding => binding.1 == (cls, method)) methods).map (fun binding => binding.2)

/-- The method `MethodEnv::set`. -/
def MethodEnv.set (methods : MethodEnv) (cls : String) (method : MethodNode) : MethodEnv :=
  ((cls, method.name), method) :: methods

/-- The class `TypeEnvironment`; `cls` is the name of the current class, which
is all that is read of it. -/
structure TypeEnvironment where
  objects : ObjectEnv
  methods : MethodEnv
  cls : String

/-- The helper `resolve` of `semant.cpp`: `SELF_TYPE` becomes the name of the
current class. -/
def resolve (type : String) (env : TypeEnvironment) : String :=
  if type == "SELF_TYPE" then env.cls else type

/-- The call `semant_error(msg, line)`. -/
def semant_error {α : Type} (msg : String) : Except Failure α :=
  .error (.semant_error msg)

/-- The type check shared by `PlusNode`, `MinusNode`, `MultiplicationNode`,
`DivisionNode`, `LTNode` and `LTENode`, after both operands have been checked;
all six print ` + ` between the types. -/
def check_int_operands (first_type second_type result : String) : Except Failure String :=
  if first_type != "Int" || second_type != "Int" then
    semant_error ("non-Int arguments: " ++ first_type ++ " + " ++ second_type)
  else .ok result

/-- The test of `EQNode::typecheck`. -/
def illegal_comparison (first_type second_type : String) : Bool :=
  (first_type == "Int" && second_type != "Int")
    || (first_type == "String" && second_type != "String")
    || (first_type == "Bool" && second_type != "Bool")

/-! ## Type checking of expressions (`src/compiler/semant/semant.cpp`)

`typecheck` returns the inferred type.  The calls `set_checked_type` only
annotate the tree and are left out; where the source reads an annotation back
(`BlockNode`, `CaseNode`) it reads the value the same function has just
stored, and the model uses that value.  The object environment is passed down:
every `enter_scope` of a function is undone by its `exit_scope` before it
returns, and an error ends the program. -/

mutual

/-- The virtual method `ExpressionNode::typecheck`, one case per node class. -/
def typecheck (ct : ClassTable) (env : TypeEnvironment) : ExpressionNode → Except Failure String
  | .NoExpressionNode _ => .ok "_no_type"
  | .IntNode _ => .ok "Int"
  | .StringNode _ => .ok "String"
  | .BoolNode _ => .ok "Bool"
  | .IdentifierNode name =>
      if name == "self" then .ok "SELF_TYPE"
      else if env.objects.lookup name == "" then
        semant_error ("Undeclared identifier " ++ name ++ ".")
      else .ok (env.objects.lookup name)
  | .AssignmentNode name expr =>
      if name == "self" then semant_error "Cannot assign to 'self'."
      else if env.objects.lookup name == "" then
        semant_error "Target identifier has not been declared"
      else do
        let declared_type := env.objects.lookup name
        let inferred_type ← typecheck ct env expr
        let lub ← ct.least_upper_bound (resolve declared_type env) (resolve inferred_type env)
        if lub != resolve declared_type env then
          semant_error ("Type " ++ inferred_type ++ " of assigned expression does not conform "
            ++ "to declared type " ++ declared_type ++ " of identifier " ++ name ++ ".")
        else pure inferred_type
  | .NewNode type =>
      if (ct.find (resolve type env)).isNone then
        semant_error ("'new' keyword used with undefined type " ++ type)
      else .ok type
  | .UnaryOperationNode .IsvoidNode _ expr => do
      let _ ← typecheck ct env expr
      pure "Bool"
  | .UnaryOperationNode .NegNode _ expr => do
      let inferred_type ← typecheck ct env expr
      if inferred_type != "Int" then
        semant_error ("Invalid type " ++ inferred_type ++ " for integer complement operation.")
      else pure "Int"
  | .UnaryOperationNode .ComplementNode _ expr => do
      let inferred_type ← typecheck ct env expr
      if inferred_type != "Bool" then
        semant_error ("Invalid type " ++ inferred_type ++ " for not operation.")
      else pure "Bool"
  | .BinaryOperationNode op _ first second => do
      let first_type ← typecheck ct env first
      let second_type ← typecheck ct env second
      match op with
      | .PlusNode => check_int_operands first_type second_type "Int"
      | .MinusNode => check_int_operands first_type second_type "Int"
      | .MultiplicationNode => check_int_operands first_type second_type "Int"
      | .DivisionNode => check_int_operands first_type second_type "Int"
      | .LTNode => check_int_operands first_type second_type "Bool"
      | .LTENode => check_int_operands first_type second_type "Bool"
      | .EQNode =>
          if illegal_comparison first_type second_type then
            semant_error "Illegal comparison with a basic type."
          else pure "Bool"
  | .ConditionalNode predicate then_expr else_expr => do
      let pred_type ← typecheck ct env predicate
      let then_type ← typecheck ct env then_expr
      let else_type ← typecheck ct env else_expr
      if pred_type != "Bool" then
        semant_error ("Conditional predicate must be Bool, not " ++ pred_type ++ ".")
      else do
        let lub ← ct.least_upper_bound (resolve then_type env) (resolve else_type env)
        if then_type == "SELF_TYPE" && else_type == "SELF_TYPE" then pure "SELF_TYPE"
        else pure lub
  | .WhileNode predicate body => do
      let pred_type ← typecheck ct env predicate
      let _ ← typecheck ct env body
      if pred_type != "Bool" then semant_error "Loop condition does not have type Bool."
      else pure "Object"
  | .BlockNode expressions => do
      let types ← typecheck_block ct env expressions
      match types.getLast? with
      | some type => pure type
      | none => .error .out_of_bounds
  | .CaseNode target branches => do
      let _ ← typecheck ct env target
      let (inferred, branch_types) ← typecheck_case_branches ct env branches []
      if inferred.all (fun type => type == "SELF_TYPE") then pure "SELF_TYPE"
      else ct.least_upper_bound_list branch_types
  | .LetNode initializers body => do
      let objects ← typecheck_let_initializers ct { env with objects := env.objects.enter_scope }
        initializers
      typecheck ct { env with objects := objects } body
  | .DispatchNode object method_name parameters => do
      let object_class ← typecheck ct env object
      let resolved_class := resolve object_class env
      if !env.methods.exists resolved_class method_name then
        semant_error ("Dispatch to undefined method " ++ method_name ++ ".")
      else
        match env.methods.find resolved_class method_name with
        | none => .error .null_dereference
        | some method =>
            if parameters.length != method.formals.length then
              semant_error ("Method " ++ method_name ++ " in class " ++ resolved_class
                ++ " takes " ++ toString method.formals.length ++ " argument(s), "
                ++ toString parameters.length ++ " argument(s) provided.")
            else do
              typecheck_parameters ct env method_name none 0 method.formals parameters
              if method.type == "SELF_TYPE" then pure object_class else pure method.type
  | .StaticDispatchNode object method_name static_type parameters => do
      let object_type ← typecheck ct env object
      let resolved_static_type := resolve static_type env
      let lub ← ct.least_upper_bound (resolve object_type env) resolved_static_type
      if lub != resolved_static_type then
        semant_error ("Expression type " ++ object_type
          ++ " does not conform to declared static dispatch type " ++ static_type ++ ".")
      else if !env.methods.exists resolved_static_type method_name then
        semant_error ("Dispatch to undefined method " ++ method_name ++ ".")
      else
        match env.methods.find resolved_static_type method_name with
        | none => .error .null_dereference
        | some method =>
            if parameters.length != method.formals.length then
              semant_error ("Method " ++ method_name ++ " in class " ++ resolved_static_type
                ++ " takes " ++ toString method.formals.length ++ "argument(s), "
                ++ toString parameters.length ++ " argument(s) provided.")
            else do
              typecheck_parameters ct env method_name (some resolved_static_type) 0
                method.formals parameters
              if method.type == "SELF_TYPE" then pure object_type else pure method.type

/-- The loop of `BlockNode::typecheck`: the types of the expressions, in
order. -/
def typecheck_block (ct : ClassTable) (env : TypeEnvironment) :
    List ExpressionNode → Except Failure (List String)
  | [] => .ok []
  | expr :: rest => do
      let type ← typecheck ct env expr
      let types ← typecheck_block ct env rest
      pure (type :: types)

/-- The loop over the branches of `CaseNode::typecheck`;
`branch_type_declarations` holds the declared types of the branches before.
Returns the inferred types of the branch bodies and their resolved types
(`branch_types`). -/
def typecheck_case_branches (ct : ClassTable) (env : TypeEnvironment) :
    List (String × String × ExpressionNode) → List String →
      Except Failure (List String × List String)
  | [], _ => .ok ([], [])
  | (identifier, declared_type, expression) :: rest, branch_type_declarations => do
      let inferred_branch_type ← typecheck ct
        { env with objects := env.objects.enter_scope.add_object identifier declared_type }
        expression
      if branch_type_declarations.contains declared_type then
        semant_error ("Duplicate branch " ++ declared_type ++ " in case statement.")
      else do
        let (inferred, branch_types) ← typecheck_case_branches ct env rest
          (branch_type_declarations ++ [declared_type])
        pure (inferred_branch_type :: inferred, resolve inferred_branch_type env :: branch_types)

/-- The loop over the initializers of `LetNode::typecheck`, on the environment
whose current scope is the one of the `let`; returns the object environment
with all the variables added. -/
def typecheck_let_initializers (ct : ClassTable) (env : TypeEnvironment) :
    List (String × String × ExpressionNode) → Except Failure ObjectEnv
  | [] => .ok env.objects
  | (name, declared_type, init_expr) :: rest => do
      let init_type ← typecheck ct env init_expr
      if name == "self" then semant_error "'self' cannot be bound in a 'let' expression."
      else do
        if resolve init_type env != "_no_type" then
          let lub ← ct.least_upper_bound (resolve init_type env) (resolve declared_type env)
          if lub != resolve declared_type env then
            semant_error ("Inferred type " ++ init_type ++ " of initialization of " ++ name
              ++ " does not conform to identifier's declared type " ++ declared_type ++ ".")
        typecheck_let_initializers ct
          { env with objects := env.objects.add_object name declared_type } rest

/-- The loop over the formals of `DispatchNode::typecheck` and
`StaticDispatchNode::typecheck`, entered when there are as many parameters as
formals; `i` is the index and `static_class` the resolved static type of a
static dispatch, which only changes the message. -/
def typecheck_parameters (ct : ClassTable) (env : TypeEnvironment) (method_name : String)
    (static_class : Option String) :
    Nat → List FormalNode → List ExpressionNode → Except Failure Unit
  | _, [], _ => .ok ()
  | _, _ :: _, [] => .error .out_of_bounds
  | i, formal :: formals, parameter :: parameters => do
      let parameter_type ← typecheck ct env parameter
      let lub ← ct.least_upper_bound formal.type (resolve parameter_type env)
      if lub != formal.type then
        match static_class with
        | none =>
            semant_error ("In call of method " ++ method_name ++ ", type " ++ parameter_type
              ++ " of parameter " ++ formal.name ++ " does not conform to"
              ++ " declared type " ++ formal.type ++ ".")
        | some resolved_static_type =>
            semant_error ("Parameter " ++ toString (i + 1) ++ " of method " ++ method_name
              ++ " in class " ++ resolved_static_type ++ " accepts expressions of type "
              ++ formal.type ++ ", type " ++ parameter_type ++ " provided.")
      else
        typecheck_parameters ct env method_name static_class (i + 1) formals parameters

end

/-! ## Conformance and example classes -/

/-- The class `ancestor` is `type` itself or one of its ancestors: it is on the
ancestry chain from `type` upward. -/
def is_ancestor (ct : ClassTable) (ancestor type : String) : Prop :=
  ∃ ancestry, ct.get_ancestry type = .ok ancestry ∧ ancestor ∈ ancestry

/-- Conformance `a ≤ b`: `b` is on the ancestry chain from `a` upward. -/
def conforms (ct : ClassTable) (a b : String) : Prop :=
  is_ancestor ct b a

/-- The class `r` is the least upper bound of the classes `types`: an ancestor
of each of them that every common ancestor is an ancestor of. -/
def is_least_upper_bound (ct : ClassTable) (types : List String) (r : String) : Prop :=
  (∀ t ∈ types, is_ancestor ct r t) ∧
    ∀ c, (∀ t ∈ types, is_ancestor ct c t) → is_ancestor ct c r

/-- The class table of the classes `A`, `B inherits A`, `C inherits A` next to
the basic classes. -/
def example_classes : ClassTable :=
  ((install_basic_classes.set "A" { name := "A", base_class := "Object", features := [] }).set
    "B" { name := "B", base_class := "A", features := [] }).set
    "C" { name := "C", base_class := "A", features := [] }

/-! ## The method environment (`add_class_to_method_env`, `build_method_env`) -/

/-- The loop of `add_class_to_method_env` that checks the names and types of
the formals of one method. -/
def check_formals : List FormalNode → Except Failure Unit
  | [] => .ok ()
  | formal :: rest =>
      if formal.name == "self" then
        semant_error "'self' cannot be the name of a formal parameter."
      else if formal.type == "SELF_TYPE" then
        semant_error ("Formal parameter " ++ formal.name ++ " cannot have type SELF_TYPE.")
      else check_formals rest

/-- The loop of `add_class_to_method_env` that compares the formal types of a
redefinition with those of the original method, entered when both have the
same number of formals. -/
def check_redefined_formals (method_name : String) :
    List FormalNode → List FormalNode → Except Failure Unit
  | [], _ => .ok ()
  | _ :: _, [] => .error .out_of_bounds
  | formal :: rest, original_formal :: original_rest =>
      if formal.type != original_formal.type then
        semant_error ("In redefined method " ++ method_name ++ ", parameter type "
          ++ formal.type ++ " is different from original type " ++ original_formal.type ++ ".")
      else check_redefined_formals method_name rest original_rest

/-- The checks on one method that `add_class_to_method_env` makes when the
environment already has a method of that name for the class:
`already_added` tells whether the name is in `added_methods`, and `original` is
`env.methods.find(cls_name, method_name)`. -/
def check_override (method original : MethodNode) (already_added : Bool) :
    Except Failure Unit :=
  if already_added then
    semant_error ("Method " ++ method.name ++ " is multiply defined.")
  else if original.type != method.type then
    semant_error ("Attempted to override method " ++ method.name
      ++ " with a different return type.")
  else if method.formals.length != original.formals.length then
    semant_error ("Incompatible number of formal parameters in redefined method "
      ++ method.name ++ ".")
  else check_redefined_formals method.name method.formals original.formals

/-- The loop of `add_class_to_method_env` over the methods of one class;
`added_methods` is the set of the names added in this loop so far. -/
def add_methods (cls_name : String) :
    List MethodNode → List String → MethodEnv → Except Failure MethodEnv
  | [], _, methods => .ok methods
  | method :: rest, added_methods, methods => do
      check_formals method.formals
      if MethodEnv.exists methods cls_name method.name then
        match MethodEnv.find methods cls_name method.name with
        | none => .error .null_dereference
        | some original => check_override method original (added_methods.contains method.name)
      add_methods cls_name rest (method.name :: added_methods)
        (MethodEnv.set methods cls_name method)

/-- The function `add_class_to_method_env`: first the recursive call on the
base class (`fuel` bounds the depth of the recursion), then the methods of
`cls`, all entered under `cls_name`. -/
def add_class_to_method_env (ct : ClassTable) :
    Nat → ClassNode → String → MethodEnv → Except Failure MethodEnv
  | fuel, cls, cls_name, methods =>
      if cls.name != "Object" then
        match fuel with
        | 0 => .error .nontermination
        | fuel + 1 =>
            match ct.find cls.base_class with
            | none => .error .null_dereference
            | some parent =>
                match add_class_to_method_env ct fuel parent cls_name methods with
                | .error f => .error f
                | .ok methods1 => add_methods cls_name cls.get_methods [] methods1
      else add_methods cls_name cls.get_methods [] methods

/-- The loop of `build_method_env` over the entries of `clsmap`.  The recursion
of `add_class_to_method_env` may go one class deeper than the map has entries:
a deeper one has met some class twice and never returns. -/
def build_method_env_loop (ct : ClassTable) :
    List (String × ClassNode) → MethodEnv → Except Failure MethodEnv
  | [], methods => .ok methods
  | entry :: rest, methods =>
      match add_class_to_method_env ct (ct.clsmap.length + 1) entry.2 entry.2.name methods with
      | .error f => .error f
      | .ok methods1 => build_method_env_loop ct rest methods1

/-- The function `build_method_env`, on the empty method environment of a new
`TypeEnvironment`. -/
def build_method_env (ct : ClassTable) : Except Failure MethodEnv :=
  build_method_env_loop ct ct.clsmap []

/-! ### What the specification says about the method environment -/

/-- Two methods have an identical return type and identical formal types. -/
def same_signature (a b : MethodNode) : Prop :=
  a.type = b.type ∧ a.formals.map (fun f => f.type) = b.formals.map (fun f => f.type)

/-- A class table in which every entry is filed under the name of its class,
no name occurs twice, `Object` is there, and the ancestry of every class is
computed: every class reaches `Object` through its base classes. -/
def ClassTable.well_formed (ct : ClassTable) : Prop :=
  (∀ entry ∈ ct.clsmap, entry.2.name = entry.1) ∧
  (ct.clsmap.map (fun entry => entry.1)).Nodup ∧
  (∃ object, ct.find "Object" = some object) ∧
  (∀ entry ∈ ct.clsmap, ∃ ancestry, ct.get_ancestry entry.1 = .ok ancestry)

/-- The class `ancestor` is a proper ancestor of the class `cls` of the table:
`cls` is not `Object`, and `ancestor` is the class of the table found under a
name on the ancestry chain of the base class of `cls`. -/
def proper_ancestor (ct : ClassTable) (ancestor cls : ClassNode) : Prop :=
  cls.name ≠ "Object" ∧ is_ancestor ct ancestor.name cls.base_class ∧
    ct.find ancestor.name = some ancestor

/-- A formal of a method of the class is named `self` or has type
`SELF_TYPE`. -/
def has_illegal_formal (cls : ClassNode) : Prop :=
  ∃ m ∈ cls.get_methods, ∃ formal ∈ m.formals,
    formal.name = "self" ∨ formal.type = "SELF_TYPE"

/-- The class defines the same method name twice. -/
def has_repeated_method (cls : ClassNode) : Prop :=
  ¬ (cls.get_methods.map (fun m => m.name)).Nodup

/-- The class defines a method that a proper ancestor also defines, with a
different return type, a different number of formals or a different type for
some formal. -/
def has_illegal_override (ct : ClassTable) (cls : ClassNode) : Prop :=
  ∃ m ∈ cls.get_methods, ∃ ancestor, proper_ancestor ct ancestor cls ∧
    ∃ original ∈ ancestor.get_methods, original.name = m.name ∧ ¬ same_signature m original

/-- The conditions under which building the method environment must report an
error. -/
def method_environment_error (ct : ClassTable) : Prop :=
  ∃ entry ∈ ct.clsmap,
    has_illegal_formal entry.2 ∨ has_repeated_method entry.2 ∨ has_illegal_override ct entry.2

/-- The class table of the basic classes with `A { m() : Int }` and
`B inherits A { m() : Bool }`. -/
def override_example : ClassTable :=
  (install_basic_classes.set "A"
    { name := "A", base_class := "Object",
      features := [.method (MethodNode.mk "m" "Int" [] (.IntNode "0"))] }).set "B"
    { name := "B", base_class := "A",
      features := [.method (MethodNode.mk "m" "Bool" [] (.BoolNode true))] }

/-! ### The method environment seen as the list of the methods entered

While `add_class_to_method_env` runs for one class name, the entries it adds
are those of the methods met so far, the classes of the ancestry root first
and the methods of each class in declaration order. -/

/-- The classes whose methods `add_class_to_method_env` enters, in the order
in which it enters them: the recursion on the base class first. -/
def class_chain (ct : ClassTable) : Nat → ClassNode → Except Failure (List ClassNode)
  | fuel, cls =>
      if cls.name != "Object" then
        match fuel with
        | 0 => .error .nontermination
        | fuel + 1 =>
            match ct.find cls.base_class with
            | none => .error .null_dereference
            | some parent =>
                match class_chain ct fuel parent with
                | .error f => .error f
                | .ok chain => .ok (chain ++ [cls])
      else .ok [cls]

/-- The method loops of a list of classes, one after the other. -/
def add_levels (cls_name : String) : List ClassNode → MethodEnv → Except Failure MethodEnv
  | [], methods => .ok methods
  | cls :: rest, methods =>
      match add_methods cls_name cls.get_methods [] methods with
      | .error f => .error f
      | .ok methods1 => add_levels cls_name rest methods1

/-- The entries of the methods `seen`, the oldest first, under one class
name. -/
def entries (cls_name : String) (seen : List MethodNode) : MethodEnv :=
  seen.reverse.map (fun m => ((cls_name, m.name), m))

/-- The latest of the methods `seen` with the given name. -/
def latest (seen : List MethodNode) (name : String) : Option MethodNode :=
  seen.reverse.find? (fun m => m.name == name)

/-- No formal of the method is named `self` or has type `SELF_TYPE`. -/
def formals_legal (m : MethodNode) : Prop :=
  ∀ formal ∈ m.formals, formal.name ≠ "self" ∧ formal.type ≠ "SELF_TYPE"

/-- Every method of the list passes the checks of the method loop, started
with the methods `seen` entered and the names `added` in `added_methods`. -/
def methods_ok : List MethodNode → List String → List MethodNode → Prop
  | _, _, [] => True
  | seen, added, m :: rest =>
      formals_legal m ∧
      (∀ original, latest seen m.name = some original →
        m.name ∉ added ∧ same_signature m original) ∧
      methods_ok (seen ++ [m]) (m.name :: added) rest

/-- Every class of the list passes its method loop, started with the methods
`seen` entered. -/
def levels_ok : List MethodNode → List ClassNode → Prop
  | _, [] => True
  | seen, cls :: rest =>
      methods_ok seen [] cls.get_methods ∧ levels_ok (seen ++ cls.get_methods) rest

/-- All the methods of a list of classes, in the order of `add_levels`. -/
def all_methods : List ClassNode → List MethodNode
  | [] => []
  | cls :: rest => cls.get_methods ++ all_methods rest

/-- The formals of the methods of a class are legal and no method name is
repeated. -/
def class_ok (cls : ClassNode) : Prop :=
  (∀ m ∈ cls.get_methods, formals_legal m) ∧ (cls.get_methods.map (fun m => m.name)).Nodup

/-- Every method of `cls` has the signature of every method of the same name
of `ancestor`. -/
def overrides_ok (ancestor cls : ClassNode) : Prop :=
  ∀ m ∈ cls.get_methods, ∀ original ∈ ancestor.get_methods,
    original.name = m.name → same_signature m original

/-- Methods of the same name have the same signature. -/
def consistent (seen : List MethodNode) : Prop :=
  ∀ a ∈ seen, ∀ b ∈ seen, a.name = b.name → same_signature a b

/-- The class table of the basic classes with `A { m(x : Int) : Int }` and
`B inherits A { m(y : Int) : Int }`. -/
def same_override_example : ClassTable :=
  (install_basic_classes.set "A"
    { name := "A", base_class := "Object",
      features := [.method (MethodNode.mk "m" "Int" [⟨"x", "Int"⟩] (.IntNode "0"))] }).set "B"
    { name := "B", base_class := "A",
      features := [.method (MethodNode.mk "m" "Int" [⟨"y", "Int"⟩] (.IntNode "1"))] }

/-- The checks of `ClassTable.well_formed` as a test that evaluates. -/
def ClassTable.check_well_formed (ct : ClassTable) : Bool :=
  ct.clsmap.all (fun entry => entry.2.name == entry.1) &&
  decide (ct.clsmap.map (fun entry => entry.1)).Nodup &&
  (ct.find "Object").isSome &&
  ct.clsmap.all (fun entry =>
    match ct.get_ancestry entry.1 with
    | .ok _ => true
    | .error _ => false)

/-! ## Construction of the class table (`ClassTable::ClassTable`)

The functions of the constructor that loop take the number of iterations they
may make as `fuel`; a loop of the source that goes on for ever is one that
returns `Failure.nontermination` for every `fuel`. -/

/-- The test of the constructor for the names of the basic classes. -/
def is_basic_class_name (name : String) : Bool :=
  name == "Int" || name == "String" || name == "Bool" || name == "IO" || name == "Object"

/-- The test of the constructor for the base classes that cannot be inherited
from. -/
def is_final_class_name (parent : String) : Bool :=
  parent == "Int" || parent == "String" || parent == "Bool" || parent == "SELF_TYPE"

/-- The first loop of the constructor: the name checks on each class, which is
then stored with `clsmap[name] = cls`. -/
def add_classes : List ClassNode → ClassTable → Except Failure ClassTable
  | [], ct => .ok ct
  | cls :: rest, ct =>
      if is_basic_class_name cls.name then
        semant_error ("Redefinition of basic class " ++ cls.name ++ ".")
      else if cls.name == "SELF_TYPE" then
        semant_error ("Redefinition of basic class " ++ cls.name ++ ".")
      else if ct.exists cls.name then
        semant_error ("Class " ++ cls.name ++ " was previously defined.")
      else if is_final_class_name cls.base_class then
        semant_error ("Class " ++ cls.name ++ " cannot inherit class " ++ cls.base_class ++ ".")
      else add_classes rest (ct.set cls.name cls)

/-- The first loop of `ClassTable::check_inheritance_graph`, over the entries
of `clsmap` in key order: the base class of every class but `Object` is
defined. -/
def check_parents (ct : ClassTable) : List (String × ClassNode) → Except Failure Unit
  | [] => .ok ()
  | (name, cls) :: rest =>
      if name == "Object" then check_parents ct rest
      else if !ct.exists cls.base_class then
        semant_error ("Class " ++ name ++ " inherits from an undefined class "
          ++ cls.base_class ++ ".")
      else check_parents ct rest

/-- The `while` loop of the cycle check for the class `name`: `ancestor_class`
is the class the walk is at and `ancestor_symbol` its name.  Each iteration
moves to the base class and compares its name with `name` only. -/
def cycle_walk (ct : ClassTable) (name : String) :
    Nat → String → Option ClassNode → Except Failure Unit
  | fuel, ancestor_symbol, ancestor_class =>
      if ancestor_symbol != "Object" then
        match fuel with
        | 0 => .error .nontermination
        | fuel + 1 =>
            match ancestor_class with
            | none => .error .null_dereference
            | some cls =>
                if cls.base_class == name then
                  semant_error ("Class " ++ name ++ " directly or indirectly inherits from itself.")
                else cycle_walk ct name fuel cls.base_class (ct.find cls.base_class)
      else .ok ()

/-- The second loop of `ClassTable::check_inheritance_graph`, over the entries
of `clsmap` in key order. -/
def check_cycles (ct : ClassTable) (fuel : Nat) : List (String × ClassNode) → Except Failure Unit
  | [] => .ok ()
  | (name, cls) :: rest => do
      cycle_walk ct name fuel name (some cls)
      check_cycles ct fuel rest

/-- The method `ClassTable::check_inheritance_graph`. -/
def check_inheritance_graph (ct : ClassTable) (fuel : Nat) : Except Failure Unit := do
  check_parents ct ct.clsmap
  check_cycles ct fuel ct.clsmap

/-- The constructor `ClassTable::ClassTable(classes)`; `fuel` bounds each walk
of the cycle check. -/
def ClassTable.construct (fuel : Nat) (classes : List ClassNode) : Except Failure ClassTable := do
  let ct ← add_classes classes install_basic_classes
  match ct.find "Main" with
  | none => semant_error "Class Main is not defined."
  | some main_class =>
      if !main_class.get_methods.any (fun method => method.name == "main") then
        semant_error "No main() method defined in Main."
      else do
        check_inheritance_graph ct fuel
        pure ct

/-- The class `Main { main() : Int { 0 } }`. -/
def main_class_example : ClassNode :=
  { name := "Main", base_class := "Object",
    features := [.method (MethodNode.mk "main" "Int" [] (.IntNode "0"))] }

/-- The classes `A inherits B`, `B inherits B` and `Main`: `B` is on a cycle
and `A`, which is not, inherits from it. -/
def cycle_example : List ClassNode :=
  [{ name := "A", base_class := "B", features := [] },
   { name := "B", base_class := "B", features := [] },
   main_class_example]

/-- The classes `A`, `B inherits A` and `Main`. -/
def program_example : List ClassNode :=
  [{ name := "A", base_class := "Object", features := [] },
   { name := "B", base_class := "A", features := [] },
   main_class_example]

/-- The definition of the method `m` in the class nearest to the start of the
list `ancestry` that defines `m`: the classes are looked up in the table in the
order of the list, and the first one with a method `m` gives the result. -/
def nearest_definition (ct : ClassTable) : List String → String → Option MethodNode
  | [], _ => none
  | name :: ancestry, m =>
      match ct.find name with
      | none => nearest_definition ct ancestry m
      | some cls =>
          match cls.get_methods.find? (fun method => method.name == m) with
          | some definition => some definition
          | none => nearest_definition ct ancestry m

/-! ## Dispatch tables (`src/compiler/codegen/offsets.cpp`, `print_dispatch_tables`)

The text written to `outfile` is kept as the list of the strings written, in
order.  A `uint` is a natural number below `2 ^ 32`. -/

/-- The two static maps of `offsets.cpp`, each kept as its bindings, the latest
first. -/
structure Offsets where
  attr_offsets : List ((String × String) × Nat)
  method_offsets : List ((String × String) × Nat)

/-- The function `set_attr_offset`. -/
def set_attr_offset (offsets : Offsets) (cls attr : String) (offset : Nat) : Offsets :=
  { offsets with attr_offsets := ((cls, attr), offset) :: offsets.attr_offsets }

/-- The function `get_attr_offset`; `operator[]` gives 0 for a key that is not
in the map. -/
def get_attr_offset (offsets : Offsets) (cls attr : String) : Nat :=
  match offsets.attr_offsets.find? (fun binding => binding.1 == (cls, attr)) with
  | some binding => binding.2
  | none => 0

/-- The function `set_method_offset`, which stores into `attr_offsets`. -/
def set_method_offset (offsets : Offsets) (cls method : String) (offset : Nat) : Offsets :=
  { offsets with attr_offsets := ((cls, method), offset) :: offsets.attr_offsets }

/-- The function `get_method_offset`, which reads `attr_offsets`. -/
def get_method_offset (offsets : Offsets) (cls method : String) : Nat :=
  match offsets.attr_offsets.find? (fun binding => binding.1 == (cls, method)) with
  | some binding => binding.2
  | none => 0

/-- The function `Asm::label`. -/
def Asm.label (label : String) : String :=
  label ++ ":" ++ "\n"

/-- The function `Asm::dd` on a string. -/
def Asm.dd (value : String) : String :=
  "  " ++ "dd " ++ value ++ "\n"

/-- The function `Asm::comment`. -/
def Asm.comment (comment : String) : String :=
  "; " ++ comment ++ "\n"

/-- The loop of `print_dispatch_tables` that checks for overriding: the first
entry of the name is replaced; `none` when `overridden` stays false. -/
def override_entry (clsname method_name : String) :
    List (String × String) → Option (List (String × String))
  | [] => none
  | entry :: rest =>
      if method_name == entry.2 then some ((clsname, method_name) :: rest)
      else (override_entry clsname method_name rest).map (fun rest1 => entry :: rest1)

/-- The loop of `print_dispatch_tables` over the methods of one class of the
ancestry. -/
def add_class_methods (clsname : String) :
    List MethodNode → List (String × String) → List (String × String)
  | [], methods => methods
  | method :: rest, methods =>
      match override_entry clsname method.name methods with
      | some methods1 => add_class_methods clsname rest methods1
      | none => add_class_methods clsname rest (methods ++ [(clsname, method.name)])

/-- The loop of `print_dispatch_tables` over the ancestry read backwards. -/
def collect_methods (ct : ClassTable) :
    List String → List (String × String) → Except Failure (List (String × String))
  | [], methods => .ok methods
  | clsname :: rest, methods =>
      match ct.find clsname with
      | none => .error .null_dereference
      | some inherited_class =>
          collect_methods ct rest (add_class_methods clsname inherited_class.get_methods methods)

/-- The vector `methods` that `print_dispatch_tables` builds for one class. -/
def dispatch_methods (ct : ClassTable) (clsname : String) :
    Except Failure (List (String × String)) := do
  let ancestry ← ct.get_ancestry clsname
  collect_methods ct ancestry.reverse []

/-- The loop of `print_dispatch_tables` that writes the entries of one table
and records their offsets; `count` is the `uint` counter. -/
def emit_dispatch_entries (clsname : String) :
    List (String × String) → Nat → Offsets → List String × Offsets
  | [], _, offsets => ([], offsets)
  | method :: rest, count, offsets =>
      let result := emit_dispatch_entries clsname rest (count + 1)
        (set_method_offset offsets clsname method.2 (4 * count % 4294967296))
      (Asm.dd (method.1 ++ "." ++ method.2) :: result.1, result.2)

/-- The text of the dispatch table of one class. -/
def dispatch_table_text (clsname : String) (methods : List (String × String)) : List String :=
  [Asm.label (clsname ++ "_dispatch_table"), Asm.dd (clsname ++ "._init")]
    ++ methods.map (fun method => Asm.dd (method.1 ++ "." ++ method.2)) ++ ["\n"]

/-- The body of the loop of `print_dispatch_tables` for one class. -/
def print_dispatch_table (ct : ClassTable) (clsname : String) (offsets : Offsets) :
    Except Failure (List String × Offsets) := do
  let methods ← dispatch_methods ct clsname
  let result := emit_dispatch_entries clsname methods 1 offsets
  pure ([Asm.label (clsname ++ "_dispatch_table"), Asm.dd (clsname ++ "._init")]
    ++ result.1 ++ ["\n"], result.2)

/-- The loop of `print_dispatch_tables` over the entries of `clsmap`. -/
def print_dispatch_tables_loop (ct : ClassTable) :
    List (String × ClassNode) → Offsets → Except Failure (List String × Offsets)
  | [], offsets => .ok ([], offsets)
  | entry :: rest, offsets => do
      let table ← print_dispatch_table ct entry.1 offsets
      let tables ← print_dispatch_tables_loop ct rest table.2
      pure (table.1 ++ tables.1, tables.2)

/-- The function `print_dispatch_tables`: the text written and the offsets
recorded. -/
def print_dispatch_tables (ct : ClassTable) (offsets : Offsets) :
    Except Failure (List String × Offsets) := do
  let tables ← print_dispatch_tables_loop ct ct.clsmap offsets
  pure (Asm.comment "dispatch tables" :: tables.1, tables.2)

/-- Modelled from the spec: the class nearest to the start of the list
`ancestry` that defines a method `m`. -/
def nearest_definer (ct : ClassTable) : List String → String → Option String
  | [], _ => none
  | name :: ancestry, m =>
      match ct.find name with
      | none => nearest_definer ct ancestry m
      | some cls =>
          if cls.get_methods.any (fun method => method.name == m) then some name
          else nearest_definer ct ancestry m

/-- Modelled from the spec: a method whose name is not yet in the table goes
to the end of it, one that is keeps its place. -/
def append_new (names : List String) : List String → List String
  | [] => names
  | name :: rest =>
      if name ∈ names then append_new names rest else append_new (names ++ [name]) rest

/-! ## Type annotation (`set_checked_type`) and the analysis of a program

`typecheck_annotate` is `typecheck` together with the annotations it leaves in
the tree.  A `CheckedNode` is an expression node reduced to its kind, its
`checked_type` and the nodes below it; a node is constructed with the checked
type `"_no_type"`, and what a `typecheck` method stores with
`set_checked_type` in a node below it replaces that. -/

/-- The values of the enum `NodeType` of `ast.h` that expression nodes are
constructed with. -/
inductive NodeType where
  | NoExpressionNodeType
  | IntNodeType
  | StringNodeType
  | BoolNodeType
  | IdentifierNodeType
  | AssignmentNodeType
  | NewNodeType
  | IsvoidNodeType
  | PlusNodeType
  | MinusNodeType
  | MultiplicationNodeType
  | DivisionNodeType
  | LTNodeType
  | LTENodeType
  | EQNodeType
  | NegNodeType
  | ComplementNodeType
  | ConditionalNodeType
  | WhileNodeType
  | BlockNodeType
  | LetNodeType
  | LetInitializerType
  | CaseNodeType
  | DispatchNodeType
  | StaticDispatchNodeType
  deriving DecidableEq, Repr

/-- The node type that the constructor of a unary operation passes on. -/
def UnaryOp.node_type : UnaryOp → NodeType
  | .IsvoidNode => .IsvoidNodeType
  | .NegNode => .NegNodeType
  | .ComplementNode => .ComplementNodeType

/-- The node type that the constructor of a binary operation passes on. -/
def BinaryOp.node_type : BinaryOp → NodeType
  | .PlusNode => .PlusNodeType
  | .MinusNode => .MinusNodeType
  | .MultiplicationNode => .MultiplicationNodeType
  | .DivisionNode => .DivisionNodeType
  | .LTNode => .LTNodeType
  | .LTENode => .LTENodeType
  | .EQNode => .EQNodeType

/-- An expression node with its checked type and the expression nodes below
it, in the order of the fields of the class. -/
inductive CheckedNode where
  | mk (node_type : NodeType) (checked_type : String) (children : List CheckedNode)

/-- The kind of the node. -/
def CheckedNode.node_type : CheckedNode → NodeType
  | .mk node_type _ _ => node_type

/-- The method `ExpressionNode::get_checked_type`. -/
def CheckedNode.get_checked_type : CheckedNode → String
  | .mk _ checked_type _ => checked_type

/-- The nodes below the node. -/
def CheckedNode.children : CheckedNode → List CheckedNode
  | .mk _ _ children => children

/-- The method `ExpressionNode::set_checked_type`. -/
def CheckedNode.set_checked_type : CheckedNode → String → CheckedNode
  | .mk node_type _ children, checked_type => .mk node_type checked_type children

/-- The annotations of the operands of `PlusNode`, `MinusNode`,
`MultiplicationNode`, `DivisionNode`, `LTNode` and `LTENode`. -/
def annotate_int_operation (node_type : NodeType) (first_type second_type result : String)
    (first second : CheckedNode) : Except Failure (String × CheckedNode) := do
  let type ← check_int_operands first_type second_type result
  pure (type, .mk node_type "_no_type"
    [first.set_checked_type "Int", second.set_checked_type "Int"])

mutual

/-- The virtual method `ExpressionNode::typecheck` with its annotations: the
inferred type, and the node with the checked types that the method has stored
below it. -/
def typecheck_annotate (ct : ClassTable) (env : TypeEnvironment) :
    ExpressionNode → Except Failure (String × CheckedNode)
  | .NoExpressionNode _ => .ok ("_no_type", .mk .NoExpressionNodeType "_no_type" [])
  | .IntNode _ => .ok ("Int", .mk .IntNodeType "_no_type" [])
  | .StringNode _ => .ok ("String", .mk .StringNodeType "_no_type" [])
  | .BoolNode _ => .ok ("Bool", .mk .BoolNodeType "_no_type" [])
  | .IdentifierNode name =>
      if name == "self" then .ok ("SELF_TYPE", .mk .IdentifierNodeType "_no_type" [])
      else if env.objects.lookup name == "" then
        semant_error ("Undeclared identifier " ++ name ++ ".")
      else .ok (env.objects.lookup name, .mk .IdentifierNodeType "_no_type" [])
  | .AssignmentNode name expr =>
      if name == "self" then semant_error "Cannot assign to 'self'."
      else if env.objects.lookup name == "" then
        semant_error "Target identifier has not been declared"
      else do
        let declared_type := env.objects.lookup name
        let (inferred_type, expression) ← typecheck_annotate ct env expr
        let lub ← ct.least_upper_bound (resolve declared_type env) (resolve inferred_type env)
        if lub != resolve declared_type env then
          semant_error ("Type " ++ inferred_type ++ " of assigned expression does not conform "
            ++ "to declared type " ++ declared_type ++ " of identifier " ++ name ++ ".")
        else
          pure (inferred_type,
            .mk .AssignmentNodeType "_no_type" [expression.set_checked_type inferred_type])
  | .NewNode type =>
      if (ct.find (resolve type env)).isNone then
        semant_error ("'new' keyword used with undefined type " ++ type)
      else .ok (type, .mk .NewNodeType type [])
  | .UnaryOperationNode .IsvoidNode _ expr => do
      let (inferred_type, expression) ← typecheck_annotate ct env expr
      pure ("Bool", .mk .IsvoidNodeType "_no_type" [expression.set_checked_type inferred_type])
  | .UnaryOperationNode .NegNode _ expr => do
      let (inferred_type, expression) ← typecheck_annotate ct env expr
      if inferred_type != "Int" then
        semant_error ("Invalid type " ++ inferred_type ++ " for integer complement operation.")
      else pure ("Int", .mk .NegNodeType "_no_type" [expression.set_checked_type "Int"])
  | .UnaryOperationNode .ComplementNode _ expr => do
      let (inferred_type, expression) ← typecheck_annotate ct env expr
      if inferred_type != "Bool" then
        semant_error ("Invalid type " ++ inferred_type ++ " for not operation.")
      else pure ("Bool", .mk .ComplementNodeType "_no_type" [expression.set_checked_type "Bool"])
  | .BinaryOperationNode op _ first second => do
      let (first_type, first_node) ← typecheck_annotate ct env first
      let (second_type, second_node) ← typecheck_annotate ct env second
      match op with
      | .PlusNode =>
          annotate_int_operation .PlusNodeType first_type second_type "Int" first_node second_node
      | .MinusNode =>
          annotate_int_operation .MinusNodeType first_type second_type "Int" first_node second_node
      | .MultiplicationNode =>
          annotate_int_operation .MultiplicationNodeType first_type second_type "Int"
            first_node second_node
      | .DivisionNode =>
          annotate_int_operation .DivisionNodeType first_type second_type "Int"
            first_node second_node
      | .LTNode =>
          annotate_int_operation .LTNodeType first_type second_type "Bool" first_node second_node
      | .LTENode =>
          annotate_int_operation .LTENodeType first_type second_type "Bool" first_node second_node
      | .EQNode =>
          if illegal_comparison first_type second_type then
            semant_error "Illegal comparison with a basic type."
          else
            pure ("Bool", .mk .EQNodeType "_no_type"
              [first_node.set_checked_type first_type, second_node.set_checked_type second_type])
  | .ConditionalNode predicate then_expr else_expr => do
      let (pred_type, predicate_node) ← typecheck_annotate ct env predicate
      let (then_type, then_node) ← typecheck_annotate ct env then_expr
      let (else_type, else_node) ← typecheck_annotate ct env else_expr
      if pred_type != "Bool" then
        semant_error ("Conditional predicate must be Bool, not " ++ pred_type ++ ".")
      else do
        let node := CheckedNode.mk .ConditionalNodeType "_no_type"
          [predicate_node.set_checked_type "Bool", then_node.set_checked_type then_type,
            else_node.set_checked_type else_type]
        let lub ← ct.least_upper_bound (resolve then_type env) (resolve else_type env)
        if then_type == "SELF_TYPE" && else_type == "SELF_TYPE" then pure ("SELF_TYPE", node)
        else pure (lub, node)
  | .WhileNode predicate body => do
      let (pred_type, predicate_node) ← typecheck_annotate ct env predicate
      let (body_type, body_node) ← typecheck_annotate ct env body
      if pred_type != "Bool" then semant_error "Loop condition does not have type Bool."
      else
        pure ("Object", .mk .WhileNodeType "_no_type"
          [predicate_node.set_checked_type "Bool", body_node.set_checked_type body_type])
  | .BlockNode expressions => do
      let body ← typecheck_annotate_block ct env expressions
      match body.getLast? with
      | some last => pure (last.get_checked_type, .mk .BlockNodeType "_no_type" body)
      | none => .error .out_of_bounds
  | .CaseNode target branches => do
      let (type, target_node) ← typecheck_annotate ct env target
      let (bodies, branch_types) ← typecheck_annotate_case_branches ct env branches []
      let node := CheckedNode.mk .CaseNodeType "_no_type"
        (target_node.set_checked_type type :: bodies)
      if bodies.all (fun body => body.get_checked_type == "SELF_TYPE") then
        pure ("SELF_TYPE", node)
      else do
        let lub ← ct.least_upper_bound_list branch_types
        pure (lub, node)
  | .LetNode initializers body => do
      let (objects, init_nodes) ← typecheck_annotate_let_initializers ct
        { env with objects := env.objects.enter_scope } initializers
      let (type, body_node) ← typecheck_annotate ct { env with objects := objects } body
      pure (type, .mk .LetNodeType "_no_type"
        (init_nodes.map (fun init_expr => CheckedNode.mk .LetInitializerType type [init_expr])
          ++ [body_node.set_checked_type type]))
  | .DispatchNode object method_name parameters => do
      let (object_class, object_node) ← typecheck_annotate ct env object
      let resolved_class := resolve object_class env
      if !env.methods.exists resolved_class method_name then
        semant_error ("Dispatch to undefined method " ++ method_name ++ ".")
      else
        match env.methods.find resolved_class method_name with
        | none => .error .null_dereference
        | some method =>
            if parameters.length != method.formals.length then
              semant_error ("Method " ++ method_name ++ " in class " ++ resolved_class
                ++ " takes " ++ toString method.formals.length ++ " argument(s), "
                ++ toString parameters.length ++ " argument(s) provided.")
            else do
              let parameter_nodes ← typecheck_annotate_parameters ct env method_name none 0
                method.formals parameters
              let node := CheckedNode.mk .DispatchNodeType "_no_type"
                (object_node.set_checked_type object_class :: parameter_nodes)
              if method.type == "SELF_TYPE" then pure (object_class, node)
              else pure (method.type, node)
  | .StaticDispatchNode object method_name static_type parameters => do
      let (object_type, object_node) ← typecheck_annotate ct env object
      let resolved_static_type := resolve static_type env
      let lub ← ct.least_upper_bound (resolve object_type env) resolved_static_type
      if lub != resolved_static_type then
        semant_error ("Expression type " ++ object_type
          ++ " does not conform to declared static dispatch type " ++ static_type ++ ".")
      else if !env.methods.exists resolved_static_type method_name then
        semant_error ("Dispatch to undefined method " ++ method_name ++ ".")
      else
        match env.methods.find resolved_static_type method_name with
        | none => .error .null_dereference
        | some method =>
            if parameters.length != method.formals.length then
              semant_error ("Method " ++ method_name ++ " in class " ++ resolved_static_type
                ++ " takes " ++ toString method.formals.length ++ "argument(s), "
                ++ toString parameters.length ++ " argument(s) provided.")
            else do
              let parameter_nodes ← typecheck_annotate_parameters ct env method_name
                (some resolved_static_type) 0 method.formals parameters
              let node := CheckedNode.mk .DispatchNodeType "_no_type"
                (object_node.set_checked_type object_type :: parameter_nodes)
              if method.type == "SELF_TYPE" then pure (object_type, node)
              else pure (method.type, node)

/-- The loop of `BlockNode::typecheck`: the expressions with their checked
types. -/
def typecheck_annotate_block (ct : ClassTable) (env : TypeEnvironment) :
    List ExpressionNode → Except Failure (List CheckedNode)
  | [] => .ok []
  | expr :: rest => do
      let (type, node) ← typecheck_annotate ct env expr
      let nodes ← typecheck_annotate_block ct env rest
      pure (node.set_checked_type type :: nodes)

/-- The loop over the branches of `CaseNode::typecheck`: the bodies of the
branches with their checked types, and `branch_types`. -/
def typecheck_annotate_case_branches (ct : ClassTable) (env : TypeEnvironment) :
    List (String × String × ExpressionNode) → List String →
      Except Failure (List CheckedNode × List String)
  | [], _ => .ok ([], [])
  | (identifier, declared_type, expression) :: rest, branch_type_declarations => do
      let (inferred_branch_type, body) ← typecheck_annotate ct
        { env with objects := env.objects.enter_scope.add_object identifier declared_type }
        expression
      if branch_type_declarations.contains declared_type then
        semant_error ("Duplicate branch " ++ declared_type ++ " in case statement.")
      else do
        let (bodies, branch_types) ← typecheck_annotate_case_branches ct env rest
          (branch_type_declarations ++ [declared_type])
        pure (body.set_checked_type inferred_branch_type :: bodies,
          resolve inferred_branch_type env :: branch_types)

/-- The loop over the initializers of `LetNode::typecheck`: the object
environment with the variables added, and the initializing expressions with
their checked types. -/
def typecheck_annotate_let_initializers (ct : ClassTable) (env : TypeEnvironment) :
    List (String × String × ExpressionNode) → Except Failure (ObjectEnv × List CheckedNode)
  | [] => .ok (env.objects, [])
  | (name, declared_type, init_expr) :: rest => do
      let (init_type, init_node) ← typecheck_annotate ct env init_expr
      if name == "self" then semant_error "'self' cannot be bound in a 'let' expression."
      else do
        if resolve init_type env != "_no_type" then
          let lub ← ct.least_upper_bound (resolve init_type env) (resolve declared_type env)
          if lub != resolve declared_type env then
            semant_error ("Inferred type " ++ init_type ++ " of initialization of " ++ name
              ++ " does not conform to identifier's declared type " ++ declared_type ++ ".")
        let (objects, init_nodes) ← typecheck_annotate_let_initializers ct
          { env with objects := env.objects.add_object name declared_type } rest
        pure (objects, init_node.set_checked_type init_type :: init_nodes)

/-- The loop over the formals of `DispatchNode::typecheck` and
`StaticDispatchNode::typecheck`: the parameters with their checked types. -/
def typecheck_annotate_parameters (ct : ClassTable) (env : TypeEnvironment)
    (method_name : String) (static_class : Option String) :
    Nat → List FormalNode → List ExpressionNode → Except Failure (List CheckedNode)
  | _, [], _ => .ok []
  | _, _ :: _, [] => .error .out_of_bounds
  | i, formal :: formals, parameter :: parameters => do
      let (parameter_type, parameter_node) ← typecheck_annotate ct env parameter
      let lub ← ct.least_upper_bound formal.type (resolve parameter_type env)
      if lub != formal.type then
        match static_class with
        | none =>
            semant_error ("In call of method " ++ method_name ++ ", type " ++ parameter_type
              ++ " of parameter " ++ formal.name ++ " does not conform to"
              ++ " declared type " ++ formal.type ++ ".")
        | some resolved_static_type =>
            semant_error ("Parameter " ++ toString (i + 1) ++ " of method " ++ method_name
              ++ " in class " ++ resolved_static_type ++ " accepts expressions of type "
              ++ formal.type ++ ", type " ++ parameter_type ++ " provided.")
      else do
        let parameter_nodes ← typecheck_annotate_parameters ct env method_name static_class
          (i + 1) formals parameters
        pure (parameter_node.set_checked_type parameter_type :: parameter_nodes)

end

/-- The loop of `build_class_object_env` over the attributes of the class
`cls_name`. -/
def add_attributes (cls_name : String) :
    List AttributeNode → ObjectEnv → Except Failure ObjectEnv
  | [], objects => .ok objects
  | attr :: rest, objects =>
      if objects.probe attr.name then
        semant_error ("Attribute " ++ attr.name ++ " is already defined in class "
          ++ cls_name ++ " or an inherited class.")
      else if attr.name == "self" then
        semant_error "'self' cannot be the name of an attribute."
      else add_attributes cls_name rest (objects.add_object attr.name attr.type)

/-- The function `build_class_object_env`: first the recursive call on the
base class (`fuel` bounds the depth of the recursion), then the attributes of
`cls`. -/
def build_class_object_env (ct : ClassTable) :
    Nat → ClassNode → ObjectEnv → Except Failure ObjectEnv
  | fuel, cls, objects =>
      if cls.name != "Object" then
        match fuel with
        | 0 => .error .nontermination
        | fuel + 1 =>
            match ct.find cls.base_class with
            | none => .error .null_dereference
            | some parent =>
                match build_class_object_env ct fuel parent objects with
                | .error f => .error f
                | .ok objects1 => add_attributes cls.name cls.get_attributes objects1
      else add_attributes cls.name cls.get_attributes objects

/-- The method `AttributeNode::analyze`: the initializer with its checked
type. -/
def AttributeNode.analyze (ct : ClassTable) (env : TypeEnvironment) (attr : AttributeNode) :
    Except Failure CheckedNode := do
  let (inferred_type, initializer) ← typecheck_annotate ct env attr.expr
  if resolve inferred_type env != "_no_type" then
    let lub ← ct.least_upper_bound (resolve inferred_type env) attr.type
    if lub != attr.type then
      semant_error ("Inferred type of initialization expression " ++ inferred_type
        ++ " does not match " ++ "declared type " ++ attr.type ++ ".")
    else pure (initializer.set_checked_type inferred_type)
  else pure initializer

/-- The loop of `MethodNode::analyze` over the formals. -/
def add_formals : List FormalNode → ObjectEnv → Except Failure ObjectEnv
  | [], objects => .ok objects
  | formal :: rest, objects =>
      if objects.probe formal.name then
        semant_error ("Formal parameter " ++ formal.name ++ " is multiply defined.")
      else add_formals rest (objects.add_object formal.name formal.type)

/-- The method `MethodNode::analyze`: the body with its checked type.  The
least upper bound is computed only when the first operand of `||` is false. -/
def MethodNode.analyze (ct : ClassTable) (env : TypeEnvironment) (method : MethodNode) :
    Except Failure CheckedNode :=
  if method.type != "SELF_TYPE" && !ct.exists method.type then
    semant_error ("Undefined return type " ++ method.type ++ " in method " ++ method.name ++ ".")
  else do
    let objects ← add_formals method.formals env.objects.enter_scope
    let (inferred_type, expression) ← typecheck_annotate ct { env with objects := objects }
      method.expr
    if method.type == "SELF_TYPE" && inferred_type != "SELF_TYPE" then
      semant_error ("Inferred return type " ++ inferred_type ++ " of method " ++ method.name
        ++ " does not conform to declared return type " ++ method.type ++ ".")
    else do
      let lub ← ct.least_upper_bound (resolve method.type env) (resolve inferred_type env)
      if lub != resolve method.type env then
        semant_error ("Inferred return type " ++ inferred_type ++ " of method " ++ method.name
          ++ " does not conform to declared return type " ++ method.type ++ ".")
      else pure (expression.set_checked_type inferred_type)

/-- The virtual method `FeatureNode::analyze`. -/
def FeatureNode.analyze (ct : ClassTable) (env : TypeEnvironment) :
    FeatureNode → Except Failure CheckedNode
  | .attribute a => AttributeNode.analyze ct env a
  | .method m => MethodNode.analyze ct env m

/-- The loop of `ClassNode::analyze` over the features. -/
def analyze_features (ct : ClassTable) (env : TypeEnvironment) :
    List FeatureNode → Except Failure (List CheckedNode)
  | [] => .ok []
  | feature :: rest => do
      let node ← feature.analyze ct env
      let nodes ← analyze_features ct env rest
      pure (node :: nodes)

/-- The method `ClassNode::analyze`, on the method environment and the object
environment it is called with: the initializer or body of each feature with
its annotations.  The scope it enters is left again at the end. -/
def ClassNode.analyze (ct : ClassTable) (methods : MethodEnv) (objects : ObjectEnv)
    (cls : ClassNode) : Except Failure (List CheckedNode) := do
  let objects1 ← build_class_object_env ct (ct.clsmap.length + 1) cls objects.enter_scope
  analyze_features ct
    { objects := objects1.add_object "self" "SELF_TYPE", methods := methods, cls := cls.name }
    cls.features

/-- The loop of `ProgramNode::analyze` over the classes. -/
def analyze_classes (ct : ClassTable) (methods : MethodEnv) :
    List ClassNode → Except Failure (List (List CheckedNode))
  | [] => .ok []
  | cls :: rest => do
      let nodes ← ClassNode.analyze ct methods ([] : ObjectEnv) cls
      let others ← analyze_classes ct methods rest
      pure (nodes :: others)

/-- The method `ProgramNode::analyze`: the class table, and for every class
of the program the annotated initializers and bodies of its features; `fuel`
bounds the walks of the cycle check. -/
def ProgramNode.analyze (fuel : Nat) (classes : List ClassNode) :
    Except Failure (ClassTable × List (List CheckedNode)) := do
  let ct ← ClassTable.construct fuel classes
  let methods ← build_method_env ct
  let nodes ← analyze_classes ct methods classes
  pure (ct, nodes)

mutual

/-- The node and all the nodes below it. -/
def CheckedNode.nodes : CheckedNode → List CheckedNode
  | .mk node_type checked_type children =>
      .mk node_type checked_type children :: CheckedNode.nodes_of_list children

/-- The nodes of a list of trees. -/
def CheckedNode.nodes_of_list : List CheckedNode → List CheckedNode
  | [] => []
  | node :: rest => node.nodes ++ CheckedNode.nodes_of_list rest

end

/-- Whether the expression is a `NoExpressionNode`. -/
def is_no_expression : ExpressionNode → Bool
  | .NoExpressionNode _ => true
  | _ => false

mutual

/-- An expression as the parser builds it: a `NoExpressionNode` stands only for
the absent initializer of a `let` variable, and the declared types of `let`
variables and `case` branches are type identifiers, never `"_no_type"`. -/
def as_parsed : ExpressionNode → Bool
  | .NoExpressionNode _ => false
  | .IntNode _ => true
  | .StringNode _ => true
  | .BoolNode _ => true
  | .IdentifierNode _ => true
  | .AssignmentNode _ expr => as_parsed expr
  | .NewNode _ => true
  | .UnaryOperationNode _ _ expr => as_parsed expr
  | .BinaryOperationNode _ _ first second => as_parsed first && as_parsed second
  | .ConditionalNode predicate then_expr else_expr =>
      as_parsed predicate && as_parsed then_expr && as_parsed else_expr
  | .WhileNode predicate body => as_parsed predicate && as_parsed body
  | .BlockNode expressions => as_parsed_list expressions
  | .LetNode initializers body => as_parsed_initializers initializers && as_parsed body
  | .CaseNode target branches => as_parsed target && as_parsed_branches branches
  | .DispatchNode object _ parameters => as_parsed object && as_parsed_list parameters
  | .StaticDispatchNode object _ _ parameters => as_parsed object && as_parsed_list parameters

/-- Every expression of the list is as the parser builds it. -/
def as_parsed_list : List ExpressionNode → Bool
  | [] => true
  | expr :: rest => as_parsed expr && as_parsed_list rest

/-- The initializers of a `let` as the parser builds them. -/
def as_parsed_initializers : List (String × String × ExpressionNode) → Bool
  | [] => true
  | (_, declared_type, init_expr) :: rest =>
      declared_type != "_no_type" && (is_no_expression init_expr || as_parsed init_expr)
        && as_parsed_initializers rest

/-- The branches of a `case` as the parser builds them. -/
def as_parsed_branches : List (String × String × ExpressionNode) → Bool
  | [] => true
  | (_, declared_type, expression) :: rest =>
      declared_type != "_no_type" && as_parsed expression && as_parsed_branches rest

end

/-- A feature as the parser builds it: the declared types are type
identifiers, and a `NoExpressionNode` stands only for the absent initializer of
an attribute. -/
def feature_as_parsed : FeatureNode → Bool
  | .attribute attr =>
      attr.type != "_no_type" && (is_no_expression attr.expr || as_parsed attr.expr)
  | .method method =>
      method.type != "_no_type" && method.formals.all (fun formal => formal.type != "_no_type")
        && as_parsed method.expr

/-- A class as the parser builds it. -/
def class_as_parsed (cls : ClassNode) : Bool :=
  cls.name != "_no_type" && cls.features.all feature_as_parsed

/-- The program of the classes `A { x : Int; f(y : Int) : Int { let z : Int in
x + y } }` and `Main`. -/
def annotation_example : List ClassNode :=
  [{ name := "A", base_class := "Object",
     features := [.attribute { name := "x", type := "Int", expr := .NoExpressionNode "Int" },
       .method (MethodNode.mk "f" "Int" [⟨"y", "Int"⟩]
         (.LetNode [("z", "Int", .NoExpressionNode "Int")]
           (.BinaryOperationNode .PlusNode false (.IdentifierNode "x") (.IdentifierNode "y"))))] },
   main_class_example]

/-- Every node of the tree that is not a `NoExpressionNode` has a checked type
other than `"_no_type"`. -/
def CheckedNode.annotated (node : CheckedNode) : Prop :=
  ∀ x ∈ node.nodes, x.node_type ≠ .NoExpressionNodeType → x.get_checked_type ≠ "_no_type"

/-- No variable of the object environment has the type `"_no_type"`. -/
def objects_typed (objects : ObjectEnv) : Prop :=
  ∀ scope ∈ objects, ∀ binding ∈ scope, binding.2 ≠ "_no_type"

/-- The environment and the class table know no type `"_no_type"`: no
variable and no method has it, and no class has it as name. -/
def env_typed (ct : ClassTable) (env : TypeEnvironment) : Prop :=
  objects_typed env.objects ∧ (∀ binding ∈ env.methods, binding.2.type ≠ "_no_type") ∧
    env.cls ≠ "_no_type" ∧ ct.exists "_no_type" = false

/-- What a call of `typecheck` on an expression as parsed leaves: a type other
than `"_no_type"` and all the nodes below the expression annotated. -/
def well_annotated (result : String × CheckedNode) : Prop :=
  result.1 ≠ "_no_type" ∧ result.2.node_type ≠ .NoExpressionNodeType ∧
    ∀ child ∈ result.2.children, child.annotated

mutual

/-- The node types of the expression nodes of an expression, the node itself
first and then the nodes below it in the order of the fields.  A
`StaticDispatchNode` is constructed with `DispatchNodeType`. -/
def ExpressionNode.node_types : ExpressionNode → List NodeType
  | .NoExpressionNode _ => [.NoExpressionNodeType]
  | .IntNode _ => [.IntNodeType]
  | .StringNode _ => [.StringNodeType]
  | .BoolNode _ => [.BoolNodeType]
  | .IdentifierNode _ => [.IdentifierNodeType]
  | .AssignmentNode _ expr => .AssignmentNodeType :: expr.node_types
  | .NewNode _ => [.NewNodeType]
  | .UnaryOperationNode op _ expr => op.node_type :: expr.node_types
  | .BinaryOperationNode op _ first second =>
      op.node_type :: (first.node_types ++ second.node_types)
  | .ConditionalNode predicate then_expr else_expr =>
      .ConditionalNodeType ::
        (predicate.node_types ++ (then_expr.node_types ++ else_expr.node_types))
  | .WhileNode predicate body => .WhileNodeType :: (predicate.node_types ++ body.node_types)
  | .BlockNode expressions => .BlockNodeType :: ExpressionNode.node_types_list expressions
  | .LetNode initializers body =>
      .LetNodeType :: (ExpressionNode.node_types_initializers initializers ++ body.node_types)
  | .CaseNode target branches =>
      .CaseNodeType :: (target.node_types ++ ExpressionNode.node_types_branches branches)
  | .DispatchNode object _ parameters =>
      .DispatchNodeType :: (object.node_types ++ ExpressionNode.node_types_list parameters)
  | .StaticDispatchNode object _ _ parameters =>
      .DispatchNodeType :: (object.node_types ++ ExpressionNode.node_types_list parameters)

/-- The node types of the expression nodes of a list of expressions. -/
def ExpressionNode.node_types_list : List ExpressionNode → List NodeType
  | [] => []
  | expr :: rest => expr.node_types ++ ExpressionNode.node_types_list rest

/-- The node types of the expression nodes of the initializers of a `let`:
each `LetInitializerNode` and the nodes of its expression. -/
def ExpressionNode.node_types_initializers :
    List (String × String × ExpressionNode) → List NodeType
  | [] => []
  | (_, _, init_expr) :: rest =>
      .LetInitializerType :: (init_expr.node_types ++ ExpressionNode.node_types_initializers rest)

/-- The node types of the expression nodes of the branches of a `case`. -/
def ExpressionNode.node_types_branches :
    List (String × String × ExpressionNode) → List NodeType
  | [] => []
  | (_, _, expression) :: rest =>
      expression.node_types ++ ExpressionNode.node_types_branches rest

end

/-- The node types of the nodes of an annotated tree. -/
def CheckedNode.node_types (node : CheckedNode) : List NodeType :=
  node.nodes.map (fun x => x.node_type)

/-- The initializer of an attribute or the body of a method. -/
def FeatureNode.get_expr : FeatureNode → ExpressionNode
  | .attribute a => a.expr
  | .method m => m.expr

/-! ## Lexer (`src/compiler/lexer/lexer.h`, `src/compiler/lexer/lexer.cpp`) -/

/-- The enumeration `LexState`. -/
inductive LexState where
  | DEFAULT_SCAN | SINGLE_LINE_COMMENT_SCAN | MULTI_LINE_COMMENT_SCAN | STRING_SCAN
  | ESCAPED_STRING_SCAN | SCAN_ERROR | BROKEN_STRING_SCAN
  deriving DecidableEq, Repr

/-- The fields of the class `Scanner`, together with the stream it reads:
`program` is the text from the get pointer of the stream to its end and `eof` is
the eofbit of the stream. -/
structure Scanner where
  program : List Char
  eof : Bool
  token_stream : List Token
  line_number : Nat
  string_builder : List Char
  error_message : String
  state : LexState
  deriving DecidableEq, Repr

/-- The constant `Constants::MaxStringSize` of `consts.h`. -/
def MaxStringSize : Nat := 1025

/-- The longest run of whitespace, of digits or of word characters for which
the statements about words and gaps of any length are made.  The source has no
such bound: `std::regex_search` follows a run by recursion, one level for each
character, and returns only when its stack suffices. -/
def max_run : Nat := 1024

/-- The class `[a-z]`. -/
def is_lower (c : Char) : Bool := decide ('a'.toNat ≤ c.toNat ∧ c.toNat ≤ 'z'.toNat)

/-- The class `[A-Z]`. -/
def is_upper (c : Char) : Bool := decide ('A'.toNat ≤ c.toNat ∧ c.toNat ≤ 'Z'.toNat)

/-- The class `[0-9]`. -/
def is_digit (c : Char) : Bool := decide ('0'.toNat ≤ c.toNat ∧ c.toNat ≤ '9'.toNat)

/-- The class `[a-zA-Z0-9_]`, which is also the class of word characters of
`\b`. -/
def is_word_char (c : Char) : Bool := is_lower c || is_upper c || is_digit c || c == '_'

/-- The class `[ \t\v\r\f\n]` of `whitespace_regex`. -/
def is_whitespace (c : Char) : Bool :=
  c == ' ' || c == '\t' || c == '\x0b' || c == '\r' || c == '\x0c' || c == '\n'

/-- What `tolower` does to a `char` in the C locale; the flag `icase` compares
characters through it. -/
def to_lower (c : Char) : Char := if is_upper c then Char.ofNat (c.toNat + 32) else c

/-- The anchor `\b` at a position that follows a word character: the text
ends there or goes on with a character that is not a word character. -/
def at_word_boundary (next : List Char) : Bool :=
  match next with
  | [] => true
  | c :: _ => !is_word_char c

/-- A search for `^text` with every character of `text` taken literally: what
follows the match. -/
def match_literal : List Char → List Char → Option (List Char)
  | [], next => some next
  | _ :: _, [] => none
  | p :: text, c :: next => if c = p then match_literal text next else none

/-- A search for `^word` under the flag `icase`: what follows the match. -/
def match_icase : List Char → List Char → Option (List Char)
  | [], next => some next
  | _ :: _, [] => none
  | p :: word, c :: next => if to_lower c = to_lower p then match_icase word next else none

/-- A search for a sequence of bracket expressions, each given by the list of
its characters: what follows the match. -/
def match_sets : List (List Char) → List Char → Option (List Char)
  | [], next => some next
  | _ :: _, [] => none
  | set :: sets, c :: next => if c ∈ set then match_sets sets next else none

/-- The shapes of the regular expressions in the map `patterns`. -/
inductive Pattern where
  /-- The expression `^word\b` compiled with `icase`. -/
  | keyword (word : List Char)
  /-- The expression `^text` for a text of punctuation characters. -/
  | literal (text : List Char)
  /-- The expression `^[a-z][a-zA-Z0-9_]*\b`. -/
  | obj_identifier
  /-- The expression `^[A-Z][a-zA-Z0-9_]*\b`. -/
  | type_identifier
  /-- The expression `^[0-9]+`. -/
  | integer
  /-- The expression `^(t[rR][uU][eE]|f[aA][lL][sS][eE])\b`. -/
  | bool
  deriving DecidableEq, Repr

/-- The call `std::regex_search(next, match, regex)`: the length of
`match.str()` when the expression matches at the start of `next`.  The star
and the plus take the longest run; after a run of word characters `\b` holds.
The result is that of a call that returns; the stack that the call needs for a
long run is not modelled (see `max_run`). -/
def Pattern.search (pattern : Pattern) (next : List Char) : Option Nat :=
  match pattern with
  | .keyword word =>
      match match_icase word next with
      | some rest => if at_word_boundary rest then some word.length else none
      | none => none
  | .literal text =>
      match match_literal text next with
      | some _ => some text.length
      | none => none
  | .obj_identifier =>
      match next with
      | c :: rest => if is_lower c then some (1 + (rest.takeWhile is_word_char).length) else none
      | [] => none
  | .type_identifier =>
      match next with
      | c :: rest => if is_upper c then some (1 + (rest.takeWhile is_word_char).length) else none
      | [] => none
  | .integer =>
      match next with
      | c :: rest => if is_digit c then some (1 + (rest.takeWhile is_digit).length) else none
      | [] => none
  | .bool =>
      match match_sets [['t'], ['r', 'R'], ['u', 'U'], ['e', 'E']] next with
      | some rest => if at_word_boundary rest then some 4 else none
      | none =>
          match match_sets [['f'], ['a', 'A'], ['l', 'L'], ['s', 'S'], ['e', 'E']] next with
          | some rest => if at_word_boundary rest then some 5 else none
          | none => none

/-- The map `patterns` of `lexer.h`, in the order in which a `std::map` is
traversed: by increasing key, that is in the order of the enumeration
`TokenType`. -/
def patterns : List (TokenType × Pattern) :=
  [ (.CLASS, .keyword ['c', 'l', 'a', 's', 's']),
    (.IF, .keyword ['i', 'f']),
    (.ELSE, .keyword ['e', 'l', 's', 'e']),
    (.FI, .keyword ['f', 'i']),
    (.IN, .keyword ['i', 'n']),
    (.INHERITS, .keyword ['i', 'n', 'h', 'e', 'r', 'i', 't', 's']),
    (.LET, .keyword ['l', 'e', 't']),
    (.LOOP, .keyword ['l', 'o', 'o', 'p']),
    (.POOL, .keyword ['p', 'o', 'o', 'l']),
    (.THEN, .keyword ['t', 'h', 'e', 'n']),
    (.WHILE, .keyword ['w', 'h', 'i', 'l', 'e']),
    (.CASE, .keyword ['c', 'a', 's', 'e']),
    (.ESAC, .keyword ['e', 's', 'a', 'c']),
    (.OF, .keyword ['o', 'f']),
    (.NEW, .keyword ['n', 'e', 'w']),
    (.ISVOID, .keyword ['i', 's', 'v', 'o', 'i', 'd']),
    (.NOT, .keyword ['n', 'o', 't']),
    (.BOOL, .bool),
    (.INTEGER, .integer),
    (.OBJ_IDENTIFIER, .obj_identifier),
    (.TYPE_IDENTIFIER, .type_identifier),
    (.PLUS, .literal ['+']),
    (.MINUS, .literal ['-']),
    (.MULTIPLICATION, .literal ['*']),
    (.DIVISION, .literal ['/']),
    (.LT, .literal ['<']),
    (.EQ, .literal ['=']),
    (.LTE, .literal ['<', '=']),
    (.PARENTHESIS_OPEN, .literal ['(']),
    (.PARENTHESIS_CLOSE, .literal [')']),
    (.CURLY_BRACKET_OPEN, .literal ['{']),
    (.CURLY_BRACKET_CLOSE, .literal ['}']),
    (.COLON, .literal [':']),
    (.SEMICOLON, .literal [';']),
    (.DOT, .literal ['.']),
    (.COMMA, .literal [',']),
    (.AT, .literal ['@']),
    (.SQUIGGLE, .literal ['~']),
    (.ARROW, .literal ['=', '>']),
    (.ASSIGN, .literal ['<', '-']) ]

/-- The list `matches` of `default_scan`: every pattern that matches at the
start of `next`, with the length of its match, in the order of `patterns`. -/
def find_matches (next : List Char) : List (TokenType × Nat) :=
  patterns.filterMap fun pattern => (pattern.2.search next).map fun length => (pattern.1, length)

/-- The call `std::max_element` with the comparison `len_a < len_b`: the first
of the longest matches. -/
def max_element : List (TokenType × Nat) → Option (TokenType × Nat)
  | [] => none
  | first :: rest =>
      some (rest.foldl (fun largest m => if largest.2 < m.2 then m else largest) first)

/-- The `switch (token_type)` of `default_scan`: the token made from a match. -/
def make_token (token_type : TokenType) (match_str : List Char) (line_number : Nat) : Token :=
  match token_type with
  | .BOOL => .BoolToken (match_str.head? == some 't') line_number
  | .INTEGER => .IntToken (String.mk match_str) line_number
  | .TYPE_IDENTIFIER => .TypeIdToken (String.mk match_str) line_number
  | .OBJ_IDENTIFIER => .ObjIdToken (String.mk match_str) line_number
  | _ => .BaseToken token_type line_number

/-- The loop of `Scanner::single_line_comment_scan`. -/
def single_line_comment_loop (s : Scanner) : List Char → Scanner
  | [] => { s with program := [], eof := true }
  | c :: rest =>
      if c = '\n' then
        { s with program := rest, line_number := s.line_number + 1, state := .DEFAULT_SCAN }
      else single_line_comment_loop s rest

/-- The method `Scanner::single_line_comment_scan`. -/
def single_line_comment_scan (s : Scanner) : Scanner :=
  single_line_comment_loop s s.program

/-- The loop of `Scanner::multi_line_comment_scan` from its second pass on,
and in its first pass when the text has not ended: `next` is the text at
`cursor`.  When `next` is empty the `get` at the end of the pass before has set
the eofbit. -/
def multi_line_comment_loop (s : Scanner) : List Char → Nat → Nat → Scanner
  | [], _, line_number =>
      { s with program := [], eof := true, line_number := line_number,
               error_message := "EOF in comment",
               token_stream := s.token_stream ++ [.ErrorToken "EOF in comment" line_number] }
  | [c], nested_count, line_number =>
      multi_line_comment_loop s [] nested_count (if c = '\n' then line_number + 1 else line_number)
  | c :: d :: rest, nested_count, line_number =>
      if c = '(' ∧ d = '*' then
        multi_line_comment_loop s rest (nested_count + 1) line_number
      else if c = '*' ∧ d = ')' then
        if nested_count - 1 = 0 then
          { s with program := rest, line_number := line_number, state := .DEFAULT_SCAN }
        else multi_line_comment_loop s rest (nested_count - 1) line_number
      else
        multi_line_comment_loop s (d :: rest) nested_count
          (if c = '\n' then line_number + 1 else line_number)

/-- The method `Scanner::multi_line_comment_scan`.  When the text ends right
after the opening `(*`, the first pass moves `cursor` past the end, `seekg`
fails, `get` sets the failbit only, and the second pass calls
`program_str.substr(cursor)` with `cursor > size()`, which throws. -/
def multi_line_comment_scan (s : Scanner) : Except Failure Scanner :=
  match s.program with
  | [] => .error .out_of_bounds
  | next => .ok (multi_line_comment_loop s next 1 s.line_number)

/-- The loop of `Scanner::string_scan`. -/
def string_scan_loop (s : Scanner) : List Char → List Char → Scanner
  | [], string_builder =>
      { s with program := [], eof := true, string_builder := string_builder,
               error_message := "EOF in string constant",
               token_stream :=
                 s.token_stream ++ [.ErrorToken "EOF in string constant" s.line_number] }
  | c :: rest, string_builder =>
      if string_builder.length + 1 > MaxStringSize then
        { s with program := rest, string_builder := [],
                 error_message := "String constant too long", state := .BROKEN_STRING_SCAN }
      else if c = '"' then
        { s with program := rest, string_builder := [], state := .DEFAULT_SCAN,
                 token_stream :=
                   s.token_stream ++ [.StringToken (String.mk string_builder) s.line_number] }
      else if c = '\\' then
        { s with program := rest, string_builder := string_builder,
                 state := .ESCAPED_STRING_SCAN }
      else if c = '\n' then
        { s with program := rest, string_builder := [], line_number := s.line_number + 1,
                 error_message := "Unterminated string constant", state := .SCAN_ERROR }
      else if c = '\x00' then
        { s with program := rest, string_builder := string_builder,
                 error_message := "String contains null character.",
                 state := .BROKEN_STRING_SCAN }
      else string_scan_loop s rest (string_builder ++ [c])

/-- The method `Scanner::string_scan`. -/
def string_scan (s : Scanner) : Scanner :=
  string_scan_loop s s.program s.string_builder

/-- The method `Scanner::escaped_string_scan`. -/
def escaped_string_scan (s : Scanner) : Scanner :=
  match s.program with
  | [] =>
      { s with eof := true, error_message := "EOF in string constant",
               token_stream :=
                 s.token_stream ++ [.ErrorToken "EOF in string constant" s.line_number] }
  | c :: rest =>
      if c = '\x00' then
        { s with program := rest, error_message := "String contains escaped null character.",
                 state := .BROKEN_STRING_SCAN }
      else if c = '\n' then
        { s with program := rest, line_number := s.line_number + 1,
                 string_builder := s.string_builder ++ ['\n'], state := .STRING_SCAN }
      else if c = 'n' then
        { s with program := rest, string_builder := s.string_builder ++ ['\n'],
                 state := .STRING_SCAN }
      else if c = 't' then
        { s with program := rest, string_builder := s.string_builder ++ ['\t'],
                 state := .STRING_SCAN }
      else if c = 'b' then
        { s with program := rest, string_builder := s.string_builder ++ ['\x08'],
                 state := .STRING_SCAN }
      else if c = 'f' then
        { s with program := rest, string_builder := s.string_builder ++ ['\x0c'],
                 state := .STRING_SCAN }
      else
        { s with program := rest, string_builder := s.string_builder ++ [c],
                 state := .STRING_SCAN }

/-- The loop of `Scanner::broken_string_scan`.  It does not test for the end
of the text: there `get` returns `EOF` again and again, which is none of the
three characters of the `switch`, and the loop never ends. -/
def broken_string_loop (s : Scanner) : List Char → Bool → Nat → Except Failure Scanner
  | [], _, _ => .error .nontermination
  | c :: rest, escaped, line_number =>
      if c = '\\' then broken_string_loop s rest true line_number
      else if c = '\n' then
        if !escaped then
          .ok { s with program := rest, line_number := line_number + 1, state := .DEFAULT_SCAN }
        else broken_string_loop s rest escaped (line_number + 1)
      else if c = '"' then
        .ok { s with program := rest, line_number := line_number, state := .DEFAULT_SCAN }
      else broken_string_loop s rest false line_number

/-- The method `Scanner::broken_string_scan`. -/
def broken_string_scan (s : Scanner) : Except Failure Scanner :=
  broken_string_loop s s.program false s.line_number

/-- The method `Scanner::default_scan`.  When no pattern matches,
`error_message = program.get()` stores the character read, which at the end of
the text is `(char) EOF` and sets the eofbit. -/
def default_scan (s : Scanner) : Scanner :=
  let match_str := s.program.takeWhile is_whitespace
  let next := s.program.dropWhile is_whitespace
  let line_number := s.line_number + match_str.count '\n'
  match match_literal ['-', '-'] next with
  | some rest =>
      { s with program := rest, line_number := line_number,
               state := .SINGLE_LINE_COMMENT_SCAN }
  | none =>
  match match_literal ['(', '*'] next with
  | some rest =>
      { s with program := rest, line_number := line_number, state := .MULTI_LINE_COMMENT_SCAN }
  | none =>
  match match_literal ['"'] next with
  | some rest => { s with program := rest, line_number := line_number, state := .STRING_SCAN }
  | none =>
  match match_literal ['*', ')'] next with
  | some rest =>
      { s with program := rest, line_number := line_number, error_message := "Unmatched *)",
               state := .SCAN_ERROR }
  | none =>
  match max_element (find_matches next) with
  | none =>
      match next with
      | [] =>
          { s with program := [], eof := true, line_number := line_number,
                   error_message := String.singleton (Char.ofNat 255), state := .SCAN_ERROR }
      | c :: rest =>
          { s with program := rest, line_number := line_number,
                   error_message := String.singleton c, state := .SCAN_ERROR }
  | some (token_type, length) =>
      { s with program := next.drop length, line_number := line_number,
               token_stream :=
                 s.token_stream ++ [make_token token_type (next.take length) line_number] }

/-- One pass of the loop of `Scanner::scan`: the `switch (state)`. -/
def Scanner.step (s : Scanner) : Except Failure Scanner :=
  match s.state with
  | .SINGLE_LINE_COMMENT_SCAN => .ok (single_line_comment_scan s)
  | .MULTI_LINE_COMMENT_SCAN => multi_line_comment_scan s
  | .STRING_SCAN => .ok (string_scan s)
  | .ESCAPED_STRING_SCAN => .ok (escaped_string_scan s)
  | .BROKEN_STRING_SCAN =>
      broken_string_scan
        { s with token_stream := s.token_stream ++ [.ErrorToken s.error_message s.line_number] }
  | .SCAN_ERROR =>
      .ok { s with token_stream := s.token_stream ++ [.ErrorToken s.error_message s.line_number],
                   state := .DEFAULT_SCAN }
  | .DEFAULT_SCAN => .ok (default_scan s)

/-- The loop `while (!program.eof())` of `Scanner::scan`, for at most `fuel`
passes. -/
def scan_loop : Nat → Scanner → Except Failure (List Token)
  | 0, s => if s.eof then .ok s.token_stream else .error .out_of_fuel
  | fuel + 1, s =>
      if s.eof then .ok s.token_stream
      else
        match s.step with
        | .ok next => scan_loop fuel next
        | .error e => .error e

/-- The scanner as `main` constructs it, in front of the text `program`. -/
def Scanner.init (program : List Char) : Scanner :=
  { program := program, eof := false, token_stream := [], line_number := 1,
    string_builder := [], error_message := "", state := .DEFAULT_SCAN }

/-- The method `Scanner::scan` on a fresh scanner.  Every pass but the one that
follows a `SCAN_ERROR` reads a character or sets the eofbit, so twice the
length of the text and two more passes are enough. -/
def Scanner.scan (program : List Char) : Except Failure (List Token) :=
  scan_loop (2 * program.length + 2) (Scanner.init program)

/-- Passes of the loop of `Scanner::scan` that can still follow: every pass
reads at least one character, sets the eofbit, or leaves `SCAN_ERROR`. -/
def Scanner.passes_left (s : Scanner) : Nat :=
  2 * s.program.length + (if s.state = .SCAN_ERROR then 1 else 0)

/-- The result of the loop of `Scanner::scan` started at `s`, with the passes
that `s` can still need. -/
def Scanner.run (s : Scanner) : Except Failure (List Token) :=
  scan_loop (s.passes_left + 1) s

/-- Modelled from the spec: the text closes a block comment that is open, with
`depth` more comments open inside it.  Read from left to right, `(*` opens a
comment and `*)` closes the innermost one; the text ends with the `*)` that
closes the outermost. -/
def closes_comment : List Char → Nat → Bool
  | [], _ => false
  | [_], _ => false
  | c :: d :: rest, depth =>
      if c = '(' ∧ d = '*' then closes_comment rest (depth + 1)
      else if c = '*' ∧ d = ')' then
        if depth = 0 then rest.isEmpty else closes_comment rest (depth - 1)
      else closes_comment (d :: rest) depth

/-- Modelled from the spec: a block comment whose delimiters are properly
nested. -/
def is_block_comment (text : List Char) : Bool :=
  match text with
  | c :: d :: body => c = '(' ∧ d = '*' ∧ closes_comment body 0
  | _ => false

/-- The token with its line number increased by `k`. -/
def Token.shift (k : Nat) : Token → Token
  | .BaseToken type line_number => .BaseToken type (line_number + k)
  | .StringToken value line_number => .StringToken value (line_number + k)
  | .BoolToken value line_number => .BoolToken value (line_number + k)
  | .IntToken value line_number => .IntToken value (line_number + k)
  | .TypeIdToken value line_number => .TypeIdToken value (line_number + k)
  | .ObjIdToken value line_number => .ObjIdToken value (line_number + k)
  | .ErrorToken msg line_number => .ErrorToken msg (line_number + k)

/-- The scanner `k` lines further down. -/
def Scanner.shift (k : Nat) (s : Scanner) : Scanner :=
  { s with line_number := s.line_number + k,
           token_stream := s.token_stream.map (Token.shift k) }

/-- The keywords of `patterns` with their token types, in the order of the
map. -/
def keywords : List (TokenType × List Char) :=
  patterns.filterMap fun pattern =>
    match pattern.2 with
    | .keyword word => some (pattern.1, word)
    | _ => none

/-- The operators and punctuation marks of `patterns` with their token types,
in the order of the map. -/
def punctuation : List (TokenType × List Char) :=
  patterns.filterMap fun pattern =>
    match pattern.2 with
    | .literal text => some (pattern.1, text)
    | _ => none

/-- A word: a letter followed by letters, digits and underscores. -/
def is_word (w : List Char) : Bool :=
  match w with
  | [] => false
  | c :: rest => (is_lower c || is_upper c) && rest.all is_word_char

/-- The word is one of the spellings of `true` and `false` that the pattern of
`BOOL` admits. -/
def is_bool_word (w : List Char) : Bool :=
  match_sets [['t'], ['r', 'R'], ['u', 'U'], ['e', 'E']] w == some [] ||
  match_sets [['f'], ['a', 'A'], ['l', 'L'], ['s', 'S'], ['e', 'E']] w == some []

/-- The word is a keyword in some letter case. -/
def is_keyword_word (w : List Char) : Bool :=
  keywords.any fun keyword => w.map to_lower == keyword.2

/-- The identifier token of a word: an object identifier when its first letter
is a small one, a type identifier otherwise. -/
def identifier_token (w : List Char) (line_number : Nat) : Token :=
  if is_lower (w.headD 'A') then .ObjIdToken (String.mk w) line_number
  else .TypeIdToken (String.mk w) line_number

/-- The static variables `class_tag_num` and `class_tag_map` of
`classtag.cpp`; the map is kept as its bindings. -/
structure ClassTags where
  class_tag_num : Nat
  class_tag_map : List (String × Nat)

/-- The function `get_class_tag`. -/
def get_class_tag (tags : ClassTags) (cls : String) : Nat × ClassTags :=
  match tags.class_tag_map.find? (fun binding => binding.1 == cls) with
  | some binding => (binding.2, tags)
  | none =>
      (tags.class_tag_num,
        { class_tag_num := (tags.class_tag_num + 1) % 4294967296,
          class_tag_map := (cls, tags.class_tag_num) :: tags.class_tag_map })

/-- A string written to `outfile`: the result of `Asm::label`, of `Asm::dd`
(on a string, or on a number written in decimal), of `Asm::comment`, or a
newline (`Asm::newline()`, `std::endl`). -/
inductive Line where
  | label (label : String)
  | dd (value : String)
  | comment (comment : String)
  | newline
  deriving DecidableEq, Repr

/-- The string of a line. -/
def Line.text : Line → String
  | .label name => Asm.label name
  | .dd value => Asm.dd value
  | .comment text => Asm.comment text
  | .newline => "\n"

/-- The loop of `calculate_obj_size`; `size` is a `uint`. -/
def count_attributes (ct : ClassTable) : List String → Nat → Except Failure Nat
  | [], size => .ok size
  | clsname :: rest, size =>
      match ct.find clsname with
      | none => .error .null_dereference
      | some inherited_class =>
          count_attributes ct rest ((size + inherited_class.get_attributes.length) % 4294967296)

/-- The function `calculate_obj_size`. -/
def calculate_obj_size (ct : ClassTable) (cls : ClassNode) : Except Failure Nat := do
  let ancestry ← ct.get_ancestry cls.name
  let size ← count_attributes ct ancestry 5
  pure (size * 4 % 4294967296)

/-- The word that `build_class_prototypes` writes for an attribute, by its
declared type. -/
def attribute_word (attr : AttributeNode) : String :=
  if attr.type == "String" then "uninitialized_string"
  else if attr.type == "Int" then "uninitialized_int"
  else if attr.type == "Bool" then "uninitialized_bool"
  else toString 0

/-- The loop of `build_class_prototypes` over the attributes of one class of
the ancestry: the lines written, the counter and the offsets afterwards. -/
def emit_attributes (clsname : String) :
    List AttributeNode → Nat → Offsets → List Line × Nat × Offsets
  | [], count, offsets => ([], count, offsets)
  | attr :: rest, count, offsets =>
      let result := emit_attributes clsname rest ((count + 1) % 4294967296)
        (set_attr_offset offsets clsname attr.name (4 * count % 4294967296))
      (.comment ("attribute " ++ attr.name) :: .dd (attribute_word attr) :: result.1, result.2)

/-- The loop of `build_class_prototypes` over the ancestry read backwards.
For `String` the class is not looked at: two words are written and the offsets
of `val` and `str_field` recorded. -/
def emit_ancestry_attributes (ct : ClassTable) :
    List String → Nat → Offsets → Except Failure (List Line × Offsets)
  | [], _, offsets => .ok ([], offsets)
  | clsname :: rest, count, offsets =>
      if clsname == "String" then
        let offsets1 := set_attr_offset offsets clsname "val" (4 * count % 4294967296)
        let count1 := (count + 1) % 4294967296
        let offsets2 := set_attr_offset offsets1 clsname "str_field" (4 * count1 % 4294967296)
        match emit_ancestry_attributes ct rest ((count1 + 1) % 4294967296) offsets2 with
        | .ok result =>
            .ok ([.comment "attribute val", .dd (toString 0), .comment "attribute str_field",
              .dd "empty_string"] ++ result.1, result.2)
        | .error e => .error e
      else
        match ct.find clsname with
        | none => .error .null_dereference
        | some inherited_class =>
            let part := emit_attributes clsname inherited_class.get_attributes count offsets
            match emit_ancestry_attributes ct rest part.2.1 part.2.2 with
            | .ok result => .ok (part.1 ++ result.1, result.2)
            | .error e => .error e

/-- The body of the loop of `build_class_prototypes` for one entry of
`clsmap`. -/
def build_class_prototype (ct : ClassTable) (clsname : String) (cls : ClassNode)
    (tags : ClassTags) (offsets : Offsets) :
    Except Failure (List Line × ClassTags × Offsets) := do
  let tag := get_class_tag tags clsname
  let size ← calculate_obj_size ct cls
  let ancestry ← ct.get_ancestry clsname
  let attributes ← emit_ancestry_attributes ct ancestry.reverse 5 offsets
  pure ([.comment ("class " ++ clsname), .label (clsname ++ "_proto"), .dd (toString tag.1),
      .dd (clsname ++ "_typename"), .dd (toString size), .dd (clsname ++ "_dispatch_table"),
      if clsname == "Object" then .dd (toString 0) else .dd (cls.base_class ++ "_proto")]
    ++ attributes.1 ++ [.newline], tag.2, attributes.2)

/-- The loop of `build_class_prototypes` over the entries of `clsmap`. -/
def build_class_prototypes_loop (ct : ClassTable) :
    List (String × ClassNode) → ClassTags → Offsets →
      Except Failure (List Line × ClassTags × Offsets)
  | [], tags, offsets => .ok ([], tags, offsets)
  | entry :: rest, tags, offsets => do
      let proto ← build_class_prototype ct entry.1 entry.2 tags offsets
      let protos ← build_class_prototypes_loop ct rest proto.2.1 proto.2.2
      pure (proto.1 ++ protos.1, protos.2)

/-- The function `code_uninitialized_basic_objects` of `builtins.cpp`. -/
def code_uninitialized_basic_objects (tags : ClassTags) : List Line × ClassTags :=
  let string_tag := get_class_tag tags "String"
  let int_tag := get_class_tag string_tag.2 "Int"
  let bool_tag := get_class_tag int_tag.2 "Bool"
  ([.label "uninitialized_string", .dd (toString string_tag.1), .dd "String_typename",
    .dd (toString ((5 + 2) * 4)), .dd "String_dispatch_table", .dd "Object_proto",
    .dd (toString 0), .dd "empty_string", .newline,
    .label "uninitialized_int", .dd (toString int_tag.1), .dd "Int_typename",
    .dd (toString ((5 + 1) * 4)), .dd "Int_dispatch_table", .dd "Object_proto",
    .dd (toString 0), .newline,
    .label "uninitialized_bool", .dd (toString bool_tag.1), .dd "Bool_typename",
    .dd (toString ((5 + 1) * 4)), .dd "Bool_dispatch_table", .dd "Object_proto",
    .dd (toString 0), .newline], bool_tag.2)

/-- The function `build_class_prototypes`: the lines written, and the class
tags and the offsets afterwards. -/
def build_class_prototypes (ct : ClassTable) (tags : ClassTags) (offsets : Offsets) :
    Except Failure (List Line × ClassTags × Offsets) := do
  let protos ← build_class_prototypes_loop ct ct.clsmap tags offsets
  let basic := code_uninitialized_basic_objects protos.2.1
  pure ([.label "selfptr", .dd (toString 0), .newline] ++ protos.1 ++ basic.1,
    basic.2, protos.2.2)

/-- The words of a text: what its `dd` lines hold, in order. -/
def words (lines : List Line) : List String :=
  lines.filterMap fun line =>
    match line with
    | .dd value => some value
    | _ => none

/-- Modelled from the spec: the attributes of the classes of a list, in the
order of the list and of declaration, each with the name of the class that
declares it. -/
def declared_attributes (ct : ClassTable) : List String → List (String × AttributeNode)
  | [] => []
  | clsname :: rest =>
      (match ct.find clsname with
        | some cls => cls.get_attributes.map (fun attr => (clsname, attr))
        | none => []) ++ declared_attributes ct rest

/-- Modelled from the spec: the word in the slot of an attribute: for the
attributes of `String` 0 and the empty string, for others the uninitialized
object of the declared type, or 0. -/
def slot_word (declared : String × AttributeNode) : String :=
  if declared.1 == "String" then
    (if declared.2.name == "val" then toString 0 else "empty_string")
  else attribute_word declared.2

/-- Modelled from the spec: the slot of an attribute in a prototype: a comment
with its name and one word. -/
def slot (declared : String × AttributeNode) : List Line :=
  [.comment ("attribute " ++ declared.2.name), .dd (slot_word declared)]

/-- The class table of the basic classes with `Main`, `A { x : Int; y : String }`
and `B inherits A { z : B }`. -/
def prototype_example : List ClassNode :=
  [{ name := "A", base_class := "Object",
     features := [.attribute ⟨"x", "Int", .NoExpressionNode "_no_type"⟩,
       .attribute ⟨"y", "String", .NoExpressionNode "_no_type"⟩] },
   { name := "B", base_class := "A",
     features := [.attribute ⟨"z", "B", .NoExpressionNode "_no_type"⟩] },
   main_class_example]

/-- Modelled from the spec: the offsets of the slots of a prototype: the slot
at index `j` behind the counter `count` gets the offset `4 * (count + j)`. -/
def slot_bindings : List (String × AttributeNode) → Nat → List ((String × String) × Nat)
  | [], _ => []
  | declared :: rest, count =>
      ((declared.1, declared.2.name), 4 * count % 4294967296) :: slot_bindings rest (count + 1)

/-- Modelled from the spec: the prototype of a class: a comment, the label,
the five header words (class tag, label of the type name, size, label of the
dispatch table, label of the prototype of the parent or 0 for `Object`), one
slot for every attribute, and an empty line.  The size is 4 times the number
of words, as a `uint`. -/
def prototype (clsname base_class : String) (tag : Nat)
    (attributes : List (String × AttributeNode)) : List Line :=
  [.comment ("class " ++ clsname), .label (clsname ++ "_proto"), .dd (toString tag),
    .dd (clsname ++ "_typename"), .dd (toString (4 * (5 + attributes.length) % 4294967296)),
    .dd (clsname ++ "_dispatch_table"),
    if clsname == "Object" then .dd (toString 0) else .dd (base_class ++ "_proto")]
  ++ attributes.flatMap slot ++ [.newline]

/-! ## Code for a division (`DivisionNode::code`, `src/compiler/codegen/asm.cpp`) -/

/-- The function `ptr(a, offset)` for an offset that is not negative. -/
def ptr (a : String) (offset : Nat) : String :=
  "[" ++ a ++ "+" ++ toString offset ++ "]"

/-- The function `ptr(a)`. -/
def ptr_of (a : String) : String :=
  "[" ++ a ++ "]"

/-- The function `dword_ptr(a, offset)` for an offset that is not negative. -/
def dword_ptr (a : String) (offset : Nat) : String :=
  "DWORD [" ++ a ++ "+" ++ toString offset ++ "]"

/-- The function `dword_ptr(a)`. -/
def dword_ptr_of (a : String) : String :=
  "DWORD [" ++ a ++ "]"

/-- The function `Asm::mov` on two strings. -/
def Asm.mov (a b : String) : String :=
  "  " ++ "mov " ++ a ++ ", " ++ b ++ "\n"

/-- The function `Asm::push` on a string. -/
def Asm.push (a : String) : String :=
  "  " ++ "push " ++ a ++ "\n"

/-- The function `Asm::pop`. -/
def Asm.pop (a : String) : String :=
  "  " ++ "pop " ++ a ++ "\n"

/-- The function `Asm::xchg`. -/
def Asm.xchg (a b : String) : String :=
  "  " ++ "xchg " ++ a ++ ", " ++ b ++ "\n"

/-- The function `Asm::xor_` on two strings. -/
def Asm.xor_ (a b : String) : String :=
  "  " ++ "xor " ++ a ++ ", " ++ b ++ "\n"

/-- The function `Asm::div`. -/
def Asm.div (a : String) : String :=
  "  " ++ "div " ++ a ++ "\n"

/-- The function `Asm::imul`. -/
def Asm.imul (a : String) : String :=
  "  " ++ "imul " ++ a ++ "\n"

/-- The function `Asm::call`. -/
def Asm.call (a : String) : String :=
  "  " ++ "call " ++ a ++ "\n"

/-- The function `Asm::replace_selfptr`. -/
def Asm.replace_selfptr (tmp_val : String) : String :=
  Asm.mov "ecx" (ptr_of "selfptr") ++ Asm.push "ecx" ++ Asm.mov (dword_ptr_of "selfptr") tmp_val

/-- The function `Asm::restore_selfptr`. -/
def Asm.restore_selfptr : String :=
  Asm.pop "ecx" ++ Asm.mov (dword_ptr_of "selfptr") "ecx"

/-- The function `make_new_int_object` on a register: the strings written. -/
def make_new_int_object (offsets : Offsets) (value : String) : List String :=
  [Asm.push value, Asm.replace_selfptr "Int_proto", Asm.call "Object.copy", Asm.restore_selfptr,
    Asm.pop "ebx", Asm.mov (dword_ptr "eax" (get_attr_offset offsets "Int" "val")) "ebx"]

/-- The method `DivisionNode::code`: the strings written, where `first` and
`second` are what `get_first()->code()` and `get_second()->code()` write. -/
def DivisionNode.code (offsets : Offsets) (first second : List String) : List String :=
  first ++
  [Asm.mov "eax" (ptr "eax" (get_attr_offset offsets "Int" "val")), Asm.push "eax"] ++
  second ++
  [Asm.mov "eax" (ptr "eax" (get_attr_offset offsets "Int" "val")), Asm.pop "ebx",
    Asm.xchg "eax" "ebx", Asm.xor_ "edx" "edx", Asm.div "ebx"] ++
  make_new_int_object offsets "eax"

/-- Modelled from the instruction set reference: the registers `eax`, `ebx`
and `edx`, each a number below `2 ^ 32`, and the stack of double words. -/
structure Machine where
  eax : Nat
  ebx : Nat
  edx : Nat
  stack : List Nat
  deriving DecidableEq, Repr

/-- Modelled from the instruction set reference: what four instructions do.
`div ebx` divides the unsigned number `edx:eax` by the unsigned `ebx`, leaves
the quotient in `eax` and the remainder in `edx`, and faults when `ebx` is 0 or
the quotient does not fit; `idiv ebx` does the same with signed numbers and is
not among the four. -/
def execute (line : String) (m : Machine) : Option Machine :=
  if line = "  pop ebx\n" then
    match m.stack with
    | value :: rest => some { m with ebx := value, stack := rest }
    | [] => none
  else if line = "  xchg eax, ebx\n" then some { m with eax := m.ebx, ebx := m.eax }
  else if line = "  xor edx, edx\n" then some { m with edx := 0 }
  else if line = "  div ebx\n" then
    if m.ebx = 0 ∨ (m.edx * 4294967296 + m.eax) / m.ebx ≥ 4294967296 then none
    else
      some { m with eax := (m.edx * 4294967296 + m.eax) / m.ebx,
                    edx := (m.edx * 4294967296 + m.eax) % m.ebx }
  else none

/-- The instructions of a list executed in order. -/
def execute_all : List String → Machine → Option Machine
  | [], m => some m
  | line :: rest, m =>
      match execute line m with
      | some next => execute_all rest next
      | none => none

/-- The integer that a double word stands for in two's complement. -/
def signed (word : Nat) : Int :=
  if word < 2147483648 then (word : Int) else (word : Int) - 4294967296

/-- The function `ptr(a, offset)` on an `int` offset.  For the offset
`-2 ^ 31` the call `abs(offset)` is undefined; the model writes its absolute
value. -/
def ptr_int (a : String) (offset : Int) : String :=
  if offset ≥ 0 then "[" ++ a ++ "+" ++ toString offset.toNat ++ "]"
  else "[" ++ a ++ "-" ++ toString offset.natAbs ++ "]"

/-- The function `Asm::lea`. -/
def Asm.lea (a b : String) : String :=
  "  " ++ "lea " ++ a ++ ", " ++ b ++ "\n"

/-- The function `Asm::add` on a string and a `uint`. -/
def Asm.add (a : String) (b : Nat) : String :=
  "  " ++ "add " ++ a ++ ", " ++ toString b ++ "\n"

/-- The function `Asm::cmp` on a string and a `uint`. -/
def Asm.cmp (a : String) (b : Nat) : String :=
  "  " ++ "cmp " ++ a ++ ", " ++ toString b ++ "\n"

/-- The function `Asm::je`. -/
def Asm.je (a : String) : String :=
  "  " ++ "je " ++ a ++ "\n"

/-- The function `Asm::enter`. -/
def Asm.enter : String :=
  "  " ++ "enter 0, 0\n"

/-- The class `Scope`. -/
structure Scope where
  stack_base : Nat
  stack_offset : Nat
  method_argument_counter : Nat
  objects : List (String × String)

/-- The constructor `Scope(basis)`. -/
def Scope.new (basis : Nat) : Scope :=
  { stack_base := basis, stack_offset := 0, method_argument_counter := 0, objects := [] }

/-- The method `Scope::add_stack_variable`.  The product
`WordSize * (++stack_offset + stack_base)` and its negation are computed in
`uint` and then passed to the `int` parameter of `ptr`. -/
def Scope.add_stack_variable (scope : Scope) (name : String) : Scope :=
  let stack_offset := (scope.stack_offset + 1) % 4294967296
  let product := 4 * ((stack_offset + scope.stack_base) % 4294967296) % 4294967296
  let code := Asm.lea "eax" (ptr_int "ebp" (signed ((4294967296 - product) % 4294967296)))
  { scope with stack_offset := stack_offset, objects := scope.objects ++ [(name, code)] }

/-- The method `Scope::add_parameter`.  The product
`WordSize * (++method_argument_counter + 1)` is computed in `uint` and then
passed to the `int` parameter of `ptr`. -/
def Scope.add_parameter (scope : Scope) (name : String) : Scope :=
  let method_argument_counter := (scope.method_argument_counter + 1) % 4294967296
  let product := 4 * ((method_argument_counter + 1) % 4294967296) % 4294967296
  let code := Asm.lea "eax" (ptr_int "ebp" (signed product))
  { scope with method_argument_counter := method_argument_counter,
               objects := scope.objects ++ [(name, code)] }

/-- The method `Scope::add_attribute`. -/
def Scope.add_attribute (scope : Scope) (name : String) (offset : Nat) : Scope :=
  { scope with
    objects := scope.objects ++ [(name, Asm.mov "eax" (ptr_of "selfptr") ++ Asm.add "eax" offset)] }

/-- The method `Scope::get_location`: the code of the last object of the name;
`none` stands for the `std::logic_error` that is thrown when there is none and
the name is not `self`. -/
def Scope.get_location (scope : Scope) (name : String) : Option String :=
  match scope.objects.reverse.find? (fun object => object.1 == name) with
  | some object => some object.2
  | none => if name == "self" then some (Asm.lea "eax" (ptr_of "selfptr")) else none

/-- The class `ScopeStack`. -/
structure ScopeStack where
  scopes : List Scope
  stack_var_counter : Nat

/-- The method `ScopeStack::enter_scope`. -/
def ScopeStack.enter_scope (stack : ScopeStack) : ScopeStack :=
  { stack with scopes := Scope.new stack.stack_var_counter :: stack.scopes }

/-- The method `ScopeStack::exit_scope`; `scopes.back()` of an empty vector is
`Failure.out_of_bounds`. -/
def ScopeStack.exit_scope (stack : ScopeStack) : Except Failure ScopeStack :=
  match stack.scopes with
  | [] => .error .out_of_bounds
  | scope :: rest =>
      .ok { scopes := rest,
            stack_var_counter :=
              (stack.stack_var_counter + 4294967296 - scope.stack_offset) % 4294967296 }

/-- The method `ScopeStack::add_stack_variable`. -/
def ScopeStack.add_stack_variable (stack : ScopeStack) (name : String) :
    Except Failure ScopeStack :=
  match stack.scopes with
  | [] => .error .out_of_bounds
  | scope :: rest =>
      .ok { scopes := scope.add_stack_variable name :: rest,
            stack_var_counter := (stack.stack_var_counter + 1) % 4294967296 }

/-- The method `ScopeStack::add_parameter`. -/
def ScopeStack.add_parameter (stack : ScopeStack) (name : String) : Except Failure ScopeStack :=
  match stack.scopes with
  | [] => .error .out_of_bounds
  | scope :: rest => .ok { stack with scopes := scope.add_parameter name :: rest }

/-- The method `ScopeStack::add_attribute`. -/
def ScopeStack.add_attribute (stack : ScopeStack) (name : String) (offset : Nat) :
    Except Failure ScopeStack :=
  match stack.scopes with
  | [] => .error .out_of_bounds
  | scope :: rest => .ok { stack with scopes := scope.add_attribute name offset :: rest }

/-- A call of a method of `ScopeStack` that changes it. -/
inductive ScopeOperation where
  | enter_scope
  | exit_scope
  | add_stack_variable (name : String)
  | add_parameter (name : String)
  | add_attribute (name : String) (offset : Nat)

/-- The call made on a `ScopeStack`. -/
def ScopeStack.apply (stack : ScopeStack) : ScopeOperation → Except Failure ScopeStack
  | .enter_scope => .ok stack.enter_scope
  | .exit_scope => stack.exit_scope
  | .add_stack_variable name => stack.add_stack_variable name
  | .add_parameter name => stack.add_parameter name
  | .add_attribute name offset => stack.add_attribute name offset

/-- The calls of a list made in order. -/
def ScopeStack.run : List ScopeOperation → ScopeStack → Except Failure ScopeStack
  | [], stack => .ok stack
  | operation :: rest, stack =>
      match stack.apply operation with
      | .ok next => ScopeStack.run rest next
      | .error f => .error f

/-- Modelled from the spec: every `exit_scope` of the list matches an earlier
`enter_scope`, and every object is registered in a scope that is active;
`depth` is the number of active scopes. -/
def matched : List ScopeOperation → Nat → Bool
  | [], _ => true
  | .enter_scope :: rest, depth => matched rest (depth + 1)
  | _ :: _, 0 => false
  | .exit_scope :: rest, depth + 1 => matched rest depth
  | _ :: rest, depth + 1 => matched rest (depth + 1)

/-- Modelled from the spec: the calls of the list are what happens between an
`enter_scope` and the `exit_scope` that matches it; `depth` is the number of
scopes entered since and still active. -/
def balanced : List ScopeOperation → Nat → Bool
  | [], depth => depth == 0
  | .enter_scope :: rest, depth => balanced rest (depth + 1)
  | .exit_scope :: _, 0 => false
  | .exit_scope :: rest, depth + 1 => balanced rest depth
  | _ :: rest, depth => balanced rest depth

/-- Modelled from the spec: the number of stack variables registered in each
of the scopes that are still active, the innermost scope first. -/
def active_variables : List ScopeOperation → List Nat → List Nat
  | [], counts => counts
  | .enter_scope :: rest, counts => active_variables rest (0 :: counts)
  | .exit_scope :: rest, counts => active_variables rest counts.tail
  | .add_stack_variable _ :: rest, count :: counts =>
      active_variables rest ((count + 1) :: counts)
  | _ :: rest, counts => active_variables rest counts

/-- The number of calls of `add_stack_variable` in the list. -/
def stack_variables : List ScopeOperation → Nat
  | [] => 0
  | .add_stack_variable _ :: rest => stack_variables rest + 1
  | _ :: rest => stack_variables rest

/-- The loop of `build_text_segment` over the formals, in the order in which
it reads them. -/
def add_parameters : List FormalNode → Scope → Scope
  | [], scope => scope
  | formal :: rest, scope => add_parameters rest (scope.add_parameter formal.name)

/-- The loop of `build_text_segment` over the attributes of the ancestry, on
the names and offsets that it passes to `add_attribute`. -/
def add_scope_attributes : List (String × Nat) → Scope → Scope
  | [], scope => scope
  | attr :: rest, scope => add_scope_attributes rest (scope.add_attribute attr.1 attr.2)

/-- The scope that `build_text_segment` sets up for a method: a new scope, the
attributes of the ancestry, and the formals read from the last to the first
(`formals.rbegin()` to `formals.rend()`). -/
def method_scope (stack_var_counter : Nat) (attributes : List (String × Nat))
    (formals : List FormalNode) : Scope :=
  add_parameters formals.reverse (add_scope_attributes attributes (Scope.new stack_var_counter))

/-- Modelled from the spec: the objects registered for a list of formals, the
one registered as number `k + 1` with the address `ebp + 4 * (k + 2)`. -/
def parameter_entries : List FormalNode → Nat → List (String × String)
  | [], _ => []
  | formal :: rest, k =>
      (formal.name, "  lea eax, [ebp+" ++ toString (4 * (k + 2)) ++ "]\n")
        :: parameter_entries rest (k + 1)

/-- The counters of the scopes agree with the numbers of stack variables
`counts` registered in them, the innermost scope first: the `stack_offset` of a
scope is its own number, and its `stack_base` is the sum of the numbers of the
scopes around it. -/
def scopes_consistent : List Scope → List Nat → Prop
  | [], [] => True
  | scope :: rest, count :: counts =>
      scope.stack_offset = count ∧ scope.stack_base = counts.sum ∧ scopes_consistent rest counts
  | _, _ => False

/-! ## Code for a dispatch (`DispatchNode::code`) -/

/-- What a `code()` method does, step by step: it writes a string to
`outfile`, or it calls `code()` of a node below it. -/
inductive Emit where
  | text (line : String)
  | code (expr : ExpressionNode)

/-- The method `DispatchNode::code`; `object_type` is the checked type of the
object. -/
def DispatchNode.code (offsets : Offsets) (current_class object_type : String)
    (object : ExpressionNode) (method_name : String) (parameters : List ExpressionNode) :
    List Emit :=
  let object_type := if object_type == "SELF_TYPE" then current_class else object_type
  [.text (Asm.mov "eax" (ptr_of "selfptr")), .text (Asm.push "eax")] ++
  parameters.flatMap (fun parameter => [.code parameter, .text (Asm.push "eax")]) ++
  [.code object, .text (Asm.cmp "eax" 0), .text (Asm.je "_dispatch_to_void"),
    .text (Asm.mov "ebx" "eax"), .text (Asm.mov "eax" (ptr "eax" 12)),
    .text (Asm.mov "eax" (ptr "eax" (get_method_offset offsets object_type method_name))),
    .text (Asm.mov (ptr_of "selfptr") "ebx"), .text (Asm.call "eax"), .text (Asm.pop "ebx"),
    .text (Asm.mov (ptr_of "selfptr") "ebx")]

/-- Modelled from the instruction set reference: what a double word of the
stack holds. -/
inductive Word where
  | selfptr
  | value (expr : ExpressionNode)
  | return_address
  | caller_ebp
  | unknown

/-- Modelled from the instruction set reference: the register `eax` and the
stack, the top first. -/
structure Frame where
  eax : Word
  stack : List Word

/-- Modelled from the instruction set reference and the convention of
`code()`: the stack when the method called by the first `call eax` has executed
its `enter 0, 0`.  The code of an expression leaves the value of the expression
in `eax` and the stack as it found it, `mov eax, [selfptr]` loads the self
pointer, `push eax` pushes `eax`, `call` pushes the return address and `enter`
the `ebp` of the caller, after which `[ebp + 4 * j]` is the element `j` of the
stack; the other instructions written before the call change no stack slot.
`none` when there is no `call eax`. -/
def frame_at_entry : List Emit → Frame → Option (List Word)
  | [], _ => none
  | .code expr :: rest, frame => frame_at_entry rest { frame with eax := .value expr }
  | .text line :: rest, frame =>
      if line = Asm.call "eax" then some (.caller_ebp :: .return_address :: frame.stack)
      else if line = Asm.push "eax" then
        frame_at_entry rest { frame with stack := frame.eax :: frame.stack }
      else if line = Asm.mov "eax" (ptr_of "selfptr") then
        frame_at_entry rest { frame with eax := .selfptr }
      else if line = Asm.cmp "eax" 0 ∨ line = Asm.je "_dispatch_to_void"
          ∨ line = Asm.mov "ebx" "eax" then
        frame_at_entry rest frame
      else frame_at_entry rest { frame with eax := .unknown }
/-! ## Escaped strings (`src/utils/pretty_print.cpp`)

A string is the list of its `char`s, a `Char` below 256 for each. -/

/-- The function `std::isprint` in the "C" locale: the `char`s from the blank
to the tilde. -/
def isprint (c : Char) : Bool :=
  decide (32 ≤ c.toNat ∧ c.toNat ≤ 126)

/-- The conversion `uint(c)` of a `char`; with the signed `char` of the x86
targets a byte from 128 on is a negative number, which wraps around. -/
def uint_of_char (c : Char) : Nat :=
  if c.toNat < 128 then c.toNat else (4294967296 - 256 + c.toNat) % 4294967296

/-- The output of `<< std::setw(3) << std::setfill('0') << value`: the decimal
digits, with zeros in front when there are fewer than three. -/
def setw_3 (value : Nat) : List Char :=
  List.replicate (3 - (toString value).length) '0' ++ (toString value).toList

/-- The function `get_escaped_string`. -/
def get_escaped_string : List Char → List Char
  | [] => []
  | c :: rest =>
      (if c = '\n' then ['\\', 'n']
      else if c = '\r' then ['\\', '0', '1', '5']
      else if c = '\x1b' then ['\\', '0', '3', '3']
      else if c = '\t' then ['\\', 't']
      else if c = '\x08' then ['\\', 'b']
      else if c = '\x0c' then ['\\', 'f']
      else if c = '"' then ['\\', '"']
      else if c = '\\' then ['\\', '\\']
      else if isprint c then [c]
      else '\\' :: setw_3 (uint_of_char c)) ++ get_escaped_string rest

/-- The function `get_pretty_string`. -/
def get_pretty_string (value : List Char) : List Char :=
  '"' :: get_escaped_string value ++ ['"']
/-! ## Examples for the properties of the parser and of the analysis -/

/-- The token types of the three comparison operators `<`, `<=` and `=`. -/
def comparison_token : Fin 3 → TokenType
  | 0 => .LT
  | 1 => .LTE
  | 2 => .EQ
/-- The class `Main { copy : Int; main() : Int { 0 } }`, whose attribute has
the name of a method that it inherits from `Object`. -/
def attribute_copy_example : List ClassNode :=
  [{ name := "Main", base_class := "Object",
     features := [.attribute ⟨"copy", "Int", .NoExpressionNode "Int"⟩,
       .method (MethodNode.mk "main" "Int" [] (.IntNode "0"))] }]

/-- The class `Main { x : Foo; main(y : Foo) : Int { let z : Foo in case 1 of
w : Foo => 0; esac } }` of a program without a class `Foo`. -/
def undefined_type_example : List ClassNode :=
  [{ name := "Main", base_class := "Object",
     features := [.attribute ⟨"x", "Foo", .NoExpressionNode "Foo"⟩,
       .method (MethodNode.mk "main" "Int" [⟨"y", "Foo"⟩]
         (.LetNode [("z", "Foo", .NoExpressionNode "Foo")]
           (.CaseNode (.IntNode "1") [("w", "Foo", .IntNode "0")])))] }]

/-- The class `Main { main() : Foo { 0 } }` of a program without a class
`Foo`. -/
def undefined_return_type_example : List ClassNode :=
  [{ name := "Main", base_class := "Object",
     features := [.method (MethodNode.mk "main" "Foo" [] (.IntNode "0"))] }]

/-! # Properties -/

/-! ## Tokens and operation trees -/

@[simp] theorem get_type_BaseToken (t : TokenType) (l : Nat) : (Token.BaseToken t l).get_type = t := rfl
@[simp] theorem get_type_StringToken (v : String) (l : Nat) : (Token.StringToken v l).get_type = .STRING := rfl
@[simp] theorem get_type_BoolToken (v : Bool) (l : Nat) : (Token.BoolToken v l).get_type = .BOOL := rfl
@[simp] theorem get_type_IntToken (v : String) (l : Nat) : (Token.IntToken v l).get_type = .INTEGER := rfl
@[simp] theorem get_type_TypeIdToken (v : String) (l : Nat) : (Token.TypeIdToken v l).get_type = .TYPE_IDENTIFIER := rfl
@[simp] theorem get_type_ObjIdToken (v : String) (l : Nat) : (Token.ObjIdToken v l).get_type = .OBJ_IDENTIFIER := rfl
@[simp] theorem get_type_ErrorToken (v : String) (l : Nat) : (Token.ErrorToken v l).get_type = .OBJ_IDENTIFIER := rfl

theorem right_most_walk_of_not_operation (x : ExpressionNode) (chain : List OperationFrame)
    (hx : is_operation x = false) : right_most_walk x chain = (chain, x) := by
  cases x <;> simp [is_operation, as_operation] at hx <;> simp [right_most_walk]

theorem is_unparenthesized_operation_of_not_operation (x : ExpressionNode)
    (hx : is_operation x = false) : is_unparenthesized_operation x = false := by
  cases x <;> simp [is_operation, as_operation] at hx <;> simp [is_unparenthesized_operation]

theorem non_associative_clash_of_not_operation (x : ExpressionNode) (op : BinaryOp)
    (hx : is_operation x = false) : non_associative_clash x op = false := by
  cases x <;> simp [is_operation, as_operation] at hx <;> simp [non_associative_clash]

theorem insert_operator_tree (s : Spine) (op : BinaryOp) (e : ExpressionNode)
    (hs : s.valid) (hc : s.cmp.isSome = true → op.is_comparison = false) :
    insert_operator op e s.tree = (s.push (op, e)).tree := by
  obtain ⟨cmp, add, mul, last⟩ := s
  obtain ⟨h1, h2, h3, h4⟩ := hs
  simp only at h1 h2 h3 h4 hc
  have hw := right_most_walk_of_not_operation last
  have hu := is_unparenthesized_operation_of_not_operation last h4
  rcases cmp with _ | ⟨c1, cop⟩ <;> rcases add with _ | ⟨a1, aop⟩ <;>
    rcases mul with _ | ⟨m1, mop⟩ <;>
    (try simp at h1) <;> (try simp at h2) <;> (try simp at h3) <;> (try simp at hc) <;>
    cases op <;> (try simp [BinaryOp.is_comparison] at hc) <;>
    (try cases cop <;> simp [BinaryOp.is_comparison] at h1) <;>
    (try cases aop <;> simp [BinaryOp.is_additive] at h2) <;>
    (try cases mop <;> simp [BinaryOp.is_additive, BinaryOp.is_comparison] at h3) <;>
    simp [insert_operator, Spine.tree, Spine.push, wrap, right_most_walk, hw, h4, hu, climb,
      rebuild, OperationFrame.set_last, OperationFrame.get_precedence,
      BinaryOp.get_precedence, BinaryOp.is_comparison, BinaryOp.is_additive,
      is_unparenthesized_operation]


theorem push_valid (s : Spine) (op : BinaryOp) (e : ExpressionNode) (hs : s.valid)
    (he : is_operation e = false) : (s.push (op, e)).valid := by
  obtain ⟨h1, h2, h3, _⟩ := hs
  unfold Spine.push
  split
  · next h => exact ⟨by simpa using h, by simp, by simp, he⟩
  · split
    · next h => exact ⟨h1, by simpa using h, by simp, he⟩
    · next hc ha => exact ⟨h1, h2, by simpa using ⟨by simpa using hc, by simpa using ha⟩, he⟩

theorem non_associative_clash_tree (s : Spine) (op : BinaryOp) (hs : s.valid) :
    non_associative_clash s.tree op = (s.cmp.isSome && op.is_comparison) := by
  obtain ⟨cmp, add, mul, last⟩ := s
  obtain ⟨h1, h2, h3, h4⟩ := hs
  simp only at h1 h2 h3 h4
  have hn := non_associative_clash_of_not_operation last op h4
  rcases cmp with _ | ⟨c1, cop⟩ <;> rcases add with _ | ⟨a1, aop⟩ <;>
    rcases mul with _ | ⟨m1, mop⟩ <;>
    (try simp at h1) <;> (try simp at h2) <;> (try simp at h3) <;>
    cases op <;>
    (try cases cop <;> simp [BinaryOp.is_comparison] at h1) <;>
    (try cases aop <;> simp [BinaryOp.is_additive] at h2) <;>
    (try cases mop <;> simp [BinaryOp.is_additive, BinaryOp.is_comparison] at h3) <;>
    first
    | (simp [Spine.tree, wrap, hn, BinaryOp.is_comparison]; done)
    | simp [Spine.tree, wrap, non_associative_clash, BinaryOp.get_associativity,
        BinaryOp.is_comparison]

theorem push_cmp_isSome (s : Spine) (l : BinaryOp × ExpressionNode) :
    (s.push l).cmp.isSome = (s.cmp.isSome || l.1.is_comparison) := by
  unfold Spine.push
  split
  · next h => simp [h]
  · next h =>
    split <;> simp [h]

theorem insert_chain_tree (links : List (BinaryOp × ExpressionNode)) :
    ∀ (s : Spine), s.valid → (∀ l ∈ links, is_operation l.2 = false) →
      (if s.cmp.isSome then comparisons links = 0 else comparisons links ≤ 1) →
      insert_chain s.tree links = some ((links.foldl Spine.push s).tree) := by
  induction links with
  | nil => intro s _ _ _; rfl
  | cons l rest ih =>
    intro s hs hl hc
    obtain ⟨op, e⟩ := l
    have he : is_operation e = false := hl (op, e) (List.mem_cons_self _ _)
    have hclash : (s.cmp.isSome && op.is_comparison) = false := by
      cases h1 : s.cmp.isSome <;> cases h2 : op.is_comparison <;>
        simp [h1, h2, comparisons, List.filter] at hc ⊢
    have hno : s.cmp.isSome = true → op.is_comparison = false := by
      intro h; simpa [h] using hclash
    simp only [insert_chain, non_associative_clash_tree s op hs, hclash, List.foldl_cons]
    rw [insert_operator_tree s op e hs hno]
    apply ih _ (push_valid s op e hs he) (fun l hl1 => hl l (List.mem_cons_of_mem _ hl1))
    rw [push_cmp_isSome]
    cases h1 : s.cmp.isSome <;> cases h2 : op.is_comparison <;>
      simp [h1, h2, comparisons, List.filter] at hc ⊢ <;> exact hc

theorem fold_left_cons (first : ExpressionNode) (l : BinaryOp × ExpressionNode)
    (links : List (BinaryOp × ExpressionNode)) :
    fold_left first (l :: links) = fold_left (.BinaryOperationNode l.1 false first l.2) links :=
  rfl

/-- The tree of a spine extended by a chain, in terms of the reference parse of
the chain. -/
theorem tree_foldl_push (links : List (BinaryOp × ExpressionNode)) :
    ∀ (s : Spine), (links.foldl Spine.push s).tree =
      fold_left
        (wrap s.cmp
          (fold_left
            (wrap s.add
              (reference_term (wrap s.mul s.last)
                (cut BinaryOp.is_additive (cut BinaryOp.is_comparison links).1).1))
            ((cut BinaryOp.is_additive (cut BinaryOp.is_comparison links).1).2.map
              (fun piece => (piece.1, reference_term piece.2.1 piece.2.2)))))
        ((cut BinaryOp.is_comparison links).2.map
          (fun piece => (piece.1, reference_arith piece.2.1 piece.2.2))) := by
  induction links with
  | nil => intro s; simp [cut, fold_left, reference_term, Spine.tree]
  | cons l rest ih =>
    intro s
    obtain ⟨op, e⟩ := l
    rw [List.foldl_cons, ih]
    by_cases hc : op.is_comparison = true
    · simp [Spine.push, hc, cut, fold_left_cons, wrap, reference_arith, reference_term,
        Spine.tree, fold_left]
    · have hc1 : op.is_comparison = false := by simpa using hc
      by_cases ha : op.is_additive = true
      · simp [Spine.push, hc1, ha, cut, fold_left_cons, wrap, reference_term, fold_left]
      · have ha1 : op.is_additive = false := by simpa using ha
        simp [Spine.push, hc1, ha1, cut, fold_left_cons, wrap, reference_term, fold_left]

theorem insert_chain_reference (first : ExpressionNode)
    (links : List (BinaryOp × ExpressionNode)) (hf : is_operation first = false)
    (hl : ∀ l ∈ links, is_operation l.2 = false) (hc : comparisons links ≤ 1) :
    insert_chain first links = some (reference_parse first links) := by
  have h := insert_chain_tree links ⟨none, none, none, first⟩
    ⟨by simp, by simp, by simp, hf⟩ hl (by simpa using hc)
  rw [tree_foldl_push] at h
  simpa [Spine.tree, wrap, reference_parse, reference_arith] using h

/-! ## Parsing operator chains -/

theorem parse_single_expression_atom (fuel : Nat) (t next : Token) (rest : List Token)
    (e : ExpressionNode) (ht : atom_node t = some e)
    (h1 : next.get_type ≠ .ASSIGN) (h2 : next.get_type ≠ .PARENTHESIS_OPEN) :
    parse_single_expression (fuel + 2) (t :: next :: rest) = .ok (e, next :: rest) := by
  cases t <;> simp [atom_node] at ht <;> subst ht <;>
    simp [parse_single_expression, parse_assignment, parse_dispatch, parse_conditional,
      parse_while, parse_block, parse_let, parse_case, parse_new, parse_isvoid, parse_neg,
      parse_complement, parse_int_const, parse_string_const, parse_bool_const,
      parse_identifier, parse_parentheses, or_else, peek_equals, h1, h2,
      bind, Except.bind, pure, Except.pure]

theorem atom_node_not_operation (t : Token) (e : ExpressionNode) (ht : atom_node t = some e) :
    is_operation e = false := by
  cases t <;> simp [atom_node] at ht <;> subst ht <;> rfl

theorem binary_operator_not_start (t : Token) (op : BinaryOp)
    (h : binary_operator t.get_type = some op) :
    t.get_type ≠ .ASSIGN ∧ t.get_type ≠ .PARENTHESIS_OPEN := by
  constructor <;> intro h1 <;> simp [h1, binary_operator] at h

theorem ends_expression_not_start (t : Token) (h : ends_expression t = true) :
    t.get_type ≠ .ASSIGN ∧ t.get_type ≠ .PARENTHESIS_OPEN := by
  simp [ends_expression] at h
  exact ⟨h.2, h.1.2⟩

theorem post_expression_operator (fuel : Nat) (o a next : Token) (rest : List Token)
    (expr e : ExpressionNode) (op : BinaryOp)
    (ho : binary_operator o.get_type = some op) (ha : atom_node a = some e)
    (h1 : next.get_type ≠ .ASSIGN) (h2 : next.get_type ≠ .PARENTHESIS_OPEN) :
    post_expression (fuel + 3) (o :: a :: next :: rest) expr =
      if non_associative_clash expr op then .error (.parser_error (some o))
      else post_expression (fuel + 2) (next :: rest) (insert_operator op e expr) := by
  rw [post_expression]
  simp only [ho, parse_single_expression_atom fuel a next rest e ha h1 h2, bind, Except.bind]
  split <;> rfl

theorem post_expression_end (fuel : Nat) (stop : Token) (more : List Token)
    (expr : ExpressionNode) (h : ends_expression stop = true) :
    post_expression (fuel + 1) (stop :: more) expr = .ok (expr, stop :: more) := by
  simp [ends_expression] at h
  obtain ⟨⟨⟨⟨h0, h1⟩, h2⟩, _⟩, _⟩ := h
  rw [post_expression]
  simp only [h0]

theorem chain_links_cons {o a : Token} {rest : List (Token × Token)}
    {links : List (BinaryOp × ExpressionNode)} (h : chain_links ((o, a) :: rest) = some links) :
    ∃ op e links1, binary_operator o.get_type = some op ∧ atom_node a = some e ∧
      chain_links rest = some links1 ∧ links = (op, e) :: links1 := by
  simp only [chain_links] at h
  split at h
  · next op e links1 h1 h2 h3 =>
    exact ⟨op, e, links1, h1, h2, h3, by simpa using h.symm⟩
  · simp at h

theorem chain_links_not_operation (toks : List (Token × Token)) :
    ∀ links, chain_links toks = some links → ∀ l ∈ links, is_operation l.2 = false := by
  induction toks with
  | nil => intro links h; simp [chain_links] at h; subst h; simp
  | cons t rest ih =>
    intro links h l hl
    obtain ⟨o, a⟩ := t
    obtain ⟨op, e, links1, _, h2, h3, rfl⟩ := chain_links_cons h
    rcases List.mem_cons.mp hl with rfl | hl1
    · exact atom_node_not_operation a e h2
    · exact ih links1 h3 l hl1

theorem chain_links_length (toks : List (Token × Token)) :
    ∀ links, chain_links toks = some links → links.length = toks.length := by
  induction toks with
  | nil => intro links h; simp [chain_links] at h; subst h; rfl
  | cons t rest ih =>
    intro links h
    obtain ⟨o, a⟩ := t
    obtain ⟨op, e, links1, _, _, h3, rfl⟩ := chain_links_cons h
    simp [ih links1 h3]

theorem chain_tokens_head (toks : List (Token × Token)) (links : List (BinaryOp × ExpressionNode))
    (stop : Token) (more : List Token) (h : chain_links toks = some links)
    (hs : ends_expression stop = true) :
    ∃ next rest, chain_tokens toks ++ stop :: more = next :: rest ∧
      next.get_type ≠ .ASSIGN ∧ next.get_type ≠ .PARENTHESIS_OPEN := by
  cases toks with
  | nil => exact ⟨stop, more, rfl, ends_expression_not_start stop hs⟩
  | cons t rest =>
    obtain ⟨o, a⟩ := t
    obtain ⟨op, e, links1, h1, _, _, _⟩ := chain_links_cons h
    exact ⟨o, a :: (chain_tokens rest ++ stop :: more), rfl, binary_operator_not_start o op h1⟩

theorem post_expression_chain (stop : Token) (more : List Token)
    (hs : ends_expression stop = true) (toks : List (Token × Token)) :
    ∀ (links : List (BinaryOp × ExpressionNode)) (expr result : ExpressionNode) (fuel : Nat),
      chain_links toks = some links → insert_chain expr links = some result →
      toks.length + 2 ≤ fuel →
      post_expression fuel (chain_tokens toks ++ stop :: more) expr =
        .ok (result, stop :: more) := by
  induction toks with
  | nil =>
    intro links expr result fuel h hi hf
    simp [chain_links] at h
    subst h
    simp [insert_chain] at hi
    subst hi
    obtain ⟨k, rfl⟩ : ∃ k, fuel = k + 1 := ⟨fuel - 1, by simp at hf; omega⟩
    exact post_expression_end k stop more expr hs
  | cons t rest ih =>
    intro links expr result fuel h hi hf
    obtain ⟨o, a⟩ := t
    obtain ⟨op, e, links1, h1, h2, h3, rfl⟩ := chain_links_cons h
    obtain ⟨next, rest1, hn, hn1, hn2⟩ := chain_tokens_head rest links1 stop more h3 hs
    obtain ⟨k, rfl⟩ : ∃ k, fuel = k + 3 := ⟨fuel - 3, by simp at hf; omega⟩
    simp only [insert_chain] at hi
    split at hi
    · simp at hi
    · next hclash =>
      have := post_expression_operator k o a next rest1 expr e op h1 h2 hn1 hn2
      simp only [chain_tokens, List.cons_append, hn, this, hclash]
      rw [← hn]
      exact ih links1 _ result (k + 2) h3 hi (by simp at hf; omega)

/-- C1: an expression of literals and identifiers joined by `+ - * / < <= =`,
without parentheses and with at most one comparison, followed by a token that
ends it, is parsed by `parse_expression` (with fuel for its length) into the
tree of the reference precedence parser: `*` and `/` bind tighter than `+` and
`-`, these bind tighter than the comparisons, equal precedence associates to
the left.  The rest of the stream starts at the token after the expression. -/
theorem C1_parse_expression_is_reference_parse (a0 : Token) (toks : List (Token × Token))
    (stop : Token) (more : List Token) (first : ExpressionNode)
    (links : List (BinaryOp × ExpressionNode)) (fuel : Nat)
    (h0 : atom_node a0 = some first) (hl : chain_links toks = some links)
    (hc : comparisons links ≤ 1) (hs : ends_expression stop = true)
    (hf : toks.length + 3 ≤ fuel) :
    parse_expression fuel (a0 :: (chain_tokens toks ++ stop :: more)) =
      .ok (reference_parse first links, stop :: more) := by
  obtain ⟨k, rfl⟩ : ∃ k, fuel = k + 3 := ⟨fuel - 3, by omega⟩
  obtain ⟨next, rest, hn, hn1, hn2⟩ := chain_tokens_head toks links stop more hl hs
  have hi := insert_chain_reference first links (atom_node_not_operation a0 first h0)
    (chain_links_not_operation toks links hl) hc
  rw [parse_expression, hn, parse_single_expression_atom k a0 next rest first h0 hn1 hn2]
  simp only [bind, Except.bind]
  rw [← hn]
  exact post_expression_chain stop more hs toks links first _ (k + 2) hl hi (by omega)

/-- C1 at the inputs `1+2*3;` and `1-2-3;`: the trees are
`Plus(Int 1, Mul(Int 2, Int 3))` and `Minus(Minus(Int 1, Int 2), Int 3)`. -/
theorem C1_parse_expression_is_reference_parse_witness :
    (parse_expression 5
        [.IntToken "1" 1, .BaseToken .PLUS 1, .IntToken "2" 1, .BaseToken .MULTIPLICATION 1,
          .IntToken "3" 1, .BaseToken .SEMICOLON 1] =
      .ok (.BinaryOperationNode .PlusNode false (.IntNode "1")
            (.BinaryOperationNode .MultiplicationNode false (.IntNode "2") (.IntNode "3")),
          [.BaseToken .SEMICOLON 1])) ∧
    (parse_expression 5
        [.IntToken "1" 1, .BaseToken .MINUS 1, .IntToken "2" 1, .BaseToken .MINUS 1,
          .IntToken "3" 1, .BaseToken .SEMICOLON 1] =
      .ok (.BinaryOperationNode .MinusNode false
            (.BinaryOperationNode .MinusNode false (.IntNode "1") (.IntNode "2"))
            (.IntNode "3"),
          [.BaseToken .SEMICOLON 1])) :=
  ⟨C1_parse_expression_is_reference_parse (.IntToken "1" 1)
      [(.BaseToken .PLUS 1, .IntToken "2" 1), (.BaseToken .MULTIPLICATION 1, .IntToken "3" 1)]
      (.BaseToken .SEMICOLON 1) [] (.IntNode "1")
      [(.PlusNode, .IntNode "2"), (.MultiplicationNode, .IntNode "3")] 5
      rfl rfl (by decide) rfl (by decide),
   C1_parse_expression_is_reference_parse (.IntToken "1" 1)
      [(.BaseToken .MINUS 1, .IntToken "2" 1), (.BaseToken .MINUS 1, .IntToken "3" 1)]
      (.BaseToken .SEMICOLON 1) [] (.IntNode "1")
      [(.MinusNode, .IntNode "2"), (.MinusNode, .IntNode "3")] 5
      rfl rfl (by decide) rfl (by decide)⟩

/-! ## Dispatch after an operator chain -/

theorem reference_parse_eq_tree (first : ExpressionNode)
    (links : List (BinaryOp × ExpressionNode)) :
    reference_parse first links =
      (links.foldl Spine.push ⟨none, none, none, first⟩).tree := by
  rw [tree_foldl_push]
  simp [wrap, reference_parse, reference_arith]

theorem foldl_push_valid (links : List (BinaryOp × ExpressionNode)) :
    ∀ (s : Spine), s.valid → (∀ l ∈ links, is_operation l.2 = false) →
      (links.foldl Spine.push s).valid := by
  induction links with
  | nil => intro s hs _; exact hs
  | cons l rest ih =>
    intro s hs hl
    exact ih _ (push_valid s l.1 l.2 hs (hl l (List.mem_cons_self _ _)))
      (fun l1 h1 => hl l1 (List.mem_cons_of_mem _ h1))

theorem insert_dispatch_tree (mk : ExpressionNode → ExpressionNode) (s : Spine)
    (hs : s.valid) : insert_dispatch mk s.tree = ({ s with last := mk s.last } : Spine).tree := by
  obtain ⟨cmp, add, mul, last⟩ := s
  obtain ⟨_, _, _, h4⟩ := hs
  simp only at h4
  have hw := right_most_walk_of_not_operation last
  have hu := is_unparenthesized_operation_of_not_operation last h4
  rcases cmp with _ | ⟨c1, cop⟩ <;> rcases add with _ | ⟨a1, aop⟩ <;>
    rcases mul with _ | ⟨m1, mop⟩ <;>
    simp [insert_dispatch, Spine.tree, wrap, right_most_walk, hw, h4, hu, rebuild,
      OperationFrame.set_last, is_unparenthesized_operation]

theorem push_set_last (s : Spine) (op : BinaryOp) (b x : ExpressionNode) :
    ({ s.push (op, b) with last := x } : Spine) = s.push (op, x) := by
  unfold Spine.push
  split
  · rfl
  · split <;> rfl

theorem push_tree_is_binary (s : Spine) (l : BinaryOp × ExpressionNode) :
    ∃ o e1 e2, (s.push l).tree = .BinaryOperationNode o false e1 e2 := by
  obtain ⟨cmp, add, mul, last⟩ := s
  unfold Spine.push
  split
  · exact ⟨_, _, _, rfl⟩
  · split
    · rcases cmp with _ | ⟨c1, cop⟩ <;> exact ⟨_, _, _, rfl⟩
    · rcases cmp with _ | ⟨c1, cop⟩ <;> rcases add with _ | ⟨a1, aop⟩ <;> exact ⟨_, _, _, rfl⟩

/-- A dispatch after a chain replaces the last operand of the chain. -/
theorem insert_dispatch_reference (mk : ExpressionNode → ExpressionNode)
    (first b : ExpressionNode) (op : BinaryOp) (init : List (BinaryOp × ExpressionNode))
    (hf : is_operation first = false) (hi : ∀ l ∈ init, is_operation l.2 = false)
    (hb : is_operation b = false) :
    insert_dispatch mk (reference_parse first (init ++ [(op, b)])) =
      reference_parse first (init ++ [(op, mk b)]) := by
  have hv := foldl_push_valid init ⟨none, none, none, first⟩ ⟨by simp, by simp, by simp, hf⟩ hi
  rw [reference_parse_eq_tree, reference_parse_eq_tree, List.foldl_append, List.foldl_append]
  simp only [List.foldl_cons, List.foldl_nil]
  rw [insert_dispatch_tree mk _ (push_valid _ op b hv hb), push_set_last]
  have : (Spine.push (List.foldl Spine.push ⟨none, none, none, first⟩ init) (op, b)).last = b := by
    unfold Spine.push
    split
    · rfl
    · split <;> rfl
  rw [this]

theorem reference_parse_is_binary (first : ExpressionNode) (l : BinaryOp × ExpressionNode)
    (init : List (BinaryOp × ExpressionNode)) :
    ∃ o e1 e2, reference_parse first (init ++ [l]) = .BinaryOperationNode o false e1 e2 := by
  rw [reference_parse_eq_tree, List.foldl_append]
  exact push_tree_is_binary _ l

theorem reference_parse_single (first x : ExpressionNode) (op : BinaryOp) :
    reference_parse first [(op, x)] = .BinaryOperationNode op false first x := by
  cases op <;> rfl

theorem post_expression_chain_then (next : Token) (tail : List Token)
    (hn1 : next.get_type ≠ .ASSIGN) (hn2 : next.get_type ≠ .PARENTHESIS_OPEN)
    (toks : List (Token × Token)) :
    ∀ (links : List (BinaryOp × ExpressionNode)) (expr result : ExpressionNode) (k : Nat),
      chain_links toks = some links → insert_chain expr links = some result →
      post_expression (k + 2 + toks.length) (chain_tokens toks ++ next :: tail) expr =
        post_expression (k + 2) (next :: tail) result := by
  induction toks with
  | nil =>
    intro links expr result k h hi
    simp [chain_links] at h
    subst h
    simp [insert_chain] at hi
    subst hi
    rfl
  | cons t rest ih =>
    intro links expr result k h hi
    obtain ⟨o, a⟩ := t
    obtain ⟨op, e, links1, h1, h2, h3, rfl⟩ := chain_links_cons h
    have hhead : ∃ nx rs, chain_tokens rest ++ next :: tail = nx :: rs ∧
        nx.get_type ≠ .ASSIGN ∧ nx.get_type ≠ .PARENTHESIS_OPEN := by
      cases rest with
      | nil => exact ⟨next, tail, rfl, hn1, hn2⟩
      | cons t1 rest1 =>
        obtain ⟨o1, a1⟩ := t1
        obtain ⟨op1, _, _, h11, _, _, _⟩ := chain_links_cons h3
        exact ⟨o1, _, rfl, binary_operator_not_start o1 op1 h11⟩
    obtain ⟨nx, rs, hn, hnx1, hnx2⟩ := hhead
    simp only [insert_chain] at hi
    split at hi
    · simp at hi
    · next hclash =>
      have := post_expression_operator (k + rest.length) o a nx rs expr e op h1 h2 hnx1 hnx2
      have e1 : k + 2 + ((o, a) :: rest).length = k + rest.length + 3 := by
        simp only [List.length_cons]; omega
      have e2 : k + rest.length + 2 = k + 2 + rest.length := by omega
      simp only [chain_tokens, List.cons_append, hn, e1, this, hclash]
      rw [← hn, e2]
      exact ih links1 _ result k h3 hi

theorem post_expression_dispatch (k ld lf lp : Nat) (f : String) (targs rest3 : List Token)
    (args : List ExpressionNode) (expr : ExpressionNode)
    (hargs : parse_dispatch_parameters k targs [] = .ok (args, rest3)) :
    post_expression (k + 1)
        (.BaseToken .DOT ld :: .ObjIdToken f lf :: .BaseToken .PARENTHESIS_OPEN lp :: targs) expr =
      post_expression k rest3 (insert_dispatch (fun object => .DispatchNode object f args) expr) := by
  rw [post_expression]
  simp [binary_operator, expect, ObjIdToken_value, hargs, bind, Except.bind]

theorem post_expression_static_dispatch (k la lt ld lf lp : Nat) (f T : String)
    (targs rest3 : List Token) (args : List ExpressionNode) (expr : ExpressionNode)
    (hargs : parse_dispatch_parameters k targs [] = .ok (args, rest3)) :
    post_expression (k + 1)
        (.BaseToken .AT la :: .TypeIdToken T lt :: .BaseToken .DOT ld :: .ObjIdToken f lf ::
          .BaseToken .PARENTHESIS_OPEN lp :: targs) expr =
      post_expression k rest3
        (insert_dispatch (fun object => .StaticDispatchNode object f T args) expr) := by
  rw [post_expression]
  simp [binary_operator, expect, ObjIdToken_value, TypeIdToken_value, hargs, bind, Except.bind]

theorem parse_expression_chain_then (a0 next : Token) (tail : List Token)
    (toks : List (Token × Token)) (first : ExpressionNode)
    (links : List (BinaryOp × ExpressionNode)) (k : Nat)
    (h0 : atom_node a0 = some first) (hl : chain_links toks = some links)
    (hc : comparisons links ≤ 1)
    (hn1 : next.get_type ≠ .ASSIGN) (hn2 : next.get_type ≠ .PARENTHESIS_OPEN) :
    parse_expression (k + 3 + toks.length) (a0 :: (chain_tokens toks ++ next :: tail)) =
      post_expression (k + 2) (next :: tail) (reference_parse first links) := by
  have hi := insert_chain_reference first links (atom_node_not_operation a0 first h0)
    (chain_links_not_operation toks links hl) hc
  have hhead : ∃ nx rs, chain_tokens toks ++ next :: tail = nx :: rs ∧
      nx.get_type ≠ .ASSIGN ∧ nx.get_type ≠ .PARENTHESIS_OPEN := by
    cases toks with
    | nil => exact ⟨next, tail, rfl, hn1, hn2⟩
    | cons t1 rest1 =>
      obtain ⟨o1, a1⟩ := t1
      obtain ⟨op1, _, _, h11, _, _, _⟩ := chain_links_cons hl
      exact ⟨o1, _, rfl, binary_operator_not_start o1 op1 h11⟩
  obtain ⟨nx, rs, hn, hnx1, hnx2⟩ := hhead
  have e1 : k + 3 + toks.length = (k + toks.length) + 2 + 1 := by omega
  rw [e1, parse_expression, hn,
    parse_single_expression_atom (k + toks.length) a0 nx rs first h0 hnx1 hnx2]
  simp only [bind, Except.bind]
  rw [← hn]
  have e2 : k + toks.length + 2 = k + 2 + toks.length := by omega
  rw [e2]
  exact post_expression_chain_then next tail hn1 hn2 toks links first _ k hl hi

/-- In `a0 op1 a1 ... opn an.f(args)` and `a0 op1 a1 ... opn an@T.f(args)`
(literals and identifiers joined by at least one binary operator, at most one
of them a comparison) the dispatch wraps the right-most operand only: the tree
is the reference precedence parse of the chain whose last operand is
`Dispatch(an, f, args)`, respectively `StaticDispatch(an, T, f, args)`.  With a
single operator this is `op(a, Dispatch(b, f, args))`, and the result is never
a dispatch node. -/
theorem dispatch_wraps_right_most_atom (a0 : Token) (toks : List (Token × Token))
    (first b : ExpressionNode) (op : BinaryOp) (init : List (BinaryOp × ExpressionNode))
    (f T : String) (la lt ld lf lp : Nat) (targs : List Token) (args : List ExpressionNode)
    (stop : Token) (more : List Token) (n0 fuel : Nat)
    (h0 : atom_node a0 = some first) (hl : chain_links toks = some (init ++ [(op, b)]))
    (hc : comparisons (init ++ [(op, b)]) ≤ 1)
    (hargs : ∀ m, n0 ≤ m →
      parse_dispatch_parameters m (targs ++ stop :: more) [] = .ok (args, stop :: more))
    (hs : ends_expression stop = true) (hf : toks.length + n0 + 3 ≤ fuel) :
    (parse_expression fuel
        (a0 :: (chain_tokens toks ++ .BaseToken .DOT ld :: .ObjIdToken f lf ::
          .BaseToken .PARENTHESIS_OPEN lp :: (targs ++ stop :: more))) =
      .ok (reference_parse first (init ++ [(op, .DispatchNode b f args)]), stop :: more)) ∧
    (parse_expression fuel
        (a0 :: (chain_tokens toks ++ .BaseToken .AT la :: .TypeIdToken T lt ::
          .BaseToken .DOT ld :: .ObjIdToken f lf :: .BaseToken .PARENTHESIS_OPEN lp ::
          (targs ++ stop :: more))) =
      .ok (reference_parse first (init ++ [(op, .StaticDispatchNode b f T args)]),
        stop :: more)) ∧
    (init = [] →
      reference_parse first (init ++ [(op, .DispatchNode b f args)]) =
          .BinaryOperationNode op false first (.DispatchNode b f args) ∧
        reference_parse first (init ++ [(op, .StaticDispatchNode b f T args)]) =
          .BinaryOperationNode op false first (.StaticDispatchNode b f T args)) ∧
    (∀ object method_name parameters,
      reference_parse first (init ++ [(op, .DispatchNode b f args)]) ≠
        .DispatchNode object method_name parameters) ∧
    (∀ object method_name static_type parameters,
      reference_parse first (init ++ [(op, .StaticDispatchNode b f T args)]) ≠
        .StaticDispatchNode object method_name static_type parameters) := by
  obtain ⟨k, rfl⟩ : ∃ k, fuel = k + n0 + 3 + toks.length := ⟨fuel - n0 - 3 - toks.length, by omega⟩
  have hno := chain_links_not_operation toks _ hl
  have hfirst := atom_node_not_operation a0 first h0
  have hinit : ∀ l ∈ init, is_operation l.2 = false :=
    fun l h => hno l (List.mem_append_left _ h)
  have hb : is_operation b = false := hno (op, b) (by simp)
  have hA := hargs (k + n0 + 1) (by omega)
  refine ⟨?_, ?_, ?_, ?_, ?_⟩
  · rw [parse_expression_chain_then a0 _ _ toks first _ (k + n0) h0 hl hc (by simp) (by simp),
      post_expression_dispatch (k + n0 + 1) ld lf lp f _ _ args _ hA,
      post_expression_end (k + n0) stop more _ hs,
      insert_dispatch_reference _ first b op init hfirst hinit hb]
  · rw [parse_expression_chain_then a0 _ _ toks first _ (k + n0) h0 hl hc (by simp) (by simp),
      post_expression_static_dispatch (k + n0 + 1) la lt ld lf lp f T _ _ args _ hA,
      post_expression_end (k + n0) stop more _ hs,
      insert_dispatch_reference _ first b op init hfirst hinit hb]
  · rintro rfl
    exact ⟨reference_parse_single _ _ _, reference_parse_single _ _ _⟩
  · intro object method_name parameters h
    obtain ⟨o, e1, e2, h1⟩ := reference_parse_is_binary first (op, .DispatchNode b f args) init
    rw [h1] at h
    cases h
  · intro object method_name static_type parameters h
    obtain ⟨o, e1, e2, h1⟩ :=
      reference_parse_is_binary first (op, .StaticDispatchNode b f T args) init
    rw [h1] at h
    cases h

theorem parse_dispatch_parameters_empty (lc : Nat) (rest : List Token) (m : Nat) (hm : 1 ≤ m) :
    parse_dispatch_parameters m (.BaseToken .PARENTHESIS_CLOSE lc :: rest) [] = .ok ([], rest) := by
  obtain ⟨j, rfl⟩ : ∃ j, m = j + 1 := ⟨m - 1, by omega⟩
  rfl

/-- The inputs `a+b.f();` and `a+b@T.f();`: the trees are
`Plus(a, Dispatch(b, f, []))` and `Plus(a, StaticDispatch(b, T, f, []))`. -/
theorem dispatch_wraps_right_most_atom_example :
    (parse_expression 5
        [.ObjIdToken "a" 1, .BaseToken .PLUS 1, .ObjIdToken "b" 1, .BaseToken .DOT 1,
          .ObjIdToken "f" 1, .BaseToken .PARENTHESIS_OPEN 1, .BaseToken .PARENTHESIS_CLOSE 1,
          .BaseToken .SEMICOLON 1] =
      .ok (.BinaryOperationNode .PlusNode false (.IdentifierNode "a")
            (.DispatchNode (.IdentifierNode "b") "f" []),
          [.BaseToken .SEMICOLON 1])) ∧
    (parse_expression 5
        [.ObjIdToken "a" 1, .BaseToken .PLUS 1, .ObjIdToken "b" 1, .BaseToken .AT 1,
          .TypeIdToken "T" 1, .BaseToken .DOT 1, .ObjIdToken "f" 1,
          .BaseToken .PARENTHESIS_OPEN 1, .BaseToken .PARENTHESIS_CLOSE 1,
          .BaseToken .SEMICOLON 1] =
      .ok (.BinaryOperationNode .PlusNode false (.IdentifierNode "a")
            (.StaticDispatchNode (.IdentifierNode "b") "f" "T" []),
          [.BaseToken .SEMICOLON 1])) :=
  have h := dispatch_wraps_right_most_atom (.ObjIdToken "a" 1)
    [(.BaseToken .PLUS 1, .ObjIdToken "b" 1)] (.IdentifierNode "a") (.IdentifierNode "b")
    .PlusNode [] "f" "T" 1 1 1 1 1 [.BaseToken .PARENTHESIS_CLOSE 1] []
    (.BaseToken .SEMICOLON 1) [] 1 5 rfl rfl (by decide)
    (fun m hm => parse_dispatch_parameters_empty 1 _ m hm) rfl (by decide)
  ⟨h.1, h.2.1⟩

/-! ## Parenthesized operands -/

theorem parse_single_expression_nil (k : Nat) :
    ∃ f, parse_single_expression k [] = .error f := by
  cases k with
  | zero => exact ⟨_, rfl⟩
  | succ k =>
    cases k with
    | zero => exact ⟨_, rfl⟩
    | succ k => exact ⟨_, rfl⟩

theorem parse_single_expression_parentheses (k lo lc : Nat) (ts rest : List Token)
    (e : ExpressionNode)
    (h : parse_expression k ts = .ok (e, .BaseToken .PARENTHESIS_CLOSE lc :: rest)) :
    parse_single_expression (k + 2) (.BaseToken .PARENTHESIS_OPEN lo :: ts) =
      .ok (set_parenthesized e, rest) := by
  cases ts with
  | nil =>
    cases k with
    | zero => simp [parse_expression] at h
    | succ k =>
      obtain ⟨f, hf⟩ := parse_single_expression_nil k
      simp [parse_expression, hf, bind, Except.bind] at h
  | cons t ts =>
    simp [parse_single_expression, parse_assignment, parse_dispatch, parse_conditional,
      parse_while, parse_block, parse_let, parse_case, parse_new, parse_isvoid, parse_neg,
      parse_complement, parse_int_const, parse_string_const, parse_bool_const,
      parse_identifier, parse_parentheses, or_else, peek_equals, expect, h,
      bind, Except.bind, pure, Except.pure]

/-- C2, refuted: for an operand in parentheses the dispatch does not wrap the
operand.  In `1 - (x + y).f();` and `1 - (x + y)@T.f();` the second operand of
`-` is `(x + y)`, but the dispatch is applied to `y`, the last operand inside the
parentheses: the parses are `Minus(1, (Plus(x, Dispatch(y, f, []))))` and
`Minus(1, (Plus(x, StaticDispatch(y, T, f, []))))`, not
`Minus(1, Dispatch((Plus(x, y)), f, []))`. -/
theorem C2_dispatch_enters_parenthesized_operand :
    (parse_expression 12
        [.IntToken "1" 1, .BaseToken .MINUS 1, .BaseToken .PARENTHESIS_OPEN 1,
          .ObjIdToken "x" 1, .BaseToken .PLUS 1, .ObjIdToken "y" 1,
          .BaseToken .PARENTHESIS_CLOSE 1, .BaseToken .DOT 1, .ObjIdToken "f" 1,
          .BaseToken .PARENTHESIS_OPEN 1, .BaseToken .PARENTHESIS_CLOSE 1,
          .BaseToken .SEMICOLON 1] =
      .ok (.BinaryOperationNode .MinusNode false (.IntNode "1")
            (.BinaryOperationNode .PlusNode true (.IdentifierNode "x")
              (.DispatchNode (.IdentifierNode "y") "f" [])),
          [.BaseToken .SEMICOLON 1])) ∧
    (parse_expression 12
        [.IntToken "1" 1, .BaseToken .MINUS 1, .BaseToken .PARENTHESIS_OPEN 1,
          .ObjIdToken "x" 1, .BaseToken .PLUS 1, .ObjIdToken "y" 1,
          .BaseToken .PARENTHESIS_CLOSE 1, .BaseToken .AT 1, .TypeIdToken "T" 1,
          .BaseToken .DOT 1, .ObjIdToken "f" 1,
          .BaseToken .PARENTHESIS_OPEN 1, .BaseToken .PARENTHESIS_CLOSE 1,
          .BaseToken .SEMICOLON 1] =
      .ok (.BinaryOperationNode .MinusNode false (.IntNode "1")
            (.BinaryOperationNode .PlusNode true (.IdentifierNode "x")
              (.StaticDispatchNode (.IdentifierNode "y") "f" "T" [])),
          [.BaseToken .SEMICOLON 1])) :=
  ⟨rfl, rfl⟩

/-- C3, as the code behaves: in `a + (b + c) * d;` the operator `*` takes `c`,
an operand inside the parentheses, and in `a * (b + c).f();` the dispatch is
applied to `c`: the parses are `Plus(a, (Plus(b, Mul(c, d))))` and
`Mul(a, (Plus(b, Dispatch(c, f, []))))`. -/
theorem C3_operator_enters_parenthesized_operand :
    (parse_expression 12
        [.ObjIdToken "a" 1, .BaseToken .PLUS 1, .BaseToken .PARENTHESIS_OPEN 1,
          .ObjIdToken "b" 1, .BaseToken .PLUS 1, .ObjIdToken "c" 1,
          .BaseToken .PARENTHESIS_CLOSE 1, .BaseToken .MULTIPLICATION 1, .ObjIdToken "d" 1,
          .BaseToken .SEMICOLON 1] =
      .ok (.BinaryOperationNode .PlusNode false (.IdentifierNode "a")
            (.BinaryOperationNode .PlusNode true (.IdentifierNode "b")
              (.BinaryOperationNode .MultiplicationNode false (.IdentifierNode "c")
                (.IdentifierNode "d"))),
          [.BaseToken .SEMICOLON 1])) ∧
    (parse_expression 12
        [.ObjIdToken "a" 1, .BaseToken .MULTIPLICATION 1, .BaseToken .PARENTHESIS_OPEN 1,
          .ObjIdToken "b" 1, .BaseToken .PLUS 1, .ObjIdToken "c" 1,
          .BaseToken .PARENTHESIS_CLOSE 1, .BaseToken .DOT 1, .ObjIdToken "f" 1,
          .BaseToken .PARENTHESIS_OPEN 1, .BaseToken .PARENTHESIS_CLOSE 1,
          .BaseToken .SEMICOLON 1] =
      .ok (.BinaryOperationNode .MultiplicationNode false (.IdentifierNode "a")
            (.BinaryOperationNode .PlusNode true (.IdentifierNode "b")
              (.DispatchNode (.IdentifierNode "c") "f" [])),
          [.BaseToken .SEMICOLON 1])) :=
  ⟨rfl, rfl⟩

/-- C4: `(a op1 b) op2 c` with literals or identifiers `a`, `b`, `c` and
arithmetic operators `op1`, `op2` parses to `op2(op1(a, b), c)`, the inner node
flagged as parenthesized, whatever the precedences of `op1` and `op2`. -/
theorem C4_parenthesized_operation_is_left_operand (a o1 b o2 c stop : Token)
    (more : List Token) (ea eb ec : ExpressionNode) (op1 op2 : BinaryOp) (lo lc fuel : Nat)
    (ha : atom_node a = some ea) (hb : atom_node b = some eb) (hc : atom_node c = some ec)
    (h1 : binary_operator o1.get_type = some op1) (h2 : binary_operator o2.get_type = some op2)
    (hop1 : op1.is_comparison = false) (hop2 : op2.is_comparison = false)
    (hs : ends_expression stop = true) (hf : 7 ≤ fuel) :
    parse_expression fuel
        (.BaseToken .PARENTHESIS_OPEN lo :: a :: o1 :: b :: .BaseToken .PARENTHESIS_CLOSE lc ::
          o2 :: c :: stop :: more) =
      .ok (.BinaryOperationNode op2 false (.BinaryOperationNode op1 true ea eb) ec,
        stop :: more) := by
  obtain ⟨k, rfl⟩ : ∃ k, fuel = k + 7 := ⟨fuel - 7, by omega⟩
  have hin : parse_expression (k + 4)
      (a :: o1 :: b :: .BaseToken .PARENTHESIS_CLOSE lc :: o2 :: c :: stop :: more) =
      .ok (reference_parse ea [(op1, eb)],
        .BaseToken .PARENTHESIS_CLOSE lc :: o2 :: c :: stop :: more) :=
    (parse_expression_chain_then a (.BaseToken .PARENTHESIS_CLOSE lc)
      (o2 :: c :: stop :: more) [(o1, b)] ea [(op1, eb)] k ha
      (by simp [chain_links, h1, hb]) (by simp [comparisons, hop1]) (by simp) (by simp)).trans
      (post_expression_end (k + 1) _ _ _ rfl)
  rw [reference_parse_single] at hin
  have hsingle := parse_single_expression_parentheses (k + 4) lo lc _ _ _ hin
  have hstop := ends_expression_not_start stop hs
  rw [parse_expression, hsingle]
  simp only [bind, Except.bind, set_parenthesized]
  rw [post_expression_operator (k + 3) o2 c stop more _ ec op2 h2 hc hstop.1 hstop.2]
  have hclash : non_associative_clash (.BinaryOperationNode op1 true ea eb) op2 = false := by
    cases op1 <;> cases op2 <;> simp_all [non_associative_clash, BinaryOp.get_associativity,
      BinaryOp.is_comparison]
  simp only [hclash, insert_operator, is_unparenthesized_operation]
  exact post_expression_end (k + 4) stop more _ hs

/-- C4 at the input `(1+2)*3;`: the tree is `Mul(Plus(Int 1, Int 2), Int 3)`. -/
theorem C4_parenthesized_operation_is_left_operand_witness :
    parse_expression 7
        [.BaseToken .PARENTHESIS_OPEN 1, .IntToken "1" 1, .BaseToken .PLUS 1, .IntToken "2" 1,
          .BaseToken .PARENTHESIS_CLOSE 1, .BaseToken .MULTIPLICATION 1, .IntToken "3" 1,
          .BaseToken .SEMICOLON 1] =
      .ok (.BinaryOperationNode .MultiplicationNode false
            (.BinaryOperationNode .PlusNode true (.IntNode "1") (.IntNode "2")) (.IntNode "3"),
          [.BaseToken .SEMICOLON 1]) :=
  C4_parenthesized_operation_is_left_operand (.IntToken "1" 1) (.BaseToken .PLUS 1)
    (.IntToken "2" 1) (.BaseToken .MULTIPLICATION 1) (.IntToken "3" 1) (.BaseToken .SEMICOLON 1)
    [] (.IntNode "1") (.IntNode "2") (.IntNode "3") .PlusNode .MultiplicationNode 1 1 7
    rfl rfl rfl rfl rfl rfl rfl rfl (by decide)

/-! ## Chained comparisons -/

theorem parse_single_expression_last (k : Nat) (t : Token) :
    parse_single_expression (k + 2) [t] = .error (.parser_error none) := by
  simp [parse_single_expression, parse_assignment, or_else, bind, Except.bind]

/-- C5: `a c1 b c2 c` with literals or identifiers `a`, `b`, `c` and comparison
operators `c1`, `c2` is a parse error and gives no tree: `parser_error` is
called with the token of `c2` when a token that can follow an operand comes
after `c`, and with the end of the stream when `c` is the last token. -/
theorem C5_chained_comparisons_are_rejected (a o1 b o2 c : Token)
    (ea eb ec : ExpressionNode) (c1 c2 : BinaryOp) (fuel : Nat)
    (ha : atom_node a = some ea) (hb : atom_node b = some eb) (hc : atom_node c = some ec)
    (h1 : binary_operator o1.get_type = some c1) (h2 : binary_operator o2.get_type = some c2)
    (hc1 : c1.is_comparison = true) (hc2 : c2.is_comparison = true) (hf : 5 ≤ fuel) :
    (∀ (next : Token) (rest : List Token),
      next.get_type ≠ .ASSIGN → next.get_type ≠ .PARENTHESIS_OPEN →
      parse_expression fuel (a :: o1 :: b :: o2 :: c :: next :: rest) =
        .error (.parser_error (some o2))) ∧
    parse_expression fuel [a, o1, b, o2, c] = .error (.parser_error none) := by
  obtain ⟨k, rfl⟩ : ∃ k, fuel = k + 5 := ⟨fuel - 5, by omega⟩
  have ho2 := binary_operator_not_start o2 c2 h2
  have ho1 := binary_operator_not_start o1 c1 h1
  have hclash : non_associative_clash (.BinaryOperationNode c1 false ea eb) c2 = true := by
    cases c1 <;> cases c2 <;>
      simp_all [non_associative_clash, BinaryOp.get_associativity, BinaryOp.is_comparison]
  have hfirst : non_associative_clash ea c1 = false :=
    non_associative_clash_of_not_operation ea c1 (atom_node_not_operation a ea ha)
  have hins : insert_operator c1 eb ea = .BinaryOperationNode c1 false ea eb := by
    simp [insert_operator,
      is_unparenthesized_operation_of_not_operation ea (atom_node_not_operation a ea ha)]
  constructor
  · intro next rest hn1 hn2
    rw [parse_expression, parse_single_expression_atom (k + 2) a o1 _ ea ha ho1.1 ho1.2]
    simp only [bind, Except.bind]
    rw [post_expression_operator (k + 1) o1 b o2 _ ea eb c1 h1 hb ho2.1 ho2.2]
    simp only [hfirst, hins]
    rw [post_expression_operator k o2 c next rest _ ec c2 h2 hc hn1 hn2]
    simp [hclash]
  · rw [parse_expression, parse_single_expression_atom (k + 2) a o1 _ ea ha ho1.1 ho1.2]
    simp only [bind, Except.bind]
    rw [post_expression_operator (k + 1) o1 b o2 _ ea eb c1 h1 hb ho2.1 ho2.2]
    simp only [hfirst, hins]
    rw [post_expression]
    simp [h2, parse_single_expression_last, bind, Except.bind]

/-- C5 at the input `a=b=c;`: the parse stops with a syntax error at the second
`=`. -/
theorem C5_chained_comparisons_are_rejected_witness :
    parse_expression 5
        [.ObjIdToken "a" 1, .BaseToken .EQ 1, .ObjIdToken "b" 1, .BaseToken .EQ 2,
          .ObjIdToken "c" 2, .BaseToken .SEMICOLON 2] =
      .error (.parser_error (some (.BaseToken .EQ 2))) :=
  (C5_chained_comparisons_are_rejected (.ObjIdToken "a" 1) (.BaseToken .EQ 1)
    (.ObjIdToken "b" 1) (.BaseToken .EQ 2) (.ObjIdToken "c" 2) (.IdentifierNode "a")
    (.IdentifierNode "b") (.IdentifierNode "c") .EQNode .EQNode 5 rfl rfl rfl rfl rfl rfl rfl
    (by decide)).1 (.BaseToken .SEMICOLON 2) [] (by decide) (by decide)

/-! ## Ancestry and least upper bounds -/

theorem get_ancestry_loop_mono (ct : ClassTable) (fuel : Nat) :
    ∀ (node : String) (l : List String), get_ancestry_loop ct fuel node = .ok l →
      get_ancestry_loop ct (fuel + 1) node = .ok l := by
  induction fuel with
  | zero =>
    intro node l h
    unfold get_ancestry_loop at h ⊢
    split at h
    · next hn => simpa [hn] using h
    · simp at h
  | succ n ih =>
    intro node l h
    unfold get_ancestry_loop at h ⊢
    split at h
    · next hn => simpa [hn] using h
    · next hn =>
      simp only [hn]
      simp only [Bool.false_eq_true, ↓reduceIte] at h ⊢
      cases hf : ct.find node with
      | none => simp [hf] at h
      | some cls =>
        simp only [hf] at h ⊢
        cases hr : get_ancestry_loop ct n cls.base_class with
        | error f => simp [hr] at h
        | ok anc =>
          simp only [hr] at h
          rw [ih _ _ hr]
          exact h

theorem get_ancestry_loop_mono_le (ct : ClassTable) (node : String) (l : List String)
    (f1 f2 : Nat) (hle : f1 ≤ f2) (h : get_ancestry_loop ct f1 node = .ok l) :
    get_ancestry_loop ct f2 node = .ok l := by
  induction hle with
  | refl => exact h
  | step _ ih => exact get_ancestry_loop_mono ct _ node l ih

/-- An ancestry that is computed ends with `Object`. -/
theorem get_ancestry_loop_object (ct : ClassTable) (fuel : Nat) :
    ∀ (node : String) (l : List String), get_ancestry_loop ct fuel node = .ok l →
      "Object" ∈ l := by
  induction fuel with
  | zero =>
    intro node l h
    unfold get_ancestry_loop at h
    split at h
    · simp at h; subst h; simp
    · simp at h
  | succ n ih =>
    intro node l h
    unfold get_ancestry_loop at h
    split at h
    · simp at h; subst h; simp
    · simp only at h
      cases hf : ct.find node with
      | none => simp [hf] at h
      | some cls =>
        simp only [hf] at h
        cases hr : get_ancestry_loop ct n cls.base_class with
        | error f => simp [hr] at h
        | ok anc =>
          simp only [hr, Except.ok.injEq] at h
          subst h
          exact List.mem_cons_of_mem _ (ih _ _ hr)

/-- An ancestry that is computed starts with the class itself. -/
theorem get_ancestry_loop_head (ct : ClassTable) (fuel : Nat) (node : String)
    (l : List String) (h : get_ancestry_loop ct fuel node = .ok l) :
    ∃ rest, l = node :: rest := by
  unfold get_ancestry_loop at h
  split at h
  · next hn =>
    simp at h hn
    exact ⟨[], by rw [← h, hn]⟩
  · cases fuel with
    | zero => simp at h
    | succ n =>
      simp only at h
      cases hf : ct.find node with
      | none => simp [hf] at h
      | some cls =>
        simp only [hf] at h
        cases hr : get_ancestry_loop ct n cls.base_class with
        | error f => simp [hr] at h
        | ok anc =>
          simp only [hr, Except.ok.injEq] at h
          exact ⟨anc, h.symm⟩

/-- The part of a computed ancestry from one of its classes on is the ancestry
of that class. -/
theorem get_ancestry_loop_suffix (ct : ClassTable) (l1 : List String) :
    ∀ (fuel : Nat) (node x : String) (l2 : List String),
      get_ancestry_loop ct fuel node = .ok (l1 ++ x :: l2) →
      get_ancestry_loop ct fuel x = .ok (x :: l2) := by
  induction l1 with
  | nil =>
    intro fuel node x l2 h
    obtain ⟨rest, hr⟩ := get_ancestry_loop_head ct fuel node _ h
    simp at hr
    obtain ⟨rfl, _⟩ := hr
    exact h
  | cons y l1 ih =>
    intro fuel node x l2 h
    unfold get_ancestry_loop at h
    split at h
    · simp at h
    · cases fuel with
      | zero => simp at h
      | succ n =>
        simp only at h
        cases hf : ct.find node with
        | none => simp [hf] at h
        | some cls =>
          simp only [hf] at h
          cases hr : get_ancestry_loop ct n cls.base_class with
          | error f => simp [hr] at h
          | ok anc =>
            simp only [hr, Except.ok.injEq, List.cons_append, List.cons.injEq] at h
            rw [h.2] at hr
            exact get_ancestry_loop_mono ct n x _ (ih n _ x l2 hr)

theorem get_ancestry_suffix (ct : ClassTable) (node x : String) (l1 l2 : List String)
    (h : ct.get_ancestry node = .ok (l1 ++ x :: l2)) : ct.get_ancestry x = .ok (x :: l2) :=
  get_ancestry_loop_suffix ct l1 _ node x l2 h

theorem is_ancestor_object (ct : ClassTable) (t : String) (l : List String)
    (h : ct.get_ancestry t = .ok l) : "Object" ∈ l :=
  get_ancestry_loop_object ct _ t l h

theorem is_ancestor_self (ct : ClassTable) (t : String) (l : List String)
    (h : ct.get_ancestry t = .ok l) : t ∈ l := by
  obtain ⟨rest, hr⟩ := get_ancestry_loop_head ct _ t l h
  simp [hr]

theorem is_ancestor_trans (ct : ClassTable) (c r t : String) (h1 : is_ancestor ct c r)
    (h2 : is_ancestor ct r t) : is_ancestor ct c t := by
  obtain ⟨lr, hlr, hc⟩ := h1
  obtain ⟨lt, hlt, hr⟩ := h2
  obtain ⟨l1, l2, rfl⟩ := List.append_of_mem hr
  have := get_ancestry_suffix ct t r l1 l2 hlt
  rw [this] at hlr
  simp only [Except.ok.injEq] at hlr
  subst hlr
  exact ⟨_, hlt, List.mem_append_right _ hc⟩

theorem least_upper_bound_inv (ct : ClassTable) (a b r : String)
    (h : ct.least_upper_bound a b = .ok r) :
    ∃ la lb, ct.get_ancestry a = .ok la ∧ ct.get_ancestry b = .ok lb ∧
      r = (la.find? (fun x => lb.contains x)).getD "Object" := by
  unfold ClassTable.least_upper_bound at h
  cases ha : ct.get_ancestry a with
  | error f => simp [ha, bind, Except.bind] at h
  | ok la =>
    cases hb : ct.get_ancestry b with
    | error f => simp [ha, hb, bind, Except.bind] at h
    | ok lb =>
      simp only [ha, hb, bind, Except.bind, pure, Except.pure, Except.ok.injEq] at h
      exact ⟨la, lb, rfl, rfl, h.symm⟩

theorem least_upper_bound_of_ancestries (ct : ClassTable) (a b : String) (la lb : List String)
    (ha : ct.get_ancestry a = .ok la) (hb : ct.get_ancestry b = .ok lb) :
    ct.least_upper_bound a b = .ok ((la.find? (fun x => lb.contains x)).getD "Object") := by
  simp [ClassTable.least_upper_bound, ha, hb, bind, Except.bind, pure, Except.pure]

/-- The first class of the ancestry of `a` that is in the ancestry of `b`
exists, since both ancestries contain `Object`. -/
theorem find_common (ct : ClassTable) (a b : String) (la lb : List String)
    (ha : ct.get_ancestry a = .ok la) (hb : ct.get_ancestry b = .ok lb) :
    ∃ r l1 l2, la.find? (fun x => lb.contains x) = some r ∧ la = l1 ++ r :: l2 ∧
      r ∈ lb ∧ ∀ y ∈ l1, y ∉ lb := by
  have hoa := is_ancestor_object ct a la ha
  have hob := is_ancestor_object ct b lb hb
  cases hfind : la.find? (fun x => lb.contains x) with
  | none =>
    rw [List.find?_eq_none] at hfind
    have := hfind "Object" hoa
    simp [hob] at this
  | some r =>
    obtain ⟨hp, l1, l2, hl, hno⟩ := List.find?_eq_some.mp hfind
    refine ⟨r, l1, l2, rfl, hl, by simpa using hp, ?_⟩
    intro y hy
    simpa using hno y hy

/-- The result of `least_upper_bound(a, b)` is the least upper bound of `a`
and `b`. -/
theorem least_upper_bound_is_least (ct : ClassTable) (a b r : String)
    (h : ct.least_upper_bound a b = .ok r) :
    is_ancestor ct r a ∧ is_ancestor ct r b ∧
      ∀ c, is_ancestor ct c a → is_ancestor ct c b → is_ancestor ct c r := by
  obtain ⟨la, lb, ha, hb, hr⟩ := least_upper_bound_inv ct a b r h
  obtain ⟨r1, l1, l2, hfind, hl, hrb, hno⟩ := find_common ct a b la lb ha hb
  rw [hfind] at hr
  simp at hr
  subst hr
  refine ⟨⟨la, ha, by simp [hl]⟩, ⟨lb, hb, hrb⟩, ?_⟩
  rintro c ⟨la1, ha1, hca⟩ ⟨lb1, hb1, hcb⟩
  rw [ha] at ha1
  rw [hb] at hb1
  simp only [Except.ok.injEq] at ha1 hb1
  subst ha1 hb1
  refine ⟨r :: l2, get_ancestry_suffix ct a r l1 l2 (hl ▸ ha), ?_⟩
  rw [hl] at hca
  rcases List.mem_append.mp hca with h1 | h2
  · exact absurd hcb (hno c h1)
  · exact h2

/-- The conformance test of the type checker: `least_upper_bound(b, a)` is `b`
exactly when `b` is on the ancestry chain of `a`. -/
theorem least_upper_bound_eq_iff_conforms (ct : ClassTable) (a b : String) :
    ct.least_upper_bound b a = .ok b ↔ conforms ct a b := by
  constructor
  · intro h
    exact (least_upper_bound_is_least ct b a b h).2.1
  · rintro ⟨la, ha, hb⟩
    obtain ⟨l1, l2, rfl⟩ := List.append_of_mem hb
    have hanb := get_ancestry_suffix ct a b l1 l2 ha
    rw [least_upper_bound_of_ancestries ct b a _ _ hanb ha]
    simp [List.find?]

/-- The same test with the arguments in the other order:
`least_upper_bound(a, b)` is `b` exactly when `b` is on the ancestry chain of
`a`. -/
theorem least_upper_bound_eq_iff_conforms_left (ct : ClassTable) (a b : String) :
    ct.least_upper_bound a b = .ok b ↔ conforms ct a b := by
  constructor
  · intro h
    exact (least_upper_bound_is_least ct a b b h).1
  · rintro ⟨la, ha, hb⟩
    obtain ⟨l1, l2, rfl⟩ := List.append_of_mem hb
    have hanb := get_ancestry_suffix ct a b l1 l2 ha
    obtain ⟨r, m1, m2, hfind, hl, hrb, hno⟩ := find_common ct a b _ _ ha hanb
    rw [least_upper_bound_of_ancestries ct a b _ _ ha hanb, hfind]
    simp only [Option.getD_some, Except.ok.injEq]
    -- `r` is in the ancestry of `b`, and `b` is in the ancestry of `r`
    have hr_anc_b : is_ancestor ct r b := ⟨_, hanb, hrb⟩
    have hb_anc_r : is_ancestor ct b r := by
      refine ⟨r :: m2, get_ancestry_suffix ct a r m1 m2 (hl ▸ ha), ?_⟩
      have hbmem : b ∈ m1 ++ r :: m2 := by rw [← hl]; simp
      rcases List.mem_append.mp hbmem with h1 | h2
      · exact absurd (is_ancestor_self ct b _ hanb) (hno b h1)
      · exact h2
    -- two classes that are ancestors of each other have ancestries that contain each other
    obtain ⟨lr, hlr, hbr⟩ := hb_anc_r
    obtain ⟨p1, p2, hp⟩ := List.append_of_mem hbr
    obtain ⟨q1, q2, hq⟩ := List.append_of_mem hrb
    have e1 := get_ancestry_suffix ct r b p1 p2 (hp ▸ hlr)
    have e2 := get_ancestry_suffix ct b r q1 q2 (hq ▸ hanb)
    rw [hanb] at e1
    rw [hlr] at e2
    simp only [Except.ok.injEq] at e1 e2
    have len1 : (b :: l2).length = (q1 ++ r :: q2).length := by rw [hq]
    have len2 : lr.length = (p1 ++ b :: p2).length := by rw [hp]
    rw [e1] at len1
    rw [e2] at len2
    simp at len1 len2
    have hq1 : q1 = [] := by
      cases q1 with
      | nil => rfl
      | cons _ _ => simp at len1; omega
    subst hq1
    simp at hq
    exact hq.1.symm

theorem least_upper_bound_loop_is_least (ct : ClassTable) (symbols : List String) :
    ∀ (done : List String) (lub r : String), done ≠ [] → is_least_upper_bound ct done lub →
      least_upper_bound_loop ct lub symbols = .ok r →
      is_least_upper_bound ct (done ++ symbols) r := by
  induction symbols with
  | nil =>
    intro done lub r _ hl h
    simp [least_upper_bound_loop] at h
    subst h
    simpa using hl
  | cons s rest ih =>
    intro done lub r hne hl h
    simp only [least_upper_bound_loop, bind, Except.bind] at h
    cases h1 : ct.least_upper_bound lub s with
    | error f => simp [h1] at h
    | ok lub1 =>
      simp only [h1] at h
      obtain ⟨ha, hb, hleast⟩ := least_upper_bound_is_least ct lub s lub1 h1
      have := ih (done ++ [s]) lub1 r (by simp) ?_ h
      · simpa using this
      · constructor
        · intro t ht
          rcases List.mem_append.mp ht with h2 | h2
          · exact is_ancestor_trans ct lub1 lub t ha (hl.1 t h2)
          · simp at h2
            subst h2
            exact hb
        · intro c hc
          apply hleast c
          · exact hl.2 c (fun t ht => hc t (List.mem_append_left _ ht))
          · exact hc s (by simp)

/-- The result of `least_upper_bound(std::vector)` is the least upper bound of
all the classes of the vector. -/
theorem least_upper_bound_list_is_least (ct : ClassTable) (symbols : List String) (r : String)
    (h : ct.least_upper_bound_list symbols = .ok r) : is_least_upper_bound ct symbols r := by
  cases symbols with
  | nil => simp [ClassTable.least_upper_bound_list] at h
  | cons first rest =>
    simp only [ClassTable.least_upper_bound_list, least_upper_bound_loop, bind,
      Except.bind] at h
    cases h1 : ct.least_upper_bound first first with
    | error f => simp [h1] at h
    | ok lub1 =>
      simp only [h1] at h
      obtain ⟨ha, _, hleast⟩ := least_upper_bound_is_least ct first first lub1 h1
      have := least_upper_bound_loop_is_least ct rest [first] lub1 r (by simp) ?_ h
      · simpa using this
      · exact ⟨by simpa using ha, fun c hc => hleast c (hc first (by simp)) (hc first (by simp))⟩

/-! ## Type checking -/

/-- C7, as the code behaves: in the class table with a class `A`, the
comparison `(new A) = 1`, whose left operand has the class type `A` and whose
right operand has type `Int`, is accepted with type `Bool`, while `1 = (new A)`
is rejected. -/
theorem C7_eq_accepts_basic_type_on_the_right :
    typecheck example_classes { objects := [[]], methods := [], cls := "A" }
        (.BinaryOperationNode .EQNode false (.NewNode "A") (.IntNode "1")) = .ok "Bool" ∧
      typecheck example_classes { objects := [[]], methods := [], cls := "A" }
        (.BinaryOperationNode .EQNode false (.IntNode "1") (.NewNode "A")) =
          .error (.semant_error "Illegal comparison with a basic type.") :=
  ⟨rfl, rfl⟩

/-- C8: when the three parts of `if p then a else b fi` type-check,
`ConditionalNode::typecheck` reports an error if the type of `p` is not
`Bool`; otherwise, when the class table computes the least upper bound of the
two branch types with `SELF_TYPE` resolved to the current class, the result is
`SELF_TYPE` if both branch types are exactly `SELF_TYPE` and that least upper
bound if not. -/
theorem C8_conditional_typecheck (ct : ClassTable) (env : TypeEnvironment)
    (predicate then_expr else_expr : ExpressionNode) (pred_type then_type else_type : String)
    (hp : typecheck ct env predicate = .ok pred_type)
    (ht : typecheck ct env then_expr = .ok then_type)
    (he : typecheck ct env else_expr = .ok else_type) :
    (pred_type ≠ "Bool" →
      typecheck ct env (.ConditionalNode predicate then_expr else_expr) =
        .error (.semant_error ("Conditional predicate must be Bool, not " ++ pred_type ++ "."))) ∧
    (pred_type = "Bool" → ∀ lub,
      ct.least_upper_bound (resolve then_type env) (resolve else_type env) = .ok lub →
      typecheck ct env (.ConditionalNode predicate then_expr else_expr) =
          .ok (if then_type = "SELF_TYPE" ∧ else_type = "SELF_TYPE" then "SELF_TYPE" else lub) ∧
        is_least_upper_bound ct [resolve then_type env, resolve else_type env] lub) := by
  constructor
  · intro hne
    simp [typecheck, hp, ht, he, hne, semant_error, bind, Except.bind]
  · intro hb lub hl
    constructor
    · simp only [typecheck, hp, ht, he, hb, hl, bind, Except.bind, pure, Except.pure]
      by_cases h1 : then_type = "SELF_TYPE" <;> by_cases h2 : else_type = "SELF_TYPE" <;>
        simp [h1, h2]
    · obtain ⟨h1, h2, h3⟩ := least_upper_bound_is_least ct _ _ lub hl
      refine ⟨?_, fun c hc => h3 c (hc _ (by simp)) (hc _ (by simp))⟩
      intro t ht1
      simp at ht1
      rcases ht1 with rfl | rfl
      · exact h1
      · exact h2

/-- C8 at the classes `A`, `B inherits A`, `C inherits A`:
`if true then (new B) else (new C) fi` has type `A`. -/
theorem C8_conditional_typecheck_witness :
    typecheck example_classes { objects := [[]], methods := [], cls := "A" }
        (.ConditionalNode (.BoolNode true) (.NewNode "B") (.NewNode "C")) = .ok "A" :=
  ((C8_conditional_typecheck example_classes { objects := [[]], methods := [], cls := "A" }
    (.BoolNode true) (.NewNode "B") (.NewNode "C") "Bool" "B" "C" rfl rfl rfl).2 rfl "A" rfl).1

/-- The environment in which the body of a case branch is checked. -/
theorem branch_environment_binds (ct : ClassTable) (env : TypeEnvironment)
    (identifier declared_type : String) (h1 : identifier ≠ "self") (h2 : declared_type ≠ "") :
    typecheck ct { env with objects := env.objects.enter_scope.add_object identifier declared_type }
      (.IdentifierNode identifier) = .ok declared_type := by
  simp [typecheck, h1, ObjectEnv.enter_scope, ObjectEnv.add_object, ObjectEnv.lookup,
    ObjectScope.exists, ObjectScope.get_object, h2]

theorem typecheck_case_branches_spec (ct : ClassTable) (env : TypeEnvironment)
    (branches : List (String × String × ExpressionNode)) (types : List String)
    (hb : List.Forall₂
      (fun branch type =>
        typecheck ct
          { env with objects := env.objects.enter_scope.add_object branch.1 branch.2.1 }
          branch.2.2 = .ok type) branches types) :
    ∀ (decls : List String),
      ((∀ d ∈ branches.map (fun b => b.2.1), d ∉ decls) ∧ (branches.map (fun b => b.2.1)).Nodup →
        typecheck_case_branches ct env branches decls =
          .ok (types, types.map (fun t => resolve t env))) ∧
      (¬ ((∀ d ∈ branches.map (fun b => b.2.1), d ∉ decls) ∧
          (branches.map (fun b => b.2.1)).Nodup) →
        ∃ declared_type, typecheck_case_branches ct env branches decls =
          .error (.semant_error ("Duplicate branch " ++ declared_type ++ " in case statement."))) := by
  induction hb with
  | nil =>
    intro decls
    simp [typecheck_case_branches]
  | @cons branch type rest types1 h1 _ ih =>
    intro decls
    obtain ⟨identifier, declared_type, expression⟩ := branch
    simp only at h1
    by_cases hd : declared_type ∈ decls
    · constructor
      · intro h
        exact absurd hd (h.1 declared_type (by simp))
      · intro _
        exact ⟨declared_type, by
          simp [typecheck_case_branches, h1, hd, semant_error, bind, Except.bind]⟩
    · have hstep : typecheck_case_branches ct env ((identifier, declared_type, expression) :: rest)
          decls =
          (match typecheck_case_branches ct env rest (decls ++ [declared_type]) with
            | .ok r => .ok (type :: r.1, resolve type env :: r.2)
            | .error f => .error f) := by
        simp only [typecheck_case_branches, h1, bind, Except.bind, pure, Except.pure]
        have hc : decls.contains declared_type = false := by simpa using hd
        simp only [hc, Bool.false_eq_true, ↓reduceIte]
        cases typecheck_case_branches ct env rest (decls ++ [declared_type]) <;> rfl
      obtain ⟨ih1, ih2⟩ := ih (decls ++ [declared_type])
      have hequiv : ((∀ d ∈ ((identifier, declared_type, expression) :: rest).map (fun b => b.2.1),
            d ∉ decls) ∧
          (((identifier, declared_type, expression) :: rest).map (fun b => b.2.1)).Nodup) ↔
          ((∀ d ∈ rest.map (fun b => b.2.1), d ∉ decls ++ [declared_type]) ∧
            (rest.map (fun b => b.2.1)).Nodup) := by
        simp only [List.map_cons]
        constructor
        · rintro ⟨h3, h4⟩
          refine ⟨fun d hd1 hmem => ?_, (List.nodup_cons.mp h4).2⟩
          rcases List.mem_append.mp hmem with h | h
          · exact h3 d (List.mem_cons_of_mem _ hd1) h
          · simp only [List.mem_singleton] at h
            subst h
            exact (List.nodup_cons.mp h4).1 hd1
        · rintro ⟨h3, h4⟩
          refine ⟨fun d hd1 => ?_, List.nodup_cons.mpr ⟨fun hm => ?_, h4⟩⟩
          · rcases List.mem_cons.mp hd1 with h | h
            · rw [h]; exact hd
            · exact fun hm => h3 d h (List.mem_append_left _ hm)
          · exact h3 declared_type hm (List.mem_append_right _ (by simp))
      constructor
      · intro h
        rw [hstep, ih1 (hequiv.mp h)]
        simp
      · intro h
        obtain ⟨d, hd1⟩ := ih2 (fun h7 => h (hequiv.mpr h7))
        exact ⟨d, by rw [hstep, hd1]⟩

/-- C9: when the target and, for every branch, the body checked with the
branch identifier bound to the declared type of the branch type-check,
`CaseNode::typecheck` reports an error if two branches declare the same type;
otherwise the result is `SELF_TYPE` if every branch body has type `SELF_TYPE`,
and if not it is what `least_upper_bound` gives for the list of the branch
body types with `SELF_TYPE` resolved to the current class, which is the least
upper bound of all of them. -/
theorem C9_case_typecheck (ct : ClassTable) (env : TypeEnvironment) (target : ExpressionNode)
    (branches : List (String × String × ExpressionNode)) (target_type : String)
    (types : List String)
    (ht : typecheck ct env target = .ok target_type)
    (hb : List.Forall₂
      (fun branch type =>
        typecheck ct
          { env with objects := env.objects.enter_scope.add_object branch.1 branch.2.1 }
          branch.2.2 = .ok type) branches types) :
    (¬ (branches.map (fun b => b.2.1)).Nodup →
      ∃ declared_type, typecheck ct env (.CaseNode target branches) =
        .error (.semant_error ("Duplicate branch " ++ declared_type ++ " in case statement."))) ∧
    ((branches.map (fun b => b.2.1)).Nodup →
      typecheck ct env (.CaseNode target branches) =
        if ∀ t ∈ types, t = "SELF_TYPE" then .ok "SELF_TYPE"
        else ct.least_upper_bound_list (types.map (fun t => resolve t env))) ∧
    (∀ r, ct.least_upper_bound_list (types.map (fun t => resolve t env)) = .ok r →
      is_least_upper_bound ct (types.map (fun t => resolve t env)) r) ∧
    (∀ branch ∈ branches, branch.1 ≠ "self" → branch.2.1 ≠ "" →
      typecheck ct
        { env with objects := env.objects.enter_scope.add_object branch.1 branch.2.1 }
        (.IdentifierNode branch.1) = .ok branch.2.1) := by
  obtain ⟨h1, h2⟩ := typecheck_case_branches_spec ct env branches types hb []
  refine ⟨?_, ?_, ?_, ?_⟩
  · intro hdup
    obtain ⟨d, hd⟩ := h2 (fun h => hdup h.2)
    exact ⟨d, by simp [typecheck, ht, hd, bind, Except.bind]⟩
  · intro hnd
    have := h1 ⟨by simp, hnd⟩
    simp only [typecheck, ht, this, bind, Except.bind, pure, Except.pure]
    by_cases hall : ∀ t ∈ types, t = "SELF_TYPE"
    · have : types.all (fun type => type == "SELF_TYPE") = true := by simpa using hall
      rw [if_pos hall]
      simp [this]
    · have : types.all (fun type => type == "SELF_TYPE") = false := by
        simpa [← Bool.not_eq_true] using hall
      rw [if_neg hall]
      simp [this]
  · intro r hr
    exact least_upper_bound_list_is_least ct _ r hr
  · intro branch _ hs hn
    exact branch_environment_binds ct env branch.1 branch.2.1 hs hn

/-- C9 at `case (new B) of x : B => x; y : Int => (new C); esac` over the
classes `A`, `B inherits A`, `C inherits A`: the bodies have types `B` and `C`
and the result is `A`. -/
theorem C9_case_typecheck_witness :
    typecheck example_classes { objects := [[]], methods := [], cls := "A" }
        (.CaseNode (.NewNode "B")
          [("x", "B", .IdentifierNode "x"), ("y", "Int", .NewNode "C")]) = .ok "A" :=
  ((C9_case_typecheck example_classes { objects := [[]], methods := [], cls := "A" }
    (.NewNode "B") [("x", "B", .IdentifierNode "x"), ("y", "Int", .NewNode "C")] "B"
    ["B", "C"] rfl (.cons rfl (.cons rfl .nil))).2.1 (by decide)).trans rfl

theorem typecheck_parameters_spec (ct : ClassTable) (env : TypeEnvironment)
    (method_name : String) (static_class : Option String)
    (parameters : List ExpressionNode) (parameter_types : List String)
    (hp : List.Forall₂ (fun p t => typecheck ct env p = .ok t) parameters parameter_types) :
    ∀ (i : Nat) (formals : List FormalNode), parameters.length = formals.length →
      (typecheck_parameters ct env method_name static_class i formals parameters = .ok () ↔
        List.Forall₂ (fun t (formal : FormalNode) => conforms ct (resolve t env) formal.type)
          parameter_types formals) := by
  induction hp with
  | nil =>
    intro i formals hlen
    cases formals with
    | nil => simp [typecheck_parameters]
    | cons f fs => simp at hlen
  | @cons p t ps ts h1 _ ih =>
    intro i formals hlen
    cases formals with
    | nil => simp at hlen
    | cons formal fs =>
      simp only [List.length_cons, add_left_inj] at hlen
      simp only [typecheck_parameters, h1, bind, Except.bind, List.forall₂_cons]
      cases hl : ct.least_upper_bound formal.type (resolve t env) with
      | error f =>
        simp only []
        constructor
        · intro h; cases h
        · rintro ⟨hc, _⟩
          rw [(least_upper_bound_eq_iff_conforms ct _ _).mpr hc] at hl
          cases hl
      | ok lub =>
        simp only []
        by_cases he : lub = formal.type
        · subst he
          have hc := (least_upper_bound_eq_iff_conforms ct _ _).mp hl
          simp only [bne_self_eq_false, Bool.false_eq_true, ↓reduceIte]
          rw [ih (i + 1) fs hlen]
          exact ⟨fun h => ⟨hc, h⟩, fun h => h.2⟩
        · have hne : (lub != formal.type) = true := by simpa using he
          simp only [hne, ↓reduceIte]
          constructor
          · intro h
            cases static_class <;> simp [semant_error] at h
          · rintro ⟨hc, _⟩
            rw [(least_upper_bound_eq_iff_conforms ct _ _).mpr hc] at hl
            simp only [Except.ok.injEq] at hl
            exact absurd hl.symm he

theorem MethodEnv.find_isSome_of_exists (methods : MethodEnv) (cls method : String) :
    (MethodEnv.find methods cls method).isSome = MethodEnv.exists methods cls method := by
  unfold MethodEnv.find MethodEnv.exists
  induction methods with
  | nil => rfl
  | cons b rest ih =>
    simp only [List.find?_cons, List.any_cons]
    cases hb : (b.1 == (cls, method)) with
    | true => simp
    | false => simpa using ih

/-- C6: when the object `e` and the arguments of `e.m(a1..an)` type-check,
`DispatchNode::typecheck` succeeds with result `result` exactly when the method
environment has a method `m` for the type of `e` with `SELF_TYPE` resolved to
the current class, the number of arguments is the number of its formals, the
type of every argument, resolved the same way, conforms to the type of the
corresponding formal, and `result` is the declared return type of the method,
or the type of `e` as it was inferred when the declared return type is
`SELF_TYPE`. -/
theorem C6_dispatch_typecheck (ct : ClassTable) (env : TypeEnvironment)
    (object : ExpressionNode) (method_name : String) (parameters : List ExpressionNode)
    (object_class : String) (parameter_types : List String) (result : String)
    (ho : typecheck ct env object = .ok object_class)
    (hp : List.Forall₂ (fun p t => typecheck ct env p = .ok t) parameters parameter_types) :
    typecheck ct env (.DispatchNode object method_name parameters) = .ok result ↔
      ∃ method, MethodEnv.find env.methods (resolve object_class env) method_name = some method ∧
        parameters.length = method.formals.length ∧
        List.Forall₂ (fun t (formal : FormalNode) => conforms ct (resolve t env) formal.type)
          parameter_types method.formals ∧
        result = if method.type = "SELF_TYPE" then object_class else method.type := by
  have hex := MethodEnv.find_isSome_of_exists env.methods (resolve object_class env) method_name
  simp only [typecheck, ho, bind, Except.bind]
  cases hfind : MethodEnv.find env.methods (resolve object_class env) method_name with
  | none =>
    rw [hfind] at hex
    simp [← hex, semant_error]
  | some method =>
    rw [hfind] at hex
    simp only [← hex, Option.isSome_some, Bool.not_true, Bool.false_eq_true, ↓reduceIte,
      Option.some.injEq, exists_eq_left']
    by_cases hlen : parameters.length = method.formals.length
    · have hspec := typecheck_parameters_spec ct env method_name none parameters
        parameter_types hp 0 method.formals hlen
      simp only [hlen, bne_self_eq_false, Bool.false_eq_true, ↓reduceIte, true_and]
      cases hparams : typecheck_parameters ct env method_name none 0 method.formals parameters with
      | error f =>
        have : ¬ List.Forall₂ (fun t (formal : FormalNode) =>
            conforms ct (resolve t env) formal.type) parameter_types method.formals := by
          intro h
          rw [hspec.mpr h] at hparams
          cases hparams
        simp [this]
      | ok u =>
        have hc := hspec.mp hparams
        simp only [hc, true_and, pure, Except.pure]
        by_cases hs : method.type = "SELF_TYPE"
        · have hb : (method.type == "SELF_TYPE") = true := by simpa using hs
          rw [if_pos hb, if_pos hs]
          exact ⟨fun h => (Except.ok.inj h).symm, fun h => by rw [h]⟩
        · have hb : ¬ (method.type == "SELF_TYPE") = true := by simpa using hs
          rw [if_neg hb, if_neg hs]
          exact ⟨fun h => (Except.ok.inj h).symm, fun h => by rw [h]⟩
    · have hne : (parameters.length != method.formals.length) = true := by simpa using hlen
      simp [hne, hlen, semant_error]


/-- C6 at `(new B).m(new C)` over the classes `A`, `B inherits A`,
`C inherits A`, where the method environment has `m(x : A) : SELF_TYPE` for
`B`: the dispatch has type `B`. -/
theorem C6_dispatch_typecheck_witness :
    typecheck example_classes
        { objects := [[]],
          methods := [(("B", "m"),
            { name := "m", type := "SELF_TYPE", formals := [⟨"x", "A"⟩],
              expr := .IdentifierNode "self" })],
          cls := "A" }
        (.DispatchNode (.NewNode "B") "m" [.NewNode "C"]) = .ok "B" :=
  (C6_dispatch_typecheck example_classes
    { objects := [[]],
      methods := [(("B", "m"),
        { name := "m", type := "SELF_TYPE", formals := [⟨"x", "A"⟩],
          expr := .IdentifierNode "self" })],
      cls := "A" }
    (.NewNode "B") "m" [.NewNode "C"] "B" ["C"] "B" rfl (.cons rfl .nil)).mpr
    ⟨_, rfl, rfl, .cons ⟨["C", "A", "Object"], rfl, by simp⟩ .nil, rfl⟩

/-! ## The method environment -/

theorem check_formals_spec (formals : List FormalNode) :
    ((∀ formal ∈ formals, formal.name ≠ "self" ∧ formal.type ≠ "SELF_TYPE") →
      check_formals formals = .ok ()) ∧
    (¬ (∀ formal ∈ formals, formal.name ≠ "self" ∧ formal.type ≠ "SELF_TYPE") →
      ∃ msg, check_formals formals = .error (.semant_error msg)) := by
  induction formals with
  | nil => simp [check_formals]
  | cons formal rest ih =>
    by_cases h1 : formal.name = "self"
    · simp [check_formals, h1, semant_error]
    · by_cases h2 : formal.type = "SELF_TYPE"
      · simp [check_formals, h1, h2, semant_error]
      · simp only [check_formals, beq_iff_eq, h1, h2, ↓reduceIte, List.mem_cons,
          forall_eq_or_imp, ne_eq, not_false_eq_true, and_self, true_and]
        exact ih

theorem check_redefined_formals_spec (method_name : String) (formals : List FormalNode) :
    ∀ (originals : List FormalNode), formals.length = originals.length →
      ((formals.map (fun f => f.type) = originals.map (fun f => f.type) →
        check_redefined_formals method_name formals originals = .ok ()) ∧
      (formals.map (fun f => f.type) ≠ originals.map (fun f => f.type) →
        ∃ msg, check_redefined_formals method_name formals originals =
          .error (.semant_error msg))) := by
  induction formals with
  | nil =>
    intro originals hlen
    cases originals with
    | nil => simp [check_redefined_formals]
    | cons o os => simp at hlen
  | cons formal rest ih =>
    intro originals hlen
    cases originals with
    | nil => simp at hlen
    | cons o os =>
      simp only [List.length_cons, add_left_inj] at hlen
      by_cases h1 : formal.type = o.type
      · simp only [check_redefined_formals, h1, bne_self_eq_false, Bool.false_eq_true,
          ↓reduceIte, List.map_cons, List.cons.injEq, true_and, ne_eq]
        exact ih os hlen
      · have hne : (formal.type != o.type) = true := by simpa using h1
        simp [check_redefined_formals, hne, h1, semant_error]

theorem check_override_spec (method original : MethodNode) (already_added : Bool) :
    (already_added = false ∧ same_signature method original →
      check_override method original already_added = .ok ()) ∧
    (¬ (already_added = false ∧ same_signature method original) →
      ∃ msg, check_override method original already_added = .error (.semant_error msg)) := by
  unfold check_override same_signature
  cases already_added with
  | true => simp [semant_error]
  | false =>
    simp only [Bool.false_eq_true, ↓reduceIte, true_and]
    by_cases h1 : original.type = method.type
    · have hb : (original.type != method.type) = false := by simpa using h1
      simp only [hb, Bool.false_eq_true, ↓reduceIte]
      by_cases h2 : method.formals.length = original.formals.length
      · have hb2 : (method.formals.length != original.formals.length) = false := by simpa using h2
        simp only [hb2, Bool.false_eq_true, ↓reduceIte]
        obtain ⟨s1, s2⟩ := check_redefined_formals_spec method.name method.formals
          original.formals h2
        constructor
        · rintro ⟨_, h4⟩
          exact s1 h4
        · intro h
          exact s2 (fun h4 => h ⟨h1.symm, h4⟩)
      · have hb2 : (method.formals.length != original.formals.length) = true := by simpa using h2
        simp only [hb2, ↓reduceIte, semant_error]
        constructor
        · rintro ⟨_, h4⟩
          exact absurd (by simpa using congrArg List.length h4) h2
        · intro _
          exact ⟨_, rfl⟩
    · have hb : (original.type != method.type) = true := by simpa using h1
      simp only [hb, ↓reduceIte, semant_error]
      constructor
      · rintro ⟨h3, _⟩
        exact absurd h3.symm h1
      · intro _
        exact ⟨_, rfl⟩

theorem entries_snoc (cls_name : String) (seen : List MethodNode) (m : MethodNode)
    (global : MethodEnv) :
    MethodEnv.set (entries cls_name seen ++ global) cls_name m =
      entries cls_name (seen ++ [m]) ++ global := by
  simp [MethodEnv.set, entries]

theorem find_entries (cls_name name : String) (global : MethodEnv)
    (hg : ∀ b ∈ global, b.1.1 ≠ cls_name) (seen : List MethodNode) :
    MethodEnv.find (entries cls_name seen ++ global) cls_name name = latest seen name := by
  unfold MethodEnv.find entries latest
  have hglobal : List.find? (fun (b : (String × String) × MethodNode) => b.1 == (cls_name, name))
      global = none := by
    rw [List.find?_eq_none]
    intro b hb
    have := hg b hb
    simp only [beq_iff_eq]
    intro h
    exact this (by rw [h])
  generalize seen.reverse = l
  induction l with
  | nil => simp [hglobal]
  | cons m rest ih =>
    simp only [List.map_cons, List.cons_append, List.find?_cons]
    by_cases h : m.name = name
    · simp [h]
    · have h1 : (((cls_name, m.name) : String × String) == (cls_name, name)) = false := by
        simpa using h
      have h2 : (m.name == name) = false := by simpa using h
      simp only [h1, h2]
      exact ih

theorem add_methods_spec (cls_name : String) (global : MethodEnv)
    (hg : ∀ b ∈ global, b.1.1 ≠ cls_name) (methods : List MethodNode) :
    ∀ (seen : List MethodNode) (added : List String),
      (methods_ok seen added methods →
        add_methods cls_name methods added (entries cls_name seen ++ global) =
          .ok (entries cls_name (seen ++ methods) ++ global)) ∧
      (¬ methods_ok seen added methods →
        ∃ msg, add_methods cls_name methods added (entries cls_name seen ++ global) =
          .error (.semant_error msg)) := by
  induction methods with
  | nil => intro seen added; simp [add_methods, methods_ok]
  | cons m rest ih =>
    intro seen added
    have hfind := find_entries cls_name m.name global hg seen
    have hexists := MethodEnv.find_isSome_of_exists (entries cls_name seen ++ global) cls_name m.name
    obtain ⟨f1, f2⟩ := check_formals_spec m.formals
    obtain ⟨ih1, ih2⟩ := ih (seen ++ [m]) (m.name :: added)
    simp only [methods_ok, add_methods, bind, Except.bind]
    by_cases hlegal : formals_legal m
    · rw [f1 hlegal]
      simp only [← hexists, hfind, entries_snoc, hlegal, true_and]
      cases hl : latest seen m.name with
      | none =>
        simp only [Option.isSome_none, Bool.false_eq_true, ↓reduceIte, reduceCtorEq,
          false_implies, implies_true, true_and]
        simpa using ih (seen ++ [m]) (m.name :: added)
      | some original =>
        obtain ⟨o1, o2⟩ := check_override_spec m original (added.contains m.name)
        simp only [Option.isSome_some, ↓reduceIte, Option.some.injEq, forall_eq']
        by_cases hok : added.contains m.name = false ∧ same_signature m original
        · rw [o1 hok]
          have hok' : m.name ∉ added ∧ same_signature m original := by
            simpa using hok
          simp only [hok', true_and, List.append_assoc, List.singleton_append,
            not_true_eq_false, and_self]
          simpa using ih (seen ++ [m]) (m.name :: added)
        · obtain ⟨msg, hmsg⟩ := o2 hok
          rw [hmsg]
          have hok' : ¬ (m.name ∉ added ∧ same_signature m original) := by
            simpa using hok
          constructor
          · intro h
            exact absurd h.1 hok'
          · intro _
            exact ⟨msg, rfl⟩
    · obtain ⟨msg, hmsg⟩ := f2 hlegal
      rw [hmsg]
      constructor
      · intro h
        exact absurd h.1 hlegal
      · intro _
        exact ⟨msg, rfl⟩

theorem add_levels_spec (cls_name : String) (global : MethodEnv)
    (hg : ∀ b ∈ global, b.1.1 ≠ cls_name) (levels : List ClassNode) :
    ∀ (seen : List MethodNode),
      (levels_ok seen levels →
        add_levels cls_name levels (entries cls_name seen ++ global) =
          .ok (entries cls_name (seen ++ all_methods levels) ++ global)) ∧
      (¬ levels_ok seen levels →
        ∃ msg, add_levels cls_name levels (entries cls_name seen ++ global) =
          .error (.semant_error msg)) := by
  induction levels with
  | nil => intro seen; simp [add_levels, levels_ok, all_methods]
  | cons cls rest ih =>
    intro seen
    obtain ⟨m1, m2⟩ := add_methods_spec cls_name global hg cls.get_methods seen []
    obtain ⟨ih1, ih2⟩ := ih (seen ++ cls.get_methods)
    simp only [levels_ok, add_levels, all_methods]
    by_cases hm : methods_ok seen [] cls.get_methods
    · rw [m1 hm]
      simp only [hm, true_and, ← List.append_assoc]
      exact ⟨ih1, ih2⟩
    · obtain ⟨msg, hmsg⟩ := m2 hm
      rw [hmsg]
      exact ⟨fun h => absurd h.1 hm, fun _ => ⟨msg, rfl⟩⟩

theorem add_levels_append (cls_name : String) (l1 l2 : List ClassNode) (methods : MethodEnv) :
    add_levels cls_name (l1 ++ l2) methods =
      match add_levels cls_name l1 methods with
      | .error f => .error f
      | .ok methods1 => add_levels cls_name l2 methods1 := by
  induction l1 generalizing methods with
  | nil => rfl
  | cons cls rest ih =>
    simp only [List.cons_append, add_levels]
    cases add_methods cls_name cls.get_methods [] methods with
    | error f => rfl
    | ok m1 => exact ih m1

/-- The function `add_class_to_method_env` runs the method loops of the classes
of the chain. -/
theorem add_class_to_method_env_eq (ct : ClassTable) (cls_name : String) (methods : MethodEnv)
    (fuel : Nat) :
    ∀ (cls : ClassNode), add_class_to_method_env ct fuel cls cls_name methods =
      match class_chain ct fuel cls with
      | .error f => .error f
      | .ok chain => add_levels cls_name chain methods := by
  induction fuel with
  | zero =>
    intro cls
    unfold add_class_to_method_env class_chain
    split
    · rfl
    · simp only [add_levels]
      cases add_methods cls_name cls.get_methods [] methods <;> rfl
  | succ n ih =>
    intro cls
    unfold add_class_to_method_env class_chain
    split
    · cases hf : ct.find cls.base_class with
      | none => rfl
      | some parent =>
        simp only [ih parent]
        cases hc : class_chain ct n parent with
        | error f => rfl
        | ok chain =>
          simp only [add_levels_append, add_levels]
          cases add_levels cls_name chain methods with
          | error f => rfl
          | ok m1 =>
            simp only []
            cases add_methods cls_name cls.get_methods [] m1 <;> rfl
    · simp only [add_levels]
      cases add_methods cls_name cls.get_methods [] methods <;> rfl

/-- The loop of `build_method_env` over classes with distinct names, each with
its chain of classes: it succeeds exactly when the method loops of every chain
pass. -/
theorem build_method_env_loop_spec (ct : ClassTable) (classes : List (String × ClassNode))
    (chain_of : ClassNode → List ClassNode)
    (hchain : ∀ entry ∈ classes,
      class_chain ct (ct.clsmap.length + 1) entry.2 = .ok (chain_of entry.2))
    (hnodup : (classes.map (fun entry => entry.2.name)).Nodup) :
    ∀ (methods : MethodEnv),
      (∀ b ∈ methods, b.1.1 ∉ classes.map (fun entry => entry.2.name)) →
      ((∀ entry ∈ classes, levels_ok [] (chain_of entry.2)) →
        ∃ result, build_method_env_loop ct classes methods = .ok result) ∧
      (¬ (∀ entry ∈ classes, levels_ok [] (chain_of entry.2)) →
        ∃ msg, build_method_env_loop ct classes methods = .error (.semant_error msg)) := by
  induction classes with
  | nil => intro methods _; simp [build_method_env_loop]
  | cons entry rest ih =>
    intro methods hm
    have hc := hchain entry (List.mem_cons_self _ _)
    simp only [List.map_cons, List.nodup_cons] at hnodup
    have hg : ∀ b ∈ methods, b.1.1 ≠ entry.2.name := by
      intro b hb h
      exact hm b hb (by simp [h])
    obtain ⟨l1, l2⟩ := add_levels_spec entry.2.name methods hg (chain_of entry.2) []
    simp only [entries, List.reverse_nil, List.map_nil, List.nil_append] at l1 l2
    simp only [build_method_env_loop, add_class_to_method_env_eq, hc]
    by_cases hl : levels_ok [] (chain_of entry.2)
    · rw [l1 hl]
      simp only [List.mem_cons, forall_eq_or_imp, hl, true_and]
      apply ih (fun e he => hchain e (List.mem_cons_of_mem _ he)) hnodup.2
      intro b hb
      rcases List.mem_append.mp hb with h | h
      · simp only [List.mem_map, List.mem_reverse] at h
        obtain ⟨m, _, rfl⟩ := h
        exact hnodup.1
      · intro h1
        exact hm b h (by simp [h1])
    · obtain ⟨msg, hmsg⟩ := l2 hl
      rw [hmsg]
      exact ⟨fun h => absurd (h entry (List.mem_cons_self _ _)) hl, fun _ => ⟨msg, rfl⟩⟩

theorem same_signature_refl (a : MethodNode) : same_signature a a := ⟨rfl, rfl⟩

theorem same_signature_symm {a b : MethodNode} (h : same_signature a b) : same_signature b a :=
  ⟨h.1.symm, h.2.symm⟩

theorem same_signature_trans {a b c : MethodNode} (h1 : same_signature a b)
    (h2 : same_signature b c) : same_signature a c :=
  ⟨h1.1.trans h2.1, h1.2.trans h2.2⟩

theorem latest_some {seen : List MethodNode} {name : String} {o : MethodNode}
    (h : latest seen name = some o) : o ∈ seen ∧ o.name = name := by
  unfold latest at h
  have h1 := List.mem_of_find?_eq_some h
  have h2 := List.find?_some h
  exact ⟨by simpa using h1, by simpa using h2⟩

theorem latest_exists {seen : List MethodNode} {name : String} {o : MethodNode}
    (h1 : o ∈ seen) (h2 : o.name = name) : ∃ o1, latest seen name = some o1 := by
  unfold latest
  cases hf : List.find? (fun m => m.name == name) seen.reverse with
  | some o1 => exact ⟨o1, rfl⟩
  | none =>
    rw [List.find?_eq_none] at hf
    have := hf o (by simpa using h1)
    simp [h2] at this

theorem methods_ok_iff (up : List MethodNode) (ms : List MethodNode) :
    ∀ (before : List MethodNode) (added : List String),
      consistent (up ++ before) → (before.map (fun m => m.name)).Nodup →
      (∀ n, n ∈ added ↔ n ∈ before.map (fun m => m.name)) →
      ((methods_ok (up ++ before) added ms ↔
        (∀ m ∈ ms, formals_legal m) ∧ ((before ++ ms).map (fun m => m.name)).Nodup ∧
          ∀ m ∈ ms, ∀ o ∈ up, o.name = m.name → same_signature m o) ∧
      (methods_ok (up ++ before) added ms → consistent (up ++ before ++ ms))) := by
  induction ms with
  | nil =>
    intro before added hc hn _
    simp [methods_ok, hn, hc]
  | cons m rest ih =>
    intro before added hc hn hadded
    -- the check on `m` itself
    have hq : (∀ original, latest (up ++ before) m.name = some original →
          m.name ∉ added ∧ same_signature m original) ↔
        (m.name ∉ before.map (fun m => m.name) ∧
          ∀ o ∈ up, o.name = m.name → same_signature m o) := by
      constructor
      · intro h
        have h1 : m.name ∉ before.map (fun m => m.name) := by
          intro hmem
          obtain ⟨o, ho, hname⟩ := List.mem_map.mp hmem
          obtain ⟨o1, ho1⟩ := latest_exists (List.mem_append_right up ho) hname
          exact (h o1 ho1).1 ((hadded _).mpr hmem)
        refine ⟨h1, fun o ho hname => ?_⟩
        obtain ⟨o1, ho1⟩ := latest_exists (List.mem_append_left before ho) hname
        have h2 := (h o1 ho1).2
        obtain ⟨h3, h4⟩ := latest_some ho1
        exact same_signature_trans h2
          (hc o1 h3 o (List.mem_append_left before ho) (h4.trans hname.symm))
      · rintro ⟨h1, h2⟩ o ho
        obtain ⟨h3, h4⟩ := latest_some ho
        refine ⟨fun h => h1 ((hadded _).mp h), ?_⟩
        rcases List.mem_append.mp h3 with h5 | h5
        · exact h2 o h5 h4
        · exact absurd (List.mem_map.mpr ⟨o, h5, h4⟩) h1
    -- what the check gives for the rest
    have hstep : (m.name ∉ before.map (fun m => m.name) ∧
          ∀ o ∈ up, o.name = m.name → same_signature m o) →
        consistent (up ++ (before ++ [m])) ∧
          ((before ++ [m]).map (fun m => m.name)).Nodup ∧
          (∀ n, n ∈ m.name :: added ↔ n ∈ (before ++ [m]).map (fun m => m.name)) := by
      rintro ⟨h1, h2⟩
      have hm : ∀ x ∈ up ++ before, x.name = m.name → same_signature m x := by
        intro x hx hname
        rcases List.mem_append.mp hx with h5 | h5
        · exact h2 x h5 hname
        · exact absurd (List.mem_map.mpr ⟨x, h5, hname⟩) h1
      refine ⟨?_, ?_, ?_⟩
      · intro a ha b hb hab
        rw [← List.append_assoc] at ha hb
        rcases List.mem_append.mp ha with ha1 | ha1 <;>
          rcases List.mem_append.mp hb with hb1 | hb1
        · exact hc a ha1 b hb1 hab
        · simp only [List.mem_singleton] at hb1
          subst hb1
          exact same_signature_symm (hm a ha1 hab)
        · simp only [List.mem_singleton] at ha1
          subst ha1
          exact hm b hb1 hab.symm
        · simp only [List.mem_singleton] at ha1 hb1
          subst ha1 hb1
          exact same_signature_refl _
      · rw [List.map_append, List.nodup_append]
        refine ⟨hn, by simp, ?_⟩
        intro a ha1 ha2
        simp only [List.map_cons, List.map_nil, List.mem_singleton] at ha2
        subst ha2
        exact h1 ha1
      · intro n
        simp only [List.mem_cons, hadded, List.map_append, List.map_cons, List.map_nil,
          List.mem_append, List.mem_singleton]
        tauto
    have hlist : before ++ m :: rest = (before ++ [m]) ++ rest := by simp
    have happ : up ++ before ++ [m] = up ++ (before ++ [m]) := by simp
    simp only [methods_ok, hq, happ]
    constructor
    · constructor
      · rintro ⟨hl, hcheck, hrest⟩
        obtain ⟨c1, c2, c3⟩ := hstep hcheck
        obtain ⟨r1, r2, r3⟩ := ((ih (before ++ [m]) (m.name :: added) c1 c2 c3).1).mp hrest
        refine ⟨?_, by rw [hlist]; exact r2, ?_⟩
        · intro x hx
          rcases List.mem_cons.mp hx with rfl | hx1
          · exact hl
          · exact r1 x hx1
        · intro x hx
          rcases List.mem_cons.mp hx with rfl | hx1
          · exact hcheck.2
          · exact r3 x hx1
      · rintro ⟨h1, h2, h3⟩
        rw [hlist] at h2
        have hcheck : m.name ∉ before.map (fun m => m.name) ∧
            ∀ o ∈ up, o.name = m.name → same_signature m o := by
          refine ⟨?_, h3 m (List.mem_cons_self _ _)⟩
          intro hmem
          rw [List.map_append, List.map_append] at h2
          have := (List.nodup_append.mp (List.nodup_append.mp h2).1).2.2
          exact this hmem (by simp)
        obtain ⟨c1, c2, c3⟩ := hstep hcheck
        refine ⟨h1 m (List.mem_cons_self _ _), hcheck, ?_⟩
        exact ((ih (before ++ [m]) (m.name :: added) c1 c2 c3).1).mpr
          ⟨fun x hx => h1 x (List.mem_cons_of_mem _ hx), h2,
            fun x hx => h3 x (List.mem_cons_of_mem _ hx)⟩
    · rintro ⟨_, hcheck, hrest⟩
      obtain ⟨c1, c2, c3⟩ := hstep hcheck
      have := (ih (before ++ [m]) (m.name :: added) c1 c2 c3).2 hrest
      simpa using this

theorem levels_ok_iff (levels : List ClassNode) :
    ∀ (up : List MethodNode), consistent up →
      ((levels_ok up levels ↔
        (∀ cls ∈ levels, class_ok cls) ∧
          (∀ cls ∈ levels, ∀ m ∈ cls.get_methods, ∀ o ∈ up,
            o.name = m.name → same_signature m o) ∧
          List.Pairwise overrides_ok levels) ∧
      (levels_ok up levels → consistent (up ++ all_methods levels))) := by
  induction levels with
  | nil =>
    intro up hc
    simp [levels_ok, all_methods, hc]
  | cons cls rest ih =>
    intro up hc
    have hm := methods_ok_iff up cls.get_methods [] [] (by simpa using hc) (by simp) (by simp)
    simp only [List.append_nil, List.nil_append] at hm
    obtain ⟨hm1, hm2⟩ := hm
    simp only [levels_ok, all_methods, List.pairwise_cons, List.mem_cons, forall_eq_or_imp]
    constructor
    · constructor
      · rintro ⟨h1, h2⟩
        obtain ⟨a1, a2, a3⟩ := hm1.mp h1
        obtain ⟨b1, b2, b3⟩ := ((ih _ (hm2 h1)).1).mp h2
        refine ⟨⟨⟨a1, a2⟩, b1⟩, ⟨a3, ?_⟩, ?_, b3⟩
        · intro c hc1 m hm3 o ho hname
          exact b2 c hc1 m hm3 o (List.mem_append_left _ ho) hname
        · intro c hc1 m hm3 o ho hname
          exact b2 c hc1 m hm3 o (List.mem_append_right _ ho) hname
      · rintro ⟨⟨⟨a1, a2⟩, b1⟩, ⟨a3, b2⟩, b4, b3⟩
        have h1 : methods_ok up [] cls.get_methods := hm1.mpr ⟨a1, a2, a3⟩
        refine ⟨h1, ((ih _ (hm2 h1)).1).mpr ⟨b1, ?_, b3⟩⟩
        intro c hc1 m hm3 o ho hname
        rcases List.mem_append.mp ho with h | h
        · exact b2 c hc1 m hm3 o h hname
        · exact b4 c hc1 m hm3 o h hname
    · rintro ⟨h1, h2⟩
      have := (ih _ (hm2 h1)).2 h2
      simpa using this

theorem levels_ok_nil_iff (levels : List ClassNode) :
    levels_ok [] levels ↔
      (∀ cls ∈ levels, class_ok cls) ∧ List.Pairwise overrides_ok levels := by
  have := (levels_ok_iff levels [] (by intro a ha; simp at ha)).1
  simpa using this

theorem find_some_mem (ct : ClassTable) (k : String) (c : ClassNode)
    (h : ct.find k = some c) : (k, c) ∈ ct.clsmap := by
  unfold ClassTable.find at h
  cases hf : List.find? (fun entry => entry.1 == k) ct.clsmap with
  | none => simp [hf] at h
  | some entry =>
    simp only [hf, Option.map_some', Option.some.injEq] at h
    have h1 := List.mem_of_find?_eq_some hf
    have h2 := List.find?_some hf
    simp only [beq_iff_eq] at h2
    obtain ⟨k1, c1⟩ := entry
    simp only at h h2
    subst h h2
    exact h1

theorem find_of_mem (ct : ClassTable) (hn : (ct.clsmap.map (fun entry => entry.1)).Nodup)
    (k : String) (c : ClassNode) (h : (k, c) ∈ ct.clsmap) : ct.find k = some c := by
  unfold ClassTable.find
  generalize ct.clsmap = l at hn h
  induction l with
  | nil => simp at h
  | cons entry rest ih =>
    simp only [List.map_cons, List.nodup_cons] at hn
    rcases List.mem_cons.mp h with h1 | h1
    · subst h1
      simp
    · have hne : entry.1 ≠ k := by
        intro he
        apply hn.1
        rw [he]
        exact List.mem_map.mpr ⟨(k, c), h1, rfl⟩
      have hb : (entry.1 == k) = false := by simpa using hne
      simp only [List.find?_cons, hb]
      exact ih hn.2 h1

theorem find_name (ct : ClassTable) (hw : ct.well_formed) (k : String) (c : ClassNode)
    (h : ct.find k = some c) : c.name = k :=
  hw.1 (k, c) (find_some_mem ct k c h)

theorem find_self (ct : ClassTable) (hw : ct.well_formed) (entry : String × ClassNode)
    (h : entry ∈ ct.clsmap) : ct.find entry.2.name = some entry.2 := by
  have h1 := hw.1 entry h
  rw [h1]
  exact find_of_mem ct hw.2.1 entry.1 entry.2 h

/-- A class whose ancestry is computed is in the table. -/
theorem find_of_ancestry (ct : ClassTable) (hw : ct.well_formed) (fuel : Nat) (name : String)
    (l : List String) (h : get_ancestry_loop ct fuel name = .ok l) :
    ∃ c, ct.find name = some c := by
  unfold get_ancestry_loop at h
  split at h
  · next hn =>
    simp only [beq_iff_eq] at hn
    rw [hn]
    exact hw.2.2.1
  · cases fuel with
    | zero => simp at h
    | succ n =>
      simp only at h
      cases hf : ct.find name with
      | none => simp [hf] at h
      | some c => exact ⟨c, rfl⟩

/-- The chain of classes of a class of the table follows its ancestry, root
first, and consists of classes of the table. -/
theorem class_chain_spec (ct : ClassTable) (hw : ct.well_formed) (fuel : Nat) :
    ∀ (cls : ClassNode) (l : List String), ct.find cls.name = some cls →
      get_ancestry_loop ct fuel cls.name = .ok l →
      ∃ chain, class_chain ct fuel cls = .ok chain ∧
        chain.map (fun c => c.name) = l.reverse ∧ (∀ x ∈ chain, ct.find x.name = some x) ∧
        cls ∈ chain := by
  induction fuel with
  | zero =>
    intro cls l hfind h
    unfold get_ancestry_loop at h
    unfold class_chain
    split at h
    · next hn =>
      simp only [beq_iff_eq] at hn
      simp only [Except.ok.injEq] at h
      subst h
      refine ⟨[cls], by simp [hn], by simp [hn], ?_, by simp⟩
      intro x hx
      simp only [List.mem_singleton] at hx
      subst hx
      exact hfind
    · simp at h
  | succ n ih =>
    intro cls l hfind h
    unfold get_ancestry_loop at h
    unfold class_chain
    split at h
    · next hn =>
      simp only [beq_iff_eq] at hn
      simp only [Except.ok.injEq] at h
      subst h
      refine ⟨[cls], by simp [hn], by simp [hn], ?_, by simp⟩
      intro x hx
      simp only [List.mem_singleton] at hx
      subst hx
      exact hfind
    · next hn =>
      simp only [hfind] at h
      cases hr : get_ancestry_loop ct n cls.base_class with
      | error f => simp [hr] at h
      | ok anc =>
        simp only [hr, Except.ok.injEq] at h
        subst h
        obtain ⟨parent, hp⟩ := find_of_ancestry ct hw n cls.base_class anc hr
        have hpname := find_name ct hw _ _ hp
        obtain ⟨chain, hc1, hc2, hc3, _⟩ := ih parent anc (by rw [hpname]; exact hp)
          (by rw [hpname]; exact hr)
        have hne : (cls.name != "Object") = true := by
          simp only [beq_iff_eq] at hn
          simpa using hn
        refine ⟨chain ++ [cls], by simp [hne, hp, hc1], by simp [hc2], ?_, by simp⟩
        intro x hx
        rcases List.mem_append.mp hx with h1 | h1
        · exact hc3 x h1
        · simp only [List.mem_singleton] at h1
          subst h1
          exact hfind


/-- One step of the chain of classes of a class other than `Object`. -/
theorem class_chain_step (ct : ClassTable) (hw : ct.well_formed) (n : Nat) (cls : ClassNode)
    (l : List String) (hfind : ct.find cls.name = some cls) (hne : cls.name ≠ "Object")
    (h : get_ancestry_loop ct (n + 1) cls.name = .ok l) :
    ∃ parent anc pre, ct.find parent.name = some parent ∧
      parent.name = cls.base_class ∧
      get_ancestry_loop ct n parent.name = .ok anc ∧
      class_chain ct n parent = .ok pre ∧
      class_chain ct (n + 1) cls = .ok (pre ++ [cls]) ∧
      pre.map (fun c => c.name) = anc.reverse ∧
      (∀ x ∈ pre, ct.find x.name = some x) := by
  unfold get_ancestry_loop at h
  have hb : (cls.name == "Object") = false := by simpa using hne
  simp only [hb, hfind] at h
  cases hr : get_ancestry_loop ct n cls.base_class with
  | error f => simp [hr] at h
  | ok anc =>
    obtain ⟨parent, hp⟩ := find_of_ancestry ct hw n cls.base_class anc hr
    have hpname := find_name ct hw _ _ hp
    have hp2 : ct.find parent.name = some parent := by rw [hpname]; exact hp
    have hr2 : get_ancestry_loop ct n parent.name = .ok anc := by rw [hpname]; exact hr
    obtain ⟨pre, hc1, hc2, hc3, _⟩ := class_chain_spec ct hw n parent anc hp2 hr2
    refine ⟨parent, anc, pre, hp2, hpname, hr2, hc1, ?_, hc2, hc3⟩
    unfold class_chain
    have hb2 : (cls.name != "Object") = true := by simpa using hne
    simp [hb2, hp, hc1]

/-- The classes of the chain below its last class are proper ancestors of that
class. -/
theorem proper_ancestor_of_mem (ct : ClassTable) (n : Nat) (hn : n ≤ ct.clsmap.length + 1)
    (cls parent x : ClassNode) (anc : List String) (pre : List ClassNode)
    (hne : cls.name ≠ "Object") (hp : parent.name = cls.base_class)
    (hr : get_ancestry_loop ct n parent.name = .ok anc)
    (hnames : pre.map (fun c => c.name) = anc.reverse)
    (hmem : ∀ x ∈ pre, ct.find x.name = some x) (hx : x ∈ pre) :
    proper_ancestor ct x cls := by
  refine ⟨hne, ⟨anc, ?_, ?_⟩, hmem x hx⟩
  · rw [← hp]
    exact get_ancestry_loop_mono_le ct _ _ n _ hn hr
  · have : x.name ∈ pre.map (fun c => c.name) := List.mem_map.mpr ⟨x, hx, rfl⟩
    rw [hnames] at this
    exact List.mem_reverse.mp this

/-- A relation that holds between every class of the table and each of its
proper ancestors holds pairwise along every chain of classes. -/
theorem class_chain_pairwise (ct : ClassTable) (hw : ct.well_formed)
    (R : ClassNode → ClassNode → Prop)
    (hR : ∀ D A, ct.find D.name = some D → proper_ancestor ct A D → R A D) (fuel : Nat) :
    fuel ≤ ct.clsmap.length + 1 →
    ∀ (cls : ClassNode) (l : List String) (chain : List ClassNode),
      ct.find cls.name = some cls → get_ancestry_loop ct fuel cls.name = .ok l →
      class_chain ct fuel cls = .ok chain → List.Pairwise R chain := by
  induction fuel with
  | zero =>
    intro _ cls l chain hfind h hc
    unfold get_ancestry_loop at h
    split at h
    · next hn =>
      simp only [beq_iff_eq] at hn
      unfold class_chain at hc
      simp only [hn, bne_self_eq_false, Bool.false_eq_true, ↓reduceIte, Except.ok.injEq] at hc
      subst hc
      simp
    · simp at h
  | succ n ih =>
    intro hle cls l chain hfind h hc
    by_cases hn : cls.name = "Object"
    · unfold class_chain at hc
      simp only [hn, bne_self_eq_false, Bool.false_eq_true, ↓reduceIte, Except.ok.injEq] at hc
      subst hc
      simp
    · obtain ⟨parent, anc, pre, hp2, hpname, hr2, hc1, hc2, hnames, hmem⟩ :=
        class_chain_step ct hw n cls l hfind hn h
      rw [hc2] at hc
      simp only [Except.ok.injEq] at hc
      subst hc
      rw [List.pairwise_append]
      refine ⟨ih (by omega) parent anc pre hp2 hr2 hc1, by simp, ?_⟩
      intro a ha b hb
      simp only [List.mem_singleton] at hb
      subst hb
      exact hR _ a hfind
        (proper_ancestor_of_mem ct n (by omega) _ parent a anc pre hn hpname hr2 hnames hmem ha)

/-- A relation that holds pairwise along the chain of a class holds between
the class and each of its proper ancestors. -/
theorem class_chain_proper (ct : ClassTable) (hw : ct.well_formed)
    (R : ClassNode → ClassNode → Prop) (cls ancestor : ClassNode) (chain : List ClassNode)
    (l : List String)
    (hfind : ct.find cls.name = some cls) (h : ct.get_ancestry cls.name = .ok l)
    (hc : class_chain ct (ct.clsmap.length + 1) cls = .ok chain)
    (hp : List.Pairwise R chain) (ha : proper_ancestor ct ancestor cls) : R ancestor cls := by
  obtain ⟨hne, ⟨anc2, h1, h2⟩, hfa⟩ := ha
  obtain ⟨parent, anc, pre, hp2, hpname, hr2, hc1, hc2, hnames, hmem⟩ :=
    class_chain_step ct hw ct.clsmap.length cls l hfind hne h
  rw [hc2] at hc
  simp only [Except.ok.injEq] at hc
  subst hc
  have h3 := get_ancestry_loop_mono_le ct _ _ _ (ct.clsmap.length + 1) (Nat.le_succ _) hr2
  rw [hpname] at h3
  unfold ClassTable.get_ancestry at h1
  rw [h3] at h1
  simp only [Except.ok.injEq] at h1
  subst h1
  have h4 : ancestor.name ∈ pre.map (fun c => c.name) := by
    rw [hnames]
    exact List.mem_reverse.mpr h2
  obtain ⟨x, hx, hxn⟩ := List.mem_map.mp h4
  have h5 := hmem x hx
  replace hxn : x.name = ancestor.name := hxn
  rw [hxn, hfa] at h5
  simp only [Option.some.injEq] at h5
  subst h5
  rw [List.pairwise_append] at hp
  exact hp.2.2 _ hx _ (by simp)


/-- A class passes the checks on its own methods when no formal is illegal and
no method name is repeated. -/
theorem class_ok_iff (cls : ClassNode) :
    class_ok cls ↔ ¬ has_illegal_formal cls ∧ ¬ has_repeated_method cls := by
  unfold class_ok has_illegal_formal has_repeated_method formals_legal
  constructor
  · rintro ⟨h1, h2⟩
    refine ⟨?_, not_not.mpr h2⟩
    rintro ⟨m, hm, formal, hf, h⟩
    have := h1 m hm formal hf
    tauto
  · rintro ⟨h1, h2⟩
    refine ⟨?_, not_not.mp h2⟩
    intro m hm formal hf
    constructor
    · intro h
      exact h1 ⟨m, hm, formal, hf, Or.inl h⟩
    · intro h
      exact h1 ⟨m, hm, formal, hf, Or.inr h⟩

/-- No method of the class is an illegal override when the class agrees with
each of its proper ancestors. -/
theorem not_has_illegal_override_iff (ct : ClassTable) (cls : ClassNode) :
    ¬ has_illegal_override ct cls ↔
      ∀ ancestor, proper_ancestor ct ancestor cls → overrides_ok ancestor cls := by
  unfold has_illegal_override overrides_ok
  constructor
  · intro h ancestor ha m hm original ho hname
    by_contra hs
    exact h ⟨m, hm, ancestor, ha, original, ho, hname, hs⟩
  · rintro h ⟨m, hm, ancestor, ha, original, ho, hname, hs⟩
    exact hs (h ancestor ha m hm original ho hname)

/-- The method loops of the chains of all classes pass exactly when the table
has none of the three faults. -/
theorem chains_ok_iff (ct : ClassTable) (hw : ct.well_formed)
    (chain_of : ClassNode → List ClassNode)
    (hchain : ∀ entry ∈ ct.clsmap,
      class_chain ct (ct.clsmap.length + 1) entry.2 = .ok (chain_of entry.2)) :
    (∀ entry ∈ ct.clsmap, levels_ok [] (chain_of entry.2)) ↔ ¬ method_environment_error ct := by
  have hentry : ∀ c, ct.find c.name = some c → (c.name, c) ∈ ct.clsmap :=
    fun c hc => find_some_mem ct _ _ hc
  constructor
  · rintro h ⟨entry, he, herr⟩
    have hl := (levels_ok_nil_iff _).mp (h entry he)
    have hfind := find_self ct hw entry he
    obtain ⟨l, hanc⟩ := hw.2.2.2 entry he
    rw [← hw.1 entry he] at hanc
    obtain ⟨chain, hc1, _, _, hc4⟩ :=
      class_chain_spec ct hw (ct.clsmap.length + 1) entry.2 l hfind hanc
    have hc := hchain entry he
    rw [hc1] at hc
    simp only [Except.ok.injEq] at hc
    subst hc
    have hok := (class_ok_iff entry.2).mp (hl.1 _ hc4)
    rcases herr with h1 | h1 | h1
    · exact hok.1 h1
    · exact hok.2 h1
    · refine (not_has_illegal_override_iff ct entry.2).mpr ?_ h1
      intro ancestor ha
      exact class_chain_proper ct hw overrides_ok entry.2 ancestor _ l hfind hanc hc1 hl.2 ha
  · intro h entry he
    have hall : ∀ c, ct.find c.name = some c →
        class_ok c ∧ ∀ ancestor, proper_ancestor ct ancestor c → overrides_ok ancestor c := by
      intro c hc
      have hce := hentry c hc
      refine ⟨(class_ok_iff c).mpr ⟨?_, ?_⟩, (not_has_illegal_override_iff ct c).mp ?_⟩
      · intro h1
        exact h ⟨_, hce, Or.inl h1⟩
      · intro h1
        exact h ⟨_, hce, Or.inr (Or.inl h1)⟩
      · intro h1
        exact h ⟨_, hce, Or.inr (Or.inr h1)⟩
    have hfind := find_self ct hw entry he
    obtain ⟨l, hanc⟩ := hw.2.2.2 entry he
    rw [← hw.1 entry he] at hanc
    obtain ⟨chain, hc1, _, hc3, _⟩ :=
      class_chain_spec ct hw (ct.clsmap.length + 1) entry.2 l hfind hanc
    have hc := hchain entry he
    rw [hc1] at hc
    simp only [Except.ok.injEq] at hc
    rw [← hc]
    refine (levels_ok_nil_iff _).mpr ⟨?_, ?_⟩
    · intro c hcm
      exact (hall c (hc3 c hcm)).1
    · exact class_chain_pairwise ct hw overrides_ok (fun D A hD hA => (hall D hD).2 A hA)
        (ct.clsmap.length + 1) (Nat.le_refl _) entry.2 l chain hfind hanc hc1

/-- The outcome of `build_method_env` on a well-formed class table. -/
theorem build_method_env_spec (ct : ClassTable) (hw : ct.well_formed) :
    (¬ method_environment_error ct → ∃ methods, build_method_env ct = .ok methods) ∧
    (method_environment_error ct →
      ∃ msg, build_method_env ct = .error (.semant_error msg)) := by
  let chain_of : ClassNode → List ClassNode := fun c =>
    match class_chain ct (ct.clsmap.length + 1) c with
    | .ok chain => chain
    | .error _ => []
  have hchain : ∀ entry ∈ ct.clsmap,
      class_chain ct (ct.clsmap.length + 1) entry.2 = .ok (chain_of entry.2) := by
    intro entry he
    have hfind := find_self ct hw entry he
    obtain ⟨l, hanc⟩ := hw.2.2.2 entry he
    rw [← hw.1 entry he] at hanc
    obtain ⟨chain, hc1, _⟩ :=
      class_chain_spec ct hw (ct.clsmap.length + 1) entry.2 l hfind hanc
    simp only [chain_of, hc1]
  have hnodup : (ct.clsmap.map (fun entry => entry.2.name)).Nodup := by
    have : ct.clsmap.map (fun entry => entry.2.name) = ct.clsmap.map (fun entry => entry.1) :=
      List.map_congr_left (fun entry he => hw.1 entry he)
    rw [this]
    exact hw.2.1
  have hloop := build_method_env_loop_spec ct ct.clsmap chain_of hchain hnodup []
    (by intro b hb; simp at hb)
  have hiff := chains_ok_iff ct hw chain_of hchain
  unfold build_method_env
  refine ⟨fun h => hloop.1 (hiff.mpr h), fun h => hloop.2 (fun hall => hiff.mp hall h)⟩

/-- A class table that passes `check_well_formed` is well formed. -/
theorem check_well_formed_sound (ct : ClassTable) (h : ct.check_well_formed = true) :
    ct.well_formed := by
  unfold ClassTable.check_well_formed at h
  simp only [Bool.and_eq_true, List.all_eq_true, beq_iff_eq, decide_eq_true_eq] at h
  obtain ⟨⟨⟨h1, h2⟩, h3⟩, h4⟩ := h
  refine ⟨h1, h2, ?_, ?_⟩
  · cases hf : ct.find "Object" with
    | none => simp [hf] at h3
    | some object => exact ⟨object, rfl⟩
  · intro entry he
    have := h4 entry he
    cases hg : ct.get_ancestry entry.1 with
    | error f => simp [hg] at this
    | ok ancestry => exact ⟨ancestry, rfl⟩

/-- C10: on a class table whose classes are filed under their names and all
reach `Object`, `build_method_env` reports a semantic error exactly when some
class has a formal named `self` or of type `SELF_TYPE`, defines a method name
twice, or defines a method that a proper ancestor defines with another return
type or other formal types; otherwise it returns the method environment. -/
theorem C10_method_environment_error_iff (ct : ClassTable) (hw : ct.well_formed) :
    (method_environment_error ct ↔
      ∃ msg, build_method_env ct = .error (.semant_error msg)) ∧
    (¬ method_environment_error ct ↔ ∃ methods, build_method_env ct = .ok methods) := by
  obtain ⟨h1, h2⟩ := build_method_env_spec ct hw
  refine ⟨⟨h2, ?_⟩, ⟨h1, ?_⟩⟩
  · rintro ⟨msg, hmsg⟩
    by_contra hn
    obtain ⟨methods, hm⟩ := h1 hn
    rw [hm] at hmsg
    exact Except.noConfusion hmsg
  · rintro ⟨methods, hm⟩ herr
    obtain ⟨msg, hmsg⟩ := h2 herr
    rw [hm] at hmsg
    exact Except.noConfusion hmsg

/-- C10 at two class tables: `B inherits A` overriding `m() : Int` with
`m() : Bool` is one of the faults and is reported with the return type message;
overriding `m(x : Int) : Int` with `m(y : Int) : Int` is none of them. -/
theorem C10_method_environment_error_iff_witness :
    override_example.well_formed ∧
    method_environment_error override_example ∧
    build_method_env override_example =
      .error (.semant_error "Attempted to override method m with a different return type.") ∧
    same_override_example.well_formed ∧
    ¬ method_environment_error same_override_example :=
  ⟨check_well_formed_sound _ rfl,
   (C10_method_environment_error_iff override_example (check_well_formed_sound _ rfl)).1.mpr
     ⟨_, rfl⟩,
   rfl,
   check_well_formed_sound _ rfl,
   (C10_method_environment_error_iff same_override_example
     (check_well_formed_sound _ rfl)).2.mpr ⟨_, rfl⟩⟩

/-- The ancestry of a class of a well-formed table is computed. -/
theorem get_ancestry_of_exists (ct : ClassTable) (hw : ct.well_formed) (a : String)
    (ha : ct.exists a = true) : ∃ la, ct.get_ancestry a = .ok la := by
  unfold ClassTable.exists at ha
  cases hf : ct.find a with
  | none => simp [hf] at ha
  | some c => exact hw.2.2.2 (a, c) (find_some_mem ct a c hf)

/-- Two classes that are on the ancestry chain of each other are the same. -/
theorem is_ancestor_antisymm (ct : ClassTable) (x y : String) (h1 : is_ancestor ct x y)
    (h2 : is_ancestor ct y x) : x = y := by
  obtain ⟨ly, hly, hx⟩ := h1
  obtain ⟨lx, hlx, hy⟩ := h2
  obtain ⟨l1, l2, rfl⟩ := List.append_of_mem hx
  obtain ⟨m1, m2, rfl⟩ := List.append_of_mem hy
  have e1 := get_ancestry_suffix ct y x l1 l2 hly
  have e2 := get_ancestry_suffix ct x y m1 m2 hlx
  rw [hlx] at e1
  rw [hly] at e2
  simp only [Except.ok.injEq] at e1 e2
  have n1 := congrArg List.length e1
  have n2 := congrArg List.length e2
  simp only [List.length_append, List.length_cons] at n1 n2
  have hl1 : l1 = [] := List.length_eq_zero.mp (by omega)
  subst hl1
  simp only [List.nil_append, List.cons.injEq] at e2
  exact e2.1

/-- The least upper bound does not depend on the order of the two classes. -/
theorem least_upper_bound_comm (ct : ClassTable) (a b : String) (la lb : List String)
    (ha : ct.get_ancestry a = .ok la) (hb : ct.get_ancestry b = .ok lb) :
    ct.least_upper_bound a b = ct.least_upper_bound b a := by
  have h1 := least_upper_bound_of_ancestries ct a b la lb ha hb
  have h2 := least_upper_bound_of_ancestries ct b a lb la hb ha
  obtain ⟨r1, r2, r3⟩ := least_upper_bound_is_least ct a b _ h1
  obtain ⟨s1, s2, s3⟩ := least_upper_bound_is_least ct b a _ h2
  rw [h1, h2]
  exact congrArg Except.ok (is_ancestor_antisymm ct _ _ (s3 _ r2 r1) (r3 _ s2 s1))

/-- C16: in a well-formed class table, `least_upper_bound(a, b)` and
`least_upper_bound(b, a)` return the same class for all classes `a`, `b` of the
table. -/
theorem C16_least_upper_bound_commutes (ct : ClassTable) (hw : ct.well_formed) (a b : String)
    (ha : ct.exists a = true) (hb : ct.exists b = true) :
    ∃ r, ct.least_upper_bound a b = .ok r ∧ ct.least_upper_bound b a = .ok r := by
  obtain ⟨la, hla⟩ := get_ancestry_of_exists ct hw a ha
  obtain ⟨lb, hlb⟩ := get_ancestry_of_exists ct hw b hb
  refine ⟨_, least_upper_bound_of_ancestries ct a b la lb hla hlb, ?_⟩
  rw [← least_upper_bound_comm ct a b la lb hla hlb]
  exact least_upper_bound_of_ancestries ct a b la lb hla hlb

/-- C16 at the classes `B inherits A` and `C inherits A`. -/
theorem C16_least_upper_bound_commutes_witness :
    ∃ r, example_classes.least_upper_bound "B" "C" = .ok r ∧
      example_classes.least_upper_bound "C" "B" = .ok r :=
  C16_least_upper_bound_commutes example_classes (check_well_formed_sound _ rfl) "B" "C" rfl rfl

/-- C17: in a well-formed class table, for classes `a`, `b` of the table
`least_upper_bound(a, b)` is an element of `get_ancestry(a)` and of
`get_ancestry(b)`, `least_upper_bound(a, a)` is `a` and
`least_upper_bound(a, Object)` is `Object`. -/
theorem C17_least_upper_bound_in_both_ancestries (ct : ClassTable) (hw : ct.well_formed)
    (a b : String) (ha : ct.exists a = true) (hb : ct.exists b = true) :
    (∃ r la lb, ct.least_upper_bound a b = .ok r ∧ ct.get_ancestry a = .ok la ∧
      ct.get_ancestry b = .ok lb ∧ r ∈ la ∧ r ∈ lb) ∧
    ct.least_upper_bound a a = .ok a ∧
    ct.least_upper_bound a "Object" = .ok "Object" := by
  obtain ⟨la, hla⟩ := get_ancestry_of_exists ct hw a ha
  obtain ⟨lb, hlb⟩ := get_ancestry_of_exists ct hw b hb
  have h1 := least_upper_bound_of_ancestries ct a b la lb hla hlb
  obtain ⟨⟨la1, e1, r1⟩, ⟨lb1, e2, r2⟩, _⟩ := least_upper_bound_is_least ct a b _ h1
  rw [hla] at e1
  rw [hlb] at e2
  simp only [Except.ok.injEq] at e1 e2
  subst e1 e2
  refine ⟨⟨_, la, lb, h1, hla, hlb, r1, r2⟩, ?_, ?_⟩
  · exact (least_upper_bound_eq_iff_conforms_left ct a a).mpr
      ⟨la, hla, is_ancestor_self ct a la hla⟩
  · exact (least_upper_bound_eq_iff_conforms_left ct a "Object").mpr
      ⟨la, hla, is_ancestor_object ct a la hla⟩

/-- C17 at the classes `B inherits A` and `C inherits A`: the least upper bound
is `A`. -/
theorem C17_least_upper_bound_in_both_ancestries_witness :
    (∃ r la lb, example_classes.least_upper_bound "B" "C" = .ok r ∧
      example_classes.get_ancestry "B" = .ok la ∧
      example_classes.get_ancestry "C" = .ok lb ∧ r ∈ la ∧ r ∈ lb) ∧
    example_classes.least_upper_bound "B" "B" = .ok "B" ∧
    example_classes.least_upper_bound "B" "Object" = .ok "Object" :=
  C17_least_upper_bound_in_both_ancestries example_classes (check_well_formed_sound _ rfl)
    "B" "C" rfl rfl

/-- C18: in a well-formed class table, for classes `a`, `b` of the table
`least_upper_bound(a, b)` returns the nearest common ancestor `r`: `r` is in
`get_ancestry(a)` and in `get_ancestry(b)`, no class in front of `r` in
`get_ancestry(a)`, which lists `a` and its ancestors from `a` upward, is in
`get_ancestry(b)`, and every class that is in `get_ancestry(a)` and in
`get_ancestry(b)` is in `get_ancestry(r)`, which is the rest of
`get_ancestry(a)` from `r` on. -/
theorem C18_least_upper_bound_is_nearest (ct : ClassTable) (hw : ct.well_formed)
    (a b : String) (ha : ct.exists a = true) (hb : ct.exists b = true) :
    ∃ r la lb nearer farther, ct.least_upper_bound a b = .ok r ∧
      ct.get_ancestry a = .ok la ∧ ct.get_ancestry b = .ok lb ∧
      ct.get_ancestry r = .ok (r :: farther) ∧
      la = nearer ++ r :: farther ∧ r ∈ la ∧ r ∈ lb ∧ (∀ c ∈ nearer, c ∉ lb) ∧
      ∀ c, c ∈ la → c ∈ lb → c ∈ r :: farther := by
  obtain ⟨la, hla⟩ := get_ancestry_of_exists ct hw a ha
  obtain ⟨lb, hlb⟩ := get_ancestry_of_exists ct hw b hb
  have h1 := least_upper_bound_of_ancestries ct a b la lb hla hlb
  obtain ⟨r, nearer, farther, hfind, hl, hrb, hno⟩ := find_common ct a b la lb hla hlb
  rw [hfind] at h1
  simp only [Option.getD_some] at h1
  have hlr : ct.get_ancestry r = .ok (r :: farther) :=
    get_ancestry_suffix ct a r nearer farther (hl ▸ hla)
  refine ⟨r, la, lb, nearer, farther, h1, hla, hlb, hlr, hl, by simp [hl], hrb, hno, ?_⟩
  intro c hca hcb
  rw [hl] at hca
  rcases List.mem_append.mp hca with h | h
  · exact absurd hcb (hno c h)
  · exact h

/-- C18 at the classes `B inherits A` and `C inherits A`: the least upper
bound is `A`, the class after `B` in the ancestry of `B`. -/
theorem C18_least_upper_bound_is_nearest_witness :
    example_classes.least_upper_bound "B" "C" = .ok "A" ∧
    example_classes.get_ancestry "B" = .ok ["B", "A", "Object"] ∧
    example_classes.get_ancestry "C" = .ok ["C", "A", "Object"] ∧
    ∃ r la lb nearer farther, example_classes.least_upper_bound "B" "C" = .ok r ∧
      example_classes.get_ancestry "B" = .ok la ∧ example_classes.get_ancestry "C" = .ok lb ∧
      example_classes.get_ancestry r = .ok (r :: farther) ∧
      la = nearer ++ r :: farther ∧ r ∈ la ∧ r ∈ lb ∧ (∀ c ∈ nearer, c ∉ lb) ∧
      ∀ c, c ∈ la → c ∈ lb → c ∈ r :: farther :=
  ⟨rfl, rfl, rfl,
    C18_least_upper_bound_is_nearest example_classes (check_well_formed_sound _ rfl)
      "B" "C" rfl rfl⟩



/-- C19: in a well-formed class table, for classes `a`, `b` of the table
`least_upper_bound(a, b)` is `b` exactly when `b` is an element of
`get_ancestry(a)`, and so is `least_upper_bound(b, a)`, the form in which
`AssignmentNode::typecheck` makes the test: an assignment whose expression has
the resolved type `a` to a variable of the resolved declared type `b` is
accepted exactly when `b` is `a` or one of the ancestors of `a`. -/
theorem C19_conformance_test (ct : ClassTable) (hw : ct.well_formed) (a b : String)
    (ha : ct.exists a = true) (hb : ct.exists b = true) :
    ∃ ancestors, ct.get_ancestry a = .ok (a :: ancestors) ∧
      (ct.least_upper_bound a b = .ok b ↔ b ∈ a :: ancestors) ∧
      (ct.least_upper_bound b a = .ok b ↔ b ∈ a :: ancestors) ∧
      ∀ (env : TypeEnvironment) (name : String) (expr : ExpressionNode) (inferred : String),
        name ≠ "self" → env.objects.lookup name ≠ "" →
        typecheck ct env expr = .ok inferred →
        resolve (env.objects.lookup name) env = b → resolve inferred env = a →
        (typecheck ct env (.AssignmentNode name expr) = .ok inferred ↔
          (b = a ∨ b ∈ ancestors)) := by
  obtain ⟨la, hla⟩ := get_ancestry_of_exists ct hw a ha
  obtain ⟨lb, hlb⟩ := get_ancestry_of_exists ct hw b hb
  obtain ⟨ancestors, hanc⟩ := get_ancestry_loop_head ct _ a la hla
  subst hanc
  have hconf : conforms ct a b ↔ b ∈ a :: ancestors := by
    constructor
    · rintro ⟨l, hl, hm⟩
      rw [hla] at hl
      simp only [Except.ok.injEq] at hl
      subst hl
      exact hm
    · intro hm
      exact ⟨_, hla, hm⟩
  have h1 := (least_upper_bound_eq_iff_conforms_left ct a b).trans hconf
  have h2 := (least_upper_bound_eq_iff_conforms ct a b).trans hconf
  refine ⟨ancestors, hla, h1, h2, ?_⟩
  intro env name expr inferred hname hlook hexpr hdecl hinf
  have hn : (name == "self") = false := by simpa using hname
  have hl : (env.objects.lookup name == "") = false := by simpa using hlook
  obtain ⟨r, hr⟩ : ∃ r, ct.least_upper_bound b a = .ok r :=
    ⟨_, least_upper_bound_of_ancestries ct b a lb _ hlb hla⟩
  rw [← List.mem_cons, ← h2]
  simp only [typecheck, hn, hl, Bool.false_eq_true, ↓reduceIte, hexpr, bind, Except.bind, hdecl,
    hinf, hr, pure, Except.pure]
  by_cases hrb : r = b
  · subst hrb
    simp
  · have : (r != b) = true := by simpa using hrb
    simp [this, semant_error, hrb]

/-- C19 at the classes `A` and `B inherits A`: with `x : A` and `y : B` in
scope, `x <- new B` is accepted and `y <- new A` is not. -/
theorem C19_conformance_test_witness :
    typecheck example_classes { objects := [[("x", "A"), ("y", "B")]], methods := [], cls := "A" }
        (.AssignmentNode "x" (.NewNode "B")) = .ok "B" ∧
    typecheck example_classes { objects := [[("x", "A"), ("y", "B")]], methods := [], cls := "A" }
        (.AssignmentNode "y" (.NewNode "A")) ≠ .ok "A" := by
  obtain ⟨ancestors, h1, _, _, h4⟩ :=
    C19_conformance_test example_classes (check_well_formed_sound _ rfl) "B" "A" rfl rfl
  obtain ⟨ancestors2, g1, _, _, g4⟩ :=
    C19_conformance_test example_classes (check_well_formed_sound _ rfl) "A" "B" rfl rfl
  have e1 : ancestors = ["A", "Object"] := by
    have : example_classes.get_ancestry "B" = .ok ["B", "A", "Object"] := rfl
    rw [this] at h1
    simpa using h1.symm
  have e2 : ancestors2 = ["Object"] := by
    have : example_classes.get_ancestry "A" = .ok ["A", "Object"] := rfl
    rw [this] at g1
    simpa using g1.symm
  subst e1 e2
  constructor
  · exact (h4 { objects := [[("x", "A"), ("y", "B")]], methods := [], cls := "A" } "x"
      (.NewNode "B") "B" (by decide) (by decide) rfl rfl rfl).mpr (by simp)
  · intro h
    have := (g4 { objects := [[("x", "A"), ("y", "B")]], methods := [], cls := "A" } "y"
      (.NewNode "A") "A" (by decide) (by decide) rfl rfl rfl).mp h
    simp at this

/-- The method `exists` tells whether the name is a key of the map. -/
theorem exists_iff_key (ct : ClassTable) (name : String) :
    ct.exists name = true ↔ name ∈ ct.clsmap.map (fun entry => entry.1) := by
  unfold ClassTable.exists ClassTable.find
  rw [Option.isSome_map', List.find?_isSome]
  simp only [beq_iff_eq, List.mem_map]

/-- Storing a class under a name that is not yet a key adds one entry and keeps
the others. -/
theorem clsmap_set_perm (name : String) (cls : ClassNode) (l : List (String × ClassNode))
    (h : ∀ e ∈ l, e.1 ≠ name) : (clsmap_set name cls l).Perm ((name, cls) :: l) := by
  induction l with
  | nil => simp [clsmap_set]
  | cons e rest ih =>
    unfold clsmap_set
    split
    · exact List.Perm.refl _
    · have hne : (e.1 == name) = false := by simpa using h e (List.mem_cons_self _ _)
      simp only [hne, Bool.false_eq_true, ↓reduceIte]
      exact ((ih (fun x hx => h x (List.mem_cons_of_mem _ hx))).cons e).trans
        (List.Perm.swap _ _ _)

theorem set_perm (ct : ClassTable) (name : String) (cls : ClassNode)
    (h : ct.exists name = false) : (ct.set name cls).clsmap.Perm ((name, cls) :: ct.clsmap) := by
  apply clsmap_set_perm
  intro e he hn
  have : ct.exists name = true := (exists_iff_key ct name).mpr (List.mem_map.mpr ⟨e, he, hn⟩)
  rw [h] at this
  exact Bool.noConfusion this

/-- The first loop of the constructor: what it has checked when it is through,
and the map it leaves. -/
theorem add_classes_spec (classes : List ClassNode) :
    ∀ (ct ct1 : ClassTable), add_classes classes ct = .ok ct1 →
      (∀ cls ∈ classes, is_basic_class_name cls.name = false ∧ cls.name ≠ "SELF_TYPE" ∧
        is_final_class_name cls.base_class = false ∧ ct.exists cls.name = false) ∧
      (classes.map (fun cls => cls.name)).Nodup ∧
      ct1.clsmap.Perm (classes.map (fun cls => (cls.name, cls)) ++ ct.clsmap) := by
  induction classes with
  | nil =>
    intro ct ct1 h
    simp only [add_classes, Except.ok.injEq] at h
    subst h
    simp
  | cons cls rest ih =>
    intro ct ct1 h
    unfold add_classes at h
    split at h
    · simp [semant_error] at h
    · next h1 =>
      split at h
      · simp [semant_error] at h
      · next h2 =>
        split at h
        · simp [semant_error] at h
        · next h3 =>
          split at h
          · simp [semant_error] at h
          · next h4 =>
            simp only [Bool.not_eq_true] at h1 h3 h4
            simp only [beq_iff_eq] at h2
            obtain ⟨g1, g2, g3⟩ := ih _ _ h
            have hp := set_perm ct cls.name cls h3
            have hkey : ∀ n, (ct.set cls.name cls).exists n = false →
                n ≠ cls.name ∧ ct.exists n = false := by
              intro n hn
              have hn1 : ¬ (n ∈ (ct.set cls.name cls).clsmap.map (fun entry => entry.1)) := by
                rw [← exists_iff_key, hn]
                simp
              rw [(hp.map _).mem_iff] at hn1
              simp only [List.map_cons, List.mem_cons, not_or] at hn1
              refine ⟨hn1.1, ?_⟩
              cases hx : ct.exists n with
              | false => rfl
              | true => exact absurd ((exists_iff_key ct n).mp hx) hn1.2
            refine ⟨?_, ?_, ?_⟩
            · intro c hc
              rcases List.mem_cons.mp hc with rfl | hc
              · exact ⟨h1, h2, h4, h3⟩
              · obtain ⟨a1, a2, a3, a4⟩ := g1 c hc
                exact ⟨a1, a2, a3, (hkey _ a4).2⟩
            · simp only [List.map_cons, List.nodup_cons]
              refine ⟨?_, g2⟩
              intro hm
              obtain ⟨c, hc, hcn⟩ := List.mem_map.mp hm
              exact (hkey _ (g1 c hc).2.2.2).1 hcn
            · refine g3.trans ?_
              simp only [List.map_cons, List.cons_append]
              exact ((List.Perm.append_left _ hp).trans List.perm_middle)

/-- The first loop of `check_inheritance_graph`, when it is through. -/
theorem check_parents_spec (ct : ClassTable) (l : List (String × ClassNode))
    (h : check_parents ct l = .ok ()) :
    ∀ e ∈ l, e.1 ≠ "Object" → ct.exists e.2.base_class = true := by
  induction l with
  | nil => intro e he; simp at he
  | cons x rest ih =>
    obtain ⟨name, cls⟩ := x
    unfold check_parents at h
    split at h
    · next h1 =>
      simp only [beq_iff_eq] at h1
      intro e he hne
      rcases List.mem_cons.mp he with rfl | he
      · exact absurd h1 hne
      · exact ih h e he hne
    · split at h
      · simp [semant_error] at h
      · next h2 =>
        intro e he hne
        rcases List.mem_cons.mp he with rfl | he
        · simpa using h2
        · exact ih h e he hne

/-- The second loop of `check_inheritance_graph`, when it is through. -/
theorem check_cycles_spec (ct : ClassTable) (fuel : Nat) (l : List (String × ClassNode))
    (h : check_cycles ct fuel l = .ok ()) :
    ∀ e ∈ l, cycle_walk ct e.1 fuel e.1 (some e.2) = .ok () := by
  induction l with
  | nil => intro e he; simp at he
  | cons x rest ih =>
    obtain ⟨name, cls⟩ := x
    simp only [check_cycles, bind, Except.bind] at h
    cases hw : cycle_walk ct name fuel name (some cls) with
    | error f => simp [hw] at h
    | ok u =>
      simp only [hw] at h
      intro e he
      rcases List.mem_cons.mp he with rfl | he
      · exact hw
      · exact ih h e he

/-- A walk of the cycle check that ends has reached `Object`: the ancestry of
the class it started from is computed with as many iterations. -/
theorem cycle_walk_ancestry (ct : ClassTable) (name : String) (fuel : Nat) :
    ∀ (x : String), cycle_walk ct name fuel x (ct.find x) = .ok () →
      ∃ l, get_ancestry_loop ct fuel x = .ok l := by
  induction fuel with
  | zero =>
    intro x h
    unfold cycle_walk at h
    unfold get_ancestry_loop
    by_cases hx : x = "Object"
    · simp [hx]
    · have : (x != "Object") = true := by simpa using hx
      simp [this] at h
  | succ n ih =>
    intro x h
    unfold cycle_walk at h
    unfold get_ancestry_loop
    by_cases hx : x = "Object"
    · simp [hx]
    · have h1 : (x != "Object") = true := by simpa using hx
      have h2 : (x == "Object") = false := by simpa using hx
      simp only [h1, ↓reduceIte] at h
      simp only [h2, Bool.false_eq_true, ↓reduceIte]
      cases hf : ct.find x with
      | none => simp [hf] at h
      | some cls =>
        simp only [hf] at h
        split at h
        · simp [semant_error] at h
        · obtain ⟨l, hl⟩ := ih _ h
          exact ⟨x :: l, by simp [hl]⟩



/-- One step of a computed ancestry of a class other than `Object`. -/
theorem get_ancestry_loop_step (ct : ClassTable) (fuel : Nat) (x : String) (l : List String)
    (hx : x ≠ "Object") (h : get_ancestry_loop ct fuel x = .ok l) :
    ∃ n cls rest, fuel = n + 1 ∧ ct.find x = some cls ∧
      get_ancestry_loop ct n cls.base_class = .ok rest ∧ l = x :: rest := by
  unfold get_ancestry_loop at h
  have h2 : (x == "Object") = false := by simpa using hx
  simp only [h2, Bool.false_eq_true, ↓reduceIte] at h
  cases fuel with
  | zero => simp at h
  | succ n =>
    simp only at h
    cases hf : ct.find x with
    | none => simp [hf] at h
    | some cls =>
      simp only [hf] at h
      cases hr : get_ancestry_loop ct n cls.base_class with
      | error f => simp [hr] at h
      | ok rest =>
        simp only [hr, Except.ok.injEq] at h
        exact ⟨n, cls, rest, rfl, rfl, hr, h.symm⟩

theorem get_ancestry_loop_of_object (ct : ClassTable) (fuel : Nat) :
    get_ancestry_loop ct fuel "Object" = .ok ["Object"] := by
  unfold get_ancestry_loop
  simp

/-- A computed ancestry ends with `Object`, every class of it is followed by
its base class, and no class is in it twice. -/
theorem get_ancestry_loop_shape (ct : ClassTable) (fuel : Nat) :
    ∀ (x : String) (l : List String), get_ancestry_loop ct fuel x = .ok l →
      l.getLast? = some "Object" ∧
      List.Chain' (fun a b => ∃ cls, ct.find a = some cls ∧ cls.base_class = b) l ∧
      (∀ y ∈ l, y = "Object" ∨ ct.exists y = true) ∧ l.Nodup := by
  induction fuel with
  | zero =>
    intro x l h
    by_cases hx : x = "Object"
    · subst hx
      rw [get_ancestry_loop_of_object] at h
      simp only [Except.ok.injEq] at h
      subst h
      simp
    · obtain ⟨n, _, _, hn, _⟩ := get_ancestry_loop_step ct 0 x l hx h
      omega
  | succ n ih =>
    intro x l h
    by_cases hx : x = "Object"
    · subst hx
      rw [get_ancestry_loop_of_object] at h
      simp only [Except.ok.injEq] at h
      subst h
      simp
    · obtain ⟨m, cls, rest, hm, hf, hr, hl⟩ := get_ancestry_loop_step ct (n + 1) x l hx h
      have hmn : m = n := by omega
      subst hmn
      subst hl
      obtain ⟨i1, i2, i3, i4⟩ := ih _ _ hr
      obtain ⟨tail, htail⟩ := get_ancestry_loop_head ct m _ rest hr
      refine ⟨?_, ?_, ?_, ?_⟩
      · rw [htail] at i1 ⊢
        simpa [List.getLast?_cons_cons] using i1
      · rw [htail] at i2 ⊢
        exact List.Chain'.cons ⟨cls, hf, rfl⟩ i2
      · intro y hy
        rcases List.mem_cons.mp hy with rfl | hy
        · right
          simp [ClassTable.exists, hf]
        · exact i3 y hy
      · refine List.nodup_cons.mpr ⟨?_, i4⟩
        intro hmem
        obtain ⟨l1, l2, hl12⟩ := List.append_of_mem hmem
        rw [hl12] at hr
        have h1 := get_ancestry_loop_suffix ct l1 m _ x l2 hr
        have h2 := get_ancestry_loop_mono ct m x _ h1
        rw [h] at h2
        simp only [Except.ok.injEq, List.cons.injEq, true_and] at h2
        have := congrArg List.length h2
        rw [hl12] at this
        simp at this
        omega

/-- A computed ancestry is computed by any number of iterations that is at
least the number of its classes other than `Object`. -/
theorem get_ancestry_loop_min_fuel (ct : ClassTable) (fuel : Nat) :
    ∀ (x : String) (l : List String), get_ancestry_loop ct fuel x = .ok l →
      ∀ f2, l.length ≤ f2 + 1 → get_ancestry_loop ct f2 x = .ok l := by
  induction fuel with
  | zero =>
    intro x l h f2 _
    by_cases hx : x = "Object"
    · subst hx
      rw [get_ancestry_loop_of_object] at h ⊢
      exact h
    · obtain ⟨n, _, _, hn, _⟩ := get_ancestry_loop_step ct 0 x l hx h
      omega
  | succ n ih =>
    intro x l h f2 hlen
    by_cases hx : x = "Object"
    · subst hx
      rw [get_ancestry_loop_of_object] at h ⊢
      exact h
    · obtain ⟨m, cls, rest, hm, hf, hr, hl⟩ := get_ancestry_loop_step ct (n + 1) x l hx h
      have hmn : m = n := by omega
      subst hmn
      subst hl
      obtain ⟨tail, htail⟩ := get_ancestry_loop_head ct m _ rest hr
      cases f2 with
      | zero =>
        rw [htail] at hlen
        simp at hlen
      | succ k =>
        have := ih _ _ hr k (by simpa using hlen)
        unfold get_ancestry_loop
        have h2 : (x == "Object") = false := by simpa using hx
        simp [h2, hf, this]

/-- A computed ancestry has at most as many classes as the table. -/
theorem get_ancestry_loop_length (ct : ClassTable) (hobj : ct.exists "Object" = true)
    (fuel : Nat) (x : String) (l : List String) (h : get_ancestry_loop ct fuel x = .ok l) :
    l.length ≤ ct.clsmap.length := by
  obtain ⟨_, _, h3, h4⟩ := get_ancestry_loop_shape ct fuel x l h
  have hsub : l ⊆ ct.clsmap.map (fun entry => entry.1) := by
    intro y hy
    rcases h3 y hy with rfl | hy
    · exact (exists_iff_key ct _).mp hobj
    · exact (exists_iff_key ct y).mp hy
  have := (List.Nodup.subperm h4 hsub).length_le
  simpa using this

/-- The number of iterations that `get_ancestry` is given is enough: an
ancestry that any number of iterations computes is computed by it. -/
theorem get_ancestry_of_loop (ct : ClassTable) (hobj : ct.exists "Object" = true)
    (fuel : Nat) (x : String) (l : List String) (h : get_ancestry_loop ct fuel x = .ok l) :
    ct.get_ancestry x = .ok l := by
  have := get_ancestry_loop_length ct hobj fuel x l h
  exact get_ancestry_loop_min_fuel ct fuel x l h _ (by omega)



/-- The steps of the constructor when it returns a table. -/
theorem construct_inv (fuel : Nat) (classes : List ClassNode) (ct : ClassTable)
    (h : ClassTable.construct fuel classes = .ok ct) :
    add_classes classes install_basic_classes = .ok ct ∧
    (∃ main_class, ct.find "Main" = some main_class ∧
      main_class.get_methods.any (fun method => method.name == "main") = true) ∧
    check_parents ct ct.clsmap = .ok () ∧ check_cycles ct fuel ct.clsmap = .ok () := by
  unfold ClassTable.construct at h
  simp only [bind, Except.bind] at h
  cases ha : add_classes classes install_basic_classes with
  | error f => simp [ha] at h
  | ok ct1 =>
    simp only [ha] at h
    cases hm : ct1.find "Main" with
    | none => simp [hm, semant_error] at h
    | some main_class =>
      simp only [hm] at h
      split at h
      · simp [semant_error] at h
      · next hmain =>
        unfold check_inheritance_graph at h
        simp only [bind, Except.bind] at h
        cases hp : check_parents ct1 ct1.clsmap with
        | error f => simp [hp] at h
        | ok u =>
          simp only [hp] at h
          cases hc : check_cycles ct1 fuel ct1.clsmap with
          | error f => simp [hc] at h
          | ok v =>
            simp only [hc, pure, Except.pure, Except.ok.injEq] at h
            subst h
            exact ⟨rfl, ⟨main_class, hm, by simpa using hmain⟩, hp, hc⟩

/-- The table that the constructor returns holds the basic classes and the
classes of the program, each under its name. -/
theorem construct_perm (fuel : Nat) (classes : List ClassNode) (ct : ClassTable)
    (h : ClassTable.construct fuel classes = .ok ct) :
    ct.clsmap.Perm (classes.map (fun cls => (cls.name, cls)) ++ install_basic_classes.clsmap) :=
  (add_classes_spec classes _ _ (construct_inv fuel classes ct h).1).2.2

/-- The table that the constructor returns is well formed. -/
theorem construct_well_formed (fuel : Nat) (classes : List ClassNode) (ct : ClassTable)
    (h : ClassTable.construct fuel classes = .ok ct) : ct.well_formed := by
  obtain ⟨ha, _, hp, hc⟩ := construct_inv fuel classes ct h
  obtain ⟨g1, g2, g3⟩ := add_classes_spec classes _ _ ha
  have w1 : ∀ entry ∈ ct.clsmap, entry.2.name = entry.1 := by
    intro entry he
    rw [g3.mem_iff, List.mem_append] at he
    rcases he with he | he
    · obtain ⟨c, _, rfl⟩ := List.mem_map.mp he
      rfl
    · have hb : ∀ e ∈ install_basic_classes.clsmap, e.2.name = e.1 := by decide
      exact hb entry he
  have w2 : (ct.clsmap.map (fun entry => entry.1)).Nodup := by
    rw [(g3.map _).nodup_iff, List.map_append, List.map_map]
    refine List.Nodup.append g2 (by decide) ?_
    intro n h1 h2
    obtain ⟨c, hc1, rfl⟩ := List.mem_map.mp h1
    have := (exists_iff_key install_basic_classes _).mpr h2
    simp only [Function.comp] at this
    rw [(g1 c hc1).2.2.2] at this
    exact Bool.noConfusion this
  have hobj : ct.exists "Object" = true := by
    rw [exists_iff_key, (g3.map _).mem_iff, List.map_append, List.mem_append]
    right
    decide
  refine ⟨w1, w2, ?_, ?_⟩
  · unfold ClassTable.exists at hobj
    cases hf : ct.find "Object" with
    | none => simp [hf] at hobj
    | some object => exact ⟨object, rfl⟩
  · intro entry he
    have hw := check_cycles_spec ct fuel _ hc entry he
    have hf := find_of_mem ct w2 entry.1 entry.2 he
    rw [← hf] at hw
    obtain ⟨l, hl⟩ := cycle_walk_ancestry ct entry.1 fuel entry.1 hw
    exact ⟨l, get_ancestry_of_loop ct hobj fuel _ l hl⟩



/-- C13: when the constructor of the class table returns a table, no class of
the program has the name of a basic class or `SELF_TYPE`, no two classes of the
program have the same name, every class of the program is in the table under
its name, no class of the table has `Int`, `String`, `Bool` or `SELF_TYPE` as
base class, `Main` is in the table with a method `main` among its own methods,
and the base class of every class but `Object` is in the table. -/
theorem C13_class_table_construction (fuel : Nat) (classes : List ClassNode) (ct : ClassTable)
    (h : ClassTable.construct fuel classes = .ok ct) :
    (∀ cls ∈ classes, cls.name ∉ ["Int", "String", "Bool", "IO", "Object", "SELF_TYPE"]) ∧
    (classes.map (fun cls => cls.name)).Nodup ∧
    (∀ cls ∈ classes, ct.find cls.name = some cls) ∧
    (∀ entry ∈ ct.clsmap, entry.2.base_class ∉ ["Int", "String", "Bool", "SELF_TYPE"]) ∧
    (∃ main_class, ct.find "Main" = some main_class ∧
      ∃ method ∈ main_class.get_methods, method.name = "main") ∧
    (∀ entry ∈ ct.clsmap, entry.1 ≠ "Object" → ct.exists entry.2.base_class = true) := by
  obtain ⟨ha, ⟨main_class, hm1, hm2⟩, hp, _⟩ := construct_inv fuel classes ct h
  obtain ⟨g1, g2, g3⟩ := add_classes_spec classes _ _ ha
  have hw := construct_well_formed fuel classes ct h
  refine ⟨?_, g2, ?_, ?_, ⟨main_class, hm1, ?_⟩, check_parents_spec ct _ hp⟩
  · intro cls hc
    obtain ⟨a1, a2, _, _⟩ := g1 cls hc
    simp only [is_basic_class_name, Bool.or_eq_false_iff, beq_eq_false_iff_ne] at a1
    simp only [List.mem_cons, List.mem_singleton, List.not_mem_nil, or_false, not_or]
    exact ⟨a1.1.1.1.1, a1.1.1.1.2, a1.1.1.2, a1.1.2, a1.2, a2⟩
  · intro cls hc
    apply find_of_mem ct hw.2.1
    rw [g3.mem_iff, List.mem_append]
    exact Or.inl (List.mem_map.mpr ⟨cls, hc, rfl⟩)
  · intro entry he
    rw [g3.mem_iff, List.mem_append] at he
    rcases he with he | he
    · obtain ⟨c, hc, rfl⟩ := List.mem_map.mp he
      obtain ⟨_, _, a3, _⟩ := g1 c hc
      simp only [is_final_class_name, Bool.or_eq_false_iff, beq_eq_false_iff_ne] at a3
      simp only [List.mem_cons, List.mem_singleton, List.not_mem_nil, or_false, not_or]
      exact ⟨a3.1.1.1, a3.1.1.2, a3.1.2, a3.2⟩
    · have hb : ∀ e ∈ install_basic_classes.clsmap,
          e.2.base_class ∉ ["Int", "String", "Bool", "SELF_TYPE"] := by decide
      exact hb entry he
  · obtain ⟨method, h1, h2⟩ := List.any_eq_true.mp hm2
    exact ⟨method, h1, by simpa using h2⟩

/-- C13 at the program of the classes `A`, `B inherits A` and `Main`. -/
theorem C13_class_table_construction_witness :
    ∃ ct, ClassTable.construct 8 program_example = .ok ct ∧
      (∃ main_class, ct.find "Main" = some main_class ∧
        ∃ method ∈ main_class.get_methods, method.name = "main") ∧
      (∀ entry ∈ ct.clsmap, entry.1 ≠ "Object" → ct.exists entry.2.base_class = true) :=
  ⟨_, rfl, (C13_class_table_construction 8 program_example _ rfl).2.2.2.2⟩

/-- C14: when the constructor of the class table returns a table, for every
class of the table `get_ancestry` returns a list that starts with the class,
ends with `Object`, in which every class is followed by its base class, and
that has at most as many elements as the table has classes; no number of
iterations of its loop computes another list. -/
theorem C14_ancestry_after_construction (fuel : Nat) (classes : List ClassNode)
    (ct : ClassTable) (h : ClassTable.construct fuel classes = .ok ct) :
    ∀ entry ∈ ct.clsmap, ∃ ancestors,
      ct.get_ancestry entry.1 = .ok (entry.1 :: ancestors) ∧
      (entry.1 :: ancestors).getLast? = some "Object" ∧
      List.Chain' (fun a b => ∃ cls, ct.find a = some cls ∧ cls.base_class = b)
        (entry.1 :: ancestors) ∧
      (entry.1 :: ancestors).length ≤ ct.clsmap.length ∧
      ∀ n l, get_ancestry_loop ct n entry.1 = .ok l → l = entry.1 :: ancestors := by
  intro entry he
  have hw := construct_well_formed fuel classes ct h
  obtain ⟨l, hl⟩ := hw.2.2.2 entry he
  obtain ⟨ancestors, hanc⟩ := get_ancestry_loop_head ct _ _ l hl
  subst hanc
  obtain ⟨s1, s2, _, _⟩ := get_ancestry_loop_shape ct _ _ _ hl
  have hobj : ct.exists "Object" = true := by
    obtain ⟨object, ho⟩ := hw.2.2.1
    simp [ClassTable.exists, ho]
  refine ⟨ancestors, hl, s1, s2, get_ancestry_loop_length ct hobj _ _ _ hl, ?_⟩
  intro n l hn
  have := get_ancestry_of_loop ct hobj n _ l hn
  rw [hl] at this
  simp only [Except.ok.injEq] at this
  exact this.symm

/-- C14 at the program of the classes `A`, `B inherits A` and `Main`: the
ancestry of `B`. -/
theorem C14_ancestry_after_construction_witness :
    ∃ ct, ClassTable.construct 8 program_example = .ok ct ∧
      ct.get_ancestry "B" = .ok ["B", "A", "Object"] ∧
      ∃ ancestors, ct.get_ancestry "B" = .ok ("B" :: ancestors) ∧
        ("B" :: ancestors).length ≤ ct.clsmap.length :=
  ⟨_, rfl, rfl,
    (C14_ancestry_after_construction 8 program_example _ rfl
      ("B", { name := "B", base_class := "A", features := [] })
      (find_some_mem _ _ _ rfl)).imp (fun _ hx => ⟨hx.1, hx.2.2.2.1⟩)⟩

/-- The walk of the cycle check for `A` in the table of `cycle_example`, once
it is at `B`, stays at `B`. -/
theorem cycle_walk_stays (ct : ClassTable) (cls : ClassNode) (name : String)
    (hf : ct.find cls.name = some cls) (hb : cls.base_class = cls.name)
    (hn : cls.name ≠ name) (ho : cls.name ≠ "Object") (fuel : Nat) :
    cycle_walk ct name fuel cls.name (some cls) = .error .nontermination := by
  induction fuel with
  | zero =>
    unfold cycle_walk
    have : (cls.name != "Object") = true := by simpa using ho
    simp [this]
  | succ n ih =>
    unfold cycle_walk
    have h1 : (cls.name != "Object") = true := by simpa using ho
    have h2 : (cls.base_class == name) = false := by rw [hb]; simpa using hn
    simp only [h1, ↓reduceIte, h2, Bool.false_eq_true]
    rw [hb, hf]
    exact ih

/-- C15, as the code behaves: for the classes `A inherits B`, `B inherits B`
and `Main`, which pass the name checks and of which `B` inherits from itself,
the constructor reports no error: the walk of the cycle check for `A`, the
first class of the map, compares the classes it meets with `A` only, so
however many iterations it is given it has not come to an end. -/
theorem C15_cycle_check_does_not_terminate (fuel : Nat) :
    ClassTable.construct fuel cycle_example = .error .nontermination := by
  have hadd : add_classes cycle_example install_basic_classes =
      .ok ((((install_basic_classes.set "A" { name := "A", base_class := "B", features := [] }).set
        "B" { name := "B", base_class := "B", features := [] }).set "Main"
          main_class_example)) := rfl
  unfold ClassTable.construct
  rw [hadd]
  generalize hct : (((install_basic_classes.set "A"
    { name := "A", base_class := "B", features := [] }).set
      "B" { name := "B", base_class := "B", features := [] }).set "Main"
        main_class_example) = ct
  have hmain : ct.find "Main" = some main_class_example := by subst hct; rfl
  have hparents : check_parents ct ct.clsmap = .ok () := by subst hct; rfl
  have hfb : ct.find "B" = some { name := "B", base_class := "B", features := [] } := by
    subst hct; rfl
  have hcls : ∃ rest, ct.clsmap =
      ("A", { name := "A", base_class := "B", features := [] }) :: rest := by
    subst hct; exact ⟨_, rfl⟩
  obtain ⟨rest, hrest⟩ := hcls
  have hwalk : cycle_walk ct "A" fuel "A"
      (some { name := "A", base_class := "B", features := [] }) = .error .nontermination := by
    cases fuel with
    | zero => rfl
    | succ n =>
      unfold cycle_walk
      simp only [bne_iff_ne, ne_eq, String.reduceEq, not_false_eq_true, ↓reduceIte,
        beq_iff_eq, hfb]
      exact cycle_walk_stays ct { name := "B", base_class := "B", features := [] } "A" hfb rfl
        (by decide) (by decide) n
  simp only [bind, Except.bind, hmain, main_class_example, check_inheritance_graph, hparents]
  rw [hrest]
  simp only [check_cycles, bind, Except.bind, hwalk]
  rfl

theorem find_entries_other (cls_name other name : String) (global : MethodEnv)
    (h : other ≠ cls_name) (seen : List MethodNode) :
    MethodEnv.find (entries cls_name seen ++ global) other name =
      MethodEnv.find global other name := by
  unfold MethodEnv.find entries
  generalize seen.reverse = l
  induction l with
  | nil => simp
  | cons m rest ih =>
    simp only [List.map_cons, List.cons_append, List.find?_cons]
    have : (((cls_name, m.name), m).1 == (other, name)) = false := by
      simp only [beq_eq_false_iff_ne, ne_eq, Prod.mk.injEq, not_and]
      intro h1
      exact absurd h1.symm h
    simp only [this]
    exact ih

/-- The environment that the loop of `build_method_env` leaves: under the name
of each class, the latest definitions among the methods of its chain. -/
theorem build_method_env_loop_content (ct : ClassTable) (classes : List (String × ClassNode))
    (chain_of : ClassNode → List ClassNode)
    (hchain : ∀ entry ∈ classes,
      class_chain ct (ct.clsmap.length + 1) entry.2 = .ok (chain_of entry.2))
    (hnodup : (classes.map (fun entry => entry.2.name)).Nodup) :
    ∀ (methods result : MethodEnv),
      (∀ b ∈ methods, b.1.1 ∉ classes.map (fun entry => entry.2.name)) →
      build_method_env_loop ct classes methods = .ok result →
      (∀ entry ∈ classes, ∀ m,
        MethodEnv.find result entry.2.name m = latest (all_methods (chain_of entry.2)) m) ∧
      (∀ other m, other ∉ classes.map (fun entry => entry.2.name) →
        MethodEnv.find result other m = MethodEnv.find methods other m) := by
  induction classes with
  | nil =>
    intro methods result _ h
    simp only [build_method_env_loop, Except.ok.injEq] at h
    subst h
    simp
  | cons entry rest ih =>
    intro methods result hm h
    have hc := hchain entry (List.mem_cons_self _ _)
    simp only [List.map_cons, List.nodup_cons] at hnodup
    have hg : ∀ b ∈ methods, b.1.1 ≠ entry.2.name := by
      intro b hb h
      exact hm b hb (by simp [h])
    obtain ⟨l1, l2⟩ := add_levels_spec entry.2.name methods hg (chain_of entry.2) []
    simp only [entries, List.reverse_nil, List.map_nil, List.nil_append] at l1 l2
    simp only [build_method_env_loop, add_class_to_method_env_eq, hc] at h
    by_cases hl : levels_ok [] (chain_of entry.2)
    · rw [l1 hl] at h
      simp only at h
      obtain ⟨i1, i2⟩ := ih (fun e he => hchain e (List.mem_cons_of_mem _ he)) hnodup.2 _ result
        (by
          intro b hb
          rcases List.mem_append.mp hb with h | h
          · simp only [List.mem_map, List.mem_reverse] at h
            obtain ⟨m, _, rfl⟩ := h
            exact hnodup.1
          · intro h1
            exact hm b h (by simp [h1])) h
      constructor
      · intro e he m
        rcases List.mem_cons.mp he with rfl | he
        · rw [i2 _ m hnodup.1]
          exact find_entries _ m methods hg _
        · exact i1 e he m
      · intro other m ho
        simp only [List.map_cons, List.mem_cons, not_or] at ho
        rw [i2 other m ho.2]
        exact find_entries_other _ other m methods ho.1 _
    · obtain ⟨msg, hmsg⟩ := l2 hl
      rw [hmsg] at h
      simp at h

/-- In a list of methods with distinct names, the latest method of a name is
the first one. -/
theorem latest_eq_find (l : List MethodNode) (m : String)
    (h : (l.map (fun method => method.name)).Nodup) :
    latest l m = l.find? (fun method => method.name == m) := by
  unfold latest
  induction l with
  | nil => rfl
  | cons a rest ih =>
    simp only [List.map_cons, List.nodup_cons] at h
    simp only [List.reverse_cons, List.find?_append, List.find?_cons, List.find?_nil]
    by_cases ha : a.name = m
    · have hn : List.find? (fun method => method.name == m) rest.reverse = none := by
        rw [List.find?_eq_none]
        intro x hx hxm
        simp only [beq_iff_eq] at hxm
        apply h.1
        rw [ha, ← hxm]
        exact List.mem_map.mpr ⟨x, by simpa using hx, rfl⟩
      simp [hn, ha]
    · have : (a.name == m) = false := by simpa using ha
      simp only [this, Option.or_none]
      exact ih h.2

theorem latest_append (a b : List MethodNode) (m : String) :
    latest (a ++ b) m = (latest b m).or (latest a m) := by
  unfold latest
  simp [List.find?_append]

theorem all_methods_append (l1 l2 : List ClassNode) :
    all_methods (l1 ++ l2) = all_methods l1 ++ all_methods l2 := by
  induction l1 with
  | nil => rfl
  | cons c rest ih => simp [all_methods, ih]

/-- The latest definition among the methods of a chain of classes of the table
is the nearest definition along the names of the chain read backwards. -/
theorem latest_eq_nearest (ct : ClassTable) (m : String) (chain : List ClassNode) :
    (∀ c ∈ chain, ct.find c.name = some c) →
    (∀ c ∈ chain, (c.get_methods.map (fun method => method.name)).Nodup) →
    latest (all_methods chain) m =
      nearest_definition ct (chain.map (fun c => c.name)).reverse m := by
  induction chain using List.reverseRecOn with
  | nil => intro _ _; rfl
  | append_singleton init c ih =>
    intro h1 h2
    have hc := h1 c (by simp)
    have hn := h2 c (by simp)
    rw [all_methods_append, latest_append]
    simp only [all_methods, List.append_nil, List.map_append, List.map_cons, List.map_nil,
      List.reverse_append, List.reverse_cons, List.reverse_nil, List.nil_append,
      List.singleton_append, nearest_definition, hc]
    rw [latest_eq_find _ m hn,
      ih (fun x hx => h1 x (by simp [hx])) (fun x hx => h2 x (by simp [hx]))]
    cases List.find? (fun method => method.name == m) c.get_methods <;> rfl

/-- The nearest definition exists exactly when some class of the list defines
the method. -/
theorem nearest_definition_isSome (ct : ClassTable) (m : String) (ancestry : List String) :
    (nearest_definition ct ancestry m).isSome = true ↔
      ∃ name ∈ ancestry, ∃ cls, ct.find name = some cls ∧
        ∃ definition ∈ cls.get_methods, definition.name = m := by
  induction ancestry with
  | nil => simp [nearest_definition]
  | cons name rest ih =>
    unfold nearest_definition
    cases hf : ct.find name with
    | none =>
      simp only [ih, List.mem_cons, exists_eq_or_imp, hf]
      simp
    | some cls =>
      simp only
      cases hd : List.find? (fun method => method.name == m) cls.get_methods with
      | some definition =>
        simp only [Option.isSome_some, List.mem_cons, exists_eq_or_imp, hf, true_iff]
        left
        exact ⟨cls, rfl, definition, List.mem_of_find?_eq_some hd, by
          simpa using List.find?_some hd⟩
      | none =>
        rw [List.find?_eq_none] at hd
        simp only [ih, List.mem_cons, exists_eq_or_imp, hf, Option.some.injEq, exists_eq_left']
        constructor
        · intro h
          exact Or.inr h
        · rintro (⟨d, hd1, hd2⟩ | h)
          · exact absurd (by simpa using hd2) (hd d hd1)
          · exact h



/-- C11: when `build_method_env` returns the environment of a well-formed class
table, for every class `C` of the table and every method name `m` the
environment has an entry `(C, m)` exactly when some class of `get_ancestry(C)`
defines `m`, and the entry is the definition of `m` in the class nearest to `C`
in `get_ancestry(C)` that defines `m`. -/
theorem C11_method_environment_content (ct : ClassTable) (hw : ct.well_formed)
    (methods : MethodEnv) (h : build_method_env ct = .ok methods) :
    ∀ entry ∈ ct.clsmap, ∃ ancestry, ct.get_ancestry entry.1 = .ok ancestry ∧
      ∀ m,
        (MethodEnv.exists methods entry.1 m = true ↔
          ∃ name ∈ ancestry, ∃ cls, ct.find name = some cls ∧
            ∃ definition ∈ cls.get_methods, definition.name = m) ∧
        MethodEnv.find methods entry.1 m = nearest_definition ct ancestry m := by
  have hnoerr : ¬ method_environment_error ct := by
    intro herr
    obtain ⟨msg, hmsg⟩ := (build_method_env_spec ct hw).2 herr
    rw [h] at hmsg
    exact Except.noConfusion hmsg
  let chain_of : ClassNode → List ClassNode := fun c =>
    match class_chain ct (ct.clsmap.length + 1) c with
    | .ok chain => chain
    | .error _ => []
  have hspec : ∀ entry ∈ ct.clsmap, ∃ l, ct.get_ancestry entry.1 = .ok l ∧
      class_chain ct (ct.clsmap.length + 1) entry.2 = .ok (chain_of entry.2) ∧
      (chain_of entry.2).map (fun c => c.name) = l.reverse ∧
      (∀ x ∈ chain_of entry.2, ct.find x.name = some x) := by
    intro entry he
    have hfind := find_self ct hw entry he
    obtain ⟨l, hanc⟩ := hw.2.2.2 entry he
    have hanc2 := hanc
    rw [← hw.1 entry he] at hanc2
    obtain ⟨chain, hc1, hc2, hc3, _⟩ :=
      class_chain_spec ct hw (ct.clsmap.length + 1) entry.2 l hfind hanc2
    have hco : chain_of entry.2 = chain := by simp only [chain_of, hc1]
    rw [hco]
    exact ⟨l, hanc, hc1, hc2, hc3⟩
  have hnodup : (ct.clsmap.map (fun entry => entry.2.name)).Nodup := by
    have : ct.clsmap.map (fun entry => entry.2.name) = ct.clsmap.map (fun entry => entry.1) :=
      List.map_congr_left (fun entry he => hw.1 entry he)
    rw [this]
    exact hw.2.1
  obtain ⟨c1, _⟩ := build_method_env_loop_content ct ct.clsmap chain_of
    (fun entry he => (hspec entry he).choose_spec.2.1) hnodup [] methods
    (by intro b hb; simp at hb) h
  intro entry he
  obtain ⟨l, hl, _, hnames, hmem⟩ := hspec entry he
  refine ⟨l, hl, ?_⟩
  intro m
  have hfind : MethodEnv.find methods entry.1 m = nearest_definition ct l m := by
    have := c1 entry he m
    rw [hw.1 entry he] at this
    rw [this, latest_eq_nearest ct m _ hmem, hnames, List.reverse_reverse]
    intro c hc
    have hce := find_some_mem ct _ _ (hmem c hc)
    by_contra hrep
    exact hnoerr ⟨_, hce, Or.inr (Or.inl hrep)⟩
  refine ⟨?_, hfind⟩
  rw [← MethodEnv.find_isSome_of_exists, hfind]
  exact nearest_definition_isSome ct m l

/-- C11 at the classes `A { m(x : Int) : Int }` and
`B inherits A { m(y : Int) : Int }`: under `B` the entry for `m` is the
definition of `B` and the entry for `abort` is the definition of `Object`;
there is no entry for `n`. -/
theorem C11_method_environment_content_witness :
    ∃ methods, build_method_env same_override_example = .ok methods ∧
      MethodEnv.find methods "B" "m" =
        some (MethodNode.mk "m" "Int" [⟨"y", "Int"⟩] (.IntNode "1")) ∧
      MethodEnv.find methods "B" "abort" = some (basic_method "abort" "Object" []) ∧
      MethodEnv.exists methods "B" "n" = false := by
  refine ⟨_, rfl, ?_⟩
  obtain ⟨ancestry, h1, h2⟩ := C11_method_environment_content same_override_example
    (check_well_formed_sound _ rfl) _ rfl
    ("B", ClassNode.mk "B" "A"
      [.method (MethodNode.mk "m" "Int" [⟨"y", "Int"⟩] (.IntNode "1"))])
    (find_some_mem _ _ _ rfl)
  have e : ancestry = ["B", "A", "Object"] := by
    have : same_override_example.get_ancestry "B" = .ok ["B", "A", "Object"] := rfl
    rw [this] at h1
    simpa using h1.symm
  subst e
  refine ⟨(h2 "m").2.trans rfl, (h2 "abort").2.trans rfl, ?_⟩
  rw [← MethodEnv.find_isSome_of_exists, (h2 "n").2]
  rfl

/-- The check for overriding finds nothing exactly when the name is not in the
table. -/
theorem override_entry_none (clsname n : String) (t : List (String × String)) :
    override_entry clsname n t = none ↔ n ∉ t.map (fun e => e.2) := by
  induction t with
  | nil => simp [override_entry]
  | cons e rest ih =>
    unfold override_entry
    by_cases h : n = e.2
    · simp [h]
    · have hb : (n == e.2) = false := by simpa using h
      simp only [hb, Bool.false_eq_true, ↓reduceIte, Option.map_eq_none', ih, List.map_cons,
        List.mem_cons, not_or]
      exact ⟨fun h1 => ⟨h, h1⟩, fun h1 => h1.2⟩

/-- An entry that is overridden keeps its place: the names of the table stay,
and the entry of the name now has the class. -/
theorem override_entry_some (clsname n : String) (t t1 : List (String × String))
    (hn : (t.map (fun e => e.2)).Nodup) (h : override_entry clsname n t = some t1) :
    t1.map (fun e => e.2) = t.map (fun e => e.2) ∧ n ∈ t.map (fun e => e.2) ∧
      ∀ e ∈ t1, (e.2 = n → e.1 = clsname) ∧ (e.2 ≠ n → e ∈ t) := by
  induction t generalizing t1 with
  | nil => simp [override_entry] at h
  | cons x rest ih =>
    unfold override_entry at h
    simp only [List.map_cons, List.nodup_cons] at hn
    by_cases hx : n = x.2
    · simp only [hx, beq_self_eq_true, ↓reduceIte, Option.some.injEq] at h
      subst h
      refine ⟨by simp, by simp [hx], ?_⟩
      intro e he
      rcases List.mem_cons.mp he with rfl | he
      · simp [hx]
      · constructor
        · intro hen
          exfalso
          apply hn.1
          rw [← hx, ← hen]
          exact List.mem_map.mpr ⟨e, he, rfl⟩
        · intro _
          exact List.mem_cons_of_mem _ he
    · have hb : (n == x.2) = false := by simpa using hx
      simp only [hb, Bool.false_eq_true, ↓reduceIte, Option.map_eq_some'] at h
      obtain ⟨r1, hr1, rfl⟩ := h
      obtain ⟨i1, i2, i3⟩ := ih r1 hn.2 hr1
      refine ⟨by simp [i1], by simp [i2], ?_⟩
      intro e he
      rcases List.mem_cons.mp he with rfl | he
      · exact ⟨fun h => absurd h.symm hx, fun _ => List.mem_cons_self _ _⟩
      · exact ⟨(i3 e he).1, fun h => List.mem_cons_of_mem _ ((i3 e he).2 h)⟩

/-- The methods of one class in the table: the names that are new go to the
end, the others keep their places, and the entries of the names of the class
have the class. -/
theorem add_class_methods_spec (clsname : String) (ms : List MethodNode) :
    ∀ (t : List (String × String)), (t.map (fun e => e.2)).Nodup →
      (add_class_methods clsname ms t).map (fun e => e.2) =
        append_new (t.map (fun e => e.2)) (ms.map (fun m => m.name)) ∧
      ((add_class_methods clsname ms t).map (fun e => e.2)).Nodup ∧
      ∀ e ∈ add_class_methods clsname ms t,
        (e.2 ∈ ms.map (fun m => m.name) → e.1 = clsname) ∧
        (e.2 ∉ ms.map (fun m => m.name) → e ∈ t) := by
  induction ms with
  | nil =>
    intro t hn
    simp [add_class_methods, append_new, hn]
  | cons m rest ih =>
    intro t hn
    unfold add_class_methods
    cases ho : override_entry clsname m.name t with
    | some t1 =>
      obtain ⟨o1, o2, o3⟩ := override_entry_some clsname m.name t t1 hn ho
      obtain ⟨i1, i2, i3⟩ := ih t1 (by rw [o1]; exact hn)
      simp only [List.map_cons, append_new, o2, ↓reduceIte]
      refine ⟨by rw [i1, o1], i2, ?_⟩
      intro e he
      obtain ⟨j1, j2⟩ := i3 e he
      constructor
      · intro hmem
        by_cases hr : e.2 ∈ rest.map (fun m => m.name)
        · exact j1 hr
        · rcases List.mem_cons.mp hmem with h | h
          · exact (o3 e (j2 hr)).1 h
          · exact absurd h hr
      · intro hmem
        simp only [List.mem_cons, not_or] at hmem
        exact (o3 e (j2 hmem.2)).2 hmem.1
    | none =>
      have hnot := (override_entry_none clsname m.name t).mp ho
      have hn1 : ((t ++ [(clsname, m.name)]).map (fun e => e.2)).Nodup := by
        simp only [List.map_append, List.map_cons, List.map_nil]
        exact List.Nodup.append hn (by simp) (by simpa using hnot)
      obtain ⟨i1, i2, i3⟩ := ih _ hn1
      simp only [List.map_cons, append_new, hnot, ↓reduceIte]
      refine ⟨by rw [i1]; simp, i2, ?_⟩
      intro e he
      obtain ⟨j1, j2⟩ := i3 e he
      constructor
      · intro hmem
        by_cases hr : e.2 ∈ rest.map (fun m => m.name)
        · exact j1 hr
        · have := j2 hr
          rcases List.mem_append.mp this with h | h
          · rcases List.mem_cons.mp hmem with h1 | h1
            · exfalso
              apply hnot
              rw [← h1]
              exact List.mem_map.mpr ⟨e, h, rfl⟩
            · exact absurd h1 hr
          · simp only [List.mem_singleton] at h
            rw [h]
      · intro hmem
        simp only [List.mem_cons, not_or] at hmem
        have := j2 hmem.2
        rcases List.mem_append.mp this with h | h
        · exact h
        · simp only [List.mem_singleton] at h
          exact absurd (by rw [h]) hmem.1

/-- The names of a table that new names are appended to start with the names
before. -/
theorem append_new_keeps_names (ms : List String) :
    ∀ (names : List String), names <+: append_new names ms := by
  induction ms with
  | nil => intro names; exact List.prefix_refl _
  | cons m rest ih =>
    intro names
    unfold append_new
    split
    · exact ih names
    · exact (List.prefix_append names [m]).trans (ih _)

theorem mem_append_new (ms : List String) :
    ∀ (names : List String) (n : String), n ∈ append_new names ms ↔ n ∈ names ∨ n ∈ ms := by
  induction ms with
  | nil => intro names n; simp [append_new]
  | cons m rest ih =>
    intro names n
    unfold append_new
    split
    · next h =>
      rw [ih]
      simp only [List.mem_cons]
      constructor
      · rintro (h1 | h1)
        · exact Or.inl h1
        · exact Or.inr (Or.inr h1)
      · rintro (h1 | h1 | h1)
        · exact Or.inl h1
        · exact Or.inl (h1 ▸ h)
        · exact Or.inr h1
    · rw [ih]
      simp only [List.mem_append, List.mem_singleton, List.mem_cons]
      tauto



theorem collect_methods_append (ct : ClassTable) (l1 l2 : List String) :
    ∀ (t : List (String × String)),
      collect_methods ct (l1 ++ l2) t =
        match collect_methods ct l1 t with
        | .error f => .error f
        | .ok t1 => collect_methods ct l2 t1 := by
  induction l1 with
  | nil => intro t; rfl
  | cons c rest ih =>
    intro t
    simp only [List.cons_append, collect_methods]
    cases ct.find c with
    | none => rfl
    | some cls => exact ih _

/-- The loop over the ancestry returns a table when every class of the list is
in the class table. -/
theorem collect_methods_ok (ct : ClassTable) (l : List String)
    (h : ∀ y ∈ l, ct.exists y = true) :
    ∀ (t : List (String × String)), ∃ t1, collect_methods ct l t = .ok t1 := by
  induction l with
  | nil => intro t; exact ⟨t, rfl⟩
  | cons c rest ih =>
    intro t
    have hc := h c (List.mem_cons_self _ _)
    unfold ClassTable.exists at hc
    unfold collect_methods
    cases hf : ct.find c with
    | none => simp [hf] at hc
    | some cls => exact ih (fun y hy => h y (List.mem_cons_of_mem _ hy)) _

/-- The loop over the ancestry keeps the places of the names that are in the
table and never has a name twice. -/
theorem collect_methods_keeps_names (ct : ClassTable) (l : List String) :
    ∀ (t t1 : List (String × String)), (t.map (fun e => e.2)).Nodup →
      collect_methods ct l t = .ok t1 →
      t.map (fun e => e.2) <+: t1.map (fun e => e.2) ∧ (t1.map (fun e => e.2)).Nodup := by
  induction l with
  | nil =>
    intro t t1 hn h
    simp only [collect_methods, Except.ok.injEq] at h
    subst h
    exact ⟨List.prefix_refl _, hn⟩
  | cons c rest ih =>
    intro t t1 hn h
    unfold collect_methods at h
    cases hf : ct.find c with
    | none => simp [hf] at h
    | some cls =>
      simp only [hf] at h
      obtain ⟨a1, a2, _⟩ := add_class_methods_spec c cls.get_methods t hn
      obtain ⟨i1, i2⟩ := ih _ t1 a2 h
      refine ⟨?_, i2⟩
      refine List.IsPrefix.trans ?_ i1
      rw [a1]
      exact append_new_keeps_names _ _

/-- The last step of the loop over the ancestry. -/
theorem collect_methods_snoc (ct : ClassTable) (init : List String) (c : String)
    (t1 : List (String × String)) (h : collect_methods ct (init ++ [c]) [] = .ok t1) :
    ∃ t cls, collect_methods ct init [] = .ok t ∧ ct.find c = some cls ∧
      t1 = add_class_methods c cls.get_methods t := by
  rw [collect_methods_append] at h
  cases hi : collect_methods ct init [] with
  | error f => simp [hi] at h
  | ok t =>
    simp only [hi, collect_methods] at h
    cases hf : ct.find c with
    | none => simp [hf] at h
    | some cls =>
      simp only [hf, Except.ok.injEq] at h
      exact ⟨t, cls, rfl, rfl, h.symm⟩

/-- Every entry of the table built from an ancestry names the class nearest to
the start of the ancestry that defines the method. -/
theorem collect_methods_nearest (ct : ClassTable) (l : List String) :
    ∀ (t1 : List (String × String)), collect_methods ct l [] = .ok t1 →
      ∀ e ∈ t1, nearest_definer ct l.reverse e.2 = some e.1 := by
  induction l using List.reverseRecOn with
  | nil =>
    intro t1 h
    simp only [collect_methods, Except.ok.injEq] at h
    subst h
    simp
  | append_singleton init c ih =>
    intro t1 h e he
    obtain ⟨t, cls, h1, h2, h3⟩ := collect_methods_snoc ct init c t1 h
    obtain ⟨_, hn⟩ := collect_methods_keeps_names ct init [] t (by simp) h1
    obtain ⟨_, _, a3⟩ := add_class_methods_spec c cls.get_methods t hn
    rw [h3] at he
    obtain ⟨b1, b2⟩ := a3 e he
    simp only [List.reverse_append, List.reverse_cons, List.reverse_nil, List.nil_append,
      List.singleton_append, nearest_definer, h2]
    by_cases hm : e.2 ∈ cls.get_methods.map (fun m => m.name)
    · have : cls.get_methods.any (fun method => method.name == e.2) = true := by
        obtain ⟨m, hm1, hm2⟩ := List.mem_map.mp hm
        exact List.any_eq_true.mpr ⟨m, hm1, by simpa using hm2⟩
      simp only [this, ↓reduceIte]
      rw [b1 hm]
    · have : cls.get_methods.any (fun method => method.name == e.2) = false := by
        rw [List.any_eq_false]
        intro m hm1 hm2
        exact hm (List.mem_map.mpr ⟨m, hm1, by simpa using hm2⟩)
      simp only [this, Bool.false_eq_true, ↓reduceIte]
      exact ih t h1 e (b2 hm)



theorem get_set_method_offset (o : Offsets) (cls n cls1 m : String) (v : Nat) :
    get_method_offset (set_method_offset o cls n v) cls1 m =
      if cls = cls1 ∧ n = m then v else get_method_offset o cls1 m := by
  unfold get_method_offset set_method_offset
  simp only [List.find?_cons]
  by_cases h : cls = cls1 ∧ n = m
  · obtain ⟨rfl, rfl⟩ := h
    simp
  · have : (((cls, n), v).1 == (cls1, m)) = false := by
      simpa using h
    simp only [this, h, ↓reduceIte]

theorem emit_dispatch_entries_text (clsname : String) (t : List (String × String)) :
    ∀ (count : Nat) (o : Offsets),
      (emit_dispatch_entries clsname t count o).1 =
        t.map (fun method => Asm.dd (method.1 ++ "." ++ method.2)) := by
  induction t with
  | nil => intro count o; rfl
  | cons e rest ih =>
    intro count o
    simp only [emit_dispatch_entries, List.map_cons, ih]

/-- The offsets of other classes and of names that are not in the table are
left as they were. -/
theorem emit_dispatch_entries_other (clsname : String) (t : List (String × String)) :
    ∀ (count : Nat) (o : Offsets) (cls1 m : String),
      (cls1 ≠ clsname ∨ m ∉ t.map (fun e => e.2)) →
      get_method_offset (emit_dispatch_entries clsname t count o).2 cls1 m =
        get_method_offset o cls1 m := by
  induction t with
  | nil => intro count o cls1 m _; rfl
  | cons e rest ih =>
    intro count o cls1 m h
    simp only [emit_dispatch_entries]
    rw [ih, get_set_method_offset]
    · have : ¬ (clsname = cls1 ∧ e.2 = m) := by
        rintro ⟨rfl, rfl⟩
        rcases h with h | h
        · exact h rfl
        · exact h (by simp)
      simp only [this, ↓reduceIte]
    · rcases h with h | h
      · exact Or.inl h
      · exact Or.inr (fun hm => h (by simp [hm]))

/-- The offset recorded for the entry at index `i` of a table without repeated
names. -/
theorem emit_dispatch_entries_get (clsname : String) (t : List (String × String)) :
    ∀ (count : Nat) (o : Offsets), (t.map (fun e => e.2)).Nodup →
      ∀ (i : Nat) (e : String × String), t[i]? = some e →
        get_method_offset (emit_dispatch_entries clsname t count o).2 clsname e.2 =
          4 * (count + i) % 4294967296 := by
  induction t with
  | nil => intro count o _ i e h; simp at h
  | cons x rest ih =>
    intro count o hn i e h
    simp only [List.map_cons, List.nodup_cons] at hn
    simp only [emit_dispatch_entries]
    cases i with
    | zero =>
      simp only [List.getElem?_cons_zero, Option.some.injEq] at h
      subst h
      rw [emit_dispatch_entries_other _ _ _ _ _ _ (Or.inr hn.1), get_set_method_offset]
      simp
    | succ j =>
      simp only [List.getElem?_cons_succ] at h
      rw [ih (count + 1) _ hn.2 j e h]
      congr 2
      omega

/-- The loop of `print_dispatch_tables` over classes of distinct names: the
text of each table is written, the offsets of each table are recorded and the
offsets of other classes are left as they were. -/
theorem print_dispatch_tables_loop_spec (ct : ClassTable)
    (classes : List (String × ClassNode))
    (hnodup : (classes.map (fun entry => entry.1)).Nodup) :
    ∀ (o : Offsets) (out : List String) (o1 : Offsets),
      print_dispatch_tables_loop ct classes o = .ok (out, o1) →
      (∀ entry ∈ classes, ∃ t, dispatch_methods ct entry.1 = .ok t ∧
        dispatch_table_text entry.1 t <:+: out ∧
        ∀ (i : Nat) (e : String × String), t[i]? = some e →
          get_method_offset o1 entry.1 e.2 = 4 * (i + 1) % 4294967296) ∧
      (∀ cls1 m, cls1 ∉ classes.map (fun entry => entry.1) →
        get_method_offset o1 cls1 m = get_method_offset o cls1 m) := by
  induction classes with
  | nil =>
    intro o out o1 h
    simp only [print_dispatch_tables_loop, Except.ok.injEq, Prod.mk.injEq] at h
    obtain ⟨_, rfl⟩ := h
    simp
  | cons entry rest ih =>
    intro o out o1 h
    simp only [List.map_cons, List.nodup_cons] at hnodup
    simp only [print_dispatch_tables_loop, print_dispatch_table, bind, Except.bind] at h
    cases hd : dispatch_methods ct entry.1 with
    | error f => simp [hd] at h
    | ok t =>
      simp only [hd, pure, Except.pure] at h
      cases hr : print_dispatch_tables_loop ct rest (emit_dispatch_entries entry.1 t 1 o).2 with
      | error f => simp [hr] at h
      | ok r =>
        obtain ⟨out2, o2⟩ := r
        simp only [hr, Except.ok.injEq, Prod.mk.injEq] at h
        obtain ⟨hout, rfl⟩ := h
        obtain ⟨i1, i2⟩ := ih hnodup.2 _ out2 o2 hr
        have htn : (t.map (fun e => e.2)).Nodup := by
          unfold dispatch_methods at hd
          simp only [bind, Except.bind] at hd
          cases ha : ct.get_ancestry entry.1 with
          | error f => simp [ha] at hd
          | ok l =>
            simp only [ha] at hd
            exact (collect_methods_keeps_names ct _ [] t (by simp) hd).2
        constructor
        · intro e he
          rcases List.mem_cons.mp he with rfl | he
          · refine ⟨t, hd, ?_, ?_⟩
            · rw [← hout, emit_dispatch_entries_text]
              exact ⟨[], out2, by simp [dispatch_table_text]⟩
            · intro i x hx
              rw [i2 _ _ hnodup.1, emit_dispatch_entries_get _ _ _ _ htn i x hx]
              congr 2
              omega
          · obtain ⟨t2, a1, a2, a3⟩ := i1 e he
            refine ⟨t2, a1, ?_, a3⟩
            rw [← hout]
            exact List.IsInfix.trans a2 (List.suffix_append _ _).isInfix
        · intro cls1 m hc
          simp only [List.map_cons, List.mem_cons, not_or] at hc
          rw [i2 cls1 m hc.2]
          exact emit_dispatch_entries_other _ _ _ _ _ _ (Or.inl hc.1)



theorem exists_object (ct : ClassTable) (hw : ct.well_formed) : ct.exists "Object" = true := by
  obtain ⟨object, ho⟩ := hw.2.2.1
  simp [ClassTable.exists, ho]

/-- The table of a class whose ancestry is computed is built. -/
theorem dispatch_methods_ok (ct : ClassTable) (hw : ct.well_formed) (clsname : String)
    (l : List String) (h : ct.get_ancestry clsname = .ok l) :
    ∃ t, dispatch_methods ct clsname = .ok t ∧ collect_methods ct l.reverse [] = .ok t := by
  obtain ⟨_, _, h3, _⟩ := get_ancestry_loop_shape ct _ _ _ h
  obtain ⟨t, ht⟩ := collect_methods_ok ct l.reverse (by
    intro y hy
    rcases h3 y (List.mem_reverse.mp hy) with rfl | hy
    · exact exists_object ct hw
    · exact hy) []
  refine ⟨t, ?_, ht⟩
  simp [dispatch_methods, h, bind, Except.bind, ht]

theorem print_dispatch_tables_loop_ok (ct : ClassTable) (classes : List (String × ClassNode))
    (h : ∀ entry ∈ classes, ∃ t, dispatch_methods ct entry.1 = .ok t) :
    ∀ (o : Offsets), ∃ r, print_dispatch_tables_loop ct classes o = .ok r := by
  induction classes with
  | nil => intro o; exact ⟨_, rfl⟩
  | cons entry rest ih =>
    intro o
    obtain ⟨t, ht⟩ := h entry (List.mem_cons_self _ _)
    obtain ⟨r, hr⟩ := ih (fun e he => h e (List.mem_cons_of_mem _ he))
      (emit_dispatch_entries entry.1 t 1 o).2
    simp only [print_dispatch_tables_loop, print_dispatch_table, bind, Except.bind, ht, pure,
      Except.pure, hr]
    exact ⟨_, rfl⟩

/-- The names of the table of a class of the ancestry are the first names of
the table of the class. -/
theorem dispatch_methods_keeps_names (ct : ClassTable) (hw : ct.well_formed) (c p : String)
    (l : List String) (t : List (String × String)) (hl : ct.get_ancestry c = .ok l)
    (ht : dispatch_methods ct c = .ok t) (hp : p ∈ l) :
    ∃ tp, dispatch_methods ct p = .ok tp ∧ tp.map (fun e => e.2) <+: t.map (fun e => e.2) := by
  obtain ⟨l1, l2, rfl⟩ := List.append_of_mem hp
  have hlp := get_ancestry_suffix ct c p l1 l2 hl
  obtain ⟨tp, hp1, hp2⟩ := dispatch_methods_ok ct hw p _ hlp
  refine ⟨tp, hp1, ?_⟩
  obtain ⟨t1, ht1, ht3⟩ := dispatch_methods_ok ct hw c _ hl
  rw [ht] at ht1
  have ht4 : t = t1 := Except.ok.inj ht1
  subst ht4
  have hrev : (l1 ++ p :: l2).reverse = (p :: l2).reverse ++ l1.reverse := by simp
  rw [hrev, collect_methods_append, hp2] at ht3
  exact (collect_methods_keeps_names ct _ tp t
    (collect_methods_keeps_names ct _ [] tp (by simp) hp2).2 ht3).1



/-- C20: for a well-formed class table `print_dispatch_tables` writes, for
every class `C`, the label of the table, `C._init` as its first word and then
one word per entry of the table of `C`; the offset recorded for the entry at
index `i` is `4 * (i + 1)`; every entry names the class nearest to `C` in its
ancestry that defines the method; for every class `P` of the ancestry of `C`
and every method name in the table of `P` the offset recorded for `C` is the
one recorded for `P`; and the names of the table of a class other than
`Object` are those of the table of its base class followed by the names of its
own methods that are new, in order. -/
theorem C20_dispatch_table_offsets (ct : ClassTable) (hw : ct.well_formed)
    (offsets0 : Offsets) :
    ∃ out offsets, print_dispatch_tables ct offsets0 = .ok (out, offsets) ∧
      ∀ entry ∈ ct.clsmap, ∃ ancestry table,
        ct.get_ancestry entry.1 = .ok ancestry ∧
        dispatch_methods ct entry.1 = .ok table ∧
        dispatch_table_text entry.1 table <:+: out ∧
        (∀ (i : Nat) (e : String × String), table[i]? = some e →
          get_method_offset offsets entry.1 e.2 = 4 * (i + 1) % 4294967296) ∧
        (∀ e ∈ table, nearest_definer ct ancestry e.2 = some e.1) ∧
        (∀ p ∈ ancestry, ∃ table_p, dispatch_methods ct p = .ok table_p ∧
          ∀ e ∈ table_p,
            get_method_offset offsets entry.1 e.2 = get_method_offset offsets p e.2) ∧
        (entry.1 ≠ "Object" → ∃ table_b,
          dispatch_methods ct entry.2.base_class = .ok table_b ∧
          table.map (fun e => e.2) =
            append_new (table_b.map (fun e => e.2))
              (entry.2.get_methods.map (fun m => m.name))) := by
  have hall : ∀ entry ∈ ct.clsmap, ∃ t, dispatch_methods ct entry.1 = .ok t := by
    intro entry he
    obtain ⟨l, hl⟩ := hw.2.2.2 entry he
    obtain ⟨t, ht, _⟩ := dispatch_methods_ok ct hw _ l hl
    exact ⟨t, ht⟩
  obtain ⟨⟨out, offsets⟩, hr⟩ := print_dispatch_tables_loop_ok ct ct.clsmap hall offsets0
  obtain ⟨s1, _⟩ := print_dispatch_tables_loop_spec ct ct.clsmap hw.2.1 offsets0 out offsets hr
  refine ⟨Asm.comment "dispatch tables" :: out, offsets, ?_, ?_⟩
  · simp [print_dispatch_tables, hr, bind, Except.bind, pure, Except.pure]
  intro entry he
  obtain ⟨l, hl⟩ := hw.2.2.2 entry he
  obtain ⟨t, ht, htext, hoff⟩ := s1 entry he
  obtain ⟨t1, ht1, hcollect⟩ := dispatch_methods_ok ct hw _ l hl
  rw [ht] at ht1
  have ht2 : t = t1 := Except.ok.inj ht1
  subst ht2
  refine ⟨l, t, hl, ht, ?_, hoff, ?_, ?_, ?_⟩
  · exact List.IsInfix.trans htext (List.suffix_cons _ _).isInfix
  · have := collect_methods_nearest ct l.reverse t hcollect
    rw [List.reverse_reverse] at this
    exact this
  · intro p hp
    obtain ⟨tp, hp1, hp2⟩ := dispatch_methods_keeps_names ct hw entry.1 p l t hl ht hp
    refine ⟨tp, hp1, ?_⟩
    intro e hme
    obtain ⟨_, _, h3, _⟩ := get_ancestry_loop_shape ct _ _ _ hl
    have hpe : ct.exists p = true := by
      rcases h3 p hp with rfl | h
      · exact exists_object ct hw
      · exact h
    obtain ⟨pe, hpe1, hpe2⟩ := List.mem_map.mp ((exists_iff_key ct p).mp hpe)
    obtain ⟨tp2, hq1, _, hq3⟩ := s1 pe hpe1
    rw [hpe2, hp1] at hq1
    have hq : tp = tp2 := Except.ok.inj hq1
    subst hq
    obtain ⟨i, hi⟩ := List.getElem?_of_mem hme
    have hi2 : (tp.map (fun e => e.2))[i]? = some e.2 := by
      rw [List.getElem?_map, hi]
      rfl
    obtain ⟨r, hr2⟩ := hp2
    have hi3 : (t.map (fun e => e.2))[i]? = some e.2 := by
      rw [← hr2, List.getElem?_append_left]
      · exact hi2
      · have := List.getElem?_eq_some_iff.mp hi
        obtain ⟨hlt, _⟩ := this
        simpa using hlt
    rw [List.getElem?_map] at hi3
    cases hti : t[i]? with
    | none => simp [hti] at hi3
    | some e1 =>
      simp only [hti, Option.map_some', Option.some.injEq] at hi3
      have a1 := hoff i e1 hti
      have a2 := hq3 i e hi
      rw [hpe2] at a2
      rw [hi3] at a1
      rw [a1, a2]
  · intro hne
    obtain ⟨n, cls, rest, _, hf, hrest, hlr⟩ := get_ancestry_loop_step ct _ _ l hne hl
    have hcls : cls = entry.2 := by
      have := find_of_mem ct hw.2.1 entry.1 entry.2 he
      rw [hf] at this
      exact Option.some.inj this
    subst hcls
    have hb := get_ancestry_of_loop ct (exists_object ct hw) _ _ _ hrest
    obtain ⟨tb, hb1, hb2⟩ := dispatch_methods_ok ct hw _ rest hb
    refine ⟨tb, hb1, ?_⟩
    rw [hlr, List.reverse_cons] at hcollect
    obtain ⟨t0, cls0, c1, c2, c3⟩ := collect_methods_snoc ct _ _ _ hcollect
    rw [hb2] at c1
    have ht0 : tb = t0 := Except.ok.inj c1
    subst ht0
    rw [hf] at c2
    have hc0 : entry.2 = cls0 := Option.some.inj c2
    subst hc0
    rw [c3]
    exact (add_class_methods_spec _ _ tb
      (collect_methods_keeps_names ct _ [] tb (by simp) hb2).2).1

/-- C20 at the classes `A { m(x : Int) : Int }` and
`B inherits A { m(y : Int) : Int }`: the table of `B` is `abort`, `type_name`,
`copy` of `Object` and `m` of `B`, and `m` is at offset 16 in the tables of `A`
and of `B`. -/
theorem C20_dispatch_table_offsets_witness :
    dispatch_methods same_override_example "B" =
      .ok [("Object", "abort"), ("Object", "type_name"), ("Object", "copy"), ("B", "m")] ∧
    ∃ out offsets, print_dispatch_tables same_override_example ⟨[], []⟩ = .ok (out, offsets) ∧
      get_method_offset offsets "B" "m" = 16 ∧
      get_method_offset offsets "B" "m" = get_method_offset offsets "A" "m" := by
  refine ⟨rfl, ?_⟩
  obtain ⟨out, offsets, h1, h2⟩ :=
    C20_dispatch_table_offsets same_override_example (check_well_formed_sound _ rfl) ⟨[], []⟩
  refine ⟨out, offsets, h1, ?_⟩
  obtain ⟨ancestry, table, a1, a2, _, a4, _, a6, _⟩ := h2
    ("B", ClassNode.mk "B" "A"
      [.method (MethodNode.mk "m" "Int" [⟨"y", "Int"⟩] (.IntNode "1"))])
    (find_some_mem _ _ _ rfl)
  have e1 : table = [("Object", "abort"), ("Object", "type_name"), ("Object", "copy"),
      ("B", "m")] := by
    have : dispatch_methods same_override_example "B" =
      .ok [("Object", "abort"), ("Object", "type_name"), ("Object", "copy"), ("B", "m")] := rfl
    rw [this] at a2
    exact (Except.ok.inj a2).symm
  have e2 : ancestry = ["B", "A", "Object"] := by
    have : same_override_example.get_ancestry "B" = .ok ["B", "A", "Object"] := rfl
    rw [this] at a1
    exact (Except.ok.inj a1).symm
  subst e1 e2
  constructor
  · exact a4 3 ("B", "m") rfl
  · obtain ⟨tp, p1, p2⟩ := a6 "A" (by simp)
    have e3 : tp = [("Object", "abort"), ("Object", "type_name"), ("Object", "copy"),
        ("A", "m")] := by
      have : dispatch_methods same_override_example "A" =
        .ok [("Object", "abort"), ("Object", "type_name"), ("Object", "copy"), ("A", "m")] := rfl
      rw [this] at p1
      exact (Except.ok.inj p1).symm
    subst e3
    exact p2 ("A", "m") (by simp)

theorem bind_ok {α β : Type} {x : Except Failure α} {f : α → Except Failure β} {r : β}
    (h : (x >>= f) = .ok r) : ∃ a, x = .ok a ∧ f a = .ok r := by
  cases x with
  | error e => simp [bind, Except.bind] at h
  | ok a => exact ⟨a, rfl, h⟩

theorem mem_nodes_of_list (l : List CheckedNode) (x : CheckedNode) :
    x ∈ CheckedNode.nodes_of_list l ↔ ∃ c ∈ l, x ∈ c.nodes := by
  induction l with
  | nil => simp [CheckedNode.nodes_of_list]
  | cons c rest ih => simp [CheckedNode.nodes_of_list, ih]

theorem annotated_mk (k : NodeType) (t : String) (cs : List CheckedNode) :
    (CheckedNode.mk k t cs).annotated ↔
      (k ≠ .NoExpressionNodeType → t ≠ "_no_type") ∧ ∀ c ∈ cs, c.annotated := by
  unfold CheckedNode.annotated
  simp only [CheckedNode.nodes, List.mem_cons, forall_eq_or_imp, CheckedNode.node_type,
    CheckedNode.get_checked_type, mem_nodes_of_list]
  constructor
  · rintro ⟨h1, h2⟩
    exact ⟨h1, fun c hc x hx => h2 x ⟨c, hc, hx⟩⟩
  · rintro ⟨h1, h2⟩
    exact ⟨h1, fun x ⟨c, hc, hx⟩ => h2 c hc x hx⟩

theorem annotated_set (n : CheckedNode) (t : String)
    (h1 : n.node_type ≠ .NoExpressionNodeType → t ≠ "_no_type")
    (h2 : ∀ c ∈ n.children, c.annotated) : (n.set_checked_type t).annotated := by
  obtain ⟨k, t0, cs⟩ := n
  exact (annotated_mk k t cs).mpr ⟨h1, h2⟩

/-- The child of a node, annotated with the type that its check has
returned. -/
theorem annotated_child (r : String × CheckedNode) (h : well_annotated r) :
    (r.2.set_checked_type r.1).annotated :=
  annotated_set _ _ (fun _ => h.1) h.2.2

theorem annotated_child_of (r : String × CheckedNode) (t : String) (ht : t ≠ "_no_type")
    (h : well_annotated r) : (r.2.set_checked_type t).annotated :=
  annotated_set _ _ (fun _ => ht) h.2.2

theorem get_checked_type_set (n : CheckedNode) (t : String) :
    (n.set_checked_type t).get_checked_type = t := by
  obtain ⟨k, t0, cs⟩ := n
  rfl

/-- The least upper bound that the class table computes is the name of a
class of the table. -/
theorem least_upper_bound_exists (ct : ClassTable) (a b r : String)
    (h : ct.least_upper_bound a b = .ok r) : r = "Object" ∨ ct.exists r = true := by
  obtain ⟨⟨la, hla, hr⟩, _, _⟩ := least_upper_bound_is_least ct a b r h
  exact (get_ancestry_loop_shape ct _ _ _ hla).2.2.1 r hr

theorem least_upper_bound_typed (ct : ClassTable) (hct : ct.exists "_no_type" = false)
    (a b r : String) (h : ct.least_upper_bound a b = .ok r) : r ≠ "_no_type" := by
  rcases least_upper_bound_exists ct a b r h with h1 | h1
  · rw [h1]; decide
  · intro h2
    rw [h2, hct] at h1
    exact Bool.noConfusion h1

theorem least_upper_bound_list_typed (ct : ClassTable) (hct : ct.exists "_no_type" = false)
    (symbols : List String) (r : String) (h : ct.least_upper_bound_list symbols = .ok r) :
    r ≠ "_no_type" := by
  cases symbols with
  | nil => simp [ClassTable.least_upper_bound_list] at h
  | cons first rest =>
    obtain ⟨h1, _⟩ := least_upper_bound_list_is_least ct _ r h
    obtain ⟨l, hl, hr⟩ := h1 first (List.mem_cons_self _ _)
    rcases (get_ancestry_loop_shape ct _ _ _ hl).2.2.1 r hr with h2 | h2
    · rw [h2]; decide
    · intro h3
      rw [h3, hct] at h2
      exact Bool.noConfusion h2

theorem get_object_typed (scope : ObjectScope) (name : String)
    (h : ∀ binding ∈ scope, binding.2 ≠ "_no_type") :
    ObjectScope.get_object scope name ≠ "_no_type" := by
  unfold ObjectScope.get_object
  cases hf : List.find? (fun binding => binding.1 == name) scope with
  | none => simp
  | some b => exact h b (List.mem_of_find?_eq_some hf)

theorem lookup_typed (objects : ObjectEnv) (name : String) (h : objects_typed objects) :
    objects.lookup name ≠ "_no_type" := by
  induction objects with
  | nil => simp [ObjectEnv.lookup]
  | cons scope rest ih =>
    unfold ObjectEnv.lookup
    split
    · exact get_object_typed scope name (h scope (List.mem_cons_self _ _))
    · exact ih (fun s hs => h s (List.mem_cons_of_mem _ hs))

theorem enter_scope_typed (objects : ObjectEnv) (h : objects_typed objects) :
    objects_typed objects.enter_scope := by
  intro scope hs
  rcases List.mem_cons.mp hs with rfl | hs
  · intro b hb; simp at hb
  · exact h scope hs

theorem add_object_typed (objects : ObjectEnv) (name type : String)
    (h : objects_typed objects) (ht : type ≠ "_no_type") :
    objects_typed (objects.add_object name type) := by
  cases objects with
  | nil => exact h
  | cons scope rest =>
    intro s hs
    simp only [ObjectEnv.add_object] at hs
    rcases List.mem_cons.mp hs with rfl | hs
    · intro b hb
      rcases List.mem_cons.mp hb with rfl | hb
      · exact ht
      · exact h scope (List.mem_cons_self _ _) b hb
    · exact h s (List.mem_cons_of_mem _ hs)

theorem find_method_typed (methods : MethodEnv) (cls name : String) (method : MethodNode)
    (h : ∀ binding ∈ methods, binding.2.type ≠ "_no_type")
    (hf : MethodEnv.find methods cls name = some method) : method.type ≠ "_no_type" := by
  unfold MethodEnv.find at hf
  cases hx : List.find? (fun binding => binding.1 == (cls, name)) methods with
  | none => simp [hx] at hf
  | some b =>
    simp only [hx, Option.map_some', Option.some.injEq] at hf
    rw [← hf]
    exact h b (List.mem_of_find?_eq_some hx)



theorem annotate_int_operation_good (k : NodeType) (hk : k ≠ .NoExpressionNodeType)
    (t1 t2 result : String) (hres : result ≠ "_no_type")
    (n1 n2 : CheckedNode) (r : String × CheckedNode)
    (h1 : ∀ c ∈ n1.children, c.annotated) (h2 : ∀ c ∈ n2.children, c.annotated)
    (h : annotate_int_operation k t1 t2 result n1 n2 = .ok r) : well_annotated r := by
  unfold annotate_int_operation at h
  obtain ⟨t, ht, h⟩ := bind_ok h
  unfold check_int_operands at ht
  split at ht
  · simp [semant_error] at ht
  · simp only [Except.ok.injEq] at ht
    subst ht
    simp only [pure, Except.pure, Except.ok.injEq] at h
    subst h
    refine ⟨hres, hk, ?_⟩
    intro c hc
    simp only [CheckedNode.children, List.mem_cons, List.mem_singleton, List.not_mem_nil,
      or_false] at hc
    rcases hc with rfl | rfl
    · exact annotated_set _ _ (fun _ => by decide) h1
    · exact annotated_set _ _ (fun _ => by decide) h2

theorem well_annotated_mk {t t0 : String} {k : NodeType} {cs : List CheckedNode}
    (ht : t ≠ "_no_type") (hk : k ≠ .NoExpressionNodeType) (hc : ∀ c ∈ cs, c.annotated) :
    well_annotated (t, .mk k t0 cs) :=
  ⟨ht, hk, hc⟩

mutual

/-- The check of an expression as parsed, in an environment without the type
`"_no_type"`, returns a type other than `"_no_type"` and leaves all the nodes
below the expression annotated. -/
theorem typecheck_annotate_good (ct : ClassTable) :
    ∀ (e : ExpressionNode) (env : TypeEnvironment) (r : String × CheckedNode),
      env_typed ct env → as_parsed e = true → typecheck_annotate ct env e = .ok r →
      well_annotated r
  | .NoExpressionNode _, env, r, _, hp, _ => by simp [as_parsed] at hp
  | .IntNode _, env, r, _, _, h => by
    simp only [typecheck_annotate, Except.ok.injEq] at h
    subst h
    exact well_annotated_mk (by decide) (by decide) (by simp)
  | .StringNode _, env, r, _, _, h => by
    simp only [typecheck_annotate, Except.ok.injEq] at h
    subst h
    exact well_annotated_mk (by decide) (by decide) (by simp)
  | .BoolNode _, env, r, _, _, h => by
    simp only [typecheck_annotate, Except.ok.injEq] at h
    subst h
    exact well_annotated_mk (by decide) (by decide) (by simp)
  | .IdentifierNode name, env, r, henv, _, h => by
    simp only [typecheck_annotate] at h
    split at h
    · simp only [Except.ok.injEq] at h
      subst h
      exact well_annotated_mk (by decide) (by decide) (by simp)
    · split at h
      · simp [semant_error] at h
      · simp only [Except.ok.injEq] at h
        subst h
        exact well_annotated_mk (lookup_typed _ _ henv.1) (by decide) (by simp)
  | .AssignmentNode name expr, env, r, henv, hp, h => by
    simp only [as_parsed] at hp
    simp only [typecheck_annotate] at h
    split at h
    · simp [semant_error] at h
    · split at h
      · simp [semant_error] at h
      · obtain ⟨⟨t, n⟩, hx, h⟩ := bind_ok h
        have ih := typecheck_annotate_good ct expr env _ henv hp hx
        simp only at h
        obtain ⟨lub, _, h⟩ := bind_ok h
        split at h
        · simp [semant_error] at h
        · simp only [pure, Except.pure, Except.ok.injEq] at h
          subst h
          refine well_annotated_mk (ih.1) (by decide) ?_
          intro c hc
          simp only [CheckedNode.children, List.mem_singleton] at hc
          subst hc
          exact annotated_child _ ih
  | .NewNode type, env, r, henv, _, h => by
    simp only [typecheck_annotate] at h
    split at h
    · simp [semant_error] at h
    · next hf =>
      simp only [Except.ok.injEq] at h
      subst h
      refine well_annotated_mk ?_ (by decide) (by simp)
      intro ht
      apply hf
      subst ht
      have : resolve "_no_type" env = "_no_type" := rfl
      rw [this]
      have hct := henv.2.2.2
      unfold ClassTable.exists at hct
      cases hq : ct.find "_no_type" with
      | none => rfl
      | some c => simp [hq] at hct
  | .UnaryOperationNode .IsvoidNode _ expr, env, r, henv, hp, h => by
    simp only [as_parsed] at hp
    simp only [typecheck_annotate] at h
    obtain ⟨⟨t, n⟩, hx, h⟩ := bind_ok h
    have ih := typecheck_annotate_good ct expr env _ henv hp hx
    simp only [pure, Except.pure, Except.ok.injEq] at h
    subst h
    refine well_annotated_mk (by decide) (by decide) ?_
    intro c hc
    simp only [CheckedNode.children, List.mem_singleton] at hc
    subst hc
    exact annotated_child _ ih
  | .UnaryOperationNode .NegNode _ expr, env, r, henv, hp, h => by
    simp only [as_parsed] at hp
    simp only [typecheck_annotate] at h
    obtain ⟨⟨t, n⟩, hx, h⟩ := bind_ok h
    have ih := typecheck_annotate_good ct expr env _ henv hp hx
    simp only at h
    split at h
    · simp [semant_error] at h
    · simp only [pure, Except.pure, Except.ok.injEq] at h
      subst h
      refine well_annotated_mk (by decide) (by decide) ?_
      intro c hc
      simp only [CheckedNode.children, List.mem_singleton] at hc
      subst hc
      exact annotated_child_of _ _ (by decide) ih
  | .UnaryOperationNode .ComplementNode _ expr, env, r, henv, hp, h => by
    simp only [as_parsed] at hp
    simp only [typecheck_annotate] at h
    obtain ⟨⟨t, n⟩, hx, h⟩ := bind_ok h
    have ih := typecheck_annotate_good ct expr env _ henv hp hx
    simp only at h
    split at h
    · simp [semant_error] at h
    · simp only [pure, Except.pure, Except.ok.injEq] at h
      subst h
      refine well_annotated_mk (by decide) (by decide) ?_
      intro c hc
      simp only [CheckedNode.children, List.mem_singleton] at hc
      subst hc
      exact annotated_child_of _ _ (by decide) ih
  | .BinaryOperationNode op _ first second, env, r, henv, hp, h => by
    simp only [as_parsed, Bool.and_eq_true] at hp
    simp only [typecheck_annotate] at h
    obtain ⟨⟨t1, n1⟩, hx1, h⟩ := bind_ok h
    have ih1 := typecheck_annotate_good ct first env _ henv hp.1 hx1
    simp only at h
    obtain ⟨⟨t2, n2⟩, hx2, h⟩ := bind_ok h
    have ih2 := typecheck_annotate_good ct second env _ henv hp.2 hx2
    simp only at h
    cases op with
    | PlusNode =>
      exact annotate_int_operation_good _ (by decide) _ _ _ (by decide) _ _ _ ih1.2.2 ih2.2.2 h
    | MinusNode =>
      exact annotate_int_operation_good _ (by decide) _ _ _ (by decide) _ _ _ ih1.2.2 ih2.2.2 h
    | MultiplicationNode =>
      exact annotate_int_operation_good _ (by decide) _ _ _ (by decide) _ _ _ ih1.2.2 ih2.2.2 h
    | DivisionNode =>
      exact annotate_int_operation_good _ (by decide) _ _ _ (by decide) _ _ _ ih1.2.2 ih2.2.2 h
    | LTNode =>
      exact annotate_int_operation_good _ (by decide) _ _ _ (by decide) _ _ _ ih1.2.2 ih2.2.2 h
    | LTENode =>
      exact annotate_int_operation_good _ (by decide) _ _ _ (by decide) _ _ _ ih1.2.2 ih2.2.2 h
    | EQNode =>
      simp only at h
      split at h
      · simp [semant_error] at h
      · simp only [pure, Except.pure, Except.ok.injEq] at h
        subst h
        refine well_annotated_mk (by decide) (by decide) ?_
        intro c hc
        simp only [CheckedNode.children, List.mem_cons, List.mem_singleton, List.not_mem_nil,
          or_false] at hc
        rcases hc with rfl | rfl
        · exact annotated_child _ ih1
        · exact annotated_child _ ih2
  | .ConditionalNode predicate then_expr else_expr, env, r, henv, hp, h => by
    simp only [as_parsed, Bool.and_eq_true] at hp
    simp only [typecheck_annotate] at h
    obtain ⟨⟨t1, n1⟩, hx1, h⟩ := bind_ok h
    have ih1 := typecheck_annotate_good ct predicate env _ henv hp.1.1 hx1
    simp only at h
    obtain ⟨⟨t2, n2⟩, hx2, h⟩ := bind_ok h
    have ih2 := typecheck_annotate_good ct then_expr env _ henv hp.1.2 hx2
    simp only at h
    obtain ⟨⟨t3, n3⟩, hx3, h⟩ := bind_ok h
    have ih3 := typecheck_annotate_good ct else_expr env _ henv hp.2 hx3
    simp only at h
    split at h
    · simp [semant_error] at h
    · obtain ⟨lub, hlub, h⟩ := bind_ok h
      have hchildren : ∀ c ∈ [n1.set_checked_type "Bool", n2.set_checked_type t2,
          n3.set_checked_type t3], c.annotated := by
        intro c hc
        simp only [List.mem_cons, List.mem_singleton, List.not_mem_nil, or_false] at hc
        rcases hc with rfl | rfl | rfl
        · exact annotated_child_of _ _ (by decide) ih1
        · exact annotated_child _ ih2
        · exact annotated_child _ ih3
      split at h
      · simp only [pure, Except.pure, Except.ok.injEq] at h
        subst h
        exact well_annotated_mk (by decide) (by decide) (hchildren)
      · simp only [pure, Except.pure, Except.ok.injEq] at h
        subst h
        exact well_annotated_mk (least_upper_bound_typed ct henv.2.2.2 _ _ _ hlub) (by decide) (hchildren)
  | .WhileNode predicate body, env, r, henv, hp, h => by
    simp only [as_parsed, Bool.and_eq_true] at hp
    simp only [typecheck_annotate] at h
    obtain ⟨⟨t1, n1⟩, hx1, h⟩ := bind_ok h
    have ih1 := typecheck_annotate_good ct predicate env _ henv hp.1 hx1
    simp only at h
    obtain ⟨⟨t2, n2⟩, hx2, h⟩ := bind_ok h
    have ih2 := typecheck_annotate_good ct body env _ henv hp.2 hx2
    simp only at h
    split at h
    · simp [semant_error] at h
    · simp only [pure, Except.pure, Except.ok.injEq] at h
      subst h
      refine well_annotated_mk (by decide) (by decide) ?_
      intro c hc
      simp only [CheckedNode.children, List.mem_cons, List.mem_singleton, List.not_mem_nil,
        or_false] at hc
      rcases hc with rfl | rfl
      · exact annotated_child_of _ _ (by decide) ih1
      · exact annotated_child _ ih2
  | .BlockNode expressions, env, r, henv, hp, h => by
    simp only [as_parsed] at hp
    simp only [typecheck_annotate] at h
    obtain ⟨body, hx, h⟩ := bind_ok h
    have ih := typecheck_annotate_block_good ct expressions env body henv hp hx
    cases hl : body.getLast? with
    | none => simp [hl] at h
    | some last =>
      simp only [hl, pure, Except.pure, Except.ok.injEq] at h
      subst h
      have hmem : last ∈ body := List.mem_of_getLast?_eq_some hl
      exact well_annotated_mk ((ih last hmem).2) (by decide) (fun c hc => (ih c hc).1)
  | .CaseNode target branches, env, r, henv, hp, h => by
    simp only [as_parsed, Bool.and_eq_true] at hp
    simp only [typecheck_annotate] at h
    obtain ⟨⟨t1, n1⟩, hx1, h⟩ := bind_ok h
    have ih1 := typecheck_annotate_good ct target env _ henv hp.1 hx1
    simp only at h
    obtain ⟨⟨bodies, types⟩, hx2, h⟩ := bind_ok h
    have ih2 := typecheck_annotate_case_branches_good ct branches env [] _ henv hp.2 hx2
    simp only at h
    have hchildren : ∀ c ∈ n1.set_checked_type t1 :: bodies, c.annotated := by
      intro c hc
      rcases List.mem_cons.mp hc with rfl | hc
      · exact annotated_child _ ih1
      · exact ih2 c hc
    split at h
    · simp only [pure, Except.pure, Except.ok.injEq] at h
      subst h
      exact well_annotated_mk (by decide) (by decide) (hchildren)
    · obtain ⟨lub, hlub, h⟩ := bind_ok h
      simp only [pure, Except.pure, Except.ok.injEq] at h
      subst h
      exact well_annotated_mk (least_upper_bound_list_typed ct henv.2.2.2 _ _ hlub) (by decide) (hchildren)
  | .LetNode initializers body, env, r, henv, hp, h => by
    simp only [as_parsed, Bool.and_eq_true] at hp
    simp only [typecheck_annotate] at h
    obtain ⟨⟨objects, inits⟩, hx1, h⟩ := bind_ok h
    have ih1 := typecheck_annotate_let_initializers_good ct initializers
      { env with objects := env.objects.enter_scope } _
      ⟨enter_scope_typed _ henv.1, henv.2⟩ hp.1 hx1
    simp only at h
    obtain ⟨⟨t2, n2⟩, hx2, h⟩ := bind_ok h
    have ih2 := typecheck_annotate_good ct body { env with objects := objects } _
      ⟨ih1.1, henv.2⟩ hp.2 hx2
    simp only [pure, Except.pure, Except.ok.injEq] at h
    subst h
    refine well_annotated_mk (ih2.1) (by decide) ?_
    intro c hc
    simp only [CheckedNode.children, List.mem_append, List.mem_map, List.mem_singleton] at hc
    rcases hc with ⟨i, hi, rfl⟩ | rfl
    · exact (annotated_mk _ _ _).mpr ⟨fun _ => ih2.1, fun c hc => by
        simp only [List.mem_singleton] at hc
        subst hc
        exact ih1.2 _ hi⟩
    · exact annotated_child _ ih2
  | .DispatchNode object method_name parameters, env, r, henv, hp, h => by
    simp only [as_parsed, Bool.and_eq_true] at hp
    simp only [typecheck_annotate] at h
    obtain ⟨⟨t1, n1⟩, hx1, h⟩ := bind_ok h
    have ih1 := typecheck_annotate_good ct object env _ henv hp.1 hx1
    simp only at h
    split at h
    · simp [semant_error] at h
    · cases hf : env.methods.find (resolve t1 env) method_name with
      | none => simp [hf] at h
      | some method =>
        simp only [hf] at h
        split at h
        · simp [semant_error] at h
        · obtain ⟨ps, hx2, h⟩ := bind_ok h
          have ih2 := typecheck_annotate_parameters_good ct parameters method_name none
            method.formals 0 env ps henv hp.2 hx2
          have hchildren : ∀ c ∈ n1.set_checked_type t1 :: ps, c.annotated := by
            intro c hc
            rcases List.mem_cons.mp hc with rfl | hc
            · exact annotated_child _ ih1
            · exact ih2 c hc
          split at h
          · simp only [pure, Except.pure, Except.ok.injEq] at h
            subst h
            exact well_annotated_mk (ih1.1) (by decide) (hchildren)
          · simp only [pure, Except.pure, Except.ok.injEq] at h
            subst h
            exact well_annotated_mk (find_method_typed _ _ _ _ henv.2.1 hf) (by decide) (hchildren)
  | .StaticDispatchNode object method_name static_type parameters, env, r, henv, hp, h => by
    simp only [as_parsed, Bool.and_eq_true] at hp
    simp only [typecheck_annotate] at h
    obtain ⟨⟨t1, n1⟩, hx1, h⟩ := bind_ok h
    have ih1 := typecheck_annotate_good ct object env _ henv hp.1 hx1
    simp only at h
    obtain ⟨lub, _, h⟩ := bind_ok h
    split at h
    · simp [semant_error] at h
    · split at h
      · simp [semant_error] at h
      · cases hf : env.methods.find (resolve static_type env) method_name with
        | none => simp [hf] at h
        | some method =>
          simp only [hf] at h
          split at h
          · simp [semant_error] at h
          · obtain ⟨ps, hx2, h⟩ := bind_ok h
            have ih2 := typecheck_annotate_parameters_good ct parameters method_name
              (some (resolve static_type env)) method.formals 0 env ps henv hp.2 hx2
            have hchildren : ∀ c ∈ n1.set_checked_type t1 :: ps, c.annotated := by
              intro c hc
              rcases List.mem_cons.mp hc with rfl | hc
              · exact annotated_child _ ih1
              · exact ih2 c hc
            split at h
            · simp only [pure, Except.pure, Except.ok.injEq] at h
              subst h
              exact well_annotated_mk (ih1.1) (by decide) (hchildren)
            · simp only [pure, Except.pure, Except.ok.injEq] at h
              subst h
              exact well_annotated_mk (find_method_typed _ _ _ _ henv.2.1 hf) (by decide) (hchildren)

/-- The expressions of a block are left annotated, each with a checked type
other than `"_no_type"`. -/
theorem typecheck_annotate_block_good (ct : ClassTable) :
    ∀ (l : List ExpressionNode) (env : TypeEnvironment) (nodes : List CheckedNode),
      env_typed ct env → as_parsed_list l = true → typecheck_annotate_block ct env l = .ok nodes →
      ∀ n ∈ nodes, n.annotated ∧ n.get_checked_type ≠ "_no_type"
  | [], env, nodes, _, _, h => by
    simp only [typecheck_annotate_block, Except.ok.injEq] at h
    subst h
    simp
  | expr :: rest, env, nodes, henv, hp, h => by
    simp only [as_parsed_list, Bool.and_eq_true] at hp
    simp only [typecheck_annotate_block] at h
    obtain ⟨⟨t, n⟩, hx, h⟩ := bind_ok h
    have ih1 := typecheck_annotate_good ct expr env _ henv hp.1 hx
    simp only at h
    obtain ⟨ns, hx2, h⟩ := bind_ok h
    have ih2 := typecheck_annotate_block_good ct rest env ns henv hp.2 hx2
    simp only [pure, Except.pure, Except.ok.injEq] at h
    subst h
    intro c hc
    rcases List.mem_cons.mp hc with rfl | hc
    · exact ⟨annotated_child _ ih1, by rw [get_checked_type_set]; exact ih1.1⟩
    · exact ih2 c hc

/-- The bodies of the branches of a `case` are left annotated. -/
theorem typecheck_annotate_case_branches_good (ct : ClassTable) :
    ∀ (l : List (String × String × ExpressionNode)) (env : TypeEnvironment)
      (decls : List String) (r : List CheckedNode × List String),
      env_typed ct env → as_parsed_branches l = true →
      typecheck_annotate_case_branches ct env l decls = .ok r → ∀ n ∈ r.1, n.annotated
  | [], env, decls, r, _, _, h => by
    simp only [typecheck_annotate_case_branches, Except.ok.injEq] at h
    subst h
    simp
  | (identifier, declared_type, expression) :: rest, env, decls, r, henv, hp, h => by
    simp only [as_parsed_branches, Bool.and_eq_true, bne_iff_ne, ne_eq] at hp
    simp only [typecheck_annotate_case_branches] at h
    obtain ⟨⟨t, n⟩, hx, h⟩ := bind_ok h
    have ih1 := typecheck_annotate_good ct expression
      { env with objects := env.objects.enter_scope.add_object identifier declared_type } _
      ⟨add_object_typed _ _ _ (enter_scope_typed _ henv.1) hp.1.1, henv.2⟩ hp.1.2 hx
    simp only at h
    split at h
    · simp [semant_error] at h
    · obtain ⟨⟨bodies, types⟩, hx2, h⟩ := bind_ok h
      have ih2 := typecheck_annotate_case_branches_good ct rest env _ _ henv hp.2 hx2
      simp only [pure, Except.pure, Except.ok.injEq] at h
      subst h
      intro c hc
      rcases List.mem_cons.mp hc with rfl | hc
      · exact annotated_child _ ih1
      · exact ih2 c hc

/-- The initializing expressions of a `let` are left annotated, and the
variables are added with their declared types. -/
theorem typecheck_annotate_let_initializers_good (ct : ClassTable) :
    ∀ (l : List (String × String × ExpressionNode)) (env : TypeEnvironment)
      (r : ObjectEnv × List CheckedNode),
      env_typed ct env → as_parsed_initializers l = true →
      typecheck_annotate_let_initializers ct env l = .ok r →
      objects_typed r.1 ∧ ∀ n ∈ r.2, n.annotated
  | [], env, r, henv, _, h => by
    simp only [typecheck_annotate_let_initializers, Except.ok.injEq] at h
    subst h
    exact ⟨henv.1, by simp⟩
  | (name, declared_type, init_expr) :: rest, env, r, henv, hp, h => by
    simp only [as_parsed_initializers, Bool.and_eq_true, bne_iff_ne, ne_eq,
      Bool.or_eq_true] at hp
    simp only [typecheck_annotate_let_initializers] at h
    obtain ⟨⟨t, n⟩, hx, h⟩ := bind_ok h
    have hinit : (n.set_checked_type t).annotated := by
      rcases hp.1.2 with hno | hpar
      · cases init_expr with
        | NoExpressionNode d =>
          simp only [typecheck_annotate, Except.ok.injEq, Prod.mk.injEq] at hx
          obtain ⟨rfl, rfl⟩ := hx
          exact (annotated_mk _ _ _).mpr ⟨fun h => absurd rfl h, by simp⟩
        | _ => simp [is_no_expression] at hno
      · exact annotated_child _ (typecheck_annotate_good ct init_expr env _ henv hpar hx)
    simp only at h
    split at h
    · simp [semant_error] at h
    · have hrest : ∃ p, typecheck_annotate_let_initializers ct
          { env with objects := env.objects.add_object name declared_type } rest = .ok p ∧
          r = (p.1, n.set_checked_type t :: p.2) := by
        split at h
        · obtain ⟨lub, _, h⟩ := bind_ok h
          split at h
          · obtain ⟨u, hu, _⟩ := bind_ok h
            simp [semant_error] at hu
          · obtain ⟨u, _, h⟩ := bind_ok h
            obtain ⟨p, hp2, h⟩ := bind_ok h
            simp only [pure, Except.pure, Except.ok.injEq] at h
            exact ⟨p, hp2, h.symm⟩
        · obtain ⟨u, _, h⟩ := bind_ok h
          obtain ⟨p, hp2, h⟩ := bind_ok h
          simp only [pure, Except.pure, Except.ok.injEq] at h
          exact ⟨p, hp2, h.symm⟩
      obtain ⟨p, hx2, hr⟩ := hrest
      have ih2 := typecheck_annotate_let_initializers_good ct rest
        { env with objects := env.objects.add_object name declared_type } _
        ⟨add_object_typed _ _ _ henv.1 hp.1.1, henv.2⟩ hp.2 hx2
      subst hr
      refine ⟨ih2.1, ?_⟩
      intro c hc
      rcases List.mem_cons.mp hc with rfl | hc
      · exact hinit
      · exact ih2.2 c hc

/-- The parameters of a dispatch are left annotated. -/
theorem typecheck_annotate_parameters_good (ct : ClassTable) :
    ∀ (ps : List ExpressionNode) (method_name : String) (static_class : Option String)
      (formals : List FormalNode) (i : Nat) (env : TypeEnvironment) (nodes : List CheckedNode),
      env_typed ct env → as_parsed_list ps = true →
      typecheck_annotate_parameters ct env method_name static_class i formals ps = .ok nodes →
      ∀ n ∈ nodes, n.annotated
  | [], method_name, static_class, formals, i, env, nodes, _, _, h => by
    cases formals with
    | nil =>
      simp only [typecheck_annotate_parameters, Except.ok.injEq] at h
      subst h
      simp
    | cons f fs => simp [typecheck_annotate_parameters] at h
  | parameter :: rest, method_name, static_class, formals, i, env, nodes, henv, hp, h => by
    cases formals with
    | nil =>
      simp only [typecheck_annotate_parameters, Except.ok.injEq] at h
      subst h
      simp
    | cons f fs =>
      simp only [as_parsed_list, Bool.and_eq_true] at hp
      simp only [typecheck_annotate_parameters] at h
      obtain ⟨⟨t, n⟩, hx, h⟩ := bind_ok h
      have ih1 := typecheck_annotate_good ct parameter env _ henv hp.1 hx
      simp only at h
      obtain ⟨lub, _, h⟩ := bind_ok h
      split at h
      · cases static_class <;> simp [semant_error] at h
      · obtain ⟨ns, hx2, h⟩ := bind_ok h
        have ih2 := typecheck_annotate_parameters_good ct rest method_name static_class fs
          (i + 1) env ns henv hp.2 hx2
        simp only [pure, Except.pure, Except.ok.injEq] at h
        subst h
        intro c hc
        rcases List.mem_cons.mp hc with rfl | hc
        · exact annotated_child _ ih1
        · exact ih2 c hc

end



/-- The method loop enters methods of its list only. -/
theorem add_methods_forall (P : MethodNode → Prop) (cls_name : String)
    (ms : List MethodNode) :
    ∀ (added : List String) (methods result : MethodEnv),
      (∀ m ∈ ms, P m) → (∀ b ∈ methods, P b.2) →
      add_methods cls_name ms added methods = .ok result → ∀ b ∈ result, P b.2 := by
  induction ms with
  | nil =>
    intro added methods result _ h2 h
    simp only [add_methods, Except.ok.injEq] at h
    subst h
    exact h2
  | cons m rest ih =>
    intro added methods result h1 h2 h
    simp only [add_methods] at h
    obtain ⟨_, _, h⟩ := bind_ok h
    have hrest : add_methods cls_name rest (m.name :: added) (methods.set cls_name m) =
        .ok result := by
      split at h
      · split at h
        · obtain ⟨_, hu, _⟩ := bind_ok h
          simp at hu
        · obtain ⟨_, _, h⟩ := bind_ok h
          exact h
      · obtain ⟨_, _, h⟩ := bind_ok h
        exact h
    refine ih _ _ result (fun x hx => h1 x (List.mem_cons_of_mem _ hx)) ?_ hrest
    intro b hb
    simp only [MethodEnv.set] at hb
    rcases List.mem_cons.mp hb with rfl | hb
    · exact h1 m (List.mem_cons_self _ _)
    · exact h2 b hb

/-- The function `add_class_to_method_env` enters methods of classes of the
table only. -/
theorem add_class_to_method_env_forall (P : MethodNode → Prop) (ct : ClassTable)
    (htable : ∀ k c, ct.find k = some c → ∀ m ∈ c.get_methods, P m) (cls_name : String)
    (fuel : Nat) :
    ∀ (cls : ClassNode) (methods result : MethodEnv),
      (∀ m ∈ cls.get_methods, P m) → (∀ b ∈ methods, P b.2) →
      add_class_to_method_env ct fuel cls cls_name methods = .ok result →
      ∀ b ∈ result, P b.2 := by
  induction fuel with
  | zero =>
    intro cls methods result h1 h2 h
    unfold add_class_to_method_env at h
    split at h
    · simp at h
    · exact add_methods_forall P _ _ _ _ _ h1 h2 h
  | succ n ih =>
    intro cls methods result h1 h2 h
    unfold add_class_to_method_env at h
    split at h
    · simp only at h
      cases hf : ct.find cls.base_class with
      | none => simp [hf] at h
      | some parent =>
        simp only [hf] at h
        cases hr : add_class_to_method_env ct n parent cls_name methods with
        | error f => simp [hr] at h
        | ok methods1 =>
          simp only [hr] at h
          exact add_methods_forall P _ _ _ _ _ h1
            (ih parent methods methods1 (htable _ _ hf) h2 hr) h
    · exact add_methods_forall P _ _ _ _ _ h1 h2 h

theorem build_method_env_loop_forall (P : MethodNode → Prop) (ct : ClassTable)
    (htable : ∀ k c, ct.find k = some c → ∀ m ∈ c.get_methods, P m)
    (classes : List (String × ClassNode)) :
    ∀ (methods result : MethodEnv),
      (∀ entry ∈ classes, ∀ m ∈ entry.2.get_methods, P m) → (∀ b ∈ methods, P b.2) →
      build_method_env_loop ct classes methods = .ok result → ∀ b ∈ result, P b.2 := by
  induction classes with
  | nil =>
    intro methods result _ h2 h
    simp only [build_method_env_loop, Except.ok.injEq] at h
    subst h
    exact h2
  | cons entry rest ih =>
    intro methods result h1 h2 h
    simp only [build_method_env_loop] at h
    cases hr : add_class_to_method_env ct (ct.clsmap.length + 1) entry.2 entry.2.name methods with
    | error f => simp [hr] at h
    | ok methods1 =>
      simp only [hr] at h
      exact ih methods1 result (fun e he => h1 e (List.mem_cons_of_mem _ he))
        (add_class_to_method_env_forall P ct htable _ _ _ _ _
          (h1 entry (List.mem_cons_self _ _)) h2 hr) h

/-- Every method of the environment that `build_method_env` returns is a
method of a class of the table. -/
theorem build_method_env_forall (P : MethodNode → Prop) (ct : ClassTable)
    (htable : ∀ k c, ct.find k = some c → ∀ m ∈ c.get_methods, P m)
    (hnodup : (ct.clsmap.map (fun entry => entry.1)).Nodup)
    (result : MethodEnv) (h : build_method_env ct = .ok result) : ∀ b ∈ result, P b.2 := by
  refine build_method_env_loop_forall P ct htable ct.clsmap [] result ?_ (by simp) h
  intro entry he
  exact htable entry.1 entry.2 (find_of_mem ct hnodup _ _ he)

theorem add_attributes_typed (cls_name : String) (attrs : List AttributeNode) :
    ∀ (objects result : ObjectEnv), (∀ a ∈ attrs, a.type ≠ "_no_type") →
      objects_typed objects → add_attributes cls_name attrs objects = .ok result →
      objects_typed result := by
  induction attrs with
  | nil =>
    intro objects result _ h2 h
    simp only [add_attributes, Except.ok.injEq] at h
    subst h
    exact h2
  | cons a rest ih =>
    intro objects result h1 h2 h
    simp only [add_attributes] at h
    split at h
    · simp [semant_error] at h
    · split at h
      · simp [semant_error] at h
      · exact ih _ result (fun x hx => h1 x (List.mem_cons_of_mem _ hx))
          (add_object_typed _ _ _ h2 (h1 a (List.mem_cons_self _ _))) h

theorem build_class_object_env_typed (ct : ClassTable)
    (htable : ∀ k c, ct.find k = some c → ∀ a ∈ c.get_attributes, a.type ≠ "_no_type")
    (fuel : Nat) :
    ∀ (cls : ClassNode) (objects result : ObjectEnv),
      (∀ a ∈ cls.get_attributes, a.type ≠ "_no_type") → objects_typed objects →
      build_class_object_env ct fuel cls objects = .ok result → objects_typed result := by
  induction fuel with
  | zero =>
    intro cls objects result h1 h2 h
    unfold build_class_object_env at h
    split at h
    · simp at h
    · exact add_attributes_typed _ _ _ _ h1 h2 h
  | succ n ih =>
    intro cls objects result h1 h2 h
    unfold build_class_object_env at h
    split at h
    · simp only at h
      cases hf : ct.find cls.base_class with
      | none => simp [hf] at h
      | some parent =>
        simp only [hf] at h
        cases hr : build_class_object_env ct n parent objects with
        | error f => simp [hr] at h
        | ok objects1 =>
          simp only [hr] at h
          exact add_attributes_typed _ _ _ _ h1 (ih parent objects objects1 (htable _ _ hf) h2 hr) h
    · exact add_attributes_typed _ _ _ _ h1 h2 h

theorem add_formals_typed (formals : List FormalNode) :
    ∀ (objects result : ObjectEnv), (∀ f ∈ formals, f.type ≠ "_no_type") →
      objects_typed objects → add_formals formals objects = .ok result →
      objects_typed result := by
  induction formals with
  | nil =>
    intro objects result _ h2 h
    simp only [add_formals, Except.ok.injEq] at h
    subst h
    exact h2
  | cons f rest ih =>
    intro objects result h1 h2 h
    simp only [add_formals] at h
    split at h
    · simp [semant_error] at h
    · exact ih _ result (fun x hx => h1 x (List.mem_cons_of_mem _ hx))
        (add_object_typed _ _ _ h2 (h1 f (List.mem_cons_self _ _))) h

theorem resolve_typed (ct : ClassTable) (env : TypeEnvironment) (henv : env_typed ct env)
    (t : String) (ht : t ≠ "_no_type") : resolve t env ≠ "_no_type" := by
  unfold resolve
  split
  · exact henv.2.2.1
  · exact ht

/-- The initializer of an attribute as parsed is left annotated. -/
theorem attribute_analyze_annotated (ct : ClassTable) (env : TypeEnvironment)
    (henv : env_typed ct env) (attr : AttributeNode)
    (hp : (is_no_expression attr.expr || as_parsed attr.expr) = true) (node : CheckedNode)
    (h : AttributeNode.analyze ct env attr = .ok node) : node.annotated := by
  unfold AttributeNode.analyze at h
  obtain ⟨⟨t, n⟩, hx, h⟩ := bind_ok h
  simp only at h
  simp only [Bool.or_eq_true] at hp
  rcases hp with hno | hpar
  · cases he : attr.expr with
    | NoExpressionNode d =>
      rw [he] at hx
      simp only [typecheck_annotate, Except.ok.injEq, Prod.mk.injEq] at hx
      obtain ⟨rfl, rfl⟩ := hx
      have hr : resolve "_no_type" env = "_no_type" := rfl
      simp only [hr, bne_self_eq_false, Bool.false_eq_true, ↓reduceIte, pure, Except.pure,
        Except.ok.injEq] at h
      subst h
      exact (annotated_mk _ _ _).mpr ⟨fun h => absurd rfl h, by simp⟩
    | _ => simp [he, is_no_expression] at hno
  · have ih := typecheck_annotate_good ct attr.expr env _ henv hpar hx
    have hr : (resolve t env != "_no_type") = true := by
      simpa using resolve_typed ct env henv t ih.1
    simp only [hr, ↓reduceIte] at h
    obtain ⟨lub, _, h⟩ := bind_ok h
    split at h
    · simp [semant_error] at h
    · simp only [pure, Except.pure, Except.ok.injEq] at h
      subst h
      exact annotated_child _ ih

/-- The body of a method as parsed is left annotated. -/
theorem method_analyze_annotated (ct : ClassTable) (env : TypeEnvironment)
    (henv : env_typed ct env) (method : MethodNode)
    (hf : ∀ f ∈ method.formals, f.type ≠ "_no_type")
    (hp : as_parsed method.expr = true) (node : CheckedNode)
    (h : MethodNode.analyze ct env method = .ok node) : node.annotated := by
  unfold MethodNode.analyze at h
  split at h
  · simp [semant_error] at h
  · obtain ⟨objects, ho, h⟩ := bind_ok h
    have hobj := add_formals_typed _ _ _ hf (enter_scope_typed _ henv.1) ho
    obtain ⟨⟨t, n⟩, hx, h⟩ := bind_ok h
    have ih := typecheck_annotate_good ct method.expr { env with objects := objects } _
      ⟨hobj, henv.2⟩ hp hx
    simp only at h
    split at h
    · simp [semant_error] at h
    · obtain ⟨lub, _, h⟩ := bind_ok h
      split at h
      · simp [semant_error] at h
      · simp only [pure, Except.pure, Except.ok.injEq] at h
        subst h
        exact annotated_child _ ih

theorem analyze_features_annotated (ct : ClassTable) (env : TypeEnvironment)
    (henv : env_typed ct env) (features : List FeatureNode) :
    ∀ (nodes : List CheckedNode), features.all feature_as_parsed = true →
      analyze_features ct env features = .ok nodes → ∀ n ∈ nodes, n.annotated := by
  induction features with
  | nil =>
    intro nodes _ h
    simp only [analyze_features, Except.ok.injEq] at h
    subst h
    simp
  | cons f rest ih =>
    intro nodes hp h
    simp only [List.all_cons, Bool.and_eq_true] at hp
    simp only [analyze_features] at h
    obtain ⟨node, hn, h⟩ := bind_ok h
    obtain ⟨others, ho, h⟩ := bind_ok h
    simp only [pure, Except.pure, Except.ok.injEq] at h
    subst h
    intro c hc
    rcases List.mem_cons.mp hc with rfl | hc
    · rcases f with a | m
      · have := hp.1
        simp only [feature_as_parsed, Bool.and_eq_true] at this
        exact attribute_analyze_annotated ct env henv a this.2 _ hn
      · have := hp.1
        simp only [feature_as_parsed, Bool.and_eq_true, List.all_eq_true, bne_iff_ne,
          ne_eq] at this
        exact method_analyze_annotated ct env henv m this.1.2 this.2 _ hn
    · exact ih others hp.2 ho c hc



theorem mem_get_attributes (cls : ClassNode) (a : AttributeNode) (h : a ∈ cls.get_attributes) :
    FeatureNode.attribute a ∈ cls.features := by
  unfold ClassNode.get_attributes at h
  obtain ⟨f, hf, hfa⟩ := List.mem_filterMap.mp h
  rcases f with b | m
  · simp only [Option.some.injEq] at hfa
    subst hfa
    exact hf
  · simp at hfa

theorem mem_get_methods (cls : ClassNode) (m : MethodNode) (h : m ∈ cls.get_methods) :
    FeatureNode.method m ∈ cls.features := by
  unfold ClassNode.get_methods at h
  obtain ⟨f, hf, hfm⟩ := List.mem_filterMap.mp h
  rcases f with b | n
  · simp at hfm
  · simp only [Option.some.injEq] at hfm
    subst hfm
    exact hf

/-- The table constructed for a program as parsed knows no type `"_no_type"`:
no class has it as name, no attribute and no method of a class as type. -/
theorem construct_typed (fuel : Nat) (classes : List ClassNode) (ct : ClassTable)
    (hparsed : ∀ cls ∈ classes, class_as_parsed cls = true)
    (h : ClassTable.construct fuel classes = .ok ct) :
    ct.exists "_no_type" = false ∧
    (∀ k c, ct.find k = some c → ∀ a ∈ c.get_attributes, a.type ≠ "_no_type") ∧
    (∀ k c, ct.find k = some c → ∀ m ∈ c.get_methods, m.type ≠ "_no_type") := by
  have hperm := construct_perm fuel classes ct h
  have hmem : ∀ k c, ct.find k = some c →
      (c ∈ classes ∧ k = c.name) ∨ (k, c) ∈ install_basic_classes.clsmap := by
    intro k c hf
    have := find_some_mem ct k c hf
    rw [hperm.mem_iff, List.mem_append] at this
    rcases this with h1 | h1
    · obtain ⟨x, hx, he⟩ := List.mem_map.mp h1
      simp only [Prod.mk.injEq] at he
      obtain ⟨rfl, rfl⟩ := he
      exact Or.inl ⟨hx, rfl⟩
    · exact Or.inr h1
  refine ⟨?_, ?_, ?_⟩
  · cases hx : ct.exists "_no_type" with
    | false => rfl
    | true =>
      exfalso
      unfold ClassTable.exists at hx
      cases hf : ct.find "_no_type" with
      | none => simp [hf] at hx
      | some c =>
        rcases hmem _ _ hf with ⟨h1, h2⟩ | h1
        · have := hparsed c h1
          simp only [class_as_parsed, Bool.and_eq_true, bne_iff_ne, ne_eq] at this
          exact this.1 h2.symm
        · have hb : ∀ e ∈ install_basic_classes.clsmap, e.1 ≠ "_no_type" := by decide
          exact hb _ h1 rfl
  · intro k c hf a ha
    rcases hmem _ _ hf with ⟨h1, _⟩ | h1
    · have := hparsed c h1
      simp only [class_as_parsed, Bool.and_eq_true, List.all_eq_true] at this
      have := this.2 _ (mem_get_attributes c a ha)
      simp only [feature_as_parsed, Bool.and_eq_true, bne_iff_ne, ne_eq] at this
      exact this.1
    · have hb : ∀ e ∈ install_basic_classes.clsmap, ∀ a ∈ e.2.get_attributes,
          a.type ≠ "_no_type" := by decide
      exact hb _ h1 a ha
  · intro k c hf m hm
    rcases hmem _ _ hf with ⟨h1, _⟩ | h1
    · have := hparsed c h1
      simp only [class_as_parsed, Bool.and_eq_true, List.all_eq_true] at this
      have := this.2 _ (mem_get_methods c m hm)
      simp only [feature_as_parsed, Bool.and_eq_true, bne_iff_ne, ne_eq] at this
      exact this.1.1
    · have hb : ∀ e ∈ install_basic_classes.clsmap, ∀ m ∈ e.2.get_methods,
          m.type ≠ "_no_type" := by decide
      exact hb _ h1 m hm

theorem class_analyze_annotated (ct : ClassTable) (methods : MethodEnv)
    (hkey : ct.exists "_no_type" = false)
    (hattrs : ∀ k c, ct.find k = some c → ∀ a ∈ c.get_attributes, a.type ≠ "_no_type")
    (hmethods : ∀ b ∈ methods, b.2.type ≠ "_no_type")
    (cls : ClassNode) (hp : class_as_parsed cls = true) (nodes : List CheckedNode)
    (h : ClassNode.analyze ct methods [] cls = .ok nodes) : ∀ n ∈ nodes, n.annotated := by
  unfold ClassNode.analyze at h
  obtain ⟨objects, ho, h⟩ := bind_ok h
  simp only [class_as_parsed, Bool.and_eq_true, bne_iff_ne, ne_eq] at hp
  have hown : ∀ a ∈ cls.get_attributes, a.type ≠ "_no_type" := by
    intro a ha
    have := (List.all_eq_true.mp hp.2) _ (mem_get_attributes cls a ha)
    simp only [feature_as_parsed, Bool.and_eq_true, bne_iff_ne, ne_eq] at this
    exact this.1
  have hobj := build_class_object_env_typed ct hattrs _ cls _ objects hown
    (enter_scope_typed [] (by intro s hs; simp at hs)) ho
  exact analyze_features_annotated ct _
    ⟨add_object_typed _ _ _ hobj (by decide), hmethods, hp.1, hkey⟩ cls.features nodes hp.2 h

theorem analyze_classes_annotated (ct : ClassTable) (methods : MethodEnv)
    (hkey : ct.exists "_no_type" = false)
    (hattrs : ∀ k c, ct.find k = some c → ∀ a ∈ c.get_attributes, a.type ≠ "_no_type")
    (hmethods : ∀ b ∈ methods, b.2.type ≠ "_no_type") (classes : List ClassNode) :
    ∀ (trees : List (List CheckedNode)), (∀ cls ∈ classes, class_as_parsed cls = true) →
      analyze_classes ct methods classes = .ok trees →
      ∀ nodes ∈ trees, ∀ n ∈ nodes, n.annotated := by
  induction classes with
  | nil =>
    intro trees _ h
    simp only [analyze_classes, Except.ok.injEq] at h
    subst h
    simp
  | cons cls rest ih =>
    intro trees hp h
    simp only [analyze_classes] at h
    obtain ⟨nodes, hn, h⟩ := bind_ok h
    obtain ⟨others, ho, h⟩ := bind_ok h
    simp only [pure, Except.pure, Except.ok.injEq] at h
    subst h
    intro ns hns
    rcases List.mem_cons.mp hns with rfl | hns
    · exact class_analyze_annotated ct methods hkey hattrs hmethods cls
        (hp cls (List.mem_cons_self _ _)) _ hn
    · exact ih others (fun c hc => hp c (List.mem_cons_of_mem _ hc)) ho ns hns



theorem node_types_mk (k : NodeType) (t : String) (cs : List CheckedNode) :
    (CheckedNode.mk k t cs).node_types =
      k :: (CheckedNode.nodes_of_list cs).map (fun x => x.node_type) := by
  simp [CheckedNode.node_types, CheckedNode.nodes, CheckedNode.node_type]

theorem node_types_set (n : CheckedNode) (t : String) :
    (n.set_checked_type t).node_types = n.node_types := by
  obtain ⟨k, t0, cs⟩ := n
  simp [CheckedNode.set_checked_type, node_types_mk]

theorem nodes_of_list_nil :
    (CheckedNode.nodes_of_list []).map (fun x => x.node_type) = [] := rfl

theorem nodes_of_list_cons (c : CheckedNode) (cs : List CheckedNode) :
    (CheckedNode.nodes_of_list (c :: cs)).map (fun x => x.node_type) =
      c.node_types ++ (CheckedNode.nodes_of_list cs).map (fun x => x.node_type) := by
  simp [CheckedNode.nodes_of_list, CheckedNode.node_types]

theorem nodes_of_list_append (l1 l2 : List CheckedNode) :
    (CheckedNode.nodes_of_list (l1 ++ l2)).map (fun x => x.node_type) =
      (CheckedNode.nodes_of_list l1).map (fun x => x.node_type) ++
        (CheckedNode.nodes_of_list l2).map (fun x => x.node_type) := by
  induction l1 with
  | nil => simp [CheckedNode.nodes_of_list]
  | cons c rest ih =>
    simp only [List.cons_append, nodes_of_list_cons, ih, List.append_assoc]

theorem annotate_int_operation_node_types (k : NodeType) (t1 t2 result : String)
    (n1 n2 : CheckedNode) (r : String × CheckedNode)
    (h : annotate_int_operation k t1 t2 result n1 n2 = .ok r) :
    r.2.node_types = k :: (n1.node_types ++ n2.node_types) := by
  unfold annotate_int_operation at h
  obtain ⟨t, _, h⟩ := bind_ok h
  simp only [pure, Except.pure, Except.ok.injEq] at h
  subst h
  simp [node_types_mk, nodes_of_list_cons, nodes_of_list_nil, node_types_set]

theorem initializer_node_types (t : String) (inits : List CheckedNode) :
    (CheckedNode.nodes_of_list
      (inits.map (fun init_expr => CheckedNode.mk .LetInitializerType t [init_expr]))).map
        (fun x => x.node_type) =
      (inits.map (fun i => NodeType.LetInitializerType :: i.node_types)).flatten := by
  induction inits with
  | nil => rfl
  | cons i rest ih =>
    simp only [List.map_cons, nodes_of_list_cons, ih, node_types_mk, nodes_of_list_nil,
      List.append_nil, List.flatten_cons]

mutual

/-- The annotated tree that a check returns has one node for every expression
node of the expression, of the same node type and in the same order. -/
theorem typecheck_annotate_node_types (ct : ClassTable) :
    ∀ (e : ExpressionNode) (env : TypeEnvironment) (r : String × CheckedNode),
      typecheck_annotate ct env e = .ok r → r.2.node_types = e.node_types
  | .NoExpressionNode _, env, r, h => by
    simp only [typecheck_annotate, Except.ok.injEq] at h
    subst h
    rfl
  | .IntNode _, env, r, h => by
    simp only [typecheck_annotate, Except.ok.injEq] at h
    subst h
    rfl
  | .StringNode _, env, r, h => by
    simp only [typecheck_annotate, Except.ok.injEq] at h
    subst h
    rfl
  | .BoolNode _, env, r, h => by
    simp only [typecheck_annotate, Except.ok.injEq] at h
    subst h
    rfl
  | .IdentifierNode name, env, r, h => by
    simp only [typecheck_annotate] at h
    split at h
    · simp only [Except.ok.injEq] at h
      subst h
      rfl
    · split at h
      · simp [semant_error] at h
      · simp only [Except.ok.injEq] at h
        subst h
        rfl
  | .AssignmentNode name expr, env, r, h => by
    simp only [typecheck_annotate] at h
    split at h
    · simp [semant_error] at h
    · split at h
      · simp [semant_error] at h
      · obtain ⟨⟨t, n⟩, hx, h⟩ := bind_ok h
        have ih := typecheck_annotate_node_types ct expr env _ hx
        simp only at h
        obtain ⟨lub, _, h⟩ := bind_ok h
        split at h
        · simp [semant_error] at h
        · simp only [pure, Except.pure, Except.ok.injEq] at h
          subst h
          simp only [node_types_mk, nodes_of_list_cons, nodes_of_list_nil, node_types_set,
            ExpressionNode.node_types, List.append_nil]
          rw [← ih]
  | .NewNode type, env, r, h => by
    simp only [typecheck_annotate] at h
    split at h
    · simp [semant_error] at h
    · simp only [Except.ok.injEq] at h
      subst h
      rfl
  | .UnaryOperationNode .IsvoidNode _ expr, env, r, h => by
    simp only [typecheck_annotate] at h
    obtain ⟨⟨t, n⟩, hx, h⟩ := bind_ok h
    have ih := typecheck_annotate_node_types ct expr env _ hx
    simp only [pure, Except.pure, Except.ok.injEq] at h
    subst h
    simp only [node_types_mk, nodes_of_list_cons, nodes_of_list_nil, node_types_set,
      ExpressionNode.node_types, List.append_nil, UnaryOp.node_type]
    rw [← ih]
  | .UnaryOperationNode .NegNode _ expr, env, r, h => by
    simp only [typecheck_annotate] at h
    obtain ⟨⟨t, n⟩, hx, h⟩ := bind_ok h
    have ih := typecheck_annotate_node_types ct expr env _ hx
    simp only at h
    split at h
    · simp [semant_error] at h
    · simp only [pure, Except.pure, Except.ok.injEq] at h
      subst h
      simp only [node_types_mk, nodes_of_list_cons, nodes_of_list_nil, node_types_set,
        ExpressionNode.node_types, List.append_nil, UnaryOp.node_type]
      rw [← ih]
  | .UnaryOperationNode .ComplementNode _ expr, env, r, h => by
    simp only [typecheck_annotate] at h
    obtain ⟨⟨t, n⟩, hx, h⟩ := bind_ok h
    have ih := typecheck_annotate_node_types ct expr env _ hx
    simp only at h
    split at h
    · simp [semant_error] at h
    · simp only [pure, Except.pure, Except.ok.injEq] at h
      subst h
      simp only [node_types_mk, nodes_of_list_cons, nodes_of_list_nil, node_types_set,
        ExpressionNode.node_types, List.append_nil, UnaryOp.node_type]
      rw [← ih]
  | .BinaryOperationNode op _ first second, env, r, h => by
    simp only [typecheck_annotate] at h
    obtain ⟨⟨t1, n1⟩, hx1, h⟩ := bind_ok h
    have ih1 := typecheck_annotate_node_types ct first env _ hx1
    simp only at h
    obtain ⟨⟨t2, n2⟩, hx2, h⟩ := bind_ok h
    have ih2 := typecheck_annotate_node_types ct second env _ hx2
    simp only at h
    simp only [ExpressionNode.node_types, ← ih1, ← ih2]
    cases op with
    | EQNode =>
      simp only at h
      split at h
      · simp [semant_error] at h
      · simp only [pure, Except.pure, Except.ok.injEq] at h
        subst h
        simp only [node_types_mk, nodes_of_list_cons, nodes_of_list_nil, node_types_set,
          List.append_nil, BinaryOp.node_type]
    | _ => exact annotate_int_operation_node_types _ _ _ _ _ _ _ h
  | .ConditionalNode predicate then_expr else_expr, env, r, h => by
    simp only [typecheck_annotate] at h
    obtain ⟨⟨t1, n1⟩, hx1, h⟩ := bind_ok h
    have ih1 := typecheck_annotate_node_types ct predicate env _ hx1
    simp only at h
    obtain ⟨⟨t2, n2⟩, hx2, h⟩ := bind_ok h
    have ih2 := typecheck_annotate_node_types ct then_expr env _ hx2
    simp only at h
    obtain ⟨⟨t3, n3⟩, hx3, h⟩ := bind_ok h
    have ih3 := typecheck_annotate_node_types ct else_expr env _ hx3
    simp only at h
    simp only [ExpressionNode.node_types, ← ih1, ← ih2, ← ih3]
    split at h
    · simp [semant_error] at h
    · obtain ⟨lub, hlub, h⟩ := bind_ok h
      split at h <;>
      · simp only [pure, Except.pure, Except.ok.injEq] at h
        subst h
        simp only [node_types_mk, nodes_of_list_cons, nodes_of_list_nil, node_types_set,
          List.append_nil]
  | .WhileNode predicate body, env, r, h => by
    simp only [typecheck_annotate] at h
    obtain ⟨⟨t1, n1⟩, hx1, h⟩ := bind_ok h
    have ih1 := typecheck_annotate_node_types ct predicate env _ hx1
    simp only at h
    obtain ⟨⟨t2, n2⟩, hx2, h⟩ := bind_ok h
    have ih2 := typecheck_annotate_node_types ct body env _ hx2
    simp only at h
    simp only [ExpressionNode.node_types, ← ih1, ← ih2]
    split at h
    · simp [semant_error] at h
    · simp only [pure, Except.pure, Except.ok.injEq] at h
      subst h
      simp only [node_types_mk, nodes_of_list_cons, nodes_of_list_nil, node_types_set,
        List.append_nil]
  | .BlockNode expressions, env, r, h => by
    simp only [typecheck_annotate] at h
    obtain ⟨body, hx, h⟩ := bind_ok h
    have ih := typecheck_annotate_block_node_types ct expressions env body hx
    cases hl : body.getLast? with
    | none => simp [hl] at h
    | some last =>
      simp only [hl, pure, Except.pure, Except.ok.injEq] at h
      subst h
      simp only [node_types_mk, ExpressionNode.node_types, ih]
  | .CaseNode target branches, env, r, h => by
    simp only [typecheck_annotate] at h
    obtain ⟨⟨t1, n1⟩, hx1, h⟩ := bind_ok h
    have ih1 := typecheck_annotate_node_types ct target env _ hx1
    simp only at h
    obtain ⟨⟨bodies, types⟩, hx2, h⟩ := bind_ok h
    have ih2 := typecheck_annotate_case_branches_node_types ct branches env [] _ hx2
    simp only at h ih1 ih2
    simp only [ExpressionNode.node_types, ← ih1, ← ih2]
    split at h
    · simp only [pure, Except.pure, Except.ok.injEq] at h
      subst h
      simp only [node_types_mk, nodes_of_list_cons, node_types_set]
    · obtain ⟨lub, hlub, h⟩ := bind_ok h
      simp only [pure, Except.pure, Except.ok.injEq] at h
      subst h
      simp only [node_types_mk, nodes_of_list_cons, node_types_set]
  | .LetNode initializers body, env, r, h => by
    simp only [typecheck_annotate] at h
    obtain ⟨⟨objects, inits⟩, hx1, h⟩ := bind_ok h
    have ih1 := typecheck_annotate_let_initializers_node_types ct initializers
      { env with objects := env.objects.enter_scope } _ hx1
    simp only at h
    obtain ⟨⟨t2, n2⟩, hx2, h⟩ := bind_ok h
    have ih2 := typecheck_annotate_node_types ct body { env with objects := objects } _ hx2
    simp only [pure, Except.pure, Except.ok.injEq] at h
    subst h
    simp only at ih1 ih2
    simp only [node_types_mk, ExpressionNode.node_types, nodes_of_list_append,
      initializer_node_types, nodes_of_list_cons, nodes_of_list_nil, node_types_set,
      List.append_nil, ih1, ih2]
  | .DispatchNode object method_name parameters, env, r, h => by
    simp only [typecheck_annotate] at h
    obtain ⟨⟨t1, n1⟩, hx1, h⟩ := bind_ok h
    have ih1 := typecheck_annotate_node_types ct object env _ hx1
    simp only at h ih1
    split at h
    · simp [semant_error] at h
    · cases hf : env.methods.find (resolve t1 env) method_name with
      | none => simp [hf] at h
      | some method =>
        simp only [hf] at h
        split at h
        · simp [semant_error] at h
        · next hlen =>
          obtain ⟨ps, hx2, h⟩ := bind_ok h
          have ih2 := typecheck_annotate_parameters_node_types ct parameters method_name none
            method.formals 0 env ps (by simpa using hlen) hx2
          simp only [ExpressionNode.node_types, ← ih1, ← ih2]
          split at h <;>
          · simp only [pure, Except.pure, Except.ok.injEq] at h
            subst h
            simp only [node_types_mk, nodes_of_list_cons, node_types_set]
  | .StaticDispatchNode object method_name static_type parameters, env, r, h => by
    simp only [typecheck_annotate] at h
    obtain ⟨⟨t1, n1⟩, hx1, h⟩ := bind_ok h
    have ih1 := typecheck_annotate_node_types ct object env _ hx1
    simp only at h ih1
    obtain ⟨lub, _, h⟩ := bind_ok h
    split at h
    · simp [semant_error] at h
    · split at h
      · simp [semant_error] at h
      · cases hf : env.methods.find (resolve static_type env) method_name with
        | none => simp [hf] at h
        | some method =>
          simp only [hf] at h
          split at h
          · simp [semant_error] at h
          · next hlen =>
            obtain ⟨ps, hx2, h⟩ := bind_ok h
            have ih2 := typecheck_annotate_parameters_node_types ct parameters method_name
              (some (resolve static_type env)) method.formals 0 env ps (by simpa using hlen) hx2
            simp only [ExpressionNode.node_types, ← ih1, ← ih2]
            split at h <;>
            · simp only [pure, Except.pure, Except.ok.injEq] at h
              subst h
              simp only [node_types_mk, nodes_of_list_cons, node_types_set]

theorem typecheck_annotate_block_node_types (ct : ClassTable) :
    ∀ (l : List ExpressionNode) (env : TypeEnvironment) (nodes : List CheckedNode),
      typecheck_annotate_block ct env l = .ok nodes →
      (CheckedNode.nodes_of_list nodes).map (fun x => x.node_type) =
        ExpressionNode.node_types_list l
  | [], env, nodes, h => by
    simp only [typecheck_annotate_block, Except.ok.injEq] at h
    subst h
    rfl
  | expr :: rest, env, nodes, h => by
    simp only [typecheck_annotate_block] at h
    obtain ⟨⟨t, n⟩, hx, h⟩ := bind_ok h
    have ih1 := typecheck_annotate_node_types ct expr env _ hx
    simp only at h ih1
    obtain ⟨ns, hx2, h⟩ := bind_ok h
    have ih2 := typecheck_annotate_block_node_types ct rest env ns hx2
    simp only [pure, Except.pure, Except.ok.injEq] at h
    subst h
    simp only [nodes_of_list_cons, node_types_set, ExpressionNode.node_types_list, ih1, ih2]

theorem typecheck_annotate_case_branches_node_types (ct : ClassTable) :
    ∀ (l : List (String × String × ExpressionNode)) (env : TypeEnvironment)
      (decls : List String) (r : List CheckedNode × List String),
      typecheck_annotate_case_branches ct env l decls = .ok r →
      (CheckedNode.nodes_of_list r.1).map (fun x => x.node_type) =
        ExpressionNode.node_types_branches l
  | [], env, decls, r, h => by
    simp only [typecheck_annotate_case_branches, Except.ok.injEq] at h
    subst h
    rfl
  | (identifier, declared_type, expression) :: rest, env, decls, r, h => by
    simp only [typecheck_annotate_case_branches] at h
    obtain ⟨⟨t, n⟩, hx, h⟩ := bind_ok h
    have ih1 := typecheck_annotate_node_types ct expression
      { env with objects := env.objects.enter_scope.add_object identifier declared_type } _ hx
    simp only at h ih1
    split at h
    · simp [semant_error] at h
    · obtain ⟨⟨bodies, types⟩, hx2, h⟩ := bind_ok h
      have ih2 := typecheck_annotate_case_branches_node_types ct rest env _ _ hx2
      simp only [pure, Except.pure, Except.ok.injEq] at h
      subst h
      simp only at ih2
      simp only [nodes_of_list_cons, node_types_set, ExpressionNode.node_types_branches, ih1,
        ih2]

theorem typecheck_annotate_let_initializers_node_types (ct : ClassTable) :
    ∀ (l : List (String × String × ExpressionNode)) (env : TypeEnvironment)
      (r : ObjectEnv × List CheckedNode),
      typecheck_annotate_let_initializers ct env l = .ok r →
      (r.2.map (fun i => NodeType.LetInitializerType :: i.node_types)).flatten =
        ExpressionNode.node_types_initializers l
  | [], env, r, h => by
    simp only [typecheck_annotate_let_initializers, Except.ok.injEq] at h
    subst h
    rfl
  | (name, declared_type, init_expr) :: rest, env, r, h => by
    simp only [typecheck_annotate_let_initializers] at h
    obtain ⟨⟨t, n⟩, hx, h⟩ := bind_ok h
    have ih1 := typecheck_annotate_node_types ct init_expr env _ hx
    simp only at h ih1
    split at h
    · simp [semant_error] at h
    · have hrest : ∃ p, typecheck_annotate_let_initializers ct
          { env with objects := env.objects.add_object name declared_type } rest = .ok p ∧
          r = (p.1, n.set_checked_type t :: p.2) := by
        split at h
        · obtain ⟨lub, _, h⟩ := bind_ok h
          split at h
          · obtain ⟨u, hu, _⟩ := bind_ok h
            simp [semant_error] at hu
          · obtain ⟨u, _, h⟩ := bind_ok h
            obtain ⟨p, hp2, h⟩ := bind_ok h
            simp only [pure, Except.pure, Except.ok.injEq] at h
            exact ⟨p, hp2, h.symm⟩
        · obtain ⟨u, _, h⟩ := bind_ok h
          obtain ⟨p, hp2, h⟩ := bind_ok h
          simp only [pure, Except.pure, Except.ok.injEq] at h
          exact ⟨p, hp2, h.symm⟩
      obtain ⟨p, hx2, hr⟩ := hrest
      have ih2 := typecheck_annotate_let_initializers_node_types ct rest
        { env with objects := env.objects.add_object name declared_type } _ hx2
      subst hr
      simp only [List.map_cons, List.flatten_cons, node_types_set,
        ExpressionNode.node_types_initializers, ih1, ih2, List.cons_append]

theorem typecheck_annotate_parameters_node_types (ct : ClassTable) :
    ∀ (ps : List ExpressionNode) (method_name : String) (static_class : Option String)
      (formals : List FormalNode) (i : Nat) (env : TypeEnvironment) (nodes : List CheckedNode),
      ps.length = formals.length →
      typecheck_annotate_parameters ct env method_name static_class i formals ps = .ok nodes →
      (CheckedNode.nodes_of_list nodes).map (fun x => x.node_type) =
        ExpressionNode.node_types_list ps
  | [], method_name, static_class, formals, i, env, nodes, hlen, h => by
    cases formals with
    | nil =>
      simp only [typecheck_annotate_parameters, Except.ok.injEq] at h
      subst h
      rfl
    | cons f fs => simp at hlen
  | parameter :: rest, method_name, static_class, formals, i, env, nodes, hlen, h => by
    cases formals with
    | nil => simp at hlen
    | cons f fs =>
      simp only [typecheck_annotate_parameters] at h
      obtain ⟨⟨t, n⟩, hx, h⟩ := bind_ok h
      have ih1 := typecheck_annotate_node_types ct parameter env _ hx
      simp only at h ih1
      obtain ⟨lub, _, h⟩ := bind_ok h
      split at h
      · cases static_class <;> simp [semant_error] at h
      · obtain ⟨ns, hx2, h⟩ := bind_ok h
        have ih2 := typecheck_annotate_parameters_node_types ct rest method_name static_class fs
          (i + 1) env ns (by simpa using hlen) hx2
        simp only [pure, Except.pure, Except.ok.injEq] at h
        subst h
        simp only [nodes_of_list_cons, node_types_set, ExpressionNode.node_types_list, ih1, ih2]

end



theorem attribute_analyze_node_types (ct : ClassTable) (env : TypeEnvironment)
    (attr : AttributeNode) (node : CheckedNode)
    (h : AttributeNode.analyze ct env attr = .ok node) :
    node.node_types = attr.expr.node_types := by
  unfold AttributeNode.analyze at h
  obtain ⟨⟨t, n⟩, hx, h⟩ := bind_ok h
  have ih := typecheck_annotate_node_types ct attr.expr env _ hx
  simp only at h ih
  split at h
  · obtain ⟨lub, _, h⟩ := bind_ok h
    split at h
    · simp [semant_error] at h
    · simp only [pure, Except.pure, Except.ok.injEq] at h
      subst h
      rw [node_types_set, ih]
  · simp only [pure, Except.pure, Except.ok.injEq] at h
    subst h
    exact ih

theorem method_analyze_node_types (ct : ClassTable) (env : TypeEnvironment)
    (method : MethodNode) (node : CheckedNode)
    (h : MethodNode.analyze ct env method = .ok node) :
    node.node_types = method.expr.node_types := by
  unfold MethodNode.analyze at h
  split at h
  · simp [semant_error] at h
  · obtain ⟨objects, ho, h⟩ := bind_ok h
    obtain ⟨⟨t, n⟩, hx, h⟩ := bind_ok h
    have ih := typecheck_annotate_node_types ct method.expr _ _ hx
    simp only at h ih
    split at h
    · simp [semant_error] at h
    · obtain ⟨lub, _, h⟩ := bind_ok h
      split at h
      · simp [semant_error] at h
      · simp only [pure, Except.pure, Except.ok.injEq] at h
        subst h
        rw [node_types_set, ih]

theorem analyze_features_node_types (ct : ClassTable) (env : TypeEnvironment)
    (features : List FeatureNode) :
    ∀ (nodes : List CheckedNode), analyze_features ct env features = .ok nodes →
      List.Forall₂ (fun feature root => root.node_types = feature.get_expr.node_types)
        features nodes := by
  induction features with
  | nil =>
    intro nodes h
    simp only [analyze_features, Except.ok.injEq] at h
    subst h
    exact List.Forall₂.nil
  | cons f rest ih =>
    intro nodes h
    simp only [analyze_features] at h
    obtain ⟨node, hn, h⟩ := bind_ok h
    obtain ⟨others, ho, h⟩ := bind_ok h
    simp only [pure, Except.pure, Except.ok.injEq] at h
    subst h
    refine List.Forall₂.cons ?_ (ih others ho)
    rcases f with a | m
    · exact attribute_analyze_node_types ct env a node hn
    · exact method_analyze_node_types ct env m node hn

theorem analyze_classes_node_types (ct : ClassTable) (methods : MethodEnv)
    (classes : List ClassNode) :
    ∀ (trees : List (List CheckedNode)), analyze_classes ct methods classes = .ok trees →
      List.Forall₂ (fun cls nodes =>
        List.Forall₂ (fun feature root => root.node_types = feature.get_expr.node_types)
          cls.features nodes) classes trees := by
  induction classes with
  | nil =>
    intro trees h
    simp only [analyze_classes, Except.ok.injEq] at h
    subst h
    exact List.Forall₂.nil
  | cons cls rest ih =>
    intro trees h
    simp only [analyze_classes] at h
    obtain ⟨nodes, hn, h⟩ := bind_ok h
    obtain ⟨others, ho, h⟩ := bind_ok h
    simp only [pure, Except.pure, Except.ok.injEq] at h
    subst h
    refine List.Forall₂.cons ?_ (ih others ho)
    unfold ClassNode.analyze at hn
    obtain ⟨objects, _, hn⟩ := bind_ok hn
    exact analyze_features_node_types ct _ cls.features nodes hn



/-- C12: when `ProgramNode::analyze` returns for a program as the parser
builds it, the annotated trees it leaves have one node for every expression
node of the initializer or body of every feature of every class of the
program, and every such node that is not a `NoExpressionNode` has a checked
type other than `"_no_type"`. -/
theorem C12_type_annotation_totality (fuel : Nat) (classes : List ClassNode)
    (ct : ClassTable) (trees : List (List CheckedNode))
    (hparsed : ∀ cls ∈ classes, class_as_parsed cls = true)
    (h : ProgramNode.analyze fuel classes = .ok (ct, trees)) :
    List.Forall₂ (fun cls nodes =>
      List.Forall₂ (fun feature root => root.node_types = feature.get_expr.node_types)
        cls.features nodes) classes trees ∧
    ∀ nodes ∈ trees, ∀ root ∈ nodes, ∀ x ∈ root.nodes,
      x.node_type ≠ .NoExpressionNodeType → x.get_checked_type ≠ "_no_type" := by
  unfold ProgramNode.analyze at h
  obtain ⟨ct1, hc, h⟩ := bind_ok h
  obtain ⟨methods, hm, h⟩ := bind_ok h
  obtain ⟨trees1, ht, h⟩ := bind_ok h
  simp only [pure, Except.pure, Except.ok.injEq, Prod.mk.injEq] at h
  obtain ⟨rfl, rfl⟩ := h
  obtain ⟨hkey, hattrs, hmeths⟩ := construct_typed fuel classes ct1 hparsed hc
  have hw := construct_well_formed fuel classes ct1 hc
  have hmethods := build_method_env_forall (fun m => m.type ≠ "_no_type") ct1 hmeths hw.2.1
    methods hm
  refine ⟨analyze_classes_node_types ct1 methods classes trees1 ht, ?_⟩
  intro nodes hn root hr
  exact analyze_classes_annotated ct1 methods hkey hattrs hmethods classes trees1 hparsed ht
    nodes hn root hr

/-- C12 at the program of the classes `A { x : Int; f(y : Int) : Int { let z :
Int in x + y } }` and `Main`: the analysis returns, and all nodes but the two
absent initializers are annotated. -/
theorem C12_type_annotation_totality_witness :
    ∃ ct trees, ProgramNode.analyze 8 annotation_example = .ok (ct, trees) ∧
      trees = [[.mk .NoExpressionNodeType "_no_type" [],
        .mk .LetNodeType "Int"
          [.mk .LetInitializerType "Int" [.mk .NoExpressionNodeType "_no_type" []],
            .mk .PlusNodeType "Int"
              [.mk .IdentifierNodeType "Int" [], .mk .IdentifierNodeType "Int" []]]],
        [.mk .IntNodeType "Int" []]] ∧
      ∀ nodes ∈ trees, ∀ root ∈ nodes, ∀ x ∈ root.nodes,
        x.node_type ≠ .NoExpressionNodeType → x.get_checked_type ≠ "_no_type" :=
  ⟨_, _, rfl, rfl, (C12_type_annotation_totality 8 annotation_example _ _ (by decide) rfl).2⟩

/-! ## The lexer -/


theorem match_literal_length (text : List Char) :
    ∀ next rest, match_literal text next = some rest → next = text ++ rest := by
  induction text with
  | nil => intro next rest h; simp [match_literal] at h; simp [h]
  | cons p text ih =>
      intro next rest h
      cases next with
      | nil => simp [match_literal] at h
      | cons c next =>
          simp only [match_literal] at h
          split at h
          · rename_i hc
            rw [hc, ih next rest h]; rfl
          · exact absurd h (by simp)

theorem match_icase_length (word : List Char) :
    ∀ next rest, match_icase word next = some rest →
      ∃ w, next = w ++ rest ∧ w.map to_lower = word.map to_lower := by
  induction word with
  | nil => intro next rest h; simp [match_icase] at h; exact ⟨[], by simp [h]⟩
  | cons p word ih =>
      intro next rest h
      cases next with
      | nil => simp [match_icase] at h
      | cons c next =>
          simp only [match_icase] at h
          split at h
          · rename_i hc
            obtain ⟨w, h1, h2⟩ := ih next rest h
            exact ⟨c :: w, by simp [h1], by simp [hc, h2]⟩
          · exact absurd h (by simp)

theorem match_sets_length (sets : List (List Char)) :
    ∀ next rest, match_sets sets next = some rest →
      ∃ w, next = w ++ rest ∧ w.length = sets.length := by
  induction sets with
  | nil => intro next rest h; simp [match_sets] at h; exact ⟨[], by simp [h]⟩
  | cons p sets ih =>
      intro next rest h
      cases next with
      | nil => simp [match_sets] at h
      | cons c next =>
          simp only [match_sets] at h
          split at h
          · obtain ⟨w, h1, h2⟩ := ih next rest h
            exact ⟨c :: w, by simp [h1], by simp [h2]⟩
          · exact absurd h (by simp)

theorem takeWhile_length_le {α : Type} (p : α → Bool) (l : List α) :
    (l.takeWhile p).length ≤ l.length := by
  induction l with
  | nil => simp
  | cons a l ih =>
      simp only [List.takeWhile]
      split
      · simp; exact ih
      · simp

/-- Every pattern of the map matches at least one character, and no more than
there are. -/
theorem search_length (pattern : TokenType × Pattern) (hp : pattern ∈ patterns)
    (next : List Char) (n : Nat) (h : pattern.2.search next = some n) :
    1 ≤ n ∧ n ≤ next.length := by
  have hk : ∀ word : List Char, word ≠ [] → (Pattern.keyword word).search next = some n →
      1 ≤ n ∧ n ≤ next.length := by
    intro word hw h
    simp only [Pattern.search] at h
    split at h
    · rename_i rest hm
      obtain ⟨w, h1, h2⟩ := match_icase_length word next rest hm
      have h3 : w.length = word.length := by
        have := congrArg List.length h2
        simpa using this
      split at h
      · have h4 : n = word.length := by injection h with h; exact h.symm
        subst h4
        constructor
        · cases word with
          | nil => exact absurd rfl hw
          | cons a b => simp
        · rw [h1, List.length_append, h3]; omega
      · exact absurd h (by simp)
    · exact absurd h (by simp)
  have hl : ∀ text : List Char, text ≠ [] → (Pattern.literal text).search next = some n →
      1 ≤ n ∧ n ≤ next.length := by
    intro text hw h
    simp only [Pattern.search] at h
    split at h
    · rename_i rest hm
      have h1 := match_literal_length text next rest hm
      have h4 : n = text.length := by injection h with h; exact h.symm
      subst h4
      constructor
      · cases text with
        | nil => exact absurd rfl hw
        | cons a b => simp
      · rw [h1, List.length_append]; omega
    · exact absurd h (by simp)
  have hrun : ∀ (p : Char → Bool) (c : Char) (rest : List Char),
      next = c :: rest → n = 1 + (rest.takeWhile p).length → 1 ≤ n ∧ n ≤ next.length := by
    intro p c rest h1 h2
    have := takeWhile_length_le p rest
    subst h1 h2
    simp only [List.length_cons]
    omega
  simp only [patterns, List.mem_cons, List.mem_singleton, List.not_mem_nil, or_false] at hp
  rcases hp with hp | hp | hp | hp | hp | hp | hp | hp | hp | hp | hp | hp | hp | hp | hp | hp |
    hp | hp | hp | hp | hp | hp | hp | hp | hp | hp | hp | hp | hp | hp | hp | hp | hp | hp | hp |
    hp | hp | hp | hp | hp
  all_goals subst hp
  all_goals first
    | exact hk _ (by simp) h
    | exact hl _ (by simp) h
    | skip
  · -- bool
    simp only [Pattern.search] at h
    split at h
    · rename_i rest hm
      obtain ⟨w, h1, h2⟩ := match_sets_length _ next rest hm
      split at h
      · have h4 : n = 4 := by injection h with h; exact h.symm
        subst h4
        simp at h2
        rw [h1, List.length_append, h2]; omega
      · exact absurd h (by simp)
    · split at h
      · rename_i rest hm
        obtain ⟨w, h1, h2⟩ := match_sets_length _ next rest hm
        split at h
        · have h4 : n = 5 := by injection h with h; exact h.symm
          subst h4
          simp at h2
          rw [h1, List.length_append, h2]; omega
        · exact absurd h (by simp)
      · exact absurd h (by simp)
  · -- integer
    simp only [Pattern.search] at h
    split at h
    · split at h
      · exact hrun _ _ _ rfl (by injection h with h; exact h.symm)
      · exact absurd h (by simp)
    · exact absurd h (by simp)
  · simp only [Pattern.search] at h
    split at h
    · split at h
      · exact hrun _ _ _ rfl (by injection h with h; exact h.symm)
      · exact absurd h (by simp)
    · exact absurd h (by simp)
  · simp only [Pattern.search] at h
    split at h
    · split at h
      · exact hrun _ _ _ rfl (by injection h with h; exact h.symm)
      · exact absurd h (by simp)
    · exact absurd h (by simp)



theorem single_line_comment_loop_length (s : Scanner) (l : List Char) :
    (single_line_comment_loop s l).eof = true ∨
      ((single_line_comment_loop s l).program.length < l.length ∧
        (single_line_comment_loop s l).state = .DEFAULT_SCAN) := by
  induction l with
  | nil => left; rfl
  | cons c rest ih =>
      simp only [single_line_comment_loop]
      split
      · right; simp
      · rcases ih with h | ⟨h1, h2⟩
        · left; exact h
        · right; exact ⟨by simp only [List.length_cons]; omega, h2⟩

theorem multi_line_comment_loop_length (s : Scanner) :
    ∀ (k : Nat) (l : List Char), l.length ≤ k → ∀ (n line : Nat),
    (multi_line_comment_loop s l n line).eof = true ∨
      ((multi_line_comment_loop s l n line).program.length < l.length ∧
        (multi_line_comment_loop s l n line).state = .DEFAULT_SCAN) := by
  intro k
  induction k with
  | zero =>
      intro l hl n line
      have : l = [] := List.length_eq_zero.mp (Nat.le_zero.mp hl)
      subst this
      left; rfl
  | succ k ih =>
      intro l hl n line
      match l with
      | [] => left; rfl
      | [c] =>
          simp only [multi_line_comment_loop]
          left; trivial
      | c :: d :: rest =>
          simp only [multi_line_comment_loop]
          simp only [List.length_cons] at hl
          split
          · rcases ih rest (by omega) (n + 1) line with h | ⟨h1, h2⟩
            · left; exact h
            · right; exact ⟨by simp only [List.length_cons]; omega, h2⟩
          · split
            · split
              · right; exact ⟨by simp only [List.length_cons]; omega, rfl⟩
              · rcases ih rest (by omega) (n - 1) line with h | ⟨h1, h2⟩
                · left; exact h
                · right; exact ⟨by simp only [List.length_cons]; omega, h2⟩
            · rcases ih (d :: rest) (by simp only [List.length_cons]; omega) n
                (if c = '\n' then line + 1 else line) with h | ⟨h1, h2⟩
              · left; exact h
              · right; exact ⟨by simp only [List.length_cons] at h1 ⊢; omega, h2⟩

theorem string_scan_loop_length (s : Scanner) (l : List Char) :
    ∀ sb, (string_scan_loop s l sb).eof = true ∨
      (string_scan_loop s l sb).program.length < l.length := by
  induction l with
  | nil => intro sb; left; rfl
  | cons c rest ih =>
      intro sb
      simp only [string_scan_loop]
      split
      · right; simp
      · split
        · right; simp
        · split
          · right; simp
          · split
            · right; simp
            · split
              · right; simp
              · rcases ih (sb ++ [c]) with h | h
                · left; exact h
                · right; simp only [List.length_cons]; omega

theorem broken_string_loop_length (s : Scanner) (l : List Char) :
    ∀ escaped line r, broken_string_loop s l escaped line = .ok r →
      r.program.length < l.length ∧ r.state = .DEFAULT_SCAN := by
  induction l with
  | nil => intro e line r h; simp [broken_string_loop] at h
  | cons c rest ih =>
      intro e line r h
      simp only [broken_string_loop] at h
      split at h
      · have := ih _ _ _ h
        exact ⟨by simp only [List.length_cons]; omega, this.2⟩
      · split at h
        · split at h
          · injection h with h; subst h; simp
          · have := ih _ _ _ h
            exact ⟨by simp only [List.length_cons]; omega, this.2⟩
        · split at h
          · injection h with h; subst h; simp
          · have := ih _ _ _ h
            exact ⟨by simp only [List.length_cons]; omega, this.2⟩

theorem dropWhile_length_le {α : Type} (p : α → Bool) (l : List α) :
    (l.dropWhile p).length ≤ l.length := by
  induction l with
  | nil => simp
  | cons a l ih =>
      simp only [List.dropWhile]
      split
      · simp; omega
      · simp

theorem max_element_mem (ms : List (TokenType × Nat)) (m : TokenType × Nat)
    (h : max_element ms = some m) : m ∈ ms := by
  cases ms with
  | nil => simp [max_element] at h
  | cons first rest =>
      simp only [max_element, Option.some.injEq] at h
      subst h
      have : ∀ (rest : List (TokenType × Nat)) (first : TokenType × Nat),
          rest.foldl (fun largest m => if largest.2 < m.2 then m else largest) first = first ∨
          rest.foldl (fun largest m => if largest.2 < m.2 then m else largest) first ∈ rest := by
        intro rest
        induction rest with
        | nil => intro first; left; rfl
        | cons a rest ih =>
            intro first
            simp only [List.foldl_cons]
            split
            · rcases ih a with h | h
              · right; rw [h]; simp
              · right; exact List.mem_cons_of_mem _ h
            · rcases ih first with h | h
              · left; exact h
              · right; exact List.mem_cons_of_mem _ h
      rcases this rest first with h | h
      · rw [h]; simp
      · exact List.mem_cons_of_mem _ h

theorem mem_find_matches (next : List Char) (m : TokenType × Nat) :
    m ∈ find_matches next ↔ ∃ p, (m.1, p) ∈ patterns ∧ p.search next = some m.2 := by
  simp only [find_matches, List.mem_filterMap, Option.map_eq_some']
  constructor
  · rintro ⟨⟨ty, p⟩, hp, n, hn, rfl⟩
    exact ⟨p, hp, hn⟩
  · rintro ⟨p, hp, hn⟩
    exact ⟨(m.1, p), hp, m.2, hn, rfl⟩

theorem default_scan_length (s : Scanner) :
    (default_scan s).eof = true ∨ (default_scan s).program.length < s.program.length := by
  have hd := dropWhile_length_le is_whitespace s.program
  simp only [default_scan]
  split
  · rename_i rest h
    have := congrArg List.length (match_literal_length _ _ _ h)
    simp only [List.length_append, List.length_cons, List.length_nil] at this
    right; simp only; omega
  · split
    · rename_i rest h
      have := congrArg List.length (match_literal_length _ _ _ h)
      simp only [List.length_append, List.length_cons, List.length_nil] at this
      right; simp only; omega
    · split
      · rename_i rest h
        have := congrArg List.length (match_literal_length _ _ _ h)
        simp only [List.length_append, List.length_cons, List.length_nil] at this
        right; simp only; omega
      · split
        · rename_i rest h
          have := congrArg List.length (match_literal_length _ _ _ h)
          simp only [List.length_append, List.length_cons, List.length_nil] at this
          right; simp only; omega
        · split
          · split
            · left; rfl
            · rename_i c rest h
              rw [h] at hd
              right; simp only [List.length_cons] at hd ⊢; omega
          · rename_i ty n h
            have hm := max_element_mem _ _ h
            obtain ⟨p, hp, hn⟩ := (mem_find_matches _ _).mp hm
            have := search_length (ty, p) hp _ _ hn
            right
            simp only [List.length_drop]
            omega

theorem step_passes_left (s next : Scanner) (h : s.step = .ok next) :
    next.eof = true ∨ next.passes_left < s.passes_left := by
  unfold Scanner.step at h
  split at h
  · rename_i hs
    injection h with h; subst h
    rcases single_line_comment_loop_length s s.program with h | ⟨h1, h2⟩
    · left; exact h
    · right
      simp only [Scanner.passes_left, single_line_comment_scan, h2, hs]
      simp; omega
  · rename_i hs
    unfold multi_line_comment_scan at h
    split at h
    · exact absurd h (by simp)
    · injection h with h; subst h
      rcases multi_line_comment_loop_length s _ s.program (le_refl _) 1 s.line_number with
        h | ⟨h1, h2⟩
      · left; exact h
      · right
        simp only [Scanner.passes_left, h2, hs]
        simp; omega
  · rename_i hs
    injection h with h; subst h
    rcases string_scan_loop_length s s.program s.string_builder with h | h1
    · left; exact h
    · right
      simp only [Scanner.passes_left, string_scan, hs]
      split <;> simp <;> omega
  · rename_i hs
    injection h with h; subst h
    simp only [escaped_string_scan]
    split
    · left; rfl
    · rename_i c rest hp
      right
      simp only [Scanner.passes_left, hs, hp]
      repeat' split
      all_goals (try simp)
      all_goals (try omega)
  · rename_i hs
    have := broken_string_loop_length _ _ _ _ _ h
    right
    simp only [Scanner.passes_left, this.2, hs]
    simp
    have h2 := this.1
    simp only at h2
    omega
  · rename_i hs
    injection h with h; subst h
    right
    simp [Scanner.passes_left, hs]
  · rename_i hs
    injection h with h; subst h
    rcases default_scan_length s with h | h
    · left; exact h
    · right
      simp only [Scanner.passes_left, hs]
      split <;> simp <;> omega

theorem step_error (s : Scanner) (e : Failure) (h : s.step = .error e) : e ≠ .out_of_fuel := by
  have hb : ∀ (l : List Char) (s : Scanner) (escaped : Bool) (line : Nat),
      broken_string_loop s l escaped line = .error e → e ≠ .out_of_fuel := by
    intro l
    induction l with
    | nil =>
        intro s escaped line h
        simp only [broken_string_loop] at h
        injection h with h; subst h; simp
    | cons c rest ih =>
        intro s escaped line h
        simp only [broken_string_loop] at h
        split at h
        · exact ih _ _ _ h
        · split at h
          · split at h
            · exact absurd h (by simp)
            · exact ih _ _ _ h
          · split at h
            · exact absurd h (by simp)
            · exact ih _ _ _ h
  unfold Scanner.step at h
  split at h
  · exact absurd h (by simp)
  · unfold multi_line_comment_scan at h
    split at h
    · injection h with h; subst h; simp
    · exact absurd h (by simp)
  · exact absurd h (by simp)
  · exact absurd h (by simp)
  · exact hb _ _ _ _ h
  · exact absurd h (by simp)
  · exact absurd h (by simp)

/-- With passes to spare the loop of `scan` does not stop for lack of them. -/
theorem scan_loop_adequate : ∀ (fuel : Nat) (s : Scanner), s.passes_left < fuel →
    scan_loop fuel s ≠ .error .out_of_fuel := by
  intro fuel
  induction fuel with
  | zero => intro s h; omega
  | succ fuel ih =>
      intro s h
      simp only [scan_loop]
      split
      · simp
      · split
        · rename_i next hstep
          rcases step_passes_left s next hstep with h1 | h1
          · cases fuel with
            | zero => simp [scan_loop, h1]
            | succ fuel => simp [scan_loop, h1]
          · exact ih next (by omega)
        · rename_i e hstep
          intro hc
          injection hc with hc
          exact step_error s e hstep hc

/-- More passes do not change a result that was reached. -/
theorem scan_loop_mono : ∀ (fuel : Nat) (s : Scanner), scan_loop fuel s ≠ .error .out_of_fuel →
    ∀ k, scan_loop (fuel + k) s = scan_loop fuel s := by
  intro fuel
  induction fuel with
  | zero =>
      intro s h k
      simp only [scan_loop] at h
      split at h
      · rename_i he
        cases k with
        | zero => rfl
        | succ k => simp [scan_loop, he]
      · exact absurd rfl h
  | succ fuel ih =>
      intro s h k
      have : fuel + 1 + k = (fuel + k) + 1 := by omega
      rw [this]
      simp only [scan_loop] at h ⊢
      split
      · rfl
      · rename_i he
        simp only [he] at h
        split
        · rename_i next hstep
          simp only [hstep] at h
          exact ih next (by simpa using h) k
        · rfl

theorem scan_loop_eq_run (fuel : Nat) (s : Scanner) (h : s.passes_left < fuel) :
    scan_loop fuel s = s.run := by
  have h1 := scan_loop_mono (s.passes_left + 1) s (scan_loop_adequate _ s (by omega))
    (fuel - (s.passes_left + 1))
  have : s.passes_left + 1 + (fuel - (s.passes_left + 1)) = fuel := by omega
  rw [this] at h1
  exact h1

theorem scan_eq_run (program : List Char) : Scanner.scan program = (Scanner.init program).run := by
  apply scan_loop_eq_run
  simp [Scanner.passes_left, Scanner.init]

theorem run_eof (s : Scanner) (h : s.eof = true) : s.run = .ok s.token_stream := by
  simp [Scanner.run, scan_loop, h]

theorem run_step (s next : Scanner) (he : s.eof = false) (h : s.step = .ok next) :
    s.run = next.run := by
  have h1 : s.run = scan_loop s.passes_left next := by
    simp [Scanner.run, scan_loop, he, h]
  rw [h1]
  rcases step_passes_left s next h with h2 | h2
  · rw [run_eof next h2]
    cases hp : s.passes_left with
    | zero => simp [scan_loop, h2]
    | succ n => simp [scan_loop, h2]
  · exact scan_loop_eq_run _ _ h2

theorem run_error (s : Scanner) (e : Failure) (he : s.eof = false) (h : s.step = .error e) :
    s.run = .error e := by
  simp [Scanner.run, scan_loop, he, h]



theorem single_line_comment_loop_shift (k : Nat) (s : Scanner) (l : List Char) :
    single_line_comment_loop (s.shift k) l = (single_line_comment_loop s l).shift k := by
  induction l with
  | nil => rfl
  | cons c rest ih =>
      simp only [single_line_comment_loop]
      split
      · simp [Scanner.shift]; omega
      · exact ih

theorem multi_line_comment_loop_shift (k : Nat) (s : Scanner) :
    ∀ (m : Nat) (l : List Char), l.length ≤ m → ∀ (n line : Nat),
    multi_line_comment_loop (s.shift k) l n (line + k) =
      (multi_line_comment_loop s l n line).shift k := by
  intro m
  induction m with
  | zero =>
      intro l hl n line
      have : l = [] := List.length_eq_zero.mp (Nat.le_zero.mp hl)
      subst this
      simp [multi_line_comment_loop, Scanner.shift, Token.shift]
  | succ m ih =>
      intro l hl n line
      match l with
      | [] => simp [multi_line_comment_loop, Scanner.shift, Token.shift]
      | [c] =>
          simp only [multi_line_comment_loop]
          split
          · simp [Scanner.shift, Token.shift]; omega
          · simp [Scanner.shift, Token.shift]
      | c :: d :: rest =>
          simp only [List.length_cons] at hl
          simp only [multi_line_comment_loop]
          split
          · exact ih rest (by omega) _ _
          · split
            · split
              · simp [Scanner.shift]
              · exact ih rest (by omega) _ _
            · have := ih (d :: rest) (by simp only [List.length_cons]; omega) n
                (if c = '\n' then line + 1 else line)
              rw [← this]
              congr 1
              split <;> omega

theorem string_scan_loop_shift (k : Nat) (s : Scanner) (l : List Char) :
    ∀ sb, string_scan_loop (s.shift k) l sb = (string_scan_loop s l sb).shift k := by
  induction l with
  | nil => intro sb; simp [string_scan_loop, Scanner.shift, Token.shift]
  | cons c rest ih =>
      intro sb
      simp only [string_scan_loop]
      split
      · simp [Scanner.shift]
      · split
        · simp [Scanner.shift, Token.shift]
        · split
          · simp [Scanner.shift]
          · split
            · simp [Scanner.shift]; omega
            · split
              · simp [Scanner.shift]
              · exact ih _

theorem broken_string_loop_shift (k : Nat) (s : Scanner) (l : List Char) :
    ∀ escaped line, broken_string_loop (s.shift k) l escaped (line + k) =
      (broken_string_loop s l escaped line).map (Scanner.shift k) := by
  induction l with
  | nil => intro e line; rfl
  | cons c rest ih =>
      intro e line
      simp only [broken_string_loop]
      split
      · exact ih _ _
      · split
        · split
          · simp [Scanner.shift, Except.map]; omega
          · have := ih e (line + 1)
            rw [← this]
            congr 1
            omega
        · split
          · simp [Scanner.shift, Except.map]
          · exact ih _ _

theorem make_token_shift (k : Nat) (ty : TokenType) (str : List Char) (line : Nat) :
    make_token ty str (line + k) = (make_token ty str line).shift k := by
  cases ty <;> rfl

theorem default_scan_shift (k : Nat) (s : Scanner) :
    default_scan (s.shift k) = (default_scan s).shift k := by
  have hp : (s.shift k).program = s.program := rfl
  have hl : (s.shift k).line_number = s.line_number + k := rfl
  simp only [default_scan, hp, hl]
  split
  · simp [Scanner.shift]; omega
  · split
    · simp [Scanner.shift]; omega
    · split
      · simp [Scanner.shift]; omega
      · split
        · simp [Scanner.shift]; omega
        · split
          · split
            · simp [Scanner.shift]; omega
            · simp [Scanner.shift]; omega
          · simp only [Scanner.shift, List.map_append, List.map_cons, List.map_nil,
              ← make_token_shift]
            generalize List.count '\n' (List.takeWhile is_whitespace s.program) = n
            have e : s.line_number + k + n = s.line_number + n + k := by omega
            rw [e]

theorem step_shift (k : Nat) (s : Scanner) :
    (s.shift k).step = s.step.map (Scanner.shift k) := by
  have hs : (s.shift k).state = s.state := rfl
  unfold Scanner.step
  rw [hs]
  split
  · simp only [single_line_comment_scan, Except.map]
    exact congrArg _ (single_line_comment_loop_shift k s s.program)
  · simp only [multi_line_comment_scan]
    have hp : (s.shift k).program = s.program := rfl
    rw [hp]
    split
    · rfl
    · simp only [Except.map]
      exact congrArg _ (multi_line_comment_loop_shift k s _ s.program (le_refl _) 1 s.line_number)
  · simp only [string_scan, Except.map]
    exact congrArg _ (string_scan_loop_shift k s s.program s.string_builder)
  · simp only [escaped_string_scan, Except.map]
    have hp : (s.shift k).program = s.program := rfl
    rw [hp]
    split
    · simp [Scanner.shift, Token.shift]
    · repeat' split
      all_goals simp [Scanner.shift]
      all_goals omega
  · simp only [broken_string_scan]
    have := broken_string_loop_shift k
      { s with token_stream := s.token_stream ++ [.ErrorToken s.error_message s.line_number] }
      s.program false s.line_number
    rw [← this]
    simp [Scanner.shift, Token.shift]
  · simp [Scanner.shift, Token.shift, Except.map]
  · simp only [Except.map]
    exact congrArg _ (default_scan_shift k s)

theorem scan_loop_shift (k : Nat) : ∀ (fuel : Nat) (s : Scanner),
    scan_loop fuel (s.shift k) = (scan_loop fuel s).map (List.map (Token.shift k)) := by
  intro fuel
  induction fuel with
  | zero =>
      intro s
      have he : (s.shift k).eof = s.eof := rfl
      simp only [scan_loop, he]
      split <;> rfl
  | succ fuel ih =>
      intro s
      have he : (s.shift k).eof = s.eof := rfl
      simp only [scan_loop, he]
      split
      · rfl
      · rw [step_shift]
        cases s.step with
        | error e => rfl
        | ok next => simp only [Except.map]; exact ih next

theorem run_shift (k : Nat) (s : Scanner) :
    (s.shift k).run = s.run.map (List.map (Token.shift k)) := by
  have : (s.shift k).passes_left = s.passes_left := rfl
  simp only [Scanner.run, this]
  exact scan_loop_shift k _ s

theorem multi_line_comment_loop_closes (s : Scanner) (R : List Char) :
    ∀ (m : Nat) (body : List Char), body.length ≤ m → ∀ (depth line : Nat),
    closes_comment body depth = true →
    multi_line_comment_loop s (body ++ R) (depth + 1) line =
      { s with program := R, line_number := line + body.count '\n', state := .DEFAULT_SCAN } := by
  intro m
  induction m with
  | zero =>
      intro body hl depth line h
      have : body = [] := List.length_eq_zero.mp (Nat.le_zero.mp hl)
      subst this
      simp [closes_comment] at h
  | succ m ih =>
      intro body hl depth line h
      match body with
      | [] => simp [closes_comment] at h
      | [c] => simp [closes_comment] at h
      | c :: d :: rest =>
          simp only [List.length_cons] at hl
          simp only [closes_comment] at h
          have e0 : (c :: d :: rest) ++ R = c :: d :: (rest ++ R) := rfl
          rw [e0]
          simp only [multi_line_comment_loop]
          split
          · rename_i hc
            simp only [hc, and_self, if_true] at h
            rw [ih rest (by omega) _ _ h]
            have h1 : c ≠ '\n' := by rw [hc.1]; decide
            have h2 : d ≠ '\n' := by rw [hc.2]; decide
            simp [List.count_cons, h1, h2]
          · rename_i hc
            simp only [hc, if_false] at h
            split
            · rename_i hc2
              simp only [hc2, and_self, if_true] at h
              have h1 : c ≠ '\n' := by rw [hc2.1]; decide
              have h2 : d ≠ '\n' := by rw [hc2.2]; decide
              split
              · rename_i hd
                have hd0 : depth = 0 := by omega
                simp only [hd0, if_true, List.isEmpty_iff] at h
                subst h
                simp [List.count_cons, h1, h2]
              · rename_i hd
                have hd0 : ¬ depth = 0 := by omega
                simp only [hd0, if_false] at h
                have := ih rest (by omega) (depth - 1) line h
                have e : depth - 1 + 1 = depth + 1 - 1 := by omega
                rw [e] at this
                rw [this]
                simp [List.count_cons, h1, h2]
            · rename_i hc2
              simp only [hc2, if_false] at h
              have := ih (d :: rest) (by simp only [List.length_cons]; omega) depth
                (if c = '\n' then line + 1 else line) h
              simp only [List.cons_append] at this
              rw [this]
              congr 1
              by_cases hn : c = '\n'
              · subst hn
                simp [List.count_cons]
                omega
              · simp [List.count_cons, hn]



/-- C25: for a text `C` followed by `R`, where `C` is a block comment whose
`(*` and `*)` are properly nested, the lexer yields what it yields for `R`
alone, every token with its line number increased by the number of newlines of
`C` (and it fails on the whole text exactly as it fails on `R`). -/
theorem C25_nested_block_comment (C R : List Char) (h : is_block_comment C = true) :
    Scanner.scan (C ++ R) =
      (Scanner.scan R).map (List.map (Token.shift (C.count '\n'))) := by
  match C, h with
  | c :: d :: body, h =>
      simp only [is_block_comment, Bool.decide_and, Bool.decide_eq_true, Bool.and_eq_true,
        decide_eq_true_eq] at h
      obtain ⟨hc, hd, hb⟩ := h
      subst hc hd
      match body, hb with
      | x :: y :: rest, hb =>
          rw [scan_eq_run, scan_eq_run]
          have s1 : (Scanner.init ('(' :: '*' :: (x :: y :: rest) ++ R)).step =
              .ok ⟨(x :: y :: rest) ++ R, false, [], 1, [], "", .MULTI_LINE_COMMENT_SCAN⟩ := rfl
          rw [run_step _ _ rfl s1]
          have s2 : (⟨(x :: y :: rest) ++ R, false, [], 1, [], "",
                .MULTI_LINE_COMMENT_SCAN⟩ : Scanner).step =
              .ok ((Scanner.init R).shift (List.count '\n' ('(' :: '*' :: x :: y :: rest))) := by
            have := multi_line_comment_loop_closes
              ⟨(x :: y :: rest) ++ R, false, [], 1, [], "", .MULTI_LINE_COMMENT_SCAN⟩ R _
              (x :: y :: rest) (le_refl _) 0 1 hb
            show Except.ok (multi_line_comment_loop
              ⟨(x :: y :: rest) ++ R, false, [], 1, [], "", .MULTI_LINE_COMMENT_SCAN⟩
              ((x :: y :: rest) ++ R) (0 + 1) 1) = _
            rw [this]
            simp [Scanner.shift, Scanner.init, List.count_cons]
          rw [run_step _ _ rfl s2]
          exact run_shift _ _

/-- C25 at a comment of two levels and two newlines in front of `x <- 1`. -/
theorem C25_nested_block_comment_witness :
    is_block_comment "(* a (* b\n *) c\n *)".toList = true ∧
    Scanner.scan ("(* a (* b\n *) c\n *)".toList ++ " x <- 1".toList) =
      (Scanner.scan " x <- 1".toList).map
        (List.map (Token.shift ("(* a (* b\n *) c\n *)".toList.count '\n'))) ∧
    Scanner.scan "(* a (* b\n *) c\n *) x <- 1".toList =
      .ok [.ObjIdToken "x" 3, .BaseToken .ASSIGN 3, .IntToken "1" 3] :=
  ⟨rfl, C25_nested_block_comment _ _ rfl, rfl⟩



theorem patterns_split :
    patterns = keywords.map (fun k => (k.1, Pattern.keyword k.2)) ++
      [(.BOOL, .bool), (.INTEGER, .integer), (.OBJ_IDENTIFIER, .obj_identifier),
        (.TYPE_IDENTIFIER, .type_identifier)] ++
      punctuation.map (fun k => (k.1, Pattern.literal k.2)) := by
  rfl

theorem is_lower_word (c : Char) (h : is_lower c = true) : is_word_char c = true := by
  simp [is_word_char, h]

theorem is_upper_word (c : Char) (h : is_upper c = true) : is_word_char c = true := by
  simp [is_word_char, h]

theorem to_lower_lower (c : Char) (h : is_lower c = true) : to_lower c = c := by
  have : is_upper c = false := by
    simp only [is_lower, is_upper, decide_eq_true_eq, decide_eq_false_iff_not] at h ⊢
    have e1 : 'a'.toNat = 97 := rfl
    have e2 : 'Z'.toNat = 90 := rfl
    omega
  simp [to_lower, this]

theorem to_lower_letter (c p : Char) (hp : is_lower p = true) (h : to_lower c = p) :
    is_lower c = true ∨ is_upper c = true := by
  unfold to_lower at h
  split at h
  · right; assumption
  · left; rw [h]; exact hp

theorem takeWhile_append_boundary (w rest : List Char) (hw : w.all is_word_char = true)
    (hrest : at_word_boundary rest = true) :
    (w ++ rest).takeWhile is_word_char = w := by
  induction w with
  | nil =>
      cases rest with
      | nil => rfl
      | cons c r =>
          simp only [at_word_boundary, Bool.not_eq_true'] at hrest
          simp [List.takeWhile, hrest]
  | cons c w ih =>
      simp only [List.all_cons, Bool.and_eq_true] at hw
      simp [List.takeWhile, hw.1, ih hw.2]

theorem match_icase_of_map (word : List Char) :
    ∀ (w rest : List Char), w.map to_lower = word.map to_lower →
      match_icase word (w ++ rest) = some rest := by
  induction word with
  | nil => intro w rest h; simp at h; subst h; rfl
  | cons p word ih =>
      intro w rest h
      cases w with
      | nil => simp at h
      | cons c w =>
          simp only [List.map_cons, List.cons.injEq] at h
          simp only [List.cons_append, match_icase, h.1, if_true]
          exact ih w rest h.2

/-- On a run of word characters that ends at a word boundary, a keyword
pattern can only match the whole run. -/
theorem match_icase_word (word : List Char) (hword : word.all is_lower = true) :
    ∀ (w rest r : List Char), w.all is_word_char = true → at_word_boundary rest = true →
      match_icase word (w ++ rest) = some r → at_word_boundary r = true →
      w.map to_lower = word.map to_lower ∧ r = rest := by
  induction word with
  | nil =>
      intro w rest r hw hrest h hr
      simp only [match_icase, Option.some.injEq] at h
      subst h
      cases w with
      | nil => exact ⟨rfl, rfl⟩
      | cons c w =>
          simp only [List.all_cons, Bool.and_eq_true] at hw
          simp [at_word_boundary, hw.1] at hr
  | cons p word ih =>
      intro w rest r hw hrest h hr
      simp only [List.all_cons, Bool.and_eq_true] at hword
      cases w with
      | nil =>
          cases rest with
          | nil => simp [match_icase] at h
          | cons c rest =>
              simp only [List.nil_append, match_icase] at h
              split at h
              · rename_i hc
                rw [to_lower_lower p hword.1] at hc
                have := to_lower_letter c p hword.1 hc
                simp only [at_word_boundary, Bool.not_eq_true'] at hrest
                rcases this with h1 | h1
                · rw [is_lower_word c h1] at hrest; exact absurd hrest (by simp)
                · rw [is_upper_word c h1] at hrest; exact absurd hrest (by simp)
              · exact absurd h (by simp)
      | cons c w =>
          simp only [List.all_cons, Bool.and_eq_true] at hw
          simp only [List.cons_append, match_icase] at h
          split at h
          · rename_i hc
            obtain ⟨h1, h2⟩ := ih hword.2 w rest r hw.2 hrest h hr
            exact ⟨by simp [hc, h1], h2⟩
          · exact absurd h (by simp)

theorem keyword_search_word (word w rest : List Char) (hword : word.all is_lower = true)
    (hw : w.all is_word_char = true) (hrest : at_word_boundary rest = true) :
    (Pattern.keyword word).search (w ++ rest) =
      if w.map to_lower = word.map to_lower then some w.length else none := by
  simp only [Pattern.search]
  split
  · rename_i r hm
    split
    · rename_i hr
      obtain ⟨h1, h2⟩ := match_icase_word word hword w rest r hw hrest hm hr
      have : word.length = w.length := by
        have := congrArg List.length h1
        simpa using this.symm
      simp [h1, this]
    · rename_i hr
      split
      · rename_i he
        rw [match_icase_of_map word w rest he] at hm
        injection hm with hm
        subst hm
        exact absurd hrest hr
      · rfl
  · rename_i hm
    split
    · rename_i he
      rw [match_icase_of_map word w rest he] at hm
      exact absurd hm (by simp)
    · rfl

theorem match_sets_of_word (sets : List (List Char)) :
    ∀ (w rest : List Char), match_sets sets w = some [] →
      match_sets sets (w ++ rest) = some rest := by
  induction sets with
  | nil => intro w rest h; simp only [match_sets, Option.some.injEq] at h; subst h; rfl
  | cons set sets ih =>
      intro w rest h
      cases w with
      | nil => simp [match_sets] at h
      | cons c w =>
          simp only [match_sets] at h
          split at h
          · rename_i hc
            simp only [List.cons_append, match_sets, hc, if_true]
            exact ih w rest h
          · exact absurd h (by simp)

theorem match_sets_word (sets : List (List Char))
    (hsets : sets.all (fun set => set.all is_word_char) = true) :
    ∀ (w rest r : List Char), w.all is_word_char = true → at_word_boundary rest = true →
      match_sets sets (w ++ rest) = some r → at_word_boundary r = true →
      match_sets sets w = some [] ∧ r = rest := by
  induction sets with
  | nil =>
      intro w rest r hw hrest h hr
      simp only [match_sets, Option.some.injEq] at h
      subst h
      cases w with
      | nil => exact ⟨rfl, rfl⟩
      | cons c w =>
          simp only [List.all_cons, Bool.and_eq_true] at hw
          simp [at_word_boundary, hw.1] at hr
  | cons set sets ih =>
      intro w rest r hw hrest h hr
      simp only [List.all_cons, Bool.and_eq_true] at hsets
      cases w with
      | nil =>
          cases rest with
          | nil => simp [match_sets] at h
          | cons c rest =>
              simp only [List.nil_append, match_sets] at h
              split at h
              · rename_i hc
                have := List.all_eq_true.mp hsets.1 c hc
                simp [at_word_boundary, this] at hrest
              · exact absurd h (by simp)
      | cons c w =>
          simp only [List.all_cons, Bool.and_eq_true] at hw
          simp only [List.cons_append, match_sets] at h
          split at h
          · rename_i hc
            obtain ⟨h1, h2⟩ := ih hsets.2 w rest r hw.2 hrest h hr
            exact ⟨by simp [match_sets, hc, h1], h2⟩
          · exact absurd h (by simp)

theorem match_sets_some_length (sets : List (List Char)) :
    ∀ (w : List Char), match_sets sets w = some [] → w.length = sets.length := by
  intro w h
  obtain ⟨u, h1, h2⟩ := match_sets_length sets w [] h
  simp at h1
  rw [h1, h2]

theorem bool_search_word (w rest : List Char) (hw : w.all is_word_char = true)
    (hrest : at_word_boundary rest = true) :
    Pattern.bool.search (w ++ rest) = if is_bool_word w then some w.length else none := by
  have ht : ([['t'], ['r', 'R'], ['u', 'U'], ['e', 'E']] : List (List Char)).all
      (fun set => set.all is_word_char) = true := by decide
  have hf : ([['f'], ['a', 'A'], ['l', 'L'], ['s', 'S'], ['e', 'E']] : List (List Char)).all
      (fun set => set.all is_word_char) = true := by decide
  simp only [Pattern.search, is_bool_word]
  split
  · rename_i r hm
    split
    · rename_i hr
      obtain ⟨h1, h2⟩ := match_sets_word _ ht w rest r hw hrest hm hr
      have := match_sets_some_length _ w h1
      simp at this
      simp [h1, this]
    · rename_i hr
      have h1 : ¬ match_sets [['t'], ['r', 'R'], ['u', 'U'], ['e', 'E']] w = some [] := by
        intro h1
        rw [match_sets_of_word _ w rest h1] at hm
        injection hm with hm
        subst hm
        exact hr hrest
      have h2 : ¬ match_sets [['f'], ['a', 'A'], ['l', 'L'], ['s', 'S'], ['e', 'E']] w
          = some [] := by
        intro h2
        have h3 := match_sets_of_word _ w rest h2
        cases w with
        | nil => simp [match_sets] at h2
        | cons c w =>
            simp only [List.cons_append, match_sets] at hm h3
            split at hm
            · rename_i hc
              split at h3
              · rename_i hc2
                simp at hc hc2
                rw [hc] at hc2
                exact absurd hc2 (by decide)
              · exact absurd h3 (by simp)
            · exact absurd hm (by simp)
      simp [h1, h2]
  · rename_i hm
    have h1 : ¬ match_sets [['t'], ['r', 'R'], ['u', 'U'], ['e', 'E']] w = some [] := by
      intro h1
      rw [match_sets_of_word _ w rest h1] at hm
      exact absurd hm (by simp)
    split
    · rename_i r hm2
      split
      · rename_i hr
        obtain ⟨h3, h4⟩ := match_sets_word _ hf w rest r hw hrest hm2 hr
        have := match_sets_some_length _ w h3
        simp at this
        simp [h3, this]
      · rename_i hr
        have h2 : ¬ match_sets [['f'], ['a', 'A'], ['l', 'L'], ['s', 'S'], ['e', 'E']] w
            = some [] := by
          intro h2
          rw [match_sets_of_word _ w rest h2] at hm2
          injection hm2 with hm2
          subst hm2
          exact hr hrest
        simp [h1, h2]
    · rename_i hm2
      have h2 : ¬ match_sets [['f'], ['a', 'A'], ['l', 'L'], ['s', 'S'], ['e', 'E']] w
          = some [] := by
        intro h2
        rw [match_sets_of_word _ w rest h2] at hm2
        exact absurd hm2 (by simp)
      simp [h1, h2]



theorem map_to_lower_lower (word : List Char) (h : word.all is_lower = true) :
    word.map to_lower = word := by
  induction word with
  | nil => rfl
  | cons p word ih =>
      simp only [List.all_cons, Bool.and_eq_true] at h
      simp [to_lower_lower p h.1, ih h.2]

theorem keywords_lower : ∀ k ∈ keywords, k.2.all is_lower = true := by decide

theorem keywords_nodup : (keywords.map (fun k => k.2)).Nodup := by decide

theorem letter_not_digit (c : Char) (h : is_lower c = true ∨ is_upper c = true) :
    is_digit c = false := by
  simp only [is_lower, is_upper, is_digit, decide_eq_true_eq, decide_eq_false_iff_not] at h ⊢
  have e1 : 'a'.toNat = 97 := rfl
  have e2 : 'A'.toNat = 65 := rfl
  have e3 : '9'.toNat = 57 := rfl
  omega

theorem letter_word (c : Char) (h : is_lower c = true ∨ is_upper c = true) :
    is_word_char c = true := by
  rcases h with h | h
  · exact is_lower_word c h
  · exact is_upper_word c h

theorem lower_not_upper (c : Char) (h : is_lower c = true) : is_upper c = false := by
  simp only [is_lower, is_upper, decide_eq_true_eq, decide_eq_false_iff_not] at h ⊢
  have e1 : 'a'.toNat = 97 := rfl
  have e2 : 'Z'.toNat = 90 := rfl
  omega

theorem match_literal_first (p c : Char) (text next : List Char) (h : c ≠ p) :
    match_literal (p :: text) (c :: next) = none := by
  simp [match_literal, h]

theorem punctuation_first :
    punctuation.all (fun k => match k.2 with | p :: _ => !is_word_char p | [] => false) = true := by
  decide

theorem punctuation_search_word (c : Char) (next : List Char) (hc : is_word_char c = true) :
    (punctuation.map (fun k => (k.1, Pattern.literal k.2))).filterMap
      (fun pattern => (pattern.2.search (c :: next)).map fun length => (pattern.1, length)) = [] := by
  rw [List.filterMap_eq_nil_iff]
  intro pattern hp
  simp only [List.mem_map] at hp
  obtain ⟨k, hk, rfl⟩ := hp
  have := List.all_eq_true.mp punctuation_first k hk
  match hk2 : k.2 with
  | [] => simp [hk2] at this
  | p :: text =>
      simp only [hk2, Bool.not_eq_true'] at this
      have hne : c ≠ p := by
        intro h; subst h; rw [hc] at this; exact absurd this (by simp)
      simp [Pattern.search, match_literal_first p c text next hne]

theorem keywords_search_word (w rest : List Char) (hw : w.all is_word_char = true)
    (hrest : at_word_boundary rest = true) :
    (keywords.map (fun k => (k.1, Pattern.keyword k.2))).filterMap
      (fun pattern => (pattern.2.search (w ++ rest)).map fun length => (pattern.1, length)) =
    keywords.filterMap (fun k => if w.map to_lower = k.2 then some (k.1, w.length) else none) := by
  rw [List.filterMap_map]
  apply List.filterMap_congr
  intro k hk
  simp only [Function.comp]
  rw [keyword_search_word k.2 w rest (keywords_lower k hk) hw hrest,
    map_to_lower_lower k.2 (keywords_lower k hk)]
  split <;> rfl

theorem filterMap_key {α β : Type} [DecidableEq β] (f : α × β → Nat) :
    ∀ (l : List (α × β)) (key : β),
      (l.map (fun k => k.2)).Nodup → ∀ k ∈ l, k.2 = key →
      l.filterMap (fun e => if key = e.2 then some (e.1, f e) else none) = [(k.1, f k)] := by
  intro l key
  induction l with
  | nil => intro _ k hk; simp at hk
  | cons a l ih =>
      intro hn k hk hkey
      simp only [List.map_cons, List.nodup_cons, List.mem_map, not_exists, not_and] at hn
      simp only [List.mem_cons] at hk
      rcases hk with hk | hk
      · subst hk
        have : l.filterMap (fun e => if key = e.2 then some (e.1, f e) else none) = [] := by
          rw [List.filterMap_eq_nil_iff]
          intro e he
          have := hn.1 e he
          rw [hkey] at this
          simp [Ne.symm this]
        simp [List.filterMap_cons, hkey, this]
      · have hne : key ≠ a.2 := by
          intro h
          have := hn.1 k hk
          rw [hkey, h] at this
          exact this rfl
        simp only [List.filterMap_cons, hne, if_false]
        exact ih hn.2 k hk hkey

/-- The matches at the start of a word that ends at a word boundary: the
keyword it spells, `BOOL` when it spells `true` or `false`, and the identifier
pattern of its first letter, each with the length of the word. -/
theorem find_matches_word (c : Char) (t rest : List Char)
    (hw : is_word (c :: t) = true) (hrest : at_word_boundary rest = true) :
    find_matches (c :: t ++ rest) =
      keywords.filterMap
        (fun k => if (c :: t).map to_lower = k.2 then some (k.1, (c :: t).length) else none) ++
      (if is_bool_word (c :: t) then [(.BOOL, (c :: t).length)] else []) ++
      (if is_lower c then [(.OBJ_IDENTIFIER, (c :: t).length)] else []) ++
      (if is_upper c then [(.TYPE_IDENTIFIER, (c :: t).length)] else []) := by
  simp only [is_word, Bool.and_eq_true, Bool.or_eq_true] at hw
  have hall : (c :: t).all is_word_char = true := by
    simp only [List.all_cons, Bool.and_eq_true]
    exact ⟨letter_word c hw.1, hw.2⟩
  have hk := keywords_search_word (c :: t) rest hall hrest
  have hb := bool_search_word (c :: t) rest hall hrest
  have hp := punctuation_search_word c (t ++ rest) (letter_word c hw.1)
  have hrun := takeWhile_append_boundary t rest hw.2 hrest
  have hd := letter_not_digit c hw.1
  have e : 1 + t.length = (c :: t).length := by simp; omega
  have hi : Pattern.integer.search (c :: (t ++ rest)) = none := by
    simp [Pattern.search, hd]
  have ho : Pattern.obj_identifier.search (c :: (t ++ rest)) =
      if is_lower c then some (c :: t).length else none := by
    simp only [Pattern.search, hrun, e]
  have ht : Pattern.type_identifier.search (c :: (t ++ rest)) =
      if is_upper c then some (c :: t).length else none := by
    simp only [Pattern.search, hrun, e]
  simp only [find_matches]
  rw [patterns_split, List.filterMap_append, List.filterMap_append]
  simp only [List.cons_append] at hk hb hp ⊢
  rw [hk, hp, List.append_nil]
  simp only [List.filterMap_cons, List.filterMap_nil, hb, hi, ho, ht]
  simp only [List.append_assoc]
  congr 1
  by_cases h1 : is_bool_word (c :: t) = true <;> by_cases h2 : is_lower c = true <;>
    by_cases h3 : is_upper c = true <;> simp [h1, h2, h3]

theorem max_element_first (first : TokenType × Nat) (rest : List (TokenType × Nat))
    (h : ∀ m ∈ rest, m.2 ≤ first.2) : max_element (first :: rest) = some first := by
  simp only [max_element, Option.some.injEq]
  induction rest with
  | nil => rfl
  | cons a rest ih =>
      simp only [List.foldl_cons]
      have h1 : ¬ first.2 < a.2 := by
        have := h a (by simp)
        omega
      simp only [h1, if_false]
      exact ih (fun m hm => h m (List.mem_cons_of_mem _ hm))

theorem letter_of_word (c : Char) (t : List Char) (hw : is_word (c :: t) = true) :
    is_lower c = true ∨ is_upper c = true := by
  simp only [is_word, Bool.and_eq_true, Bool.or_eq_true] at hw
  exact hw.1

/-- The start of `default_scan` in front of a character that is neither
whitespace nor the start of a comment, of a string or of `*)`. -/
theorem default_scan_token (s : Scanner) (c : Char) (next : List Char)
    (hp : s.program = c :: next) (h1 : is_whitespace c = false) (h2 : c ≠ '-')
    (h3 : c ≠ '(') (h4 : c ≠ '"') (h5 : c ≠ '*') (ty : TokenType) (n : Nat)
    (hm : max_element (find_matches (c :: next)) = some (ty, n)) :
    default_scan s =
      { s with program := (c :: next).drop n,
               token_stream := s.token_stream ++ [make_token ty ((c :: next).take n) s.line_number] } := by
  simp only [default_scan, hp, List.takeWhile, List.dropWhile, h1, match_literal, h2, h3, h4, h5,
    if_false, hm, List.count_nil, Nat.add_zero]

theorem letter_plain (c : Char) (h : is_lower c = true ∨ is_upper c = true) :
    is_whitespace c = false ∧ c ≠ '-' ∧ c ≠ '(' ∧ c ≠ '"' ∧ c ≠ '*' := by
  have hne : ∀ p : Char, (is_lower p || is_upper p) = false → c ≠ p := by
    intro p hp hc
    subst hc
    rcases h with h | h <;> simp [h] at hp
  refine ⟨?_, hne _ (by decide), hne _ (by decide), hne _ (by decide), hne _ (by decide)⟩
  simp only [is_whitespace, Bool.or_eq_false_iff, beq_eq_false_iff_ne]
  exact ⟨⟨⟨⟨⟨hne _ (by decide), hne _ (by decide)⟩, hne _ (by decide)⟩, hne _ (by decide)⟩,
    hne _ (by decide)⟩, hne _ (by decide)⟩

theorem keywords_make_token : ∀ k ∈ keywords, ∀ (str : List Char) (line : Nat),
    make_token k.1 str line = .BaseToken k.1 line := by
  intro k hk str line
  simp only [keywords, patterns, List.filterMap_cons, List.filterMap_nil, List.mem_cons,
    List.mem_singleton, List.not_mem_nil, or_false] at hk
  rcases hk with hk | hk | hk | hk | hk | hk | hk | hk | hk | hk | hk | hk | hk | hk | hk | hk | hk
  all_goals subst hk
  all_goals rfl

/-- In front of a keyword in any letter case that ends at a word boundary,
`default_scan` adds the token of the keyword. -/
theorem default_scan_keyword (s : Scanner) (k : TokenType × List Char) (hk : k ∈ keywords)
    (w rest : List Char) (hw : w.map to_lower = k.2) (hrest : at_word_boundary rest = true)
    (hp : s.program = w ++ rest) :
    is_word w = true ∧
    max_element (find_matches (w ++ rest)) = some (k.1, w.length) ∧
    default_scan s =
      { s with program := rest,
               token_stream := s.token_stream ++ [.BaseToken k.1 s.line_number] } := by
  have hlow := keywords_lower k hk
  have hlen : w.length = k.2.length := by
    have := congrArg List.length hw
    simpa using this
  have hword : is_word w = true := by
    have hall : ∀ (w word : List Char), word.all is_lower = true → w.map to_lower = word →
        w.all (fun c => is_lower c || is_upper c) = true := by
      intro w
      induction w with
      | nil => intro _ _ _; rfl
      | cons c w ih =>
          intro word h1 h2
          cases word with
          | nil => simp at h2
          | cons p word =>
              simp only [List.all_cons, Bool.and_eq_true] at h1
              simp only [List.map_cons, List.cons.injEq] at h2
              simp only [List.all_cons, Bool.and_eq_true, Bool.or_eq_true]
              exact ⟨to_lower_letter c p h1.1 h2.1, ih word h1.2 h2.2⟩
    have h1 := hall w k.2 hlow hw
    have hne : k.2 ≠ [] := by
      have : ∀ k ∈ keywords, k.2 ≠ [] := by decide
      exact this k hk
    cases w with
    | nil => simp at hw; exact absurd hw hne
    | cons c t =>
        simp only [List.all_cons, Bool.and_eq_true] at h1
        simp only [is_word, Bool.and_eq_true]
        refine ⟨h1.1, ?_⟩
        rw [List.all_eq_true] at h1 ⊢
        intro x hx
        have := h1.2 x hx
        simp only [Bool.or_eq_true] at this
        exact letter_word x this
  match w, hword, hw, hp, hlen with
  | c :: t, hword, hw, hp, hlen =>
      have hm : max_element (find_matches (c :: t ++ rest)) = some (k.1, (c :: t).length) := by
        rw [find_matches_word c t rest hword hrest]
        have := filterMap_key (fun _ => (c :: t).length) keywords ((c :: t).map to_lower)
          keywords_nodup k hk hw.symm
        rw [this]
        simp only [List.singleton_append, List.cons_append, List.nil_append]
        apply max_element_first
        intro m hm
        simp only [List.mem_append] at hm
        rcases hm with (hm | hm) | hm
        · split at hm
          · simp at hm; rw [hm]; simp
          · simp at hm
        · split at hm
          · simp at hm; rw [hm]; simp
          · simp at hm
        · split at hm
          · simp at hm; rw [hm]; simp
          · simp at hm
      refine ⟨hword, hm, ?_⟩
      obtain ⟨p1, p2, p3, p4, p5⟩ := letter_plain c (letter_of_word c t hword)
      rw [default_scan_token s c (t ++ rest) hp p1 p2 p3 p4 p5 k.1 (c :: t).length hm]
      rw [keywords_make_token k hk]
      have e : (c :: (t ++ rest)).drop (c :: t).length = rest := by
        have : c :: (t ++ rest) = (c :: t) ++ rest := rfl
        rw [this, List.drop_left]
      rw [e]



theorem keywords_none (w : List Char) (n : Nat) (h : is_keyword_word w = false) :
    keywords.filterMap (fun k => if w.map to_lower = k.2 then some (k.1, n) else none) = [] := by
  rw [List.filterMap_eq_nil_iff]
  intro k hk
  simp only [is_keyword_word, List.any_eq_false, beq_iff_eq] at h
  simp [h k hk]

/-- In front of a word that is not a keyword and not a spelling of `true` or
`false` and that ends at a word boundary, `default_scan` adds the identifier
token of the word. -/
theorem default_scan_identifier (s : Scanner) (w rest : List Char) (hw : is_word w = true)
    (hk : is_keyword_word w = false) (hb : is_bool_word w = false)
    (hrest : at_word_boundary rest = true) (hp : s.program = w ++ rest) :
    default_scan s =
      { s with program := rest,
               token_stream := s.token_stream ++ [identifier_token w s.line_number] } := by
  match w, hw, hk, hb, hp with
  | c :: t, hw, hk, hb, hp =>
      have hl := letter_of_word c t hw
      obtain ⟨p1, p2, p3, p4, p5⟩ := letter_plain c hl
      have e : (c :: (t ++ rest)).drop (c :: t).length = rest := by
        have : c :: (t ++ rest) = (c :: t) ++ rest := rfl
        rw [this, List.drop_left]
      have e2 : (c :: (t ++ rest)).take (c :: t).length = c :: t := by
        have : c :: (t ++ rest) = (c :: t) ++ rest := rfl
        rw [this, List.take_left]
      have hf := find_matches_word c t rest hw hrest
      rw [keywords_none _ _ hk, hb] at hf
      by_cases h1 : is_lower c = true
      · have h2 := lower_not_upper c h1
        simp only [h1, h2, if_true, List.nil_append, List.append_nil, Bool.false_eq_true,
          if_false] at hf
        have hm : max_element (find_matches (c :: (t ++ rest))) =
            some (.OBJ_IDENTIFIER, (c :: t).length) := by
          rw [show c :: (t ++ rest) = c :: t ++ rest from rfl, hf]; rfl
        rw [default_scan_token s c (t ++ rest) hp p1 p2 p3 p4 p5 _ _ hm, e, e2]
        simp [identifier_token, make_token, h1]
      · have h2 : is_upper c = true := by
          rcases hl with h | h
          · exact absurd h h1
          · exact h
        simp only [h1, h2, if_true, List.nil_append, List.append_nil, Bool.false_eq_true,
          if_false] at hf
        have hm : max_element (find_matches (c :: (t ++ rest))) =
            some (.TYPE_IDENTIFIER, (c :: t).length) := by
          rw [show c :: (t ++ rest) = c :: t ++ rest from rfl, hf]; rfl
        rw [default_scan_token s c (t ++ rest) hp p1 p2 p3 p4 p5 _ _ hm, e, e2]
        simp [identifier_token, make_token, h1]

theorem bool_word_lower (w : List Char) (h : is_bool_word w = true) :
    w.map to_lower = ['t', 'r', 'u', 'e'] ∨ w.map to_lower = ['f', 'a', 'l', 's', 'e'] := by
  simp only [is_bool_word, Bool.or_eq_true, beq_iff_eq] at h
  rcases h with h | h
  · left
    match w, h with
    | [c1, c2, c3, c4], h =>
        simp only [match_sets, List.mem_cons, List.mem_singleton, List.not_mem_nil, or_false] at h
        split at h
        · rename_i h1
          split at h
          · rename_i h2
            split at h
            · rename_i h3
              split at h
              · rename_i h4
                subst h1
                rcases h2 with h2 | h2 <;> rcases h3 with h3 | h3 <;> rcases h4 with h4 | h4 <;>
                  subst h2 <;> subst h3 <;> subst h4 <;> decide
              · exact absurd h (by simp)
            · exact absurd h (by simp)
          · exact absurd h (by simp)
        · exact absurd h (by simp)
    | [], h => simp [match_sets] at h
    | [_], h => simp only [match_sets] at h; split at h <;> simp at h
    | [_, _], h =>
        simp only [match_sets] at h
        split at h
        · split at h <;> simp at h
        · simp at h
    | [_, _, _], h =>
        simp only [match_sets] at h
        split at h
        · split at h
          · split at h <;> simp at h
          · simp at h
        · simp at h
    | _ :: _ :: _ :: _ :: _ :: _, h =>
        simp only [match_sets] at h
        split at h
        · split at h
          · split at h
            · split at h <;> simp at h
            · simp at h
          · simp at h
        · simp at h
  · right
    have hlen := match_sets_some_length _ w h
    simp only [List.length_cons, List.length_nil] at hlen
    match w, h, hlen with
    | [c1, c2, c3, c4, c5], h, _ =>
        simp only [match_sets, List.mem_cons, List.mem_singleton, List.not_mem_nil, or_false] at h
        split at h
        · rename_i h1
          split at h
          · rename_i h2
            split at h
            · rename_i h3
              split at h
              · rename_i h4
                split at h
                · rename_i h5
                  subst h1
                  rcases h2 with h2 | h2 <;> rcases h3 with h3 | h3 <;>
                    rcases h4 with h4 | h4 <;> rcases h5 with h5 | h5 <;>
                    subst h2 <;> subst h3 <;> subst h4 <;> subst h5 <;> decide
                · exact absurd h (by simp)
              · exact absurd h (by simp)
            · exact absurd h (by simp)
          · exact absurd h (by simp)
        · exact absurd h (by simp)

theorem keywords_not_bool : ∀ k ∈ keywords,
    ¬ k.2 <+: ['t', 'r', 'u', 'e'] ∧ ¬ k.2 <+: ['f', 'a', 'l', 's', 'e'] := by
  decide



theorem keywords_not_identifier : ∀ k ∈ keywords,
    k.1 ≠ .OBJ_IDENTIFIER ∧ k.1 ≠ .TYPE_IDENTIFIER := by
  decide

theorem is_word_append (w v : List Char) (hw : is_word w = true)
    (hv : v.all is_word_char = true) : is_word (w ++ v) = true := by
  cases w with
  | nil => simp [is_word] at hw
  | cons c t =>
      simp only [is_word, Bool.and_eq_true] at hw
      simp only [List.cons_append, is_word, Bool.and_eq_true, List.all_append]
      exact ⟨hw.1, hw.2, hv⟩

theorem step_default (s : Scanner) (h : s.state = .DEFAULT_SCAN) :
    s.step = .ok (default_scan s) := by
  simp [Scanner.step, h]

/-- C24: for every keyword and every word `w` that spells it in some letter
case, in front of `w` followed by the end of the text or by a character that is
not a word character the lexer adds the token of the keyword, which is neither
an object nor a type identifier, and goes on after `w`, although an identifier
pattern matches `w` as well; the text `w` alone lexes to the keyword token; and
a longer word of at most `max_run` characters that begins with `w` and is not
itself a keyword is lexed as one identifier. -/
theorem C24_keyword_before_identifier (k : TokenType × List Char) (hk : k ∈ keywords)
    (w rest : List Char) (hw : w.map to_lower = k.2) (hrest : at_word_boundary rest = true) :
    (∀ s : Scanner, s.state = .DEFAULT_SCAN → s.program = w ++ rest →
      s.step = .ok { s with program := rest,
                            token_stream := s.token_stream ++ [.BaseToken k.1 s.line_number] }) ∧
    (k.1 ≠ .OBJ_IDENTIFIER ∧ k.1 ≠ .TYPE_IDENTIFIER) ∧
    (Pattern.obj_identifier.search (w ++ rest) = some w.length ∨
      Pattern.type_identifier.search (w ++ rest) = some w.length) ∧
    Scanner.scan w = .ok [.BaseToken k.1 1] ∧
    (∀ (v : List Char) (s : Scanner), v ≠ [] → v.all is_word_char = true →
      (w ++ v).length ≤ max_run →
      is_keyword_word (w ++ v) = false → s.state = .DEFAULT_SCAN →
      s.program = w ++ v ++ rest →
      s.step = .ok { s with program := rest,
                            token_stream :=
                              s.token_stream ++ [identifier_token (w ++ v) s.line_number] }) := by
  have hword : is_word w = true :=
    (default_scan_keyword ⟨w ++ rest, false, [], 1, [], "", .DEFAULT_SCAN⟩ k hk w rest hw hrest
      rfl).1
  refine ⟨?_, keywords_not_identifier k hk, ?_, ?_, ?_⟩
  · intro s hs hp
    rw [step_default s hs]
    exact congrArg _ (default_scan_keyword s k hk w rest hw hrest hp).2.2
  · match w, hword with
    | c :: t, hword =>
        have hl := letter_of_word c t hword
        simp only [is_word, Bool.and_eq_true] at hword
        have hrun := takeWhile_append_boundary t rest hword.2 hrest
        have e : 1 + t.length = (c :: t).length := by simp; omega
        rcases hl with h | h
        · left; simp only [List.cons_append, Pattern.search, h, if_true, hrun, e]
        · right; simp only [List.cons_append, Pattern.search, h, if_true, hrun, e]
  · rw [scan_eq_run]
    have h1 := (default_scan_keyword (Scanner.init w) k hk w [] hw rfl (by simp [Scanner.init])).2.2
    have s1 : (Scanner.init w).step = .ok (default_scan (Scanner.init w)) := rfl
    rw [run_step _ _ rfl s1, h1]
    have s2 : (⟨[], false, [] ++ [.BaseToken k.1 1], 1, [], "", .DEFAULT_SCAN⟩ : Scanner).step =
        .ok ⟨[], true, [] ++ [.BaseToken k.1 1], 1, [], String.singleton (Char.ofNat 255),
          .SCAN_ERROR⟩ := rfl
    exact (run_step _ _ rfl s2).trans (run_eof _ rfl)
  · intro v s hv hvw _ hkw hs hp
    rw [step_default s hs]
    apply congrArg
    apply default_scan_identifier s (w ++ v) rest (is_word_append w v hword hvw) hkw ?_ hrest hp
    cases hb : is_bool_word (w ++ v) with
    | false => rfl
    | true =>
        exfalso
        have hnb := keywords_not_bool k hk
        rcases bool_word_lower _ hb with h | h
        · rw [List.map_append, hw] at h
          exact hnb.1 ⟨_, h⟩
        · rw [List.map_append, hw] at h
          exact hnb.2 ⟨_, h⟩

/-- C24 at the keyword `class` written `ClAsS`: in front of ` x` and alone it
lexes to `CLASS`, and `ClAsSes` lexes to a type identifier. -/
theorem C24_keyword_before_identifier_witness :
    ((TokenType.CLASS, ['c', 'l', 'a', 's', 's']) ∈ keywords ∧
      "ClAsS".toList.map to_lower = ['c', 'l', 'a', 's', 's'] ∧
      at_word_boundary " x".toList = true) ∧
    (Scanner.init "ClAsS x".toList).step =
      .ok ⟨" x".toList, false, [.BaseToken .CLASS 1], 1, [], "", .DEFAULT_SCAN⟩ ∧
    Scanner.scan "ClAsS".toList = .ok [.BaseToken .CLASS 1] ∧
    (Scanner.init "ClAsSes x".toList).step =
      .ok ⟨" x".toList, false, [.TypeIdToken "ClAsSes" 1], 1, [], "", .DEFAULT_SCAN⟩ := by
  have h := C24_keyword_before_identifier (.CLASS, ['c', 'l', 'a', 's', 's']) (by decide)
    "ClAsS".toList " x".toList (by decide) (by decide)
  refine ⟨⟨by decide, by decide, by decide⟩, ?_, h.2.2.2.1, ?_⟩
  · exact h.1 (Scanner.init "ClAsS x".toList) rfl rfl
  · exact h.2.2.2.2 "es".toList (Scanner.init "ClAsSes x".toList) (by decide) (by decide)
      (by decide) (by decide) rfl rfl



/-- C23: the text `class A inherits B { x:Int<-1; };` lexes to the thirteen
tokens `CLASS`, `TYPEID A`, `INHERITS`, `TYPEID B`, `{`, `OBJECTID x`, `:`,
`TYPEID Int`, `ASSIGN`, `INT_CONST 1`, `;`, `}`, `;`, each on line 1. -/
theorem C23_lexing_example :
    Scanner.scan "class A inherits B \x7b x:Int<-1; \x7d;".toList =
      .ok [.BaseToken .CLASS 1, .TypeIdToken "A" 1, .BaseToken .INHERITS 1, .TypeIdToken "B" 1,
        .BaseToken .CURLY_BRACKET_OPEN 1, .ObjIdToken "x" 1, .BaseToken .COLON 1,
        .TypeIdToken "Int" 1, .BaseToken .ASSIGN 1, .IntToken "1" 1, .BaseToken .SEMICOLON 1,
        .BaseToken .CURLY_BRACKET_CLOSE 1, .BaseToken .SEMICOLON 1] := by
  rfl

/-- C26, refuted: in the text `"a\0" "c"` the second literal has the body `c`,
but the lexer yields `STR_CONST "ac"` for it, because `string_scan` leaves
`string_builder` as it is when it meets the NUL of the first literal; alone,
`"c"` lexes to `STR_CONST "c"`. -/
theorem C26_string_payload_after_nul :
    Scanner.scan ['"', 'a', '\x00', '"', ' ', '"', 'c', '"'] =
      .ok [.ErrorToken "String contains null character." 1, .StringToken "ac" 1] ∧
    Scanner.scan ['"', 'c', '"'] = .ok [.StringToken "c" 1] := by
  constructor <;> rfl

/-- C28, refuted: every `ErrorToken` has the type `OBJ_IDENTIFIER`, which its
constructor passes to `Token`, and not `ERROR`; the text `#` lexes to one error
token, and `parse_identifier` takes that token for an object identifier and
dereferences the null pointer that the cast to `ObjIdToken` gives. -/
theorem C28_error_token_type :
    (∀ (msg : String) (line_number : Nat),
      (Token.ErrorToken msg line_number).get_type = .OBJ_IDENTIFIER ∧
      (Token.ErrorToken msg line_number).get_type ≠ .ERROR) ∧
    Scanner.scan ['#'] = .ok [.ErrorToken "#" 1] ∧
    peek_equals [.ErrorToken "#" 1] .OBJ_IDENTIFIER = .ok true ∧
    parse_identifier [.ErrorToken "#" 1] = .error .null_dereference := by
  refine ⟨fun _ _ => ⟨rfl, fun h => by cases h⟩, rfl, rfl, rfl⟩



/-- The loop of `string_scan` copies a run of characters that are none of
`"`, `\`, newline and NUL, as long as the limit allows. -/
theorem string_scan_loop_plain (s : Scanner) (rest : List Char) :
    ∀ (l sb : List Char),
      (∀ c ∈ l, c ≠ '"' ∧ c ≠ '\\' ∧ c ≠ '\n' ∧ c ≠ '\x00') →
      sb.length + l.length ≤ 1025 →
      string_scan_loop s (l ++ rest) sb = string_scan_loop s rest (sb ++ l) := by
  intro l
  induction l with
  | nil => intro sb _ _; simp
  | cons c l ih =>
      intro sb hl hlen
      obtain ⟨h1, h2, h3, h4⟩ := hl c (by simp)
      simp only [List.length_cons] at hlen
      have hlim : ¬ sb.length + 1 > MaxStringSize := by
        simp only [MaxStringSize]; omega
      have e : (c :: l) ++ rest = c :: (l ++ rest) := rfl
      rw [e]
      simp only [string_scan_loop, hlim, h1, h2, h3, h4, if_false]
      rw [ih (sb ++ [c]) (fun x hx => hl x (List.mem_cons_of_mem _ hx))
        (by simp only [List.length_append, List.length_cons, List.length_nil]; omega)]
      simp

theorem run_steps2 (s s1 s2 : Scanner) (he : s.eof = false) (h1 : s.step = .ok s1)
    (he1 : s1.eof = false) (h2 : s1.step = .ok s2) : s.run = s2.run := by
  rw [run_step s s1 he h1, run_step s1 s2 he1 h2]



theorem replicate_plain (n : Nat) :
    ∀ c ∈ List.replicate n 'a', c ≠ '"' ∧ c ≠ '\\' ∧ c ≠ '\n' ∧ c ≠ '\x00' := by
  intro c hc
  rw [List.eq_of_mem_replicate hc]
  decide

theorem long_literal_scan (R : List Char)
    (hplain : ∀ c ∈ R, c ≠ '"' ∧ c ≠ '\\' ∧ c ≠ '\n' ∧ c ≠ '\x00') (hlen : R.length = 1024) :
    Scanner.scan (['"', 'b', '\x00', '"', ' ', '"'] ++ (R ++ ['"', '\n'])) =
      .ok [.ErrorToken "String contains null character." 1,
        .ErrorToken "String constant too long" 1] ∧
    Scanner.scan (['"'] ++ (R ++ ['"', '\n'])) =
      .ok [.StringToken (String.mk R) 1] := by
  constructor
  · rw [scan_eq_run]
    have a1 : (Scanner.init (['"', 'b', '\x00', '"', ' ', '"'] ++
        (R ++ ['"', '\n']))).step =
        .ok ⟨['b', '\x00', '"', ' ', '"'] ++ (R ++ ['"', '\n']), false, [],
          1, [], "", .STRING_SCAN⟩ := rfl
    have a2 : (⟨['b', '\x00', '"', ' ', '"'] ++ (R ++ ['"', '\n']), false, [],
          1, [], "", .STRING_SCAN⟩ : Scanner).step =
        .ok ⟨['"', ' ', '"'] ++ (R ++ ['"', '\n']), false, [],
          1, ['b'], "String contains null character.", .BROKEN_STRING_SCAN⟩ := rfl
    have a3 : (⟨['"', ' ', '"'] ++ (R ++ ['"', '\n']), false, [],
          1, ['b'], "String contains null character.", .BROKEN_STRING_SCAN⟩ : Scanner).step =
        .ok ⟨[' ', '"'] ++ (R ++ ['"', '\n']), false,
          [.ErrorToken "String contains null character." 1],
          1, ['b'], "String contains null character.", .DEFAULT_SCAN⟩ := rfl
    have a4 : (⟨[' ', '"'] ++ (R ++ ['"', '\n']), false,
          [.ErrorToken "String contains null character." 1],
          1, ['b'], "String contains null character.", .DEFAULT_SCAN⟩ : Scanner).step =
        .ok ⟨R ++ ['"', '\n'], false,
          [.ErrorToken "String contains null character." 1],
          1, ['b'], "String contains null character.", .STRING_SCAN⟩ := rfl
    have a5 : (⟨R ++ ['"', '\n'], false,
          [.ErrorToken "String contains null character." 1],
          1, ['b'], "String contains null character.", .STRING_SCAN⟩ : Scanner).step =
        .ok ⟨['\n'], false, [.ErrorToken "String contains null character." 1],
          1, [], "String constant too long", .BROKEN_STRING_SCAN⟩ := by
      show Except.ok (string_scan_loop _ (R ++ ['"', '\n']) ['b']) = _
      rw [string_scan_loop_plain _ _ _ _ hplain (by simp only [List.length_cons, List.length_nil, hlen]; omega)]
      simp [string_scan_loop, MaxStringSize, hlen]
    have a6 : (⟨['\n'], false, [.ErrorToken "String contains null character." 1],
          1, [], "String constant too long", .BROKEN_STRING_SCAN⟩ : Scanner).step =
        .ok ⟨[], false, [.ErrorToken "String contains null character." 1,
          .ErrorToken "String constant too long" 1],
          2, [], "String constant too long", .DEFAULT_SCAN⟩ := rfl
    have a7 : (⟨[], false, [.ErrorToken "String contains null character." 1,
          .ErrorToken "String constant too long" 1],
          2, [], "String constant too long", .DEFAULT_SCAN⟩ : Scanner).step =
        .ok ⟨[], true, [.ErrorToken "String contains null character." 1,
          .ErrorToken "String constant too long" 1],
          2, [], String.singleton (Char.ofNat 255), .SCAN_ERROR⟩ := rfl
    rw [run_steps2 _ _ _ rfl a1 rfl a2, run_steps2 _ _ _ rfl a3 rfl a4,
      run_steps2 _ _ _ rfl a5 rfl a6, run_step _ _ rfl a7, run_eof _ rfl]
  · rw [scan_eq_run]
    have a1 : (Scanner.init (['"'] ++ (R ++ ['"', '\n']))).step =
        .ok ⟨R ++ ['"', '\n'], false, [], 1, [], "", .STRING_SCAN⟩ := rfl
    have a2 : (⟨R ++ ['"', '\n'], false, [], 1, [], "",
          .STRING_SCAN⟩ : Scanner).step =
        .ok ⟨['\n'], false, [.StringToken (String.mk R) 1], 1, [], "",
          .DEFAULT_SCAN⟩ := by
      show Except.ok (string_scan_loop _ (R ++ ['"', '\n']) []) = _
      rw [string_scan_loop_plain _ _ _ _ hplain (by simp only [List.length_cons, List.length_nil, hlen]; omega)]
      simp [string_scan_loop, MaxStringSize, hlen]
    have a3 : (⟨['\n'], false, [.StringToken (String.mk R) 1], 1, [], "",
          .DEFAULT_SCAN⟩ : Scanner).step =
        .ok ⟨[], true, [.StringToken (String.mk R) 1], 2, [],
          String.singleton (Char.ofNat 255), .SCAN_ERROR⟩ := rfl
    rw [run_steps2 _ _ _ rfl a1 rfl a2, run_step _ _ rfl a3, run_eof _ rfl]

/-- C27, refuted: in the text `"b\0" "aa...a"` with 1024 letters `a`, followed
by a newline, the second literal has a decoded content of exactly 1024 bytes,
but the lexer yields the error `String constant too long` for it and no
`STR_CONST`, because `string_builder` still holds the `b` of the first literal;
alone, the same literal lexes to `STR_CONST` with its 1024 bytes. -/
theorem C27_string_length_after_nul :
    Scanner.scan (['"', 'b', '\x00', '"', ' ', '"'] ++ (List.replicate 1024 'a' ++ ['"', '\n'])) =
      .ok [.ErrorToken "String contains null character." 1,
        .ErrorToken "String constant too long" 1] ∧
    Scanner.scan (['"'] ++ (List.replicate 1024 'a' ++ ['"', '\n'])) =
      .ok [.StringToken (String.mk (List.replicate 1024 'a')) 1] :=
  long_literal_scan (List.replicate 1024 'a') (replicate_plain 1024) (List.length_replicate _ _)

/-! ## Class prototypes -/


theorem slot_bindings_append (a b : List (String × AttributeNode)) :
    ∀ count, slot_bindings (a ++ b) count =
      slot_bindings a count ++ slot_bindings b (count + a.length) := by
  induction a with
  | nil => intro count; simp [slot_bindings]
  | cons d a ih =>
      intro count
      have e : count + 1 + a.length = count + (a.length + 1) := by omega
      rw [List.cons_append]
      simp only [slot_bindings, List.length_cons]
      rw [ih, e]
      rfl

theorem mem_slot_bindings (slots : List (String × AttributeNode)) :
    ∀ (count : Nat) (b : (String × String) × Nat), b ∈ slot_bindings slots count ↔
      ∃ j d, slots[j]? = some d ∧ b = ((d.1, d.2.name), 4 * (count + j) % 4294967296) := by
  induction slots with
  | nil => intro count b; simp [slot_bindings]
  | cons s slots ih =>
      intro count b
      simp only [slot_bindings, List.mem_cons, ih]
      constructor
      · rintro (h | ⟨j, d, h1, h2⟩)
        · exact ⟨0, s, by simp, by simp [h]⟩
        · refine ⟨j + 1, d, by simpa using h1, ?_⟩
          rw [h2]
          congr 3
          omega
      · rintro ⟨j, d, h1, h2⟩
        cases j with
        | zero =>
            left
            simp only [List.getElem?_cons_zero, Option.some.injEq] at h1
            subst h1
            simpa using h2
        | succ j =>
            right
            refine ⟨j, d, by simpa using h1, ?_⟩
            rw [h2]
            congr 3
            omega

theorem emit_attributes_spec (clsname : String) (attrs : List AttributeNode) :
    ∀ (c count : Nat) (offsets : Offsets), c % 4294967296 = count % 4294967296 →
      (emit_attributes clsname attrs c offsets).1 =
        attrs.flatMap (fun a => [.comment ("attribute " ++ a.name), .dd (attribute_word a)]) ∧
      (emit_attributes clsname attrs c offsets).2.1 % 4294967296 =
        (count + attrs.length) % 4294967296 ∧
      (emit_attributes clsname attrs c offsets).2.2.attr_offsets =
        (slot_bindings (attrs.map (fun a => (clsname, a))) count).reverse ++
          offsets.attr_offsets ∧
      (emit_attributes clsname attrs c offsets).2.2.method_offsets = offsets.method_offsets := by
  induction attrs with
  | nil =>
      intro c count offsets h
      simp [emit_attributes, slot_bindings, h]
  | cons a attrs ih =>
      intro c count offsets h
      have h1 : (c + 1) % 4294967296 % 4294967296 = (count + 1) % 4294967296 := by
        omega
      obtain ⟨i1, i2, i3, i4⟩ := ih ((c + 1) % 4294967296) (count + 1)
        (set_attr_offset offsets clsname a.name (4 * c % 4294967296)) h1
      have h2 : 4 * c % 4294967296 = 4 * count % 4294967296 := by omega
      simp only [emit_attributes]
      refine ⟨?_, ?_, ?_, ?_⟩
      · rw [i1]; simp [List.flatMap_cons]
      · rw [i2]; simp only [List.length_cons]; congr 1; omega
      · rw [i3]
        simp [slot_bindings, set_attr_offset, h2]
      · rw [i4]; rfl

theorem declared_attributes_append (ct : ClassTable) (a b : List String) :
    declared_attributes ct (a ++ b) = declared_attributes ct a ++ declared_attributes ct b := by
  induction a with
  | nil => rfl
  | cons x a ih => simp [declared_attributes, ih]

theorem declared_attributes_reverse_length (ct : ClassTable) (l : List String) :
    (declared_attributes ct l.reverse).length = (declared_attributes ct l).length := by
  induction l with
  | nil => rfl
  | cons x l ih =>
      simp only [List.reverse_cons, declared_attributes_append, List.length_append, ih]
      simp only [declared_attributes, List.append_nil, List.length_append]
      omega

theorem emit_ancestry_attributes_spec (ct : ClassTable)
    (hstring : ∀ cls, ct.find "String" = some cls →
      cls.get_attributes.map (fun a => a.name) = ["val", "str_field"])
    (l : List String) :
    ∀ (c count : Nat) (offsets : Offsets), c % 4294967296 = count % 4294967296 →
      (∀ x ∈ l, ∃ cls, ct.find x = some cls) →
      ∃ offsets1, emit_ancestry_attributes ct l c offsets =
          .ok ((declared_attributes ct l).flatMap slot, offsets1) ∧
        offsets1.attr_offsets =
          (slot_bindings (declared_attributes ct l) count).reverse ++ offsets.attr_offsets ∧
        offsets1.method_offsets = offsets.method_offsets := by
  induction l with
  | nil =>
      intro c count offsets _ _
      exact ⟨offsets, by simp [emit_ancestry_attributes, declared_attributes, slot_bindings]⟩
  | cons x l ih =>
      intro c count offsets h hfound
      obtain ⟨cls, hcls⟩ := hfound x (by simp)
      have hrest : ∀ y ∈ l, ∃ cls, ct.find y = some cls :=
        fun y hy => hfound y (List.mem_cons_of_mem _ hy)
      by_cases hx : x = "String"
      · subst hx
        have hnames := hstring cls hcls
        match hattrs : cls.get_attributes, hnames with
        | [a1, a2], hnames =>
            simp only [List.map_cons, List.map_nil, List.cons.injEq, and_true] at hnames
            obtain ⟨n1, n2⟩ := hnames
            have h1 : ((c + 1) % 4294967296 + 1) % 4294967296 % 4294967296 =
                (count + 2) % 4294967296 := by omega
            obtain ⟨offsets1, i1, i2, i3⟩ := ih (((c + 1) % 4294967296 + 1) % 4294967296)
              (count + 2)
              (set_attr_offset (set_attr_offset offsets "String" "val" (4 * c % 4294967296))
                "String" "str_field" (4 * ((c + 1) % 4294967296) % 4294967296)) h1 hrest
            refine ⟨offsets1, ?_, ?_, ?_⟩
            · simp only [emit_ancestry_attributes, beq_self_eq_true, if_true, i1]
              simp only [declared_attributes, hcls, hattrs, List.map_cons, List.map_nil,
                List.flatMap_append, List.flatMap_cons, List.flatMap_nil, slot, slot_word, n1, n2]
              simp
            · rw [i2]
              have e1 : 4 * c % 4294967296 = 4 * count % 4294967296 := by omega
              have e2 : 4 * ((c + 1) % 4294967296) % 4294967296 =
                  4 * (count + 1) % 4294967296 := by omega
              simp only [declared_attributes, hcls, hattrs, List.map_cons, List.map_nil,
                slot_bindings_append, slot_bindings, n1, n2, set_attr_offset, e1, e2,
                List.length_cons, List.length_nil]
              simp
            · rw [i3]; rfl
        | [], hnames => simp at hnames
        | [_], hnames => simp at hnames
        | _ :: _ :: _ :: _, hnames => simp at hnames
      · have hx2 : (x == "String") = false := by simpa using hx
        obtain ⟨e1, e2, e3, e4⟩ := emit_attributes_spec x cls.get_attributes c count offsets h
        obtain ⟨offsets1, i1, i2, i3⟩ := ih (emit_attributes x cls.get_attributes c offsets).2.1
          (count + cls.get_attributes.length)
          (emit_attributes x cls.get_attributes c offsets).2.2 (by rw [e2]) hrest
        refine ⟨offsets1, ?_, ?_, ?_⟩
        · simp only [emit_ancestry_attributes, hx2, Bool.false_eq_true, if_false, hcls, i1, e1]
          have hs : ∀ a : AttributeNode,
              slot (x, a) = [Line.comment ("attribute " ++ a.name), .dd (attribute_word a)] := by
            intro a; simp [slot, slot_word, hx2]
          simp only [declared_attributes, hcls, List.flatMap_append, List.flatMap_map, hs]
        · rw [i2, e3]
          simp only [declared_attributes, hcls, slot_bindings_append, List.reverse_append,
            List.length_map, List.append_assoc]
        · rw [i3, e4]

theorem count_attributes_spec (ct : ClassTable) (l : List String) :
    ∀ (size : Nat), (∀ x ∈ l, ∃ cls, ct.find x = some cls) →
      ∃ s, count_attributes ct l size = .ok s ∧
        s % 4294967296 = (size + (declared_attributes ct l).length) % 4294967296 := by
  induction l with
  | nil => intro size _; exact ⟨size, rfl, by simp [declared_attributes]⟩
  | cons x l ih =>
      intro size hfound
      obtain ⟨cls, hcls⟩ := hfound x (by simp)
      obtain ⟨s, h1, h2⟩ := ih ((size + cls.get_attributes.length) % 4294967296)
        (fun y hy => hfound y (List.mem_cons_of_mem _ hy))
      refine ⟨s, by simp [count_attributes, hcls, h1], ?_⟩
      rw [h2]
      simp only [declared_attributes, hcls, List.length_append, List.length_map]
      omega

theorem words_append (a b : List Line) : words (a ++ b) = words a ++ words b := by
  simp [words, List.filterMap_append]

theorem words_slots (slots : List (String × AttributeNode)) :
    words (slots.flatMap slot) = slots.map slot_word := by
  induction slots with
  | nil => rfl
  | cons d slots ih =>
      simp only [List.flatMap_cons, words_append, ih, List.map_cons]
      rfl

theorem words_prototype (clsname base_class : String) (tag : Nat)
    (attributes : List (String × AttributeNode)) :
    words (prototype clsname base_class tag attributes) =
      [toString tag, clsname ++ "_typename",
        toString (4 * (5 + attributes.length) % 4294967296), clsname ++ "_dispatch_table",
        if clsname = "Object" then toString 0 else base_class ++ "_proto"] ++
      attributes.map slot_word := by
  simp only [prototype, words_append, words_slots]
  by_cases h : clsname = "Object"
  · simp [words, h]
  · simp [words, h]



theorem ancestry_found (ct : ClassTable) (hw : ct.well_formed) (x : String) (l : List String)
    (h : ct.get_ancestry x = .ok l) : ∀ y ∈ l, ∃ cls, ct.find y = some cls := by
  obtain ⟨_, _, h3, _⟩ := get_ancestry_loop_shape ct _ _ _ h
  intro y hy
  rcases h3 y hy with rfl | hy
  · exact hw.2.2.1
  · simp only [ClassTable.exists] at hy
    cases hf : ct.find y with
    | none => simp [hf] at hy
    | some cls => exact ⟨cls, rfl⟩

theorem build_class_prototype_spec (ct : ClassTable) (hw : ct.well_formed)
    (hstring : ∀ cls, ct.find "String" = some cls →
      cls.get_attributes.map (fun a => a.name) = ["val", "str_field"])
    (clsname : String) (cls : ClassNode) (hname : cls.name = clsname) (ancestry : List String)
    (ha : ct.get_ancestry clsname = .ok ancestry) (tags : ClassTags) (offsets : Offsets) :
    ∃ offsets1, build_class_prototype ct clsname cls tags offsets =
        .ok (prototype clsname cls.base_class (get_class_tag tags clsname).1
          (declared_attributes ct ancestry.reverse), (get_class_tag tags clsname).2, offsets1) ∧
      offsets1.attr_offsets =
        (slot_bindings (declared_attributes ct ancestry.reverse) 5).reverse ++
          offsets.attr_offsets ∧
      offsets1.method_offsets = offsets.method_offsets := by
  have hfound := ancestry_found ct hw clsname ancestry ha
  obtain ⟨s, hs1, hs2⟩ := count_attributes_spec ct ancestry 5 hfound
  obtain ⟨offsets1, e1, e2, e3⟩ := emit_ancestry_attributes_spec ct hstring ancestry.reverse 5 5
    offsets rfl (fun y hy => hfound y (List.mem_reverse.mp hy))
  refine ⟨offsets1, ?_, e2, e3⟩
  have hsize : s * 4 % 4294967296 =
      4 * (5 + (declared_attributes ct ancestry.reverse).length) % 4294967296 := by
    rw [declared_attributes_reverse_length]
    omega
  simp only [build_class_prototype, calculate_obj_size, hname, ha, hs1, e1, bind, Except.bind,
    pure, Except.pure, prototype, hsize]

theorem build_class_prototypes_loop_spec (ct : ClassTable) (hw : ct.well_formed)
    (hstring : ∀ cls, ct.find "String" = some cls →
      cls.get_attributes.map (fun a => a.name) = ["val", "str_field"])
    (classes : List (String × ClassNode)) :
    (∀ entry ∈ classes, entry ∈ ct.clsmap) →
    ∀ (tags : ClassTags) (offsets : Offsets),
      ∃ out tags1 offsets1 new,
        build_class_prototypes_loop ct classes tags offsets = .ok (out, tags1, offsets1) ∧
        offsets1.attr_offsets = new ++ offsets.attr_offsets ∧
        (∀ entry ∈ classes, ∃ ancestry tag, ct.get_ancestry entry.1 = .ok ancestry ∧
          prototype entry.1 entry.2.base_class tag (declared_attributes ct ancestry.reverse)
            <:+: out ∧
          ∀ b ∈ slot_bindings (declared_attributes ct ancestry.reverse) 5, b ∈ new) ∧
        (∀ b ∈ new, ∃ entry ∈ classes, ∃ ancestry, ct.get_ancestry entry.1 = .ok ancestry ∧
          b ∈ slot_bindings (declared_attributes ct ancestry.reverse) 5) := by
  induction classes with
  | nil =>
      intro _ tags offsets
      exact ⟨[], tags, offsets, [], rfl, rfl, by simp, by simp⟩
  | cons entry rest ih =>
      intro hmem tags offsets
      have he := hmem entry (by simp)
      obtain ⟨ancestry, ha⟩ := hw.2.2.2 entry he
      obtain ⟨o1, p1, p2, _⟩ := build_class_prototype_spec ct hw hstring entry.1 entry.2
        (hw.1 entry he) ancestry ha tags offsets
      obtain ⟨out2, tags2, o2, new2, q1, q2, q3, q4⟩ :=
        ih (fun e h => hmem e (List.mem_cons_of_mem _ h)) (get_class_tag tags entry.1).2 o1
      refine ⟨prototype entry.1 entry.2.base_class (get_class_tag tags entry.1).1
          (declared_attributes ct ancestry.reverse) ++ out2, tags2, o2,
        new2 ++ (slot_bindings (declared_attributes ct ancestry.reverse) 5).reverse, ?_, ?_, ?_, ?_⟩
      · simp only [build_class_prototypes_loop, p1, q1, bind, Except.bind, pure, Except.pure]
      · rw [q2, p2, List.append_assoc]
      · intro e hin
        rcases List.mem_cons.mp hin with rfl | hin
        · refine ⟨ancestry, (get_class_tag tags e.1).1, ha, ⟨[], out2, by simp⟩, ?_⟩
          intro b hb
          simp [hb]
        · obtain ⟨anc, tag, a1, a2, a3⟩ := q3 e hin
          refine ⟨anc, tag, a1, List.IsInfix.trans a2 (List.suffix_append _ _).isInfix, ?_⟩
          intro b hb
          simp [a3 b hb]
      · intro b hb
        rcases List.mem_append.mp hb with hb | hb
        · obtain ⟨e, he1, anc, a1, a2⟩ := q4 b hb
          exact ⟨e, List.mem_cons_of_mem _ he1, anc, a1, a2⟩
        · exact ⟨entry, by simp, ancestry, ha, List.mem_reverse.mp hb⟩

theorem construct_string (fuel : Nat) (classes : List ClassNode) (ct : ClassTable)
    (h : ClassTable.construct fuel classes = .ok ct) :
    ∀ cls, ct.find "String" = some cls →
      cls.get_attributes.map (fun a => a.name) = ["val", "str_field"] := by
  intro cls hf
  have hperm := construct_perm fuel classes ct h
  obtain ⟨ha, _, _, _⟩ := construct_inv fuel classes ct h
  obtain ⟨g1, _, _⟩ := add_classes_spec classes _ _ ha
  have := find_some_mem ct _ cls hf
  rw [hperm.mem_iff, List.mem_append] at this
  rcases this with h1 | h1
  · obtain ⟨x, hx, he⟩ := List.mem_map.mp h1
    simp only [Prod.mk.injEq] at he
    have := (g1 x hx).1
    rw [he.1] at this
    exact absurd this (by decide)
  · have hb : ∀ e ∈ install_basic_classes.clsmap, e.1 = "String" →
        e.2.get_attributes.map (fun a => a.name) = ["val", "str_field"] := by decide
    exact hb _ h1 rfl



theorem mem_declared_attributes (ct : ClassTable) (l : List String) (d : String × AttributeNode)
    (h : d ∈ declared_attributes ct l) :
    d.1 ∈ l ∧ ∃ cls, ct.find d.1 = some cls ∧ d.2 ∈ cls.get_attributes := by
  induction l with
  | nil => simp [declared_attributes] at h
  | cons x l ih =>
      simp only [declared_attributes, List.mem_append] at h
      rcases h with h | h
      · cases hf : ct.find x with
        | none => simp [hf] at h
        | some cls =>
            simp only [hf, List.mem_map] at h
            obtain ⟨a, ha, rfl⟩ := h
            exact ⟨by simp, cls, hf, ha⟩
      · obtain ⟨h1, h2⟩ := ih h
        exact ⟨List.mem_cons_of_mem _ h1, h2⟩

theorem declared_attributes_of_mem (ct : ClassTable) (l : List String) (x : String)
    (cls : ClassNode) (a : AttributeNode) (hx : x ∈ l) (hf : ct.find x = some cls)
    (ha : a ∈ cls.get_attributes) : (x, a) ∈ declared_attributes ct l := by
  induction l with
  | nil => simp at hx
  | cons y l ih =>
      simp only [declared_attributes, List.mem_append]
      rcases List.mem_cons.mp hx with rfl | hx
      · left; simp only [hf, List.mem_map]; exact ⟨a, ha, rfl⟩
      · right; exact ih hx

/-- In the attributes declared along a list of distinct classes no class and
name come twice, when no class declares a name twice. -/
theorem declared_attributes_nodup (ct : ClassTable)
    (hnames : ∀ x cls, ct.find x = some cls → (cls.get_attributes.map (fun a => a.name)).Nodup)
    (l : List String) (hl : l.Nodup) :
    ((declared_attributes ct l).map (fun d => (d.1, d.2.name))).Nodup := by
  induction l with
  | nil => simp [declared_attributes]
  | cons x l ih =>
      simp only [List.nodup_cons] at hl
      simp only [declared_attributes, List.map_append]
      refine List.Nodup.append ?_ (ih hl.2) ?_
      · cases hf : ct.find x with
        | none => simp
        | some cls =>
            simp only [List.map_map]
            have := hnames x cls hf
            have e : ((fun d : String × AttributeNode => (d.1, d.2.name)) ∘
                fun attr : AttributeNode => (x, attr)) =
                (fun n : String => (x, n)) ∘ (fun a : AttributeNode => a.name) := rfl
            rw [e, ← List.map_map]
            exact this.map (fun a b hab => by simpa using hab)
      · intro k h1 h2
        simp only [List.mem_map] at h1 h2
        obtain ⟨d1, hd1, rfl⟩ := h1
        obtain ⟨d2, hd2, he⟩ := h2
        have m2 := (mem_declared_attributes ct l d2 hd2).1
        have m1 : d1.1 = x := by
          cases hf : ct.find x with
          | none => simp [hf] at hd1
          | some cls =>
              simp only [hf, List.mem_map] at hd1
              obtain ⟨a, _, rfl⟩ := hd1
              rfl
        simp only [Prod.mk.injEq] at he
        rw [he.1, m1] at m2
        exact hl.1 m2

theorem nodup_index {α : Type} (l : List α) (h : l.Nodup) (i j : Nat) (x : α)
    (hi : l[i]? = some x) (hj : l[j]? = some x) : i = j := by
  induction l generalizing i j with
  | nil => simp at hi
  | cons a l ih =>
      simp only [List.nodup_cons] at h
      cases i with
      | zero =>
          cases j with
          | zero => rfl
          | succ j =>
              simp only [List.getElem?_cons_zero, Option.some.injEq] at hi
              simp only [List.getElem?_cons_succ] at hj
              subst hi
              exact absurd (List.getElem?_mem hj) h.1
      | succ i =>
          cases j with
          | zero =>
              simp only [List.getElem?_cons_zero, Option.some.injEq] at hj
              simp only [List.getElem?_cons_succ] at hi
              subst hj
              exact absurd (List.getElem?_mem hi) h.1
          | succ j =>
              simp only [List.getElem?_cons_succ] at hi hj
              rw [ih h.2 i j hi hj]

theorem getElem_of_initial {α : Type} (a b : List α) (h : a <+: b) (i : Nat) (x : α)
    (hi : a[i]? = some x) : b[i]? = some x := by
  obtain ⟨t, rfl⟩ := h
  have hlt : i < a.length := by
    by_contra hc
    rw [List.getElem?_eq_none (by omega)] at hi
    exact absurd hi (by simp)
  rw [List.getElem?_append_left hlt]
  exact hi

/-- The attributes along the ancestry of a class start with those along the
ancestry of each of its ancestors. -/
theorem declared_attributes_ancestor (ct : ClassTable) (c p : String) (l : List String)
    (hl : ct.get_ancestry c = .ok l) (hp : p ∈ l) :
    ∃ lp, ct.get_ancestry p = .ok lp ∧
      declared_attributes ct lp.reverse <+: declared_attributes ct l.reverse := by
  obtain ⟨l1, l2, rfl⟩ := List.append_of_mem hp
  refine ⟨p :: l2, get_ancestry_suffix ct c p l1 l2 hl, ?_⟩
  have : (l1 ++ p :: l2).reverse = (p :: l2).reverse ++ l1.reverse := by simp
  rw [this, declared_attributes_append]
  exact List.prefix_append _ _

theorem get_attr_offset_of_new (offsets : Offsets) (new old : List ((String × String) × Nat))
    (h : offsets.attr_offsets = new ++ old) (cls attr : String) (v : Nat)
    (h1 : ∃ b ∈ new, b.1 = (cls, attr))
    (h2 : ∀ b ∈ new, b.1 = (cls, attr) → b.2 = v) :
    get_attr_offset offsets cls attr = v := by
  unfold get_attr_offset
  rw [h, List.find?_append]
  obtain ⟨b, hb, hk⟩ := h1
  cases hf : new.find? (fun binding => binding.1 == (cls, attr)) with
  | none =>
      have := List.find?_eq_none.mp hf b hb
      simp [hk] at this
  | some b1 =>
      have m := List.mem_of_find?_eq_some hf
      have k := List.find?_some hf
      simp only [beq_iff_eq] at k
      simp [h2 b1 m k]



/-- The prototypes of a table that the constructor returns. -/
theorem build_class_prototypes_spec (fuel : Nat) (classes : List ClassNode) (ct : ClassTable)
    (h : ClassTable.construct fuel classes = .ok ct) (tags : ClassTags) (offsets0 : Offsets) :
    ∃ out tags1 offsets new,
      build_class_prototypes ct tags offsets0 = .ok (out, tags1, offsets) ∧
      offsets.attr_offsets = new ++ offsets0.attr_offsets ∧
      (∀ entry ∈ ct.clsmap, ∃ ancestry tag, ct.get_ancestry entry.1 = .ok ancestry ∧
        prototype entry.1 entry.2.base_class tag (declared_attributes ct ancestry.reverse)
          <:+: out ∧
        ∀ b ∈ slot_bindings (declared_attributes ct ancestry.reverse) 5, b ∈ new) ∧
      (∀ b ∈ new, ∃ entry ∈ ct.clsmap, ∃ ancestry, ct.get_ancestry entry.1 = .ok ancestry ∧
        b ∈ slot_bindings (declared_attributes ct ancestry.reverse) 5) := by
  have hw := construct_well_formed fuel classes ct h
  obtain ⟨out, tags1, offsets, new, h1, h2, h3, h4⟩ :=
    build_class_prototypes_loop_spec ct hw (construct_string fuel classes ct h) ct.clsmap
      (fun _ he => he) tags offsets0
  refine ⟨[.label "selfptr", .dd (toString 0), .newline] ++ out ++
    (code_uninitialized_basic_objects tags1).1, (code_uninitialized_basic_objects tags1).2,
    offsets, new, ?_, h2, ?_, h4⟩
  · simp only [build_class_prototypes, h1, bind, Except.bind, pure, Except.pure]
  · intro entry he
    obtain ⟨ancestry, tag, a1, a2, a3⟩ := h3 entry he
    refine ⟨ancestry, tag, a1, ?_, a3⟩
    exact List.IsInfix.trans a2
      (List.IsInfix.trans (List.suffix_append _ _).isInfix (List.prefix_append _ _).isInfix)

/-- C22: for a class table that the constructor returns, `build_class_prototypes`
writes for every class its prototype; the words of the prototype are the five
header words (class tag, label of the type name, size, label of the dispatch
table, label of the prototype of the base class or 0 for `Object`) followed by
one word for every attribute declared by the class and its ancestors; and the
size word is 4 times 5 plus the number of these attributes, which is 4 times
the number of words of the prototype (as a `uint`). -/
theorem C22_prototype_size (fuel : Nat) (classes : List ClassNode) (ct : ClassTable)
    (h : ClassTable.construct fuel classes = .ok ct) (tags : ClassTags) (offsets0 : Offsets) :
    ∃ out tags1 offsets, build_class_prototypes ct tags offsets0 = .ok (out, tags1, offsets) ∧
      ∀ entry ∈ ct.clsmap, ∃ ancestry tag, ct.get_ancestry entry.1 = .ok ancestry ∧
        prototype entry.1 entry.2.base_class tag (declared_attributes ct ancestry.reverse)
          <:+: out ∧
        words (prototype entry.1 entry.2.base_class tag
            (declared_attributes ct ancestry.reverse)) =
          [toString tag, entry.1 ++ "_typename",
            toString (4 * (5 + (declared_attributes ct ancestry.reverse).length) % 4294967296),
            entry.1 ++ "_dispatch_table",
            if entry.1 = "Object" then toString 0 else entry.2.base_class ++ "_proto"] ++
          (declared_attributes ct ancestry.reverse).map slot_word ∧
        (words (prototype entry.1 entry.2.base_class tag
            (declared_attributes ct ancestry.reverse)))[2]? =
          some (toString (4 * (words (prototype entry.1 entry.2.base_class tag
            (declared_attributes ct ancestry.reverse))).length % 4294967296)) := by
  obtain ⟨out, tags1, offsets, new, h1, _, h3, _⟩ :=
    build_class_prototypes_spec fuel classes ct h tags offsets0
  refine ⟨out, tags1, offsets, h1, ?_⟩
  intro entry he
  obtain ⟨ancestry, tag, a1, a2, _⟩ := h3 entry he
  refine ⟨ancestry, tag, a1, a2, words_prototype _ _ _ _, ?_⟩
  rw [words_prototype]
  simp only [List.length_append, List.length_cons, List.length_nil, List.length_map]
  simp

/-- C22 at the classes `A { x : Int; y : String }`, `B inherits A { z : B }`
and `Main`: the prototype of `B` has the size word 32 and eight words. -/
theorem C22_prototype_size_witness :
    ∃ ct, ClassTable.construct 10 prototype_example = .ok ct ∧
      ct.get_ancestry "B" = .ok ["B", "A", "Object"] ∧
      (declared_attributes ct ["Object", "A", "B"]).map (fun d => (d.1, d.2.name)) =
        [("A", "x"), ("A", "y"), ("B", "z")] ∧
      ∃ out tags1 offsets, build_class_prototypes ct ⟨100, []⟩ ⟨[], []⟩ =
          .ok (out, tags1, offsets) ∧
        ∃ ancestry tag, ct.get_ancestry "B" = .ok ancestry ∧
          prototype "B" "A" tag (declared_attributes ct ancestry.reverse) <:+: out ∧
          (words (prototype "B" "A" tag (declared_attributes ct ancestry.reverse)))[2]? =
            some (toString (4 * (words (prototype "B" "A" tag
              (declared_attributes ct ancestry.reverse))).length % 4294967296)) :=
  ⟨_, rfl, rfl, rfl,
    (C22_prototype_size 10 prototype_example _ rfl ⟨100, []⟩ ⟨[], []⟩).imp fun _ h1 =>
      h1.imp fun _ h2 => h2.imp fun _ h3 =>
        ⟨h3.1, (h3.2 ("B", ClassNode.mk "B" "A"
            [.attribute ⟨"z", "B", .NoExpressionNode "_no_type"⟩])
          (find_some_mem _ _ _ rfl)).imp fun _ h4 => h4.imp fun _ h5 =>
            ⟨h5.1, h5.2.1, h5.2.2.2⟩⟩⟩



/-- C21: for a class table that the constructor returns and in which no class
declares two attributes of one name, `build_class_prototypes` writes for every
class `C` its prototype, and for every class `P` of the ancestry of `C` the
slots of the prototype of `P` are the first slots of the prototype of `C`: the
attribute at index `i` of the attributes along the ancestry of `P`, read from
`Object` down, has its word at position `5 + i` in both prototypes, and the
offset recorded for it (under the class that declares it) is `4 * (5 + i)`. -/
theorem C21_attribute_offsets (fuel : Nat) (classes : List ClassNode) (ct : ClassTable)
    (h : ClassTable.construct fuel classes = .ok ct)
    (hnames : ∀ entry ∈ ct.clsmap, (entry.2.get_attributes.map (fun a => a.name)).Nodup)
    (tags : ClassTags) (offsets0 : Offsets) :
    ∃ out tags1 offsets, build_class_prototypes ct tags offsets0 = .ok (out, tags1, offsets) ∧
      ∀ entry ∈ ct.clsmap, ∃ ancestry tag, ct.get_ancestry entry.1 = .ok ancestry ∧
        prototype entry.1 entry.2.base_class tag (declared_attributes ct ancestry.reverse)
          <:+: out ∧
        ∀ p ∈ ancestry, ∃ ancestry_p cls_p tag_p, ct.get_ancestry p = .ok ancestry_p ∧
          ct.find p = some cls_p ∧
          prototype p cls_p.base_class tag_p (declared_attributes ct ancestry_p.reverse)
            <:+: out ∧
          ∀ (i : Nat) (d : String × AttributeNode),
            (declared_attributes ct ancestry_p.reverse)[i]? = some d →
            (declared_attributes ct ancestry.reverse)[i]? = some d ∧
            (words (prototype p cls_p.base_class tag_p
              (declared_attributes ct ancestry_p.reverse)))[5 + i]? = some (slot_word d) ∧
            (words (prototype entry.1 entry.2.base_class tag
              (declared_attributes ct ancestry.reverse)))[5 + i]? = some (slot_word d) ∧
            get_attr_offset offsets d.1 d.2.name = 4 * (5 + i) % 4294967296 := by
  have hw := construct_well_formed fuel classes ct h
  have hn : ∀ x cls, ct.find x = some cls →
      (cls.get_attributes.map (fun a => a.name)).Nodup :=
    fun x cls hf => hnames (x, cls) (find_some_mem ct x cls hf)
  obtain ⟨out, tags1, offsets, new, h1, h2, h3, h4⟩ :=
    build_class_prototypes_spec fuel classes ct h tags offsets0
  refine ⟨out, tags1, offsets, h1, ?_⟩
  intro entry he
  obtain ⟨ancestry, tag, a1, a2, _⟩ := h3 entry he
  refine ⟨ancestry, tag, a1, a2, ?_⟩
  intro p hp
  obtain ⟨ancestry_p, b1, b2⟩ := declared_attributes_ancestor ct entry.1 p ancestry a1 hp
  obtain ⟨cls_p, hcp⟩ := ancestry_found ct hw entry.1 ancestry a1 p hp
  have hpe := find_some_mem ct p cls_p hcp
  obtain ⟨ancestry_p1, tag_p, c1, c2, c3⟩ := h3 (p, cls_p) hpe
  simp only at c1 c2 c3
  rw [b1] at c1
  have := Except.ok.inj c1
  subst this
  refine ⟨ancestry_p, cls_p, tag_p, b1, hcp, c2, ?_⟩
  intro i d hd
  have hdc := getElem_of_initial _ _ b2 i d hd
  have hword : ∀ (clsname base : String) (tg : Nat) (D : List (String × AttributeNode)),
      D[i]? = some d → (words (prototype clsname base tg D))[5 + i]? = some (slot_word d) := by
    intro clsname base tg D hD
    rw [words_prototype]
    have e : 5 + i = i + 5 := by omega
    rw [e]
    simp only [List.cons_append, List.nil_append, List.getElem?_cons_succ, List.getElem?_map, hD,
      Option.map_some']
  refine ⟨hdc, hword _ _ _ _ hd, hword _ _ _ _ hdc, ?_⟩
  -- the offset recorded
  apply get_attr_offset_of_new offsets new _ h2
  · exact ⟨((d.1, d.2.name), 4 * (5 + i) % 4294967296),
      c3 _ ((mem_slot_bindings _ _ _).mpr ⟨i, d, hd, rfl⟩), rfl⟩
  · intro b hb hkey
    obtain ⟨e2, he2, anc2, g1, g2⟩ := h4 b hb
    obtain ⟨j, d2, hj, hbj⟩ := (mem_slot_bindings _ _ _).mp g2
    rw [hbj] at hkey ⊢
    simp only [Prod.mk.injEq] at hkey
    -- the class that declares `d`
    obtain ⟨m1, clsq, hq, hattr⟩ := mem_declared_attributes ct _ d (List.getElem?_mem hd)
    obtain ⟨m2, _, _, _⟩ := mem_declared_attributes ct _ d2 (List.getElem?_mem hj)
    rw [hkey.1] at m2
    have mq1 : d.1 ∈ ancestry_p := List.mem_reverse.mp m1
    have mq2 : d.1 ∈ anc2 := List.mem_reverse.mp m2
    obtain ⟨lq, q1, q2⟩ := declared_attributes_ancestor ct p d.1 ancestry_p b1 mq1
    obtain ⟨lq2, q3, q4⟩ := declared_attributes_ancestor ct e2.1 d.1 anc2 g1 mq2
    rw [q1] at q3
    have := Except.ok.inj q3
    subst this
    -- an index of the attribute along the ancestry of the declaring class
    have mq : d.1 ∈ lq := by
      obtain ⟨tail, ht⟩ := get_ancestry_loop_head ct _ _ lq q1
      rw [ht]; simp
    have hin := declared_attributes_of_mem ct lq.reverse d.1 clsq d.2
      (List.mem_reverse.mpr mq) hq hattr
    obtain ⟨i0, hi0⟩ := List.getElem?_of_mem hin
    have nd1 := declared_attributes_nodup ct hn ancestry_p.reverse
      (List.nodup_reverse.mpr (get_ancestry_loop_shape ct _ _ _ b1).2.2.2)
    have nd2 := declared_attributes_nodup ct hn anc2.reverse
      (List.nodup_reverse.mpr (get_ancestry_loop_shape ct _ _ _ g1).2.2.2)
    have k1 : ((declared_attributes ct ancestry_p.reverse).map (fun d => (d.1, d.2.name)))[i]? =
        some (d.1, d.2.name) := by simp [hd]
    have k1' : ((declared_attributes ct ancestry_p.reverse).map (fun d => (d.1, d.2.name)))[i0]? =
        some (d.1, d.2.name) := by simp [getElem_of_initial _ _ q2 i0 _ hi0]
    have k2 : ((declared_attributes ct anc2.reverse).map (fun d => (d.1, d.2.name)))[j]? =
        some (d.1, d.2.name) := by simp [hj, hkey.1, hkey.2]
    have k2' : ((declared_attributes ct anc2.reverse).map (fun d => (d.1, d.2.name)))[i0]? =
        some (d.1, d.2.name) := by simp [getElem_of_initial _ _ q4 i0 _ hi0]
    have e1 := nodup_index _ nd1 i i0 _ k1 k1'
    have e2 := nodup_index _ nd2 j i0 _ k2 k2'
    rw [e1, e2]

/-- C21 at the classes `A { x : Int; y : String }`, `B inherits A { z : B }`
and `Main`: the slot of `y` is the second slot of the prototypes of `A` and of
`B`, and its offset is 24. -/
theorem C21_attribute_offsets_witness :
    ∃ ct, ClassTable.construct 10 prototype_example = .ok ct ∧
      (∀ entry ∈ ct.clsmap, (entry.2.get_attributes.map (fun a => a.name)).Nodup) ∧
      ct.get_ancestry "B" = .ok ["B", "A", "Object"] ∧
      ct.get_ancestry "A" = .ok ["A", "Object"] ∧
      ((declared_attributes ct ["Object", "A"])[1]?).map (fun d => (d.1, d.2.name)) =
        some ("A", "y") ∧
      ∃ out tags1 offsets, build_class_prototypes ct ⟨100, []⟩ ⟨[], []⟩ =
          .ok (out, tags1, offsets) ∧
        get_attr_offset offsets "A" "y" = 24 := by
  refine ⟨_, rfl, by decide, rfl, rfl, rfl, ?_⟩
  obtain ⟨out, tags1, offsets, h1, h2⟩ :=
    C21_attribute_offsets 10 prototype_example _ rfl (by decide) ⟨100, []⟩ ⟨[], []⟩
  refine ⟨out, tags1, offsets, h1, ?_⟩
  obtain ⟨ancestry, tag, a1, _, a3⟩ := h2 ("B", ClassNode.mk "B" "A"
    [.attribute ⟨"z", "B", .NoExpressionNode "_no_type"⟩]) (find_some_mem _ _ _ rfl)
  have e : ancestry = ["B", "A", "Object"] := (Except.ok.inj a1).symm
  subst e
  obtain ⟨ancestry_p, cls_p, tag_p, b1, _, _, b4⟩ := a3 "A" (by simp)
  have e : ancestry_p = ["A", "Object"] := (Except.ok.inj b1).symm
  subst e
  exact (b4 1 ("A", ⟨"y", "String", .NoExpressionNode "_no_type"⟩) rfl).2.2.2


/-! ## Code for a division -/


/-- C30, refuted: the code that `DivisionNode::code` writes divides with
`div ebx` after `xor edx, edx`, the unsigned division; `Asm` has no function
for `idiv`.  With the dividend `-6` on the stack and the divisor `2` in `eax`,
as for `~6 / 2`, the four instructions that follow the second operand leave
`2147483645` in `eax`, not the double word of `-3`. -/
theorem C30_division_is_unsigned :
    (∀ (offsets : Offsets) (first second : List String),
      Asm.div "ebx" ∈ DivisionNode.code offsets first second) ∧
    DivisionNode.code (set_attr_offset ⟨[], []⟩ "Int" "val" 20) [] [] =
      ["  mov eax, [eax+20]\n", "  push eax\n", "  mov eax, [eax+20]\n", "  pop ebx\n",
        "  xchg eax, ebx\n", "  xor edx, edx\n", "  div ebx\n", "  push eax\n",
        "  mov ecx, [selfptr]\n  push ecx\n  mov DWORD [selfptr], Int_proto\n",
        "  call Object.copy\n", "  pop ecx\n  mov DWORD [selfptr], ecx\n", "  pop ebx\n",
        "  mov DWORD [eax+20], ebx\n"] ∧
    signed 4294967290 = -6 ∧
    execute_all [Asm.pop "ebx", Asm.xchg "eax" "ebx", Asm.xor_ "edx" "edx", Asm.div "ebx"]
      ⟨2, 0, 0, [4294967290]⟩ = some ⟨2147483645, 2, 0, []⟩ ∧
    signed 2147483645 = 2147483645 ∧
    signed 4294967293 = -3 := by
  refine ⟨?_, by decide, by decide, by decide, by decide, by decide⟩
  intro offsets first second
  simp [DivisionNode.code]

/-! ## Token round trip -/

theorem drop_takeWhile_length {α : Type} (p : α → Bool) (l : List α) :
    l.drop (l.takeWhile p).length = l.dropWhile p := by
  induction l with
  | nil => rfl
  | cons a l ih =>
      simp only [List.takeWhile, List.dropWhile]
      split
      · simp [ih]
      · simp

theorem lea_plus (n : Nat) (h : n < 2147483648) :
    Asm.lea "eax" (ptr_int "ebp" (signed (n % 4294967296))) =
      "  lea eax, [ebp+" ++ toString n ++ "]\n" := by
  have h1 : n % 4294967296 = n := Nat.mod_eq_of_lt (by omega)
  have h2 : signed n = (n : Int) := by simp [signed, h]
  rw [h1, h2]
  simp only [Asm.lea, ptr_int]
  have : (n : Int) ≥ 0 := by omega
  simp only [this, if_true, Int.toNat_ofNat]
  apply String.ext
  simp [String.data_append]

theorem lea_minus (n : Nat) (h0 : 0 < n) (h : n < 2147483648) :
    Asm.lea "eax" (ptr_int "ebp" (signed ((4294967296 - n % 4294967296) % 4294967296))) =
      "  lea eax, [ebp-" ++ toString n ++ "]\n" := by
  have h1 : n % 4294967296 = n := Nat.mod_eq_of_lt (by omega)
  have h3 : (4294967296 - n) % 4294967296 = 4294967296 - n := Nat.mod_eq_of_lt (by omega)
  have h2 : signed (4294967296 - n) = -(n : Int) := by
    simp only [signed]
    rw [if_neg (by omega)]
    omega
  rw [h1, h3, h2]
  simp only [Asm.lea, ptr_int]
  have : ¬ (-(n : Int) ≥ 0) := by omega
  simp only [this, if_false, Int.natAbs_neg, Int.natAbs_ofNat]
  apply String.ext
  simp [String.data_append]

theorem add_scope_attributes_spec (attributes : List (String × Nat)) :
    ∀ scope : Scope,
      (add_scope_attributes attributes scope).method_argument_counter =
          scope.method_argument_counter ∧
      ∃ entries, (add_scope_attributes attributes scope).objects = scope.objects ++ entries ∧
        entries.length = attributes.length := by
  induction attributes with
  | nil => intro scope; exact ⟨rfl, [], by simp [add_scope_attributes], rfl⟩
  | cons a rest ih =>
      intro scope
      obtain ⟨h1, entries, h2, h3⟩ := ih (scope.add_attribute a.1 a.2)
      refine ⟨h1, (a.1, Asm.mov "eax" (ptr_of "selfptr") ++ Asm.add "eax" a.2) :: entries, ?_,
        by simp [h3]⟩
      simp only [add_scope_attributes]
      rw [h2]
      simp [Scope.add_attribute]

theorem add_parameters_spec (formals : List FormalNode) :
    ∀ scope : Scope, scope.method_argument_counter + formals.length < 536870911 →
      (add_parameters formals scope).objects =
        scope.objects ++ parameter_entries formals scope.method_argument_counter := by
  induction formals with
  | nil => intro scope _; simp [add_parameters, parameter_entries]
  | cons f rest ih =>
      intro scope h
      simp only [List.length_cons] at h
      have hc : (scope.method_argument_counter + 1) % 4294967296 =
          scope.method_argument_counter + 1 := Nat.mod_eq_of_lt (by omega)
      have hc2 : (scope.method_argument_counter + 1 + 1) % 4294967296 =
          scope.method_argument_counter + 2 := Nat.mod_eq_of_lt (by omega)
      have hs : scope.add_parameter f.name =
          ⟨scope.stack_base, scope.stack_offset, scope.method_argument_counter + 1,
            scope.objects ++ [(f.name, "  lea eax, [ebp+" ++
              toString (4 * (scope.method_argument_counter + 2)) ++ "]\n")]⟩ := by
        simp only [Scope.add_parameter, hc, hc2]
        rw [lea_plus _ (by omega)]
      simp only [add_parameters, parameter_entries]
      rw [hs, ih _ (by simp only []; omega)]
      simp

theorem parameter_entries_getElem (formals : List FormalNode) :
    ∀ (k j : Nat), (parameter_entries formals k)[j]? =
      (formals[j]?).map (fun formal =>
        (formal.name, "  lea eax, [ebp+" ++ toString (4 * (k + j + 2)) ++ "]\n")) := by
  induction formals with
  | nil => intro k j; simp [parameter_entries]
  | cons f rest ih =>
      intro k j
      cases j with
      | zero => simp [parameter_entries]
      | succ j =>
          simp only [parameter_entries, List.getElem?_cons_succ]
          rw [ih (k + 1) j]
          have e : k + 1 + j + 2 = k + (j + 1) + 2 := by omega
          rw [e]

theorem parameter_entries_names (formals : List FormalNode) :
    ∀ k, (parameter_entries formals k).map (fun entry => entry.1) =
      formals.map (fun formal => formal.name) := by
  induction formals with
  | nil => intro k; rfl
  | cons f rest ih => intro k; simp [parameter_entries, ih]

theorem find_of_nodup_names (entries : List (String × String)) :
    (entries.map (fun entry => entry.1)).Nodup → ∀ entry ∈ entries,
      entries.find? (fun object => object.1 == entry.1) = some entry := by
  induction entries with
  | nil => intro _ entry h; simp at h
  | cons e rest ih =>
      intro hn entry hmem
      simp only [List.map_cons, List.nodup_cons] at hn
      rcases List.mem_cons.mp hmem with h | h
      · subst h; simp [List.find?]
      · have hne : e.1 ≠ entry.1 := by
          intro heq
          apply hn.1
          rw [heq]
          exact List.mem_map_of_mem _ h
        have : (e.1 == entry.1) = false := by simpa using hne
        simp only [List.find?, this]
        exact ih hn.2 entry h

theorem frame_code (expr : ExpressionNode) (rest : List Emit) (frame : Frame) :
    frame_at_entry (.code expr :: rest) frame =
      frame_at_entry rest ⟨.value expr, frame.stack⟩ := rfl

theorem frame_push (rest : List Emit) (frame : Frame) :
    frame_at_entry (.text (Asm.push "eax") :: rest) frame =
      frame_at_entry rest ⟨frame.eax, frame.eax :: frame.stack⟩ := rfl

theorem frame_selfptr (rest : List Emit) (frame : Frame) :
    frame_at_entry (.text (Asm.mov "eax" (ptr_of "selfptr")) :: rest) frame =
      frame_at_entry rest ⟨.selfptr, frame.stack⟩ := rfl

theorem frame_call (rest : List Emit) (frame : Frame) :
    frame_at_entry (.text (Asm.call "eax") :: rest) frame =
      some (.caller_ebp :: .return_address :: frame.stack) := rfl

theorem frame_other (line : String) (rest : List Emit) (frame : Frame)
    (h1 : line ≠ Asm.call "eax") (h2 : line ≠ Asm.push "eax")
    (h3 : line ≠ Asm.mov "eax" (ptr_of "selfptr")) :
    ∃ eax, frame_at_entry (.text line :: rest) frame = frame_at_entry rest ⟨eax, frame.stack⟩ := by
  rw [frame_at_entry, if_neg h1, if_neg h2, if_neg h3]
  split
  · exact ⟨frame.eax, rfl⟩
  · exact ⟨.unknown, rfl⟩

theorem frame_at_entry_pushes (parameters : List ExpressionNode) (rest : List Emit) :
    ∀ frame : Frame, ∃ eax,
      frame_at_entry
          (parameters.flatMap (fun parameter => [.code parameter, .text (Asm.push "eax")]) ++ rest)
          frame =
        frame_at_entry rest ⟨eax, parameters.reverse.map Word.value ++ frame.stack⟩ := by
  induction parameters with
  | nil => intro frame; exact ⟨frame.eax, by simp⟩
  | cons p ps ih =>
      intro frame
      obtain ⟨eax, h⟩ := ih ⟨.value p, .value p :: frame.stack⟩
      refine ⟨eax, ?_⟩
      have e : (p :: ps).flatMap (fun parameter => [Emit.code parameter, .text (Asm.push "eax")])
          ++ rest = .code p :: .text (Asm.push "eax") ::
            (ps.flatMap (fun parameter => [Emit.code parameter, .text (Asm.push "eax")])
              ++ rest) := by
        simp
      rw [e, frame_code, frame_push, h]
      simp

theorem mov_indirect_other (n : Nat) :
    Asm.mov "eax" (ptr "eax" n) ≠ Asm.call "eax" ∧
      Asm.mov "eax" (ptr "eax" n) ≠ Asm.push "eax" ∧
      Asm.mov "eax" (ptr "eax" n) ≠ Asm.mov "eax" (ptr_of "selfptr") := by
  refine ⟨?_, ?_, ?_⟩ <;>
    simp [Asm.mov, Asm.call, Asm.push, ptr, ptr_of, String.ext_iff, String.data_append]

theorem frame_at_entry_dispatch (offsets : Offsets) (current_class object_type : String)
    (object : ExpressionNode) (method_name : String) (parameters : List ExpressionNode)
    (frame : Frame) :
    frame_at_entry
        (DispatchNode.code offsets current_class object_type object method_name parameters)
        frame =
      some (.caller_ebp :: .return_address ::
        (parameters.reverse.map Word.value ++ .selfptr :: frame.stack)) := by
  simp only [DispatchNode.code, List.append_assoc, List.cons_append, List.nil_append]
  rw [frame_selfptr, frame_push]
  obtain ⟨eax, h⟩ := frame_at_entry_pushes parameters
    [.code object, .text (Asm.cmp "eax" 0), .text (Asm.je "_dispatch_to_void"),
      .text (Asm.mov "ebx" "eax"), .text (Asm.mov "eax" (ptr "eax" 12)),
      .text (Asm.mov "eax" (ptr "eax" (get_method_offset offsets
        (if object_type == "SELF_TYPE" then current_class else object_type) method_name))),
      .text (Asm.mov (ptr_of "selfptr") "ebx"), .text (Asm.call "eax"), .text (Asm.pop "ebx"),
      .text (Asm.mov (ptr_of "selfptr") "ebx")] ⟨.selfptr, .selfptr :: frame.stack⟩
  rw [h, frame_code]
  obtain ⟨e1, h1⟩ := frame_other (Asm.cmp "eax" 0)
    [.text (Asm.je "_dispatch_to_void"),
      .text (Asm.mov "ebx" "eax"), .text (Asm.mov "eax" (ptr "eax" 12)),
      .text (Asm.mov "eax" (ptr "eax" (get_method_offset offsets
        (if object_type == "SELF_TYPE" then current_class else object_type) method_name))),
      .text (Asm.mov (ptr_of "selfptr") "ebx"), .text (Asm.call "eax"), .text (Asm.pop "ebx"),
      .text (Asm.mov (ptr_of "selfptr") "ebx")]
    ⟨.value object, parameters.reverse.map Word.value ++ .selfptr :: frame.stack⟩
    (by decide) (by decide) (by decide)
  rw [h1]
  obtain ⟨e2, h2⟩ := frame_other (Asm.je "_dispatch_to_void")
    [.text (Asm.mov "ebx" "eax"), .text (Asm.mov "eax" (ptr "eax" 12)),
      .text (Asm.mov "eax" (ptr "eax" (get_method_offset offsets
        (if object_type == "SELF_TYPE" then current_class else object_type) method_name))),
      .text (Asm.mov (ptr_of "selfptr") "ebx"), .text (Asm.call "eax"), .text (Asm.pop "ebx"),
      .text (Asm.mov (ptr_of "selfptr") "ebx")]
    ⟨e1, parameters.reverse.map Word.value ++ .selfptr :: frame.stack⟩
    (by decide) (by decide) (by decide)
  rw [h2]
  obtain ⟨e3, h3⟩ := frame_other (Asm.mov "ebx" "eax")
    [.text (Asm.mov "eax" (ptr "eax" 12)),
      .text (Asm.mov "eax" (ptr "eax" (get_method_offset offsets
        (if object_type == "SELF_TYPE" then current_class else object_type) method_name))),
      .text (Asm.mov (ptr_of "selfptr") "ebx"), .text (Asm.call "eax"), .text (Asm.pop "ebx"),
      .text (Asm.mov (ptr_of "selfptr") "ebx")]
    ⟨e2, parameters.reverse.map Word.value ++ .selfptr :: frame.stack⟩
    (by decide) (by decide) (by decide)
  rw [h3]
  obtain ⟨e4, h4⟩ := frame_other (Asm.mov "eax" (ptr "eax" 12))
    [.text (Asm.mov "eax" (ptr "eax" (get_method_offset offsets
        (if object_type == "SELF_TYPE" then current_class else object_type) method_name))),
      .text (Asm.mov (ptr_of "selfptr") "ebx"), .text (Asm.call "eax"), .text (Asm.pop "ebx"),
      .text (Asm.mov (ptr_of "selfptr") "ebx")]
    ⟨e3, parameters.reverse.map Word.value ++ .selfptr :: frame.stack⟩
    (mov_indirect_other 12).1 (mov_indirect_other 12).2.1 (mov_indirect_other 12).2.2
  rw [h4]
  obtain ⟨e5, h5⟩ := frame_other (Asm.mov "eax" (ptr "eax" (get_method_offset offsets
        (if object_type == "SELF_TYPE" then current_class else object_type) method_name)))
    [.text (Asm.mov (ptr_of "selfptr") "ebx"), .text (Asm.call "eax"), .text (Asm.pop "ebx"),
      .text (Asm.mov (ptr_of "selfptr") "ebx")]
    ⟨e4, parameters.reverse.map Word.value ++ .selfptr :: frame.stack⟩
    (mov_indirect_other _).1 (mov_indirect_other _).2.1 (mov_indirect_other _).2.2
  rw [h5]
  obtain ⟨e6, h6⟩ := frame_other (Asm.mov (ptr_of "selfptr") "ebx")
    [.text (Asm.call "eax"), .text (Asm.pop "ebx"), .text (Asm.mov (ptr_of "selfptr") "ebx")]
    ⟨e5, parameters.reverse.map Word.value ++ .selfptr :: frame.stack⟩
    (by decide) (by decide) (by decide)
  rw [h6, frame_call]



theorem method_scope_objects (stack_var_counter : Nat) (attributes : List (String × Nat))
    (formals : List FormalNode) (hn : formals.length < 536870911) :
    ∃ entries, entries.length = attributes.length ∧
      (method_scope stack_var_counter attributes formals).objects =
        entries ++ parameter_entries formals.reverse 0 := by
  obtain ⟨h1, entries, h2, h3⟩ :=
    add_scope_attributes_spec attributes (Scope.new stack_var_counter)
  refine ⟨entries, h3, ?_⟩
  have hc : (add_scope_attributes attributes (Scope.new stack_var_counter)).method_argument_counter
      = 0 := h1
  rw [method_scope, add_parameters_spec _ _ (by rw [hc, List.length_reverse]; omega), h2, hc]
  simp [Scope.new]

/-- C31: for a method with `n` formals, fewer than `2 ^ 29 - 1`, the scope that
`build_text_segment` sets up holds, behind the attributes, the formals in
reverse declaration order, the one registered as number `k + 1` with the code
`lea eax, [ebp+4*(k+2)]`; so the formal at index `i` (number `i + 1` of the
declaration) has the code `lea eax, [ebp+4*(n-(i+1)+2)]`, which `get_location`
returns for its name when the names of the formals are distinct; and when the
method called by the code of `DispatchNode::code` for `n` arguments has executed
its `enter`, the double word at `ebp + 4*(n-(i+1)+2)` is the value of the
argument at index `i`: the arguments are pushed from the first to the last
before the call. -/
theorem C31_formal_addresses (stack_var_counter : Nat) (attributes : List (String × Nat))
    (formals : List FormalNode) (hn : formals.length < 536870911)
    (offsets : Offsets) (current_class object_type : String) (object : ExpressionNode)
    (method_name : String) (parameters : List ExpressionNode)
    (hp : parameters.length = formals.length) (frame : Frame) :
    (∀ (k : Nat) (formal : FormalNode), formals.reverse[k]? = some formal →
      (method_scope stack_var_counter attributes formals).objects[attributes.length + k]? =
        some (formal.name, "  lea eax, [ebp+" ++ toString (4 * (k + 2)) ++ "]\n")) ∧
    ∃ slots,
      frame_at_entry
          (DispatchNode.code offsets current_class object_type object method_name parameters)
          frame = some slots ∧
      ∀ (i : Nat) (formal : FormalNode) (parameter : ExpressionNode),
        formals[i]? = some formal → parameters[i]? = some parameter →
        (method_scope stack_var_counter attributes formals).objects[
            attributes.length + (formals.length - (i + 1))]? =
          some (formal.name,
            "  lea eax, [ebp+" ++ toString (4 * (formals.length - (i + 1) + 2)) ++ "]\n") ∧
        slots[formals.length - (i + 1) + 2]? = some (.value parameter) ∧
        ((formals.map (fun f => f.name)).Nodup →
          (method_scope stack_var_counter attributes formals).get_location formal.name =
            some ("  lea eax, [ebp+" ++ toString (4 * (formals.length - (i + 1) + 2)) ++
              "]\n")) := by
  obtain ⟨entries, hlen, hobj⟩ := method_scope_objects stack_var_counter attributes formals hn
  have hreg : ∀ (k : Nat) (formal : FormalNode), formals.reverse[k]? = some formal →
      (method_scope stack_var_counter attributes formals).objects[attributes.length + k]? =
        some (formal.name, "  lea eax, [ebp+" ++ toString (4 * (k + 2)) ++ "]\n") := by
    intro k formal hk
    rw [hobj, ← hlen, List.getElem?_append_right (by omega)]
    simp only [Nat.add_sub_cancel_left]
    rw [parameter_entries_getElem, hk]
    simp
  refine ⟨hreg, _, frame_at_entry_dispatch offsets current_class object_type object method_name
    parameters frame, ?_⟩
  intro i formal parameter hf hpar
  have hi : i < formals.length := by
    by_contra hcon
    rw [List.getElem?_eq_none (by omega)] at hf
    exact absurd hf (by simp)
  have hrev : formals.reverse[formals.length - (i + 1)]? = some formal := by
    rw [List.getElem?_reverse (by omega)]
    have e : formals.length - 1 - (formals.length - (i + 1)) = i := by omega
    rw [e, hf]
  have hobject := hreg _ formal hrev
  refine ⟨hobject, ?_, ?_⟩
  · have e : formals.length - (i + 1) + 2 = (formals.length - (i + 1)) + 1 + 1 := by omega
    rw [e, List.getElem?_cons_succ, List.getElem?_cons_succ,
      List.getElem?_append_left (by simp; omega), List.getElem?_map,
      List.getElem?_reverse (by omega)]
    have e2 : parameters.length - 1 - (formals.length - (i + 1)) = i := by omega
    rw [e2, hpar]
    rfl
  · intro hnodup
    have hmem : (formal.name, "  lea eax, [ebp+" ++
        toString (4 * (formals.length - (i + 1) + 2)) ++ "]\n") ∈
        (parameter_entries formals.reverse 0).reverse := by
      rw [List.mem_reverse]
      have := parameter_entries_getElem formals.reverse 0 (formals.length - (i + 1))
      rw [hrev] at this
      simp only [Option.map, Nat.zero_add] at this
      exact List.getElem?_mem this
    have hnames : ((parameter_entries formals.reverse 0).reverse.map
        (fun entry => entry.1)).Nodup := by
      rw [List.map_reverse, parameter_entries_names, List.map_reverse, List.reverse_reverse]
      exact hnodup
    have hfind := find_of_nodup_names _ hnames _ hmem
    simp only [Scope.get_location, hobj, List.reverse_append]
    rw [List.find?_append, hfind]
    rfl

/-- C31 at a method `f(a : Int, b : Int, c : Int)` of a class with one
attribute, called as `x.f(1, 2, 3)`: the formal `a` is at `ebp+16`, where the
value of the first argument lies. -/
theorem C31_formal_addresses_witness :
    (method_scope 0 [("x", 20)] [⟨"a", "Int"⟩, ⟨"b", "Int"⟩, ⟨"c", "Int"⟩]).objects =
      [("x", "  mov eax, [selfptr]\n  add eax, 20\n"), ("c", "  lea eax, [ebp+8]\n"),
        ("b", "  lea eax, [ebp+12]\n"), ("a", "  lea eax, [ebp+16]\n")] ∧
    ∃ slots,
      frame_at_entry
          (DispatchNode.code ⟨[], []⟩ "Main" "A" (.IdentifierNode "x") "f"
            [.IntNode "1", .IntNode "2", .IntNode "3"]) ⟨.unknown, []⟩ = some slots ∧
      (method_scope 0 [("x", 20)] [⟨"a", "Int"⟩, ⟨"b", "Int"⟩, ⟨"c", "Int"⟩]).get_location "a" =
        some "  lea eax, [ebp+16]\n" ∧
      slots[4]? = some (.value (.IntNode "1")) := by
  refine ⟨by decide, ?_⟩
  obtain ⟨slots, h1, h2⟩ :=
    (C31_formal_addresses 0 [("x", 20)] [⟨"a", "Int"⟩, ⟨"b", "Int"⟩, ⟨"c", "Int"⟩] (by decide)
      ⟨[], []⟩ "Main" "A" (.IdentifierNode "x") "f" [.IntNode "1", .IntNode "2", .IntNode "3"]
      rfl ⟨.unknown, []⟩).2
  obtain ⟨_, h3, h4⟩ := h2 0 ⟨"a", "Int"⟩ (.IntNode "1") rfl rfl
  exact ⟨slots, h1, h4 (by decide), h3⟩



theorem scopes_consistent_offsets : ∀ (scopes : List Scope) (counts : List Nat),
    scopes_consistent scopes counts → counts = scopes.map (fun scope => scope.stack_offset)
  | [], [], _ => rfl
  | [], _ :: _, h => absurd h (by simp [scopes_consistent])
  | _ :: _, [], h => absurd h (by simp [scopes_consistent])
  | scope :: rest, count :: counts, h => by
      simp only [scopes_consistent] at h
      simp only [List.map_cons]
      rw [← h.1, ← scopes_consistent_offsets rest counts h.2.2]

theorem scopes_consistent_length (scopes : List Scope) (counts : List Nat)
    (h : scopes_consistent scopes counts) : counts.length = scopes.length := by
  rw [scopes_consistent_offsets scopes counts h]
  simp

theorem run_append (first second : List ScopeOperation) :
    ∀ stack : ScopeStack, ScopeStack.run (first ++ second) stack =
      match ScopeStack.run first stack with
      | .ok next => ScopeStack.run second next
      | .error f => .error f := by
  induction first with
  | nil => intro stack; rfl
  | cons operation rest ih =>
      intro stack
      simp only [List.cons_append, ScopeStack.run]
      cases stack.apply operation with
      | ok next => exact ih next
      | error f => rfl

theorem add_stack_variable_spec (scope : Scope) (rest : List Scope) (counter : Nat)
    (count : Nat) (counts : List Nat) (name : String)
    (hc : scopes_consistent (scope :: rest) (count :: counts))
    (hcounter : counter = (count :: counts).sum) (hb : counter + 1 < 536870912) :
    ScopeStack.add_stack_variable ⟨scope :: rest, counter⟩ name =
      .ok ⟨⟨scope.stack_base, scope.stack_offset + 1, scope.method_argument_counter,
          scope.objects ++ [(name, "  lea eax, [ebp-" ++ toString (4 * (counter + 1)) ++ "]\n")]⟩
        :: rest, counter + 1⟩ := by
  simp only [scopes_consistent] at hc
  obtain ⟨h1, h2, _⟩ := hc
  simp only [List.sum_cons] at hcounter
  have e1 : (scope.stack_offset + 1) % 4294967296 = scope.stack_offset + 1 :=
    Nat.mod_eq_of_lt (by omega)
  have e2 : (scope.stack_offset + 1 + scope.stack_base) % 4294967296 = counter + 1 := by
    rw [Nat.mod_eq_of_lt (by omega)]; omega
  have e3 : (counter + 1) % 4294967296 = counter + 1 := Nat.mod_eq_of_lt (by omega)
  simp only [ScopeStack.add_stack_variable, Scope.add_stack_variable, e1, e2, e3]
  rw [lea_minus (4 * (counter + 1)) (by omega) (by omega)]

theorem run_consistent : ∀ (operations : List ScopeOperation) (stack : ScopeStack)
    (counts : List Nat), scopes_consistent stack.scopes counts →
    stack.stack_var_counter = counts.sum → matched operations counts.length = true →
    counts.sum + stack_variables operations < 536870912 →
    ∃ next, ScopeStack.run operations stack = .ok next ∧
      scopes_consistent next.scopes (active_variables operations counts) ∧
      next.stack_var_counter = (active_variables operations counts).sum ∧
      (active_variables operations counts).sum ≤ counts.sum + stack_variables operations := by
  intro operations
  induction operations with
  | nil =>
      intro stack counts hc hs _ _
      exact ⟨stack, rfl, hc, hs, by simp [active_variables, stack_variables]⟩
  | cons operation rest ih =>
      intro stack counts hc hs hm hb
      obtain ⟨scopes, counter⟩ := stack
      simp only at hc hs
      cases operation with
      | enter_scope =>
          simp only [matched] at hm
          simp only [stack_variables] at hb
          obtain ⟨next, h1, h2, h3, h4⟩ := ih ⟨Scope.new counter :: scopes, counter⟩ (0 :: counts)
            ⟨rfl, hs, hc⟩ (by simp [hs]) (by simpa using hm) (by simpa using hb)
          refine ⟨next, h1, h2, h3, ?_⟩
          simp only [active_variables, stack_variables]
          simpa using h4
      | exit_scope =>
          match scopes, counts, hc with
          | [], [], _ => simp [matched] at hm
          | scope :: scopes1, count :: counts1, hc =>
              simp only [matched, List.length_cons] at hm
              simp only [stack_variables, List.sum_cons] at hb
              simp only [scopes_consistent] at hc
              simp only [List.sum_cons] at hs
              have e : (counter + 4294967296 - scope.stack_offset) % 4294967296 = counts1.sum := by
                rw [hc.1, hs]
                have : count + counts1.sum + 4294967296 - count = counts1.sum + 4294967296 := by
                  omega
                rw [this, Nat.add_mod_right, Nat.mod_eq_of_lt (by omega)]
              obtain ⟨next, h1, h2, h3, h4⟩ := ih ⟨scopes1, counts1.sum⟩ counts1 hc.2.2 rfl hm
                (by omega)
              refine ⟨next, ?_, h2, h3, ?_⟩
              · simp only [ScopeStack.run, ScopeStack.apply, ScopeStack.exit_scope, e]
                exact h1
              · simp only [active_variables, stack_variables, List.tail_cons, List.sum_cons]
                omega
      | add_stack_variable name =>
          match scopes, counts, hc with
          | [], [], _ => simp [matched] at hm
          | scope :: scopes1, count :: counts1, hc =>
              simp only [matched, List.length_cons] at hm
              simp only [stack_variables] at hb
              have hstep := add_stack_variable_spec scope scopes1 counter count counts1 name hc hs
                (by omega)
              have hc1 := hc
              simp only [scopes_consistent] at hc1
              simp only [List.sum_cons] at hs hb
              obtain ⟨next, h1, h2, h3, h4⟩ := ih
                ⟨⟨scope.stack_base, scope.stack_offset + 1, scope.method_argument_counter,
                    scope.objects ++ [(name, "  lea eax, [ebp-" ++
                      toString (4 * (counter + 1)) ++ "]\n")]⟩ :: scopes1, counter + 1⟩
                ((count + 1) :: counts1)
                (show scopes_consistent (_ :: scopes1) ((count + 1) :: counts1) from
                  ⟨by simp [hc1.1], hc1.2.1, hc1.2.2⟩)
                (show counter + 1 = ((count + 1) :: counts1).sum by
                  simp only [List.sum_cons]; omega)
                (by simpa using hm) (by simp only [List.sum_cons]; omega)
              refine ⟨next, ?_, h2, h3, ?_⟩
              · simp only [ScopeStack.run, ScopeStack.apply, hstep]
                exact h1
              · simp only [active_variables, stack_variables, List.sum_cons] at h4 ⊢
                omega
      | add_parameter name =>
          match scopes, counts, hc with
          | [], [], _ => simp [matched] at hm
          | scope :: scopes1, count :: counts1, hc =>
              simp only [matched, List.length_cons] at hm
              simp only [stack_variables] at hb
              obtain ⟨next, h1, h2, h3, h4⟩ := ih
                ⟨scope.add_parameter name :: scopes1, counter⟩ (count :: counts1)
                (by simp only [scopes_consistent] at hc ⊢; exact hc) hs (by simpa using hm) hb
              exact ⟨next, h1, h2, h3, h4⟩
      | add_attribute name offset =>
          match scopes, counts, hc with
          | [], [], _ => simp [matched] at hm
          | scope :: scopes1, count :: counts1, hc =>
              simp only [matched, List.length_cons] at hm
              simp only [stack_variables] at hb
              obtain ⟨next, h1, h2, h3, h4⟩ := ih
                ⟨scope.add_attribute name offset :: scopes1, counter⟩ (count :: counts1)
                (by simp only [scopes_consistent] at hc ⊢; exact hc) hs (by simpa using hm) hb
              exact ⟨next, h1, h2, h3, h4⟩

theorem balanced_matched : ∀ (operations : List ScopeOperation) (depth extra : Nat),
    balanced operations depth = true → matched operations (depth + 1 + extra) = true := by
  intro operations
  induction operations with
  | nil => intro _ _ _; rfl
  | cons operation rest ih =>
      intro depth extra h
      cases operation with
      | enter_scope =>
          simp only [balanced] at h
          simp only [matched]
          have e : depth + 1 + extra + 1 = depth + 1 + 1 + extra := by omega
          rw [e]
          exact ih (depth + 1) extra h
      | exit_scope =>
          cases depth with
          | zero => simp [balanced] at h
          | succ depth =>
              simp only [balanced] at h
              have e : depth + 1 + 1 + extra = (depth + 1 + extra) + 1 := by omega
              rw [e]
              simp only [matched]
              exact ih depth extra h
      | add_stack_variable name =>
          simp only [balanced] at h
          have e : depth + 1 + extra = (depth + extra) + 1 := by omega
          rw [e]
          simp only [matched]
          rw [← e]
          exact ih depth extra h
      | add_parameter name =>
          simp only [balanced] at h
          have e : depth + 1 + extra = (depth + extra) + 1 := by omega
          rw [e]
          simp only [matched]
          rw [← e]
          exact ih depth extra h
      | add_attribute name offset =>
          simp only [balanced] at h
          have e : depth + 1 + extra = (depth + extra) + 1 := by omega
          rw [e]
          simp only [matched]
          rw [← e]
          exact ih depth extra h

theorem run_balanced_frame : ∀ (operations : List ScopeOperation) (depth : Nat)
    (inner outer : List Scope) (counter : Nat) (next : ScopeStack),
    inner.length = depth + 1 → balanced operations depth = true →
    ScopeStack.run operations ⟨inner ++ outer, counter⟩ = .ok next →
    ∃ top, next.scopes = top :: outer := by
  intro operations
  induction operations with
  | nil =>
      intro depth inner outer counter next hlen hb hrun
      simp only [balanced, beq_iff_eq] at hb
      subst hb
      match inner, hlen with
      | [top], _ =>
          simp only [ScopeStack.run, Except.ok.injEq] at hrun
          subst hrun
          exact ⟨top, rfl⟩
  | cons operation rest ih =>
      intro depth inner outer counter next hlen hb hrun
      match inner, hlen with
      | top :: inner1, hlen =>
          simp only [List.length_cons, Nat.add_right_cancel_iff] at hlen
          cases operation with
          | enter_scope =>
              simp only [balanced] at hb
              exact ih (depth + 1) (Scope.new counter :: top :: inner1) outer counter next
                (by simp [hlen]) hb hrun
          | exit_scope =>
              cases depth with
              | zero => simp [balanced] at hb
              | succ depth =>
                  simp only [balanced] at hb
                  exact ih depth inner1 outer _ next hlen hb hrun
          | add_stack_variable name =>
              simp only [balanced] at hb
              exact ih depth (top.add_stack_variable name :: inner1) outer _ next
                (by simp [hlen]) hb hrun
          | add_parameter name =>
              simp only [balanced] at hb
              exact ih depth (top.add_parameter name :: inner1) outer _ next
                (by simp [hlen]) hb hrun
          | add_attribute name offset =>
              simp only [balanced] at hb
              exact ih depth (top.add_attribute name offset :: inner1) outer _ next
                (by simp [hlen]) hb hrun

/-- A scope that is entered, used with calls that leave every scope they
enter, and left again: the `ScopeStack` is what it was before. -/
theorem run_enter_exit (stack : ScopeStack) (counts : List Nat)
    (hc : scopes_consistent stack.scopes counts) (hs : stack.stack_var_counter = counts.sum)
    (inner : List ScopeOperation) (hb : balanced inner 0 = true)
    (hbound : counts.sum + stack_variables inner < 536870912) :
    ScopeStack.run (.enter_scope :: inner ++ [.exit_scope]) stack = .ok stack := by
  obtain ⟨scopes, counter⟩ := stack
  simp only at hc hs
  have hm := balanced_matched inner 0 counts.length hb
  obtain ⟨next, h1, h2, h3, h4⟩ := run_consistent inner ⟨Scope.new counter :: scopes, counter⟩
    (0 :: counts) ⟨rfl, hs, hc⟩ (by simp [hs])
    (by simp only [List.length_cons]; rw [← hm]; congr 1; omega) (by simpa using hbound)
  obtain ⟨top, htop⟩ := run_balanced_frame inner 0 [Scope.new counter] scopes counter next rfl hb h1
  obtain ⟨nscopes, ncounter⟩ := next
  simp only at htop h2 h3
  subst htop
  have hoff := scopes_consistent_offsets _ _ h2
  have hcounts := scopes_consistent_offsets _ _ hc
  rw [hoff] at h3 h4
  simp only [List.map_cons, List.sum_cons, ← hcounts] at h3 h4
  have happ := run_append inner [.exit_scope] ⟨Scope.new counter :: scopes, counter⟩
  rw [h1] at happ
  show ScopeStack.run (inner ++ [.exit_scope]) ⟨Scope.new counter :: scopes, counter⟩ = _
  rw [happ]
  simp only [ScopeStack.run, ScopeStack.apply, ScopeStack.exit_scope]
  have e : (ncounter + 4294967296 - top.stack_offset) % 4294967296 = counter := by
    rw [h3, hs]
    have : top.stack_offset + counts.sum + 4294967296 - top.stack_offset =
        counts.sum + 4294967296 := by omega
    rw [this, Nat.add_mod_right, Nat.mod_eq_of_lt (by omega)]
  rw [e]

/-- C32: for every sequence of calls on a new `ScopeStack` in which each
`exit_scope` matches an earlier `enter_scope` and every object is registered in
an active scope, with fewer than `2 ^ 29` stack variables, the calls succeed and
`stack_var_counter` is the number of stack variables registered in the scopes
that are still active; a stack variable registered next, the `d`-th counting
itself, gets the code `lea eax, [ebp-4*d]`; and the calls between an
`enter_scope` and its matching `exit_scope` leave, after that `exit_scope`, the
counter (and the whole `ScopeStack`) as it was at the `enter_scope`. -/
theorem C32_stack_variable_counter (operations : List ScopeOperation)
    (hm : matched operations 0 = true) (hb : stack_variables operations < 536870912) :
    ∃ stack, ScopeStack.run operations ⟨[], 0⟩ = .ok stack ∧
      stack.stack_var_counter = (active_variables operations []).sum ∧
      (∀ name : String, stack.scopes ≠ [] → stack_variables operations + 1 < 536870912 →
        ∃ top rest, stack.add_stack_variable name =
            .ok ⟨top :: rest, stack.stack_var_counter + 1⟩ ∧
          top.objects.getLast? =
            some (name,
              "  lea eax, [ebp-" ++ toString (4 * (stack.stack_var_counter + 1)) ++ "]\n")) ∧
      (∀ inner : List ScopeOperation, balanced inner 0 = true →
        stack_variables operations + stack_variables inner < 536870912 →
        ScopeStack.run (.enter_scope :: inner ++ [.exit_scope]) stack = .ok stack) := by
  obtain ⟨stack, h1, h2, h3, h4⟩ := run_consistent operations ⟨[], 0⟩ [] trivial rfl hm
    (by simpa using hb)
  simp only [List.sum_nil, Nat.zero_add] at h4
  refine ⟨stack, h1, h3, ?_, ?_⟩
  · intro name hne hbound
    obtain ⟨scopes, counter⟩ := stack
    simp only at h2 h3 hne
    match scopes, active_variables operations [], h2, h3, h4 with
    | [], _, _, _, _ => exact absurd rfl hne
    | scope :: rest, [], h2, _, _ => exact absurd h2 (by simp [scopes_consistent])
    | scope :: rest, count :: counts, h2, h3, h4 =>
        have hstep := add_stack_variable_spec scope rest counter count counts name h2 h3
          (by omega)
        exact ⟨_, rest, hstep, by simp⟩
  · intro inner hbal hbound
    exact run_enter_exit stack _ h2 h3 inner hbal (by omega)

/-- C32 at the calls of a method body `let a, b in (let c in ..)` up to the
inner `let`: three variables are active, the counter is 3, a fourth variable
gets `ebp-16`, and after an inner scope with two variables is left the
`ScopeStack` is as before. -/
theorem C32_stack_variable_counter_witness :
    ∃ stack,
      ScopeStack.run [.enter_scope, .add_parameter "x", .enter_scope, .add_stack_variable "a",
        .add_stack_variable "b", .enter_scope, .add_stack_variable "c"] ⟨[], 0⟩ = .ok stack ∧
      stack.stack_var_counter = 3 ∧
      (∃ top rest, stack.add_stack_variable "d" = .ok ⟨top :: rest, 4⟩ ∧
        top.objects.getLast? = some ("d", "  lea eax, [ebp-16]\n")) ∧
      ScopeStack.run [.enter_scope, .add_stack_variable "e", .enter_scope,
        .add_stack_variable "f", .exit_scope, .exit_scope] stack = .ok stack := by
  obtain ⟨stack, h1, h2, h3, h4⟩ := C32_stack_variable_counter
    [.enter_scope, .add_parameter "x", .enter_scope, .add_stack_variable "a",
      .add_stack_variable "b", .enter_scope, .add_stack_variable "c"] rfl (by decide)
  have h5 : stack.stack_var_counter = 3 := h2
  refine ⟨stack, h1, h5, ?_, ?_⟩
  · have hne : stack.scopes ≠ [] := by
      have e : stack = _ := (Except.ok.inj h1).symm
      rw [e]
      simp [ScopeStack.enter_scope, ScopeStack.add_stack_variable]
    obtain ⟨top, rest, a1, a2⟩ := h3 "d" hne (by decide)
    rw [h5] at a1 a2
    exact ⟨top, rest, a1, a2⟩
  · exact h4 [.add_stack_variable "e", .enter_scope, .add_stack_variable "f", .exit_scope] rfl
      (by decide)



/-! ## Escaped strings -/

/-- The carriage return and the escape character have cases of their own in
`get_escaped_string`, which write `\015` and `\033`; the other escapes of the
`switch` and the default case on a byte below 128 are as follows. -/
theorem escaped_control_characters :
    get_escaped_string ['\r'] = ['\\', '0', '1', '5'] ∧
    get_escaped_string ['\x1b'] = ['\\', '0', '3', '3'] ∧
    get_escaped_string ['\x0e'] = ['\\', '0', '1', '4'] ∧
    get_escaped_string ['a', '\n', '\t', '\x08', '\x0c', '\\', '"', '\x01'] =
      ['a', '\\', 'n', '\\', 't', '\\', 'b', '\\', 'f', '\\', '\\', '\\', '"',
        '\\', '0', '0', '1'] := by
  refine ⟨rfl, rfl, ?_, ?_⟩ <;> decide

/-- C33, refuted: for a byte from 128 on, `get_escaped_string` writes a
backslash followed by ten digits: the `char` is negative, `uint(c)` is the byte
plus `2 ^ 32 - 256`, and `std::setw(3)` only pads.  The byte 128 is written as
`\4294967168` and the byte 255 as `\4294967295`, not as `\128` and `\255`; the
two bytes `C3 A9` of a letter in UTF-8 are written with twenty digits.  The bytes
127 and 1 are written with three digits, `\127` and `\001`. -/
theorem C33_high_byte_is_not_three_digits :
    get_escaped_string ['\x80'] =
      ['\\', '4', '2', '9', '4', '9', '6', '7', '1', '6', '8'] ∧
    get_escaped_string ['\xff'] =
      ['\\', '4', '2', '9', '4', '9', '6', '7', '2', '9', '5'] ∧
    get_escaped_string ['\xc3', '\xa9'] =
      ['\\', '4', '2', '9', '4', '9', '6', '7', '2', '3', '5',
        '\\', '4', '2', '9', '4', '9', '6', '7', '2', '0', '9'] ∧
    ('\x80'.toNat = 128 ∧ '\xff'.toNat = 255) ∧
    get_escaped_string ['\x7f'] = ['\\', '1', '2', '7'] ∧
    get_escaped_string ['\x01'] = ['\\', '0', '0', '1'] := by
  refine ⟨?_, ?_, ?_, ⟨rfl, rfl⟩, ?_, ?_⟩ <;> decide



/-! ## Comparisons in parentheses and under `not` -/

/-- A comparison in parentheses followed by a comparison operator: the check
for non-associative operations looks at the class and the associativity of the
current expression only, not at its `parenthesized` flag. -/
theorem parenthesized_comparison_rejected (a o1 b o2 c stop : Token)
    (more : List Token) (ea eb ec : ExpressionNode) (c1 c2 : BinaryOp) (lo lc fuel : Nat)
    (ha : atom_node a = some ea) (hb : atom_node b = some eb) (hc : atom_node c = some ec)
    (h1 : binary_operator o1.get_type = some c1) (h2 : binary_operator o2.get_type = some c2)
    (hc1 : c1.is_comparison = true) (hc2 : c2.is_comparison = true)
    (hs : ends_expression stop = true) (hf : 7 ≤ fuel) :
    parse_expression fuel
        (.BaseToken .PARENTHESIS_OPEN lo :: a :: o1 :: b :: .BaseToken .PARENTHESIS_CLOSE lc ::
          o2 :: c :: stop :: more) = .error (.parser_error (some o2)) := by
  obtain ⟨k, rfl⟩ : ∃ k, fuel = k + 7 := ⟨fuel - 7, by omega⟩
  have hin : parse_expression (k + 4)
      (a :: o1 :: b :: .BaseToken .PARENTHESIS_CLOSE lc :: o2 :: c :: stop :: more) =
      .ok (reference_parse ea [(c1, eb)],
        .BaseToken .PARENTHESIS_CLOSE lc :: o2 :: c :: stop :: more) :=
    (parse_expression_chain_then a (.BaseToken .PARENTHESIS_CLOSE lc)
      (o2 :: c :: stop :: more) [(o1, b)] ea [(c1, eb)] k ha
      (by simp [chain_links, h1, hb]) (by simp [comparisons, hc1]) (by simp) (by simp)).trans
      (post_expression_end (k + 1) _ _ _ rfl)
  rw [reference_parse_single] at hin
  have hsingle := parse_single_expression_parentheses (k + 4) lo lc _ _ _ hin
  have hstop := ends_expression_not_start stop hs
  rw [parse_expression, hsingle]
  simp only [bind, Except.bind, set_parenthesized]
  rw [post_expression_operator (k + 3) o2 c stop more _ ec c2 h2 hc hstop.1 hstop.2]
  have hclash : non_associative_clash (.BinaryOperationNode c1 true ea eb) c2 = true := by
    cases c1 <;> cases c2 <;> simp_all [non_associative_clash, BinaryOp.get_associativity,
      BinaryOp.is_comparison]
  simp only [hclash, if_true]

theorem parse_single_expression_complement (k l : Nat) (t : Token) (ts rest : List Token)
    (e : ExpressionNode) (h : parse_single_expression k (t :: ts) = .ok (e, rest)) :
    parse_single_expression (k + 2) (.BaseToken .NOT l :: t :: ts) =
      .ok (.UnaryOperationNode .ComplementNode false e, rest) := by
  cases ht : t.get_type == .ASSIGN <;>
  simp [parse_single_expression, parse_assignment, parse_dispatch, parse_conditional,
    parse_while, parse_block, parse_let, parse_case, parse_new, parse_isvoid, parse_neg,
    parse_complement, parse_int_const, parse_string_const, parse_bool_const,
    parse_identifier, parse_parentheses, or_else, peek_equals, expect, h,
    bind, Except.bind, pure, Except.pure]

/-- Two comparisons in a row after `not`: the current expression is the
`ComplementNode`, which is no `BinaryOperationNode`, so the check for
non-associative operations does not fire, and both comparisons are put below
the `ComplementNode`. -/
theorem complement_chain_accepted (a o1 b o2 c stop : Token)
    (more : List Token) (ea eb ec : ExpressionNode) (c1 c2 : BinaryOp) (l fuel : Nat)
    (ha : atom_node a = some ea) (hb : atom_node b = some eb) (hc : atom_node c = some ec)
    (h1 : binary_operator o1.get_type = some c1) (h2 : binary_operator o2.get_type = some c2)
    (hc1 : c1.is_comparison = true) (hc2 : c2.is_comparison = true)
    (hs : ends_expression stop = true) (hf : 6 ≤ fuel) :
    parse_expression fuel (.BaseToken .NOT l :: a :: o1 :: b :: o2 :: c :: stop :: more) =
      .ok (.UnaryOperationNode .ComplementNode false
        (.BinaryOperationNode c2 false (.BinaryOperationNode c1 false ea eb) ec),
        stop :: more) := by
  obtain ⟨k, rfl⟩ : ∃ k, fuel = k + 6 := ⟨fuel - 6, by omega⟩
  have ho1 := binary_operator_not_start o1 c1 h1
  have ho2 := binary_operator_not_start o2 c2 h2
  have hstop := ends_expression_not_start stop hs
  have hna := atom_node_not_operation a ea ha
  have hnb := atom_node_not_operation b eb hb
  have hatom := parse_single_expression_atom (k + 1) a o1 (b :: o2 :: c :: stop :: more) ea ha
    ho1.1 ho1.2
  have hsingle := parse_single_expression_complement (k + 3) l a _ _ ea hatom
  rw [parse_expression, hsingle]
  simp only [bind, Except.bind]
  rw [post_expression_operator (k + 2) o1 b o2 _ _ eb c1 h1 hb ho2.1 ho2.2]
  have hi1 : insert_operator c1 eb (.UnaryOperationNode .ComplementNode false ea) =
      .UnaryOperationNode .ComplementNode false (.BinaryOperationNode c1 false ea eb) := by
    simp only [insert_operator, is_unparenthesized_operation, right_most_walk,
      right_most_walk_of_not_operation ea _ hna]
    cases c1 <;> simp_all [BinaryOp.is_comparison, climb, BinaryOp.get_precedence,
      OperationFrame.get_precedence, UnaryOp.get_precedence, rebuild, OperationFrame.set_last]
  have hclash1 : non_associative_clash (.UnaryOperationNode .ComplementNode false ea) c1 =
      false := rfl
  simp only [hclash1, hi1, Bool.false_eq_true, if_false]
  rw [post_expression_operator (k + 1) o2 c stop more _ ec c2 h2 hc hstop.1 hstop.2]
  have hi2 : insert_operator c2 ec
      (.UnaryOperationNode .ComplementNode false (.BinaryOperationNode c1 false ea eb)) =
      .UnaryOperationNode .ComplementNode false
        (.BinaryOperationNode c2 false (.BinaryOperationNode c1 false ea eb) ec) := by
    simp only [insert_operator, is_unparenthesized_operation, right_most_walk,
      right_most_walk_of_not_operation eb _ hnb]
    cases c1 <;> cases c2 <;> simp_all [BinaryOp.is_comparison, climb,
      BinaryOp.get_precedence, OperationFrame.get_precedence, UnaryOp.get_precedence, rebuild,
      OperationFrame.set_last]
  have hclash2 : non_associative_clash
      (.UnaryOperationNode .ComplementNode false (.BinaryOperationNode c1 false ea eb)) c2 =
      false := rfl
  simp only [hclash2, hi2, Bool.false_eq_true, if_false]
  exact post_expression_end (k + 2) stop more _ hs

/-- C34, refuted: `(a c1 b) c2 c;` with identifiers `a`, `b`, `c` and comparison
operators `c1`, `c2` is a parse error: `parser_error` is called with the token
of `c2`, although the first comparison is in parentheses. -/
theorem C34_parenthesized_comparison_is_rejected :
    ∀ (i j : Fin 3) (a b c : String) (line : Nat),
      parse_expression 7
          [.BaseToken .PARENTHESIS_OPEN line, .ObjIdToken a line,
            .BaseToken (comparison_token i) line, .ObjIdToken b line,
            .BaseToken .PARENTHESIS_CLOSE line, .BaseToken (comparison_token j) line,
            .ObjIdToken c line, .BaseToken .SEMICOLON line] =
        .error (.parser_error (some (.BaseToken (comparison_token j) line))) := by
  intro i j a b c line
  fin_cases i <;> fin_cases j <;> rfl

/-- C35, refuted: `not a c1 b c2 c;` with identifiers `a`, `b`, `c` and
comparison operators `c1`, `c2` is parsed without an error, to
`not (c2(c1(a, b), c))`. -/
theorem C35_comparison_chain_under_complement :
    ∀ (i j : Fin 3) (a b c : String) (line : Nat),
      ∃ c1 c2, binary_operator (comparison_token i) = some c1 ∧
        binary_operator (comparison_token j) = some c2 ∧
        parse_expression 6
            [.BaseToken .NOT line, .ObjIdToken a line, .BaseToken (comparison_token i) line,
              .ObjIdToken b line, .BaseToken (comparison_token j) line, .ObjIdToken c line,
              .BaseToken .SEMICOLON line] =
          .ok (.UnaryOperationNode .ComplementNode false
              (.BinaryOperationNode c2 false
                (.BinaryOperationNode c1 false (.IdentifierNode a) (.IdentifierNode b))
                (.IdentifierNode c)),
            [.BaseToken .SEMICOLON line]) := by
  intro i j a b c line
  fin_cases i <;> fin_cases j <;> exact ⟨_, _, rfl, rfl, rfl⟩



/-! ## Recovery after a broken string -/

/-- A literal of 1025 plain characters: the closing quote is the character at
which `string_scan` finds the string too long, and `broken_string_scan` then
skips what follows the literal up to the next newline. -/
theorem over_long_literal_scan (R : List Char)
    (hplain : ∀ c ∈ R, c ≠ '"' ∧ c ≠ '\\' ∧ c ≠ '\n' ∧ c ≠ '\x00') (hlen : R.length = 1025) :
    Scanner.scan (['"'] ++ (R ++ ['"', ' ', 'x', '\n', 'y'])) =
      .ok [.ErrorToken "String constant too long" 1, .ObjIdToken "y" 2] := by
  rw [scan_eq_run]
  have a1 : (Scanner.init (['"'] ++ (R ++ ['"', ' ', 'x', '\n', 'y']))).step =
      .ok ⟨R ++ ['"', ' ', 'x', '\n', 'y'], false, [], 1, [], "", .STRING_SCAN⟩ := rfl
  have a2 : (⟨R ++ ['"', ' ', 'x', '\n', 'y'], false, [], 1, [], "",
        .STRING_SCAN⟩ : Scanner).step =
      .ok ⟨[' ', 'x', '\n', 'y'], false, [], 1, [], "String constant too long",
        .BROKEN_STRING_SCAN⟩ := by
    show Except.ok (string_scan_loop _ (R ++ ['"', ' ', 'x', '\n', 'y']) []) = _
    rw [string_scan_loop_plain _ _ _ _ hplain
      (by simp only [List.length_nil, hlen]; omega)]
    simp [string_scan_loop, MaxStringSize, hlen]
  have a3 : (⟨[' ', 'x', '\n', 'y'], false, [], 1, [], "String constant too long",
        .BROKEN_STRING_SCAN⟩ : Scanner).step =
      .ok ⟨['y'], false, [.ErrorToken "String constant too long" 1], 2, [],
        "String constant too long", .DEFAULT_SCAN⟩ := rfl
  have a4 : (⟨['y'], false, [.ErrorToken "String constant too long" 1], 2, [],
        "String constant too long", .DEFAULT_SCAN⟩ : Scanner).step =
      .ok ⟨[], false, [.ErrorToken "String constant too long" 1, .ObjIdToken "y" 2], 2, [],
        "String constant too long", .DEFAULT_SCAN⟩ := rfl
  have a5 : (⟨[], false, [.ErrorToken "String constant too long" 1, .ObjIdToken "y" 2], 2, [],
        "String constant too long", .DEFAULT_SCAN⟩ : Scanner).step =
      .ok ⟨[], true, [.ErrorToken "String constant too long" 1, .ObjIdToken "y" 2], 2, [],
        String.singleton (Char.ofNat 255), .SCAN_ERROR⟩ := rfl
  rw [run_steps2 _ _ _ rfl a1 rfl a2, run_steps2 _ _ _ rfl a3 rfl a4, run_step _ _ rfl a5,
    run_eof _ rfl]

/-- C36, refuted: after a NUL in a string literal the lexer resumes at the
first double quote, also one that a backslash escapes, and it passes every
newline that follows an escaped newline.  In `"a\0b\"c" x` the literal ends at
the last quote, but the lexer resumes after `\"`, reads `c` as an identifier
and the closing quote as the start of a string that the newline breaks.  In
the text `"\0\`, newline, newline, `x`, newline, `y` the second newline is not
escaped, but the lexer skips it and `x`.  And after a literal of 1025 letters
the lexer, which finds the string too long at the closing quote, skips the
` x` behind the literal up to the newline. -/
theorem C36_recovery_after_broken_string :
    Scanner.scan ['"', 'a', '\x00', 'b', '\\', '"', 'c', '"', ' ', 'x', '\n'] =
      .ok [.ErrorToken "String contains null character." 1, .ObjIdToken "c" 1,
        .ErrorToken "Unterminated string constant" 2] ∧
    Scanner.scan ['"', '\x00', '\\', '\n', '\n', 'x', '\n', 'y'] =
      .ok [.ErrorToken "String contains null character." 1, .ObjIdToken "y" 4] ∧
    Scanner.scan (['"'] ++ (List.replicate 1025 'a' ++ ['"', ' ', 'x', '\n', 'y'])) =
      .ok [.ErrorToken "String constant too long" 1, .ObjIdToken "y" 2] :=
  ⟨rfl, rfl,
    over_long_literal_scan (List.replicate 1025 'a') (replicate_plain 1025)
      (List.length_replicate _ _)⟩

/-! ## Termination of the lexer -/

/-- C38, refuted: on the text `"a\0b`, which ends after a NUL in a string
without a further newline or double quote, `Scanner::scan` does not return:
`broken_string_scan` goes on calling `program.get()` at the end of the text,
where no case of its `switch` leaves the loop.  The same happens when the text
is just `"` and a NUL. -/
theorem C38_recovery_does_not_terminate :
    Scanner.scan ['"', 'a', '\x00', 'b'] = .error .nontermination ∧
    Scanner.scan ['"', '\x00'] = .error .nontermination ∧
    (∀ fuel : Nat,
      scan_loop (fuel + 3) (Scanner.init ['"', 'a', '\x00', 'b']) = .error .nontermination) := by
  refine ⟨rfl, rfl, ?_⟩
  intro fuel
  rfl



/-! ## Offsets of attributes after the dispatch tables -/

/-- C37, refuted: for the class `Main { copy : Int; main() : Int { 0 } }`, which
the semantic analysis accepts, `get_attr_offset("Main", "copy")` is 20 after
`build_class_prototypes` and 12 after `print_dispatch_tables`, the offset of the
method `copy` in the dispatch table of `Main`: `set_method_offset` stores into
the map `attr_offsets`, and `get_method_offset` reads it. -/
theorem C37_method_offset_overwrites_attribute_offset :
    ∃ ct nodes out1 tags offsets1 out2 offsets2,
      ProgramNode.analyze 10 attribute_copy_example = .ok (ct, nodes) ∧
      build_class_prototypes ct ⟨100, []⟩ ⟨[], []⟩ = .ok (out1, tags, offsets1) ∧
      get_attr_offset offsets1 "Main" "copy" = 20 ∧
      print_dispatch_tables ct offsets1 = .ok (out2, offsets2) ∧
      get_attr_offset offsets2 "Main" "copy" = 12 ∧
      get_method_offset offsets2 "Main" "copy" = 12 ∧
      offsets2.method_offsets = [] :=
  ⟨_, _, _, _, _, _, _, rfl, rfl, by decide, rfl, by decide, by decide, rfl⟩

/-! ## Declared types that are no classes -/

/-- C39, refuted: `ProgramNode::analyze` completes without an error on the
class `Main { x : Foo; main(y : Foo) : Int { let z : Foo in case 1 of w : Foo
=> 0; esac } }`, although the class table has no class `Foo`: the declared type
of an attribute, of a formal, of a `let` binding and of a `case` branch is never
looked up.  Only an undefined return type of a method is reported. -/
theorem C39_undefined_declared_types_are_accepted :
    (∃ ct nodes, ProgramNode.analyze 10 undefined_type_example = .ok (ct, nodes) ∧
      ct.exists "Foo" = false) ∧
    ProgramNode.analyze 10 undefined_return_type_example =
      .error (.semant_error "Undefined return type Foo in method main.") :=
  ⟨⟨_, _, rfl, rfl⟩, rfl⟩



/-! ## The return type of a method -/

theorem add_formals_ok (formals : List FormalNode) :
    ∀ (scope : ObjectScope) (rest : ObjectEnv),
      (formals.map (fun f => f.name)).Nodup →
      (∀ f ∈ formals, ObjectScope.exists scope f.name = false) →
      ∃ objects, add_formals formals (scope :: rest) = .ok objects := by
  induction formals with
  | nil => intro scope rest _ _; exact ⟨_, rfl⟩
  | cons f fs ih =>
      intro scope rest hn hfree
      simp only [List.map_cons, List.nodup_cons] at hn
      have hf : ObjectEnv.probe (scope :: rest) f.name = false := hfree f (by simp)
      simp only [add_formals, hf, Bool.false_eq_true, if_false, ObjectEnv.add_object]
      apply ih _ _ hn.2
      intro g hg
      have hne : f.name ≠ g.name := by
        intro heq
        apply hn.1
        rw [heq]
        exact List.mem_map_of_mem _ hg
      have hrest := hfree g (List.mem_cons_of_mem _ hg)
      simp only [ObjectScope.exists, List.any_cons, Bool.or_eq_false_iff] at hrest ⊢
      exact ⟨by simpa using hne, hrest⟩

/-- C40: in a well-formed class table, for a method of a class of the table
whose return type is `SELF_TYPE` or a class of the table and whose formals have
distinct names, the formals are added to the object environment, and when the
body has the type `inferred`, a class of the table once `SELF_TYPE` is resolved,
`MethodNode::analyze` accepts the method exactly when the resolved type of the
body conforms to the resolved return type and, for the return type `SELF_TYPE`,
the type of the body is `SELF_TYPE` itself; otherwise it reports that the
inferred return type does not conform.  A body whose type is not `SELF_TYPE`,
such as the current class, is rejected for the return type `SELF_TYPE`. -/
theorem C40_method_return_check (ct : ClassTable) (hw : ct.well_formed)
    (env : TypeEnvironment) (method : MethodNode) (hcls : ct.exists env.cls = true)
    (hret : method.type = "SELF_TYPE" ∨ ct.exists method.type = true)
    (hformals : (method.formals.map (fun f => f.name)).Nodup) :
    ∃ objects, add_formals method.formals env.objects.enter_scope = .ok objects ∧
      ∀ (inferred : String) (body : CheckedNode),
        typecheck_annotate ct { env with objects := objects } method.expr =
          .ok (inferred, body) →
        ct.exists (resolve inferred env) = true →
        ((∃ node, MethodNode.analyze ct env method = .ok node) ↔
          (conforms ct (resolve inferred env) (resolve method.type env) ∧
            (method.type = "SELF_TYPE" → inferred = "SELF_TYPE"))) ∧
        (¬ (conforms ct (resolve inferred env) (resolve method.type env) ∧
            (method.type = "SELF_TYPE" → inferred = "SELF_TYPE")) →
          MethodNode.analyze ct env method =
            .error (.semant_error ("Inferred return type " ++ inferred ++ " of method " ++
              method.name ++ " does not conform to declared return type " ++ method.type
              ++ "."))) ∧
        (method.type = "SELF_TYPE" → inferred ≠ "SELF_TYPE" →
          ¬ ∃ node, MethodNode.analyze ct env method = .ok node) := by
  obtain ⟨objects, hobj⟩ := add_formals_ok method.formals [] env.objects hformals
    (by intro f _; rfl)
  refine ⟨objects, hobj, ?_⟩
  intro inferred body hbody hinf
  have hfirst : (method.type != "SELF_TYPE" && !ct.exists method.type) = false := by
    rcases hret with h | h
    · simp [h]
    · simp [h]
  have hrt : ct.exists (resolve method.type env) = true := by
    rcases hret with h | h
    · simp [resolve, h, hcls]
    · by_cases hs : method.type = "SELF_TYPE"
      · simp [resolve, hs, hcls]
      · simp [resolve, hs, h]
  obtain ⟨la, hla⟩ := get_ancestry_of_exists ct hw _ hrt
  obtain ⟨lb, hlb⟩ := get_ancestry_of_exists ct hw _ hinf
  have hlub := least_upper_bound_of_ancestries ct _ _ la lb hla hlb
  have hiff := least_upper_bound_eq_iff_conforms ct (resolve inferred env)
    (resolve method.type env)
  have hmain : ((∃ node, MethodNode.analyze ct env method = .ok node) ↔
      (conforms ct (resolve inferred env) (resolve method.type env) ∧
        (method.type = "SELF_TYPE" → inferred = "SELF_TYPE"))) ∧
      (¬ (conforms ct (resolve inferred env) (resolve method.type env) ∧
          (method.type = "SELF_TYPE" → inferred = "SELF_TYPE")) →
        MethodNode.analyze ct env method =
          .error (.semant_error ("Inferred return type " ++ inferred ++ " of method " ++
            method.name ++ " does not conform to declared return type " ++ method.type
            ++ "."))) := by
    unfold MethodNode.analyze
    simp only [hfirst, Bool.false_eq_true, if_false, ObjectEnv.enter_scope] at hobj ⊢
    simp only [hobj, hbody, bind, Except.bind]
    by_cases hself : method.type = "SELF_TYPE" ∧ inferred ≠ "SELF_TYPE"
    · have hc : (method.type == "SELF_TYPE" && inferred != "SELF_TYPE") = true := by
        simp [hself.1, hself.2]
      simp only [hc, if_true, semant_error]
      constructor
      · constructor
        · rintro ⟨node, h⟩; exact absurd h (by simp)
        · rintro ⟨_, h⟩; exact absurd (h hself.1) hself.2
      · intro _; trivial
    · have hc : (method.type == "SELF_TYPE" && inferred != "SELF_TYPE") = false := by
        by_cases h1 : method.type = "SELF_TYPE"
        · have h2 : inferred = "SELF_TYPE" := by
            by_contra h2; exact hself ⟨h1, h2⟩
          simp [h1, h2]
        · simp [h1]
      have hsecond : method.type = "SELF_TYPE" → inferred = "SELF_TYPE" := by
        intro h1
        by_contra h2
        exact hself ⟨h1, h2⟩
      simp only [hc, Bool.false_eq_true, if_false, hlub]
      by_cases hr : (la.find? (fun x => lb.contains x)).getD "Object" = resolve method.type env
      · have hconf : conforms ct (resolve inferred env) (resolve method.type env) :=
          hiff.mp (by rw [hlub, hr])
        have hne : ((la.find? (fun x => lb.contains x)).getD "Object" !=
            resolve method.type env) = false := by simpa using hr
        simp only [hne, Bool.false_eq_true, if_false, pure, Except.pure]
        constructor
        · constructor
          · intro _; exact ⟨hconf, hsecond⟩
          · intro _; exact ⟨_, rfl⟩
        · intro hcon; exact absurd ⟨hconf, hsecond⟩ hcon
      · have hnconf : ¬ conforms ct (resolve inferred env) (resolve method.type env) := by
          intro hconf
          have := hiff.mpr hconf
          rw [hlub] at this
          exact hr (Except.ok.inj this)
        have hne : ((la.find? (fun x => lb.contains x)).getD "Object" !=
            resolve method.type env) = true := by simpa using hr
        simp only [hne, if_true, semant_error]
        constructor
        · constructor
          · rintro ⟨node, h⟩; exact absurd h (by simp)
          · rintro ⟨h, _⟩; exact absurd h hnconf
        · intro _; trivial
  refine ⟨hmain.1, hmain.2, ?_⟩
  intro h1 h2 hex
  exact h2 ((hmain.1.mp hex).2 h1)



/-- C40 at the classes `A` and `B inherits A`, in class `B`: the method
`m(x : Int) : A { new B }` is accepted, and `m() : SELF_TYPE { new B }`, whose
body has the type of the current class, is not. -/
theorem C40_method_return_check_witness :
    (∃ node, MethodNode.analyze example_classes ⟨[], [], "B"⟩
      (MethodNode.mk "m" "A" [⟨"x", "Int"⟩] (.NewNode "B")) = .ok node) ∧
    ¬ (∃ node, MethodNode.analyze example_classes ⟨[], [], "B"⟩
      (MethodNode.mk "m" "SELF_TYPE" [] (.NewNode "B")) = .ok node) := by
  constructor
  · obtain ⟨objects, hobj, h⟩ := C40_method_return_check example_classes
      (check_well_formed_sound _ rfl) ⟨[], [], "B"⟩
      (MethodNode.mk "m" "A" [⟨"x", "Int"⟩] (.NewNode "B")) rfl (Or.inr rfl) (by decide)
    have e : objects = [[("x", "Int")]] := (Except.ok.inj hobj).symm
    subst e
    exact (h "B" _ rfl rfl).1.mpr ⟨⟨_, rfl, by decide⟩, fun h => absurd h (by decide)⟩
  · obtain ⟨objects, hobj, h⟩ := C40_method_return_check example_classes
      (check_well_formed_sound _ rfl) ⟨[], [], "B"⟩
      (MethodNode.mk "m" "SELF_TYPE" [] (.NewNode "B")) rfl (Or.inl rfl) (by decide)
    have e : objects = [[]] := (Except.ok.inj hobj).symm
    subst e
    exact (h "B" _ rfl rfl).2.2 rfl (by decide)

end Coolr
